import Mathlib

/-!
Fortune's algorithm (jacquesh/fortunes-algorithm): a shallow embedding.

The development embeds `src/voronoi.cpp`, `src/vtree.cpp` and `src/mathutil.cpp`.

Modelling conventions.

* `float` is an ordered field `F` (exact arithmetic, no rounding, no overflow).  The IEEE
  special values only arise from a division by zero; such a quotient is a value of `Flt F`
  (`pinf`, `ninf`, `nan`), zero being unsigned.  A non-finite value that would be stored in a
  record makes the model return `none`.
* `sqrt`/`sqrtf`, the constant `FLT_MAX`, the content of an unwritten local variable and the
  order in which `std::priority_queue` yields elements of equal priority are the fields of
  `Env`.
* Pointers are addresses (`Nat`) into an arena, a list of optional records: `new` appends a
  record, `delete` overwrites it with `none`, a null pointer is `Option.none`.  Dereferencing
  a dangling pointer, reading the inactive member of a union, and a failing `assert` all make
  the model return `none`.
* Loops over the pointer structure take a fuel argument; running out of fuel is `none`.
-/

namespace Fortune

/-! ## Arithmetic -/

/-- A point or vector of the plane (raylib `Vector2`). -/
structure Vector2 (F : Type) where
  x : F
  y : F
deriving DecidableEq

/-- The result of a `float` division: a finite value or one of the IEEE special values. -/
inductive Flt (F : Type) where
  | fin (v : F)
  | pinf
  | ninf
  | nan
deriving DecidableEq

/-- Parameters of a run that the C++ text leaves to its environment. -/
structure Env (F : Type) where
  /-- `sqrt` and `sqrtf` of `math.h`. -/
  sqrt : F → F
  /-- `FLT_MAX` of `float.h`. -/
  FLT_MAX : F
  /-- the content of the unwritten local `leftIntersect.x` in `GetActiveArcForXCoord`, which
  may depend on the edge node visited, on `x` and on `directrixY`. -/
  uninit : Nat → F → F → F
  /-- `tie k` selects, at the `k`-th removal from the priority queue, which of the elements
  of greatest `yCoord` is on top (taken modulo their number, in insertion order). -/
  tie : Nat → Nat

section Arithmetic
variable {F : Type} [LinearOrderedField F]

/-- IEEE division `a / b` with an unsigned zero. -/
def fdiv (a b : F) : Flt F :=
  if b = 0 then
    (if 0 < a then Flt.pinf else if a < 0 then Flt.ninf else Flt.nan)
  else Flt.fin (a / b)

/-- The test `u < 0.0f` on a quotient (`false` on NaN). -/
def Flt.ltZero : Flt F → Bool
  | Flt.fin v => decide (v < 0)
  | Flt.ninf => true
  | _ => false

/-- The test `u == 0.0f` on a quotient. -/
def Flt.eqZero : Flt F → Bool
  | Flt.fin v => decide (v = 0)
  | _ => false

/-- The finite value of a quotient, `none` when `isfinite` is false. -/
def Flt.toOption : Flt F → Option F
  | Flt.fin v => some v
  | _ => none

/-- `Magnitude` of mathutil.cpp. -/
def Magnitude (env : Env F) (v : Vector2 F) : F :=
  env.sqrt (v.x * v.x + v.y * v.y)

/-- `normalize` of mathutil.cpp: `none` when the assertion on a non-zero argument fails or a
component of the result is not finite. -/
def normalize (env : Env F) (v : Vector2 F) : Option (Vector2 F) :=
  if v.x ≠ 0 ∨ v.y ≠ 0 then do
    let length := Magnitude env v
    let rx ← (fdiv v.x length).toOption
    let ry ← (fdiv v.y length).toOption
    pure { x := rx, y := ry }
  else none

end Arithmetic

/-! ## Data model -/

/-- `struct Edge`. -/
structure Edge (F : Type) where
  start : Vector2 F
  direction : Vector2 F
  extendsUpwardsForever : Bool
deriving DecidableEq

/-- `struct CompleteEdge`. -/
structure CompleteEdge (F : Type) where
  endpointA : Vector2 F
  endpointB : Vector2 F
deriving DecidableEq

/-- `struct Arc`; `squeezeEvent` is a nullable pointer into the arena of events. -/
structure Arc (F : Type) where
  focus : Vector2 F
  squeezeEvent : Option Nat
deriving DecidableEq

/-- The tag `BeachlineItemType` together with the active member of the union. -/
inductive ItemData (F : Type) where
  | arc (a : Arc F)
  | edge (e : Edge F)
deriving DecidableEq

/-- `struct BeachlineItem`; `parent`, `left` and `right` are nullable pointers into the arena
of beachline items. -/
structure BeachlineItem (F : Type) where
  data : ItemData F
  parent : Option Nat
  left : Option Nat
  right : Option Nat
deriving DecidableEq

/-- The tag `SweepEventType` together with the active member of the union
(`NewPointEvent` or `EdgeIntersectionEvent`). -/
inductive EventData (F : Type) where
  | newPoint (point : Vector2 F)
  | edgeIntersect (intersectionPoint : Vector2 F) (squeezedArc : Nat) (isValid : Bool)
deriving DecidableEq

/-- `struct SweepEvent`. -/
structure SweepEvent (F : Type) where
  yCoord : F
  data : EventData F
deriving DecidableEq

/-! ## Arena -/

section Arena
variable {α : Type}

/-- Dereference a pointer: `none` when the address was never allocated or was deleted. -/
def deref (h : List (Option α)) (a : Nat) : Option α :=
  match h[a]? with
  | some (some v) => some v
  | _ => none

/-- Write through a pointer. -/
def store (h : List (Option α)) (a : Nat) (v : α) : List (Option α) :=
  h.set a (some v)

/-- The effect of `delete` on the arena. -/
def free (h : List (Option α)) (a : Nat) : List (Option α) :=
  h.set a none

/-- The effect of `new` on the arena; the new address is the former length. -/
def alloc (h : List (Option α)) (v : α) : List (Option α) :=
  h ++ [some v]

end Arena

/-- The arena of beachline items. -/
abbrev Items (F : Type) := List (Option (BeachlineItem F))

/-- The arena of sweep events. -/
abbrev Events (F : Type) := List (Option (SweepEvent F))

/-! ## Tree navigation (vtree.cpp) and the member functions of `BeachlineItem` -/

section Tree
variable {F : Type}

/-- `type == BeachlineItemType::Edge`. -/
def BeachlineItem.isEdge (i : BeachlineItem F) : Bool :=
  match i.data with
  | ItemData.edge _ => true
  | ItemData.arc _ => false

/-- `type == BeachlineItemType::Arc`. -/
def BeachlineItem.isArc (i : BeachlineItem F) : Bool :=
  match i.data with
  | ItemData.arc _ => true
  | ItemData.edge _ => false

/-- The member `arc` of the union, `none` when the node is an edge. -/
def ItemData.arc? : ItemData F → Option (Arc F)
  | ItemData.arc a => some a
  | ItemData.edge _ => none

/-- The member `edge` of the union, `none` when the node is an arc. -/
def ItemData.edge? : ItemData F → Option (Edge F)
  | ItemData.edge e => some e
  | ItemData.arc _ => none

/-- The access `item->arc`. -/
def derefArc (items : Items F) (item : Nat) : Option (Arc F) :=
  match deref items item with
  | some i => i.data.arc?
  | none => none

/-- The access `item->edge`. -/
def derefEdge (items : Items F) (item : Nat) : Option (Edge F) :=
  match deref items item with
  | some i => i.data.edge?
  | none => none

/-- `BeachlineItem::SetLeft`, called on `self`. -/
def SetLeft (items : Items F) (self newLeft : Nat) : Option (Items F) := do
  let s ← deref items self
  if s.isEdge then
    let items1 := store items self { s with left := some newLeft }
    let n ← deref items1 newLeft
    pure (store items1 newLeft { n with parent := some self })
  else none

/-- `BeachlineItem::SetRight`, called on `self`. -/
def SetRight (items : Items F) (self newRight : Nat) : Option (Items F) := do
  let s ← deref items self
  if s.isEdge then
    let items1 := store items self { s with right := some newRight }
    let n ← deref items1 newRight
    pure (store items1 newRight { n with parent := some self })
  else none

/-- `BeachlineItem::SetParentFromItem`, called on `self`. -/
def SetParentFromItem (items : Items F) (self item : Nat) : Option (Items F) := do
  let i ← deref items item
  match i.parent with
  | none => do
    let s ← deref items self
    pure (store items self { s with parent := none })
  | some p => do
    let pi ← deref items p
    if pi.left = some item then SetLeft items p self
    else if pi.right = some item then SetRight items p self
    else none

/-- The loop of `GetFirstParentOnTheLeft`: climb while `current` is the left child of its
parent; the result is the last `current`. -/
def climbWhileLeftChild (items : Items F) : Nat → Nat → Option Nat
  | 0, _ => none
  | fuel + 1, current => do
    let c ← deref items current
    match c.parent with
    | none => pure current
    | some p => do
      let pi ← deref items p
      if pi.left = some current then climbWhileLeftChild items fuel p else pure current

/-- The loop of `GetFirstParentOnTheRight`. -/
def climbWhileRightChild (items : Items F) : Nat → Nat → Option Nat
  | 0, _ => none
  | fuel + 1, current => do
    let c ← deref items current
    match c.parent with
    | none => pure current
    | some p => do
      let pi ← deref items p
      if pi.right = some current then climbWhileRightChild items fuel p else pure current

/-- The tail of both `GetFirstParentOn...`: the assertion on the parent and `current->parent`. -/
def parentChecked (items : Items F) (current : Nat) : Option (Option Nat) := do
  let c ← deref items current
  match c.parent with
  | none => pure none
  | some p => do
    let pi ← deref items p
    if pi.isEdge then pure (some p) else none

/-- `GetFirstParentOnTheLeft`; the inner option is the nullable result. -/
def GetFirstParentOnTheLeft (items : Items F) (item : Nat) : Option (Option Nat) := do
  let current ← climbWhileLeftChild items items.length item
  parentChecked items current

/-- `GetFirstParentOnTheRight`; the inner option is the nullable result. -/
def GetFirstParentOnTheRight (items : Items F) (item : Nat) : Option (Option Nat) := do
  let current ← climbWhileRightChild items items.length item
  parentChecked items current

/-- The loop of `GetFirstLeafOnTheLeft`: follow `right` pointers down to a node without one. -/
def descendRight (items : Items F) : Nat → Nat → Option Nat
  | 0, _ => none
  | fuel + 1, current => do
    let c ← deref items current
    match c.right with
    | none => pure current
    | some r => descendRight items fuel r

/-- The loop of `GetFirstLeafOnTheRight`: follow `left` pointers down to a node without one. -/
def descendLeft (items : Items F) : Nat → Nat → Option Nat
  | 0, _ => none
  | fuel + 1, current => do
    let c ← deref items current
    match c.left with
    | none => pure current
    | some l => descendLeft items fuel l

/-- `GetFirstLeafOnTheLeft`; the inner option is the nullable result. -/
def GetFirstLeafOnTheLeft (items : Items F) (item : Nat) : Option (Option Nat) := do
  let i ← deref items item
  match i.left with
  | none => pure none
  | some l => do
    let current ← descendRight items items.length l
    let c ← deref items current
    if c.isArc then pure (some current) else none

/-- `GetFirstLeafOnTheRight`; the inner option is the nullable result. -/
def GetFirstLeafOnTheRight (items : Items F) (item : Nat) : Option (Option Nat) := do
  let i ← deref items item
  match i.right with
  | none => pure none
  | some r => do
    let current ← descendLeft items items.length r
    let c ← deref items current
    if c.isArc then pure (some current) else none

/-- `VerifyThatThereAreNoReferencesToItem`: `some ()` when no assertion fails. -/
def VerifyThatThereAreNoReferencesToItem (items : Items F) :
    Nat → Option Nat → Nat → Option Unit
  | _, none, _ => some ()
  | 0, some _, _ => none
  | fuel + 1, some root, item => do
    let r ← deref items root
    if r.isArc then pure ()
    else if r.parent = some item ∨ r.left = some item ∨ r.right = some item then none
    else do
      VerifyThatThereAreNoReferencesToItem items fuel r.left item
      VerifyThatThereAreNoReferencesToItem items fuel r.right item

/-- `CountBeachlineItems`. -/
def CountBeachlineItems (items : Items F) : Nat → Option Nat → Option Nat
  | _, none => some 0
  | 0, some _ => none
  | fuel + 1, some root => do
    let r ← deref items root
    let left ← CountBeachlineItems items fuel r.left
    let right ← CountBeachlineItems items fuel r.right
    pure (left + right + 1)

/-- `CreateArc`: the arena after the allocation and the address of the new item. -/
def CreateArc (items : Items F) (focus : Vector2 F) : Items F × Nat :=
  (alloc items { data := ItemData.arc { focus := focus, squeezeEvent := none },
                 parent := none, left := none, right := none }, items.length)

/-- `CreateEdge`: the arena after the allocation and the address of the new item. -/
def CreateEdge (items : Items F) (start dir : Vector2 F) : Items F × Nat :=
  (alloc items { data := ItemData.edge { start := start, direction := dir,
                                         extendsUpwardsForever := false },
                 parent := none, left := none, right := none }, items.length)

end Tree

/-! ## Geometry kernel (voronoi.cpp) -/

section Geometry
variable {F : Type} [LinearOrderedField F]

/-- `GetArcYForXCoord`; `none` when the result is not finite, that is when the focus lies on
the directrix and `a` is the quotient of a division by zero. -/
def GetArcYForXCoord (arc : Arc F) (x directrixY : F) : Option F := do
  let a ← (fdiv 1 (2 * (arc.focus.y - directrixY))).toOption
  let c := (arc.focus.y + directrixY) * (1 / 2)
  let w := x - arc.focus.x
  pure (a * w * w + c)

/-- `GetEdgeArcIntersectionPoint`.  The inner option is the boolean result together with
`intersectionPt` (`none` for `false`); the outer option is `none` when the assertion
`isfinite(y)` fails or a coordinate of the point is not finite.  The divisions written with
`/` have a divisor that is non-zero on their branch. -/
def GetEdgeArcIntersectionPoint (env : Env F) (edge : Edge F) (arc : Arc F) (directrixY : F) :
    Option (Option (Vector2 F)) :=
  if edge.direction.x = 0 then
    if directrixY = arc.focus.y then
      if edge.start.x = arc.focus.x then some (some arc.focus) else some none
    else do
      let arcY ← GetArcYForXCoord arc edge.start.x directrixY
      pure (some { x := edge.start.x, y := arcY })
  else
    let p := edge.direction.y / edge.direction.x
    let q := edge.start.y - p * edge.start.x
    if arc.focus.y = directrixY then
      let intersectionXOffset := arc.focus.x - edge.start.x
      if intersectionXOffset * edge.direction.x < 0 then some none
      else some (some { x := arc.focus.x, y := p * arc.focus.x + q })
    else
      let a2 := 1 / (2 * (arc.focus.y - directrixY))
      let a1 := -p - 2 * a2 * arc.focus.x
      let a0 := a2 * arc.focus.x * arc.focus.x + (arc.focus.y + directrixY) * (1 / 2) - q
      let discriminant := a1 * a1 - 4 * a2 * a0
      if discriminant < 0 then some none
      else
        let rootDisc := env.sqrt discriminant
        let x1 := (-a1 + rootDisc) / (2 * a2)
        let x2 := (-a1 - rootDisc) / (2 * a2)
        let x1Offset := x1 - edge.start.x
        let x2Offset := x2 - edge.start.x
        let x1Dot := x1Offset * edge.direction.x
        let x2Dot := x2Offset * edge.direction.x
        let x :=
          if 0 ≤ x1Dot ∧ x2Dot < 0 then x1
          else if x1Dot < 0 ∧ 0 ≤ x2Dot then x2
          else if 0 ≤ x1Dot ∧ 0 ≤ x2Dot then (if x1Dot < x2Dot then x1 else x2)
          else (if x1Dot < x2Dot then x2 else x1)
        do
          let y ← GetArcYForXCoord arc x directrixY
          pure (some { x := x, y := y })

/-- The outcome of `TryGetEdgeIntersectionPoint`: `miss` for `false`, `hit p` for `true` with
a finite `intersectionPt`, `nonFinite` for `true` with an `intersectionPt` computed from an
infinite or NaN parameter `u` (parallel directions). -/
inductive RayHit (F : Type) where
  | miss
  | hit (p : Vector2 F)
  | nonFinite
deriving DecidableEq

/-- `TryGetEdgeIntersectionPoint`. -/
def TryGetEdgeIntersectionPoint (e1 e2 : Edge F) : RayHit F :=
  let dx := e2.start.x - e1.start.x
  let dy := e2.start.y - e1.start.y
  let det := e2.direction.x * e1.direction.y - e2.direction.y * e1.direction.x
  let u := fdiv (dy * e2.direction.x - dx * e2.direction.y) det
  let v := fdiv (dy * e1.direction.x - dx * e1.direction.y) det
  if u.ltZero && !e1.extendsUpwardsForever then RayHit.miss
  else if v.ltZero && !e2.extendsUpwardsForever then RayHit.miss
  else if u.eqZero && v.eqZero && !e1.extendsUpwardsForever && !e2.extendsUpwardsForever then
    RayHit.miss
  else
    match u with
    | Flt.fin uf =>
      RayHit.hit { x := e1.start.x + e1.direction.x * uf, y := e1.start.y + e1.direction.y * uf }
    | _ => RayHit.nonFinite

/-- The value of `intersectionX` in `GetActiveArcForXCoord`, from the two boolean results and
intersection points. -/
def chooseIntersectionX (leftIntersect rightIntersect : Option (Vector2 F)) (unwritten : F) : F :=
  match leftIntersect, rightIntersect with
  | some l, _ => l.x
  | none, some r => r.x
  | none, none => unwritten

/-- The body of the loop of `GetActiveArcForXCoord` at an edge node `currentItem`, up to the
value of `intersectionX`: the two neighbouring arcs, the assertions on them and on the
separating edge, and the two intersections. -/
def breakpointX (env : Env F) (items : Items F) (currentItem : Nat) (x directrixY : F) :
    Option F :=
  match GetFirstLeafOnTheLeft items currentItem, GetFirstLeafOnTheRight items currentItem with
  | some (some left), some (some right) =>
    match derefArc items left, derefArc items right with
    | some leftArc, some rightArc =>
      match GetFirstParentOnTheRight items left, GetFirstParentOnTheLeft items right with
      | some (some fromLeft), some fromRight =>
        if fromRight = some fromLeft then
          match derefEdge items fromLeft with
          | none => none
          | some separatingEdge =>
            match GetEdgeArcIntersectionPoint env separatingEdge leftArc directrixY,
                  GetEdgeArcIntersectionPoint env separatingEdge rightArc directrixY with
            | some leftIntersect, some rightIntersect =>
              some (chooseIntersectionX leftIntersect rightIntersect
                (env.uninit currentItem x directrixY))
            | _, _ => none
        else none
      | _, _ => none
    | _, _ => none
  | _, _ => none

/-- `GetActiveArcForXCoord`; the second argument is `currentItem`, the fuel bounds the number
of nodes visited. -/
def GetActiveArcForXCoord (env : Env F) (items : Items F) :
    Nat → Nat → F → F → Option Nat
  | 0, _, _, _ => none
  | fuel + 1, currentItem, x, directrixY =>
    match deref items currentItem with
    | none => none
    | some cur =>
      if cur.isArc then some currentItem
      else
        match breakpointX env items currentItem x directrixY with
        | none => none
        | some intersectionX =>
          if x < intersectionX then
            match cur.left with
            | none => none
            | some l => GetActiveArcForXCoord env items fuel l x directrixY
          else
            match cur.right with
            | none => none
            | some r => GetActiveArcForXCoord env items fuel r x directrixY

end Geometry

/-! ## Event queue -/

/-- The memory of a run: the two arenas and the priority queue.  `queue` lists the addresses
of the queued events in insertion order, `pops` counts the removals made so far. -/
structure Mem (F : Type) where
  items : Items F
  events : Events F
  queue : List Nat
  pops : Nat
deriving DecidableEq

section Queue
variable {F : Type} [LinearOrderedField F]

/-- The key `evt->yCoord` of an event. -/
def eventY (events : Events F) (e : Nat) : Option F :=
  match deref events e with
  | some s => some s.yCoord
  | none => none

/-- The keys of the queued events. -/
def queueKeys (events : Events F) : List Nat → Option (List F)
  | [] => some []
  | e :: es =>
    match eventY events e, queueKeys events es with
    | some y, some ys => some (y :: ys)
    | _, _ => none

/-- The greatest key of a list of keys. -/
def greatest : List F → Option F
  | [] => none
  | y :: ys =>
    match greatest ys with
    | none => some y
    | some m => some (if m < y then y else m)

/-- The queued events that no other queued event precedes in `EventComparison`. -/
def topCandidates (events : Events F) (queue : List Nat) : List Nat :=
  match queueKeys events queue with
  | none => []
  | some ys =>
    match greatest ys with
    | none => []
    | some best => queue.filter (fun e => decide (eventY events e = some best))

/-- `eventQueue.top()`: one of the events of greatest `yCoord`; `none` on an empty queue. -/
def queueTop (env : Env F) (m : Mem F) : Option Nat :=
  let candidates := topCandidates m.events m.queue
  candidates[env.tie m.pops % candidates.length]?

/-- `eventQueue.pop()`, `e` being the element on top. -/
def queuePop (m : Mem F) (e : Nat) : Mem F :=
  { m with queue := m.queue.erase e, pops := m.pops + 1 }

/-- `eventQueue.push(evt)`. -/
def queuePush (m : Mem F) (e : Nat) : Mem F :=
  { m with queue := m.queue ++ [e] }

/-- The loop `while(!eventQueue.empty()) { ...emplace_back(eventQueue.top()); eventQueue.pop(); }`
that moves the queue into `unencounteredEvents`. -/
def drainQueue (env : Env F) : Nat → Mem F → List Nat → Option (Mem F × List Nat)
  | 0, _, _ => none
  | fuel + 1, m, acc =>
    if m.queue = [] then some (m, acc)
    else
      match queueTop env m with
      | none => none
      | some e => drainQueue env fuel (queuePop m e) (acc ++ [e])

end Queue

/-! ## Circle events -/

section Squeeze
variable {F : Type} [LinearOrderedField F]

/-- The write `evt->edgeIntersect.isValid = false` after the assertion on the type of the
event. -/
def clearValid (events : Events F) (se : Nat) : Option (Events F) :=
  match deref events se with
  | none => none
  | some s =>
    match s.data with
    | EventData.edgeIntersect ip sa _ =>
      some (store events se { s with data := EventData.edgeIntersect ip sa false })
    | EventData.newPoint _ => none

/-- The write `isValid = false` after the assertions on the type of the event and on
`isValid`. -/
def clearValidAsserted (events : Events F) (se : Nat) : Option (Events F) :=
  match deref events se with
  | none => none
  | some s =>
    match s.data with
    | EventData.edgeIntersect ip sa true =>
      some (store events se { s with data := EventData.edgeIntersect ip sa false })
    | _ => none

/-- The first half of `AddArcSqueezeEvent` once both bounding edges exist: the inner option is
`none` when the edges do not intersect, otherwise `circleEventPoint` and `circleEventY`. -/
def squeezeCandidate (env : Env F) (items : Items F) (arc leftEdge rightEdge : Nat) :
    Option (Option (Vector2 F × F)) := do
  let le ← derefEdge items leftEdge
  let re ← derefEdge items rightEdge
  match TryGetEdgeIntersectionPoint le re with
  | RayHit.miss => some none
  | RayHit.nonFinite => none
  | RayHit.hit circleEventPoint =>
    match derefArc items arc with
    | none => none
    | some a =>
      let circleCentreOffset : Vector2 F :=
        { x := a.focus.x - circleEventPoint.x, y := a.focus.y - circleEventPoint.y }
      let circleRadius := Magnitude env circleCentreOffset
      some (some (circleEventPoint, circleEventPoint.y - circleRadius))

/-- The candidate that `AddArcSqueezeEvent` computes for an arc before it looks at the event
already recorded in the arc: the inner option is `none` when a bounding edge is missing or the
two edges do not intersect, otherwise `circleEventPoint` and `circleEventY`. -/
def squeezeCandidateFor (env : Env F) (items : Items F) (arc : Nat) :
    Option (Option (Vector2 F × F)) :=
  match GetFirstParentOnTheLeft items arc, GetFirstParentOnTheRight items arc with
  | some (some leftEdge), some (some rightEdge) =>
    squeezeCandidate env items arc leftEdge rightEdge
  | some _, some _ => some none
  | _, _ => none

/-- The end of `AddArcSqueezeEvent`: allocate the event, push it and record it in the arc. -/
def newSqueezeEvent (m : Mem F) (arc : Nat) (it : BeachlineItem F) (a : Arc F)
    (circleEventPoint : Vector2 F) (circleEventY : F) : Mem F :=
  let newEvt := m.events.length
  { items := store m.items arc { it with data := ItemData.arc { a with squeezeEvent := some newEvt } }
    events := alloc m.events
      { yCoord := circleEventY, data := EventData.edgeIntersect circleEventPoint arc true }
    queue := m.queue ++ [newEvt]
    pops := m.pops }

/-- The second half of `AddArcSqueezeEvent`: the comparison with the event already recorded in
the arc, its invalidation, and the new event. -/
def registerSqueezeEvent (m : Mem F) (arc : Nat) (circleEventPoint : Vector2 F)
    (circleEventY : F) : Option (Mem F) :=
  match deref m.items arc with
  | none => none
  | some it =>
    match it.data.arc? with
    | none => none
    | some a =>
      match a.squeezeEvent with
      | none => some (newSqueezeEvent m arc it a circleEventPoint circleEventY)
      | some se =>
        match deref m.events se with
        | none => none
        | some s =>
          if circleEventY ≤ s.yCoord then some m
          else
            match clearValid m.events se with
            | none => none
            | some events1 =>
              some (newSqueezeEvent { m with events := events1 } arc it a
                circleEventPoint circleEventY)

/-- `AddArcSqueezeEvent`. -/
def AddArcSqueezeEvent (env : Env F) (m : Mem F) (arc : Nat) : Option (Mem F) :=
  match GetFirstParentOnTheLeft m.items arc, GetFirstParentOnTheRight m.items arc with
  | some (some leftEdge), some (some rightEdge) =>
    match squeezeCandidate env m.items arc leftEdge rightEdge with
    | none => none
    | some none => some m
    | some (some (circleEventPoint, circleEventY)) =>
      registerSqueezeEvent m arc circleEventPoint circleEventY
  | some _, some _ => some m
  | _, _ => none

end Squeeze

/-! ## Site events: `AddArcToBeachline` -/

section AddArc
variable {F : Type} [LinearOrderedField F]

/-- The geometry of the two edges created by `AddArcToBeachline`: `edgeStart` and `edgeDir`
(the direction of `edgeLeft`; `edgeRight` has the opposite direction). -/
def newEdgeGeometry (env : Env F) (replaced : Arc F) (newPoint : Vector2 F) (sweepLineY : F) :
    Option (Vector2 F × Vector2 F) := do
  let intersectionY ← GetArcYForXCoord replaced newPoint.x sweepLineY
  let edgeStart : Vector2 F := { x := newPoint.x, y := intersectionY }
  let focusOffset : Vector2 F :=
    { x := newPoint.x - replaced.focus.x, y := newPoint.y - replaced.focus.y }
  let edgeDir ← normalize env { x := focusOffset.y, y := -focusOffset.x }
  pure (edgeStart, edgeDir)

/-- The five allocations and the five pointer updates of `AddArcToBeachline` that replace the
leaf `replacedArc` by a subtree; returns the arena and the addresses of `splitArcLeft`,
`splitArcRight` and `edgeLeft`. -/
def splitArc (items : Items F) (replacedArc : Nat) (replaced : BeachlineItem F)
    (focus newPoint edgeStart edgeDir : Vector2 F) : Option (Items F × Nat × Nat × Nat) :=
  let splitArcLeft := (CreateArc items focus).2
  let items1 := (CreateArc items focus).1
  let splitArcRight := (CreateArc items1 focus).2
  let items2 := (CreateArc items1 focus).1
  let newArc := (CreateArc items2 newPoint).2
  let items3 := (CreateArc items2 newPoint).1
  let edgeLeft := (CreateEdge items3 edgeStart edgeDir).2
  let items4 := (CreateEdge items3 edgeStart edgeDir).1
  let edgeRight := (CreateEdge items4 edgeStart { x := -edgeDir.x, y := -edgeDir.y }).2
  let items5 := (CreateEdge items4 edgeStart { x := -edgeDir.x, y := -edgeDir.y }).1
  if replaced.left = none ∧ replaced.right = none then
    match SetParentFromItem items5 edgeLeft replacedArc with
    | none => none
    | some items6 =>
    match SetLeft items6 edgeLeft splitArcLeft with
    | none => none
    | some items7 =>
    match SetRight items7 edgeLeft edgeRight with
    | none => none
    | some items8 =>
    match SetLeft items8 edgeRight newArc with
    | none => none
    | some items9 =>
    match SetRight items9 edgeRight splitArcRight with
    | none => none
    | some items10 => some (items10, splitArcLeft, splitArcRight, edgeLeft)
  else none

/-- The invalidation of the pending event of the replaced arc in `AddArcToBeachline`. -/
def invalidateReplaced (events : Events F) (squeezeEvent : Option Nat) : Option (Events F) :=
  match squeezeEvent with
  | none => some events
  | some se => clearValidAsserted events se

/-- The access `evt.newPoint.point`, `none` when the event is not a site event. -/
def sitePoint (events : Events F) (evt : Nat) : Option (Vector2 F) :=
  match deref events evt with
  | none => none
  | some e =>
    match e.data with
    | EventData.newPoint pt => some pt
    | EventData.edgeIntersect _ _ _ => none

/-- `AddArcToBeachline`; `evt` is the address of the site event.  Returns the memory and the
new root. -/
def AddArcToBeachline (env : Env F) (m : Mem F) (root evt : Nat) (sweepLineY : F) :
    Option (Mem F × Nat) :=
  match sitePoint m.events evt with
  | none => none
  | some newPoint =>
  match GetActiveArcForXCoord env m.items m.items.length root newPoint.x sweepLineY with
  | none => none
  | some replacedArc =>
  match deref m.items replacedArc with
  | none => none
  | some replaced =>
  match replaced.data.arc? with
  | none => none
  | some rArc =>
  match newEdgeGeometry env rArc newPoint sweepLineY with
  | none => none
  | some (edgeStart, edgeDir) =>
  match splitArc m.items replacedArc replaced rArc.focus newPoint edgeStart edgeDir with
  | none => none
  | some (items1, splitArcLeft, splitArcRight, edgeLeft) =>
  let newRoot := if root = replacedArc then edgeLeft else root
  match invalidateReplaced m.events rArc.squeezeEvent with
  | none => none
  | some events1 =>
  match VerifyThatThereAreNoReferencesToItem items1 items1.length (some newRoot) replacedArc with
  | none => none
  | some _ =>
  match AddArcSqueezeEvent env
      { m with items := free items1 replacedArc, events := events1 } splitArcLeft with
  | none => none
  | some m2 =>
  match AddArcSqueezeEvent env m2 splitArcRight with
  | none => none
  | some m3 => some (m3, newRoot)

end AddArc

/-! ## Circle events: `RemoveArcFromBeachline` -/

section RemoveArc
variable {F : Type} [LinearOrderedField F]

/-- The two `CompleteEdge`s that `RemoveArcFromBeachline` appends to `outputEdges`, from the
bounding edges and `circleCentre`. -/
def squeezeEdges (env : Env F) (leftEdge rightEdge : Edge F) (circleCentre : Vector2 F) :
    CompleteEdge F × CompleteEdge F :=
  let edgeA : CompleteEdge F := { endpointA := leftEdge.start, endpointB := circleCentre }
  let edgeB : CompleteEdge F := { endpointA := circleCentre, endpointB := rightEdge.start }
  let edgeA1 : CompleteEdge F :=
    if leftEdge.extendsUpwardsForever then
      { edgeA with endpointA := { edgeA.endpointA with y := env.FLT_MAX } }
    else edgeA
  let edgeB1 : CompleteEdge F :=
    if rightEdge.extendsUpwardsForever then
      { edgeB with endpointA := { edgeB.endpointA with y := env.FLT_MAX } }
    else edgeB
  (edgeA1, edgeB1)

/-- The direction of the edge created by `RemoveArcFromBeachline`. -/
def newEdgeDirection (env : Env F) (leftArc rightArc : Arc F) : Option (Vector2 F) :=
  let adjacentArcOffset : Vector2 F :=
    { x := rightArc.focus.x - leftArc.focus.x, y := rightArc.focus.y - leftArc.focus.y }
  normalize env { x := adjacentArcOffset.y, y := -adjacentArcOffset.x }

/-- The loop of `RemoveArcFromBeachline` that walks from `tempItem` to the root and records in
`higherEdge` the last of `leftEdge`, `rightEdge` met. -/
def findHigherEdge (items : Items F) (leftEdge rightEdge : Nat) :
    Nat → Nat → Option Nat → Option (Option Nat)
  | 0, _, _ => none
  | fuel + 1, tempItem, higherEdge =>
    match deref items tempItem with
    | none => none
    | some t =>
      match t.parent with
      | none => some higherEdge
      | some p =>
        let h1 := if p = leftEdge then some leftEdge else higherEdge
        let h2 := if p = rightEdge then some rightEdge else h1
        findHigherEdge items leftEdge rightEdge fuel p h2

/-- The neighbours of the squeezed arc with the assertions made on them: `leftEdge`,
`rightEdge`, `leftArc`, `rightArc`. -/
def squeezeNeighbours (items : Items F) (squeezedArc : Nat) : Option (Nat × Nat × Nat × Nat) :=
  match GetFirstParentOnTheLeft items squeezedArc, GetFirstParentOnTheRight items squeezedArc with
  | some (some leftEdge), some (some rightEdge) =>
    match GetFirstLeafOnTheLeft items leftEdge, GetFirstLeafOnTheRight items rightEdge with
    | some (some leftArc), some (some rightArc) =>
      if leftArc ≠ rightArc then some (leftEdge, rightEdge, leftArc, rightArc) else none
    | _, _ => none
  | _, _ => none

/-- The read `item->left` of a pointer that is then dereferenced (`none` when either is null
or dangling). -/
def childLeft (items : Items F) (item : Nat) : Option Nat :=
  match deref items item with
  | none => none
  | some i => i.left

/-- The read `item->right` of a pointer that is then dereferenced. -/
def childRight (items : Items F) (item : Nat) : Option Nat :=
  match deref items item with
  | none => none
  | some i => i.right

/-- The read `item->parent` of a pointer that is then dereferenced. -/
def parentOf (items : Items F) (item : Nat) : Option Nat :=
  match deref items item with
  | none => none
  | some i => i.parent

/-- The pointer updates of `RemoveArcFromBeachline`: `newItem` takes the place of
`higherEdge`, and the sibling of the squeezed arc takes the place of their parent. -/
def spliceOut (items : Items F) (squeezedArc leftEdge rightEdge higherEdge newItem : Nat) :
    Option (Items F) :=
  match SetParentFromItem items newItem higherEdge with
  | none => none
  | some items1 =>
  match childLeft items1 higherEdge with
  | none => none
  | some hl =>
  match SetLeft items1 newItem hl with
  | none => none
  | some items2 =>
  match childRight items2 higherEdge with
  | none => none
  | some hr =>
  match SetRight items2 newItem hr with
  | none => none
  | some items3 =>
  match parentOf items3 squeezedArc with
  | none => none
  | some parent =>
  match deref items3 parent with
  | none => none
  | some pi =>
  if pi.isEdge then
    match (if pi.left = some squeezedArc then pi.right
           else if pi.right = some squeezedArc then pi.left
           else none) with
    | none => none
    | some remainingItem =>
      if (parent = leftEdge ∨ parent = rightEdge) ∧ parent ≠ higherEdge then
        SetParentFromItem items3 remainingItem parent
      else none
  else none

/-- The end of `RemoveArcFromBeachline`: the three verifications, the invalidation of the
event of the squeezed arc, the three deletions and the two calls of `AddArcSqueezeEvent`. -/
def finishRemoval (env : Env F) (m : Mem F) (newRoot squeezedArc leftEdge rightEdge
    leftArc rightArc : Nat) : Option (Mem F) :=
  match VerifyThatThereAreNoReferencesToItem m.items m.items.length (some newRoot) leftEdge,
        VerifyThatThereAreNoReferencesToItem m.items m.items.length (some newRoot) squeezedArc,
        VerifyThatThereAreNoReferencesToItem m.items m.items.length (some newRoot) rightEdge with
  | some _, some _, some _ =>
    match derefArc m.items squeezedArc with
    | none => none
    | some sa =>
    match invalidateReplaced m.events sa.squeezeEvent with
    | none => none
    | some events1 =>
    let items1 := free (free (free m.items leftEdge) squeezedArc) rightEdge
    match AddArcSqueezeEvent env { m with items := items1, events := events1 } leftArc with
    | none => none
    | some m1 => AddArcSqueezeEvent env m1 rightArc
  | _, _, _ => none

/-- The reads `evt.edgeIntersect.intersectionPoint` and `evt.edgeIntersect.squeezedArc` after
the assertions that the event is a circle event and is valid. -/
def validCircleEvent (events : Events F) (evt : Nat) : Option (Vector2 F × Nat) :=
  match deref events evt with
  | none => none
  | some e =>
    match e.data with
    | EventData.edgeIntersect ip sa true => some (ip, sa)
    | _ => none

/-- `RemoveArcFromBeachline`; `evt` is the address of the circle event.  Returns the memory,
the new root and `outputEdges`. -/
def RemoveArcFromBeachline (env : Env F) (m : Mem F) (root : Nat)
    (outputEdges : List (CompleteEdge F)) (evt : Nat) :
    Option (Mem F × Nat × List (CompleteEdge F)) :=
  match validCircleEvent m.events evt with
  | none => none
  | some (circleCentre, squeezedArc) =>
  match derefArc m.items squeezedArc with
  | none => none
  | some sa =>
  if sa.squeezeEvent = some evt then
    match squeezeNeighbours m.items squeezedArc with
    | none => none
    | some (leftEdge, rightEdge, leftArc, rightArc) =>
    match derefEdge m.items leftEdge, derefEdge m.items rightEdge with
    | some le, some re =>
      match derefArc m.items leftArc, derefArc m.items rightArc with
      | some la, some ra =>
        match newEdgeDirection env la ra with
        | none => none
        | some dir =>
        let newItem := (CreateEdge m.items circleCentre dir).2
        let items1 := (CreateEdge m.items circleCentre dir).1
        match findHigherEdge items1 leftEdge rightEdge items1.length squeezedArc none with
        | some (some higherEdge) =>
          match derefEdge items1 higherEdge with
          | none => none
          | some _ =>
          match spliceOut items1 squeezedArc leftEdge rightEdge higherEdge newItem with
          | none => none
          | some items2 =>
          let newRoot := if root = leftEdge ∨ root = rightEdge then newItem else root
          match finishRemoval env { m with items := items2 } newRoot squeezedArc leftEdge
              rightEdge leftArc rightArc with
          | none => none
          | some m1 =>
            some (m1, newRoot,
              outputEdges ++ [(squeezeEdges env le re circleCentre).1,
                              (squeezeEdges env le re circleCentre).2])
        | _ => none
      | _, _ => none
    | _, _ => none
  else none

end RemoveArc

/-! ## The sweep driver -/

/-- `struct FortuneState`, together with the two arenas that its pointers refer to. -/
structure FortuneState (F : Type) where
  sweepY : F
  edges : List (CompleteEdge F)
  unencounteredEvents : List Nat
  beachlineRoot : Option Nat
  items : Items F
  events : Events F
deriving DecidableEq

section Driver
variable {F : Type} [LinearOrderedField F]

/-- `FinishEdge`: the arena after the deletions and the list `edges`. -/
def FinishEdge : Nat → Items F → Option Nat → List (CompleteEdge F) →
    Option (Items F × List (CompleteEdge F))
  | _, items, none, edges => some (items, edges)
  | 0, _, some _, _ => none
  | fuel + 1, items, some item, edges =>
    match deref items item with
    | none => none
    | some it =>
      match it.data with
      | ItemData.edge e =>
        let length : F := 10000
        let edgeEnd : Vector2 F :=
          { x := e.start.x + length * e.direction.x, y := e.start.y + length * e.direction.y }
        let edge : CompleteEdge F := { endpointA := e.start, endpointB := edgeEnd }
        match FinishEdge fuel items it.left (edges ++ [edge]) with
        | none => none
        | some (items1, edges1) =>
          match deref items1 item with
          | none => none
          | some it1 =>
            match FinishEdge fuel items1 it1.right edges1 with
            | none => none
            | some (items2, edges2) => some (free items2 item, edges2)
      | ItemData.arc _ => some (free items item, edges)

/-- The seeding loop of `FortunesAlgorithm`: one `NewPoint` event per site, pushed in the order
of the sites. -/
def seedEvents (m : Mem F) : List (Vector2 F) → Mem F
  | [] => m
  | pt :: rest =>
    seedEvents
      { m with events := alloc m.events { yCoord := pt.y, data := EventData.newPoint pt }
               queue := m.queue ++ [m.events.length] } rest

/-- The start `edgeStart` of the unbounded edge that the start-up loop creates between the new
site and the active arc. -/
def startupEdgeStart (newFocus activeFocus : Vector2 F) : Vector2 F :=
  { x := (newFocus.x + activeFocus.x) / 2, y := newFocus.y + 100 }

/-- The body of the start-up loop of `FortunesAlgorithm` for the popped site event with point
`newFocus`: the new arc, the active arc, the new unbounded edge and the pointer updates.
Returns the arena and the root. -/
def startupInsert (env : Env F) (items : Items F) (root : Nat) (newFocus : Vector2 F) :
    Option (Items F × Nat) :=
  let newArc := (CreateArc items newFocus).2
  let items1 := (CreateArc items newFocus).1
  match GetActiveArcForXCoord env items1 items1.length root newFocus.x newFocus.y with
  | none => none
  | some activeArc =>
  match deref items1 activeArc with
  | none => none
  | some active =>
  match active.data.arc? with
  | none => none
  | some activeA =>
  let edgeStart : Vector2 F := startupEdgeStart newFocus activeA.focus
  let edgeDir : Vector2 F := { x := 0, y := -1 }
  let newEdge := (CreateEdge items1 edgeStart edgeDir).2
  let items2 := store (CreateEdge items1 edgeStart edgeDir).1 newEdge
    { data := ItemData.edge { start := edgeStart, direction := edgeDir,
                              extendsUpwardsForever := true },
      parent := none, left := none, right := none }
  match (match active.parent with
         | some p =>
           (match deref items2 p with
            | none => none
            | some pi =>
              if pi.left = some activeArc then
                (match SetLeft items2 p newEdge with
                 | none => none
                 | some items3 => some (items3, root))
              else if pi.right = some activeArc then
                (match SetRight items2 p newEdge with
                 | none => none
                 | some items3 => some (items3, root))
              else none)
         | none => some (items2, newEdge)) with
  | none => none
  | some (items3, root1) =>
    if newFocus.x < activeA.focus.x then
      match SetLeft items3 newEdge newArc with
      | none => none
      | some items4 =>
        match SetRight items4 newEdge activeArc with
        | none => none
        | some items5 => some (items5, root1)
    else
      match SetLeft items3 newEdge activeArc with
      | none => none
      | some items4 =>
        match SetRight items4 newEdge newArc with
        | none => none
        | some items5 => some (items5, root1)

/-- The start-up loop of `FortunesAlgorithm` (`while(!eventQueue.empty() &&
(eventQueue.top()->yCoord > startupSpecialCaseEndY))`). -/
def startupLoop (env : Env F) (cutoffY startupSpecialCaseEndY : F) :
    Nat → Mem F → Nat → Option (Mem F × Nat)
  | 0, _, _ => none
  | fuel + 1, m, root =>
    if m.queue = [] then some (m, root)
    else
      match queueTop env m with
      | none => none
      | some evt =>
        match deref m.events evt with
        | none => none
        | some e =>
          if startupSpecialCaseEndY < e.yCoord then
            if e.yCoord < cutoffY then some (m, root)
            else
              match sitePoint m.events evt with
              | none => none
              | some newFocus =>
                match startupInsert env m.items root newFocus with
                | none => none
                | some (items1, root1) =>
                  startupLoop env cutoffY startupSpecialCaseEndY fuel
                    { (queuePop m evt) with items := items1, events := free m.events evt } root1
          else some (m, root)

/-- The body of the main loop of `FortunesAlgorithm` after `eventQueue.pop()`: the dispatch on
the type of `nextEvent` and `delete nextEvent`. -/
def processEvent (env : Env F) (m : Mem F) (root : Nat) (edges : List (CompleteEdge F))
    (nextEvent : Nat) (e : SweepEvent F) : Option (Mem F × Nat × List (CompleteEdge F)) :=
  match (match e.data with
         | EventData.newPoint _ =>
           (match AddArcToBeachline env m root nextEvent e.yCoord with
            | none => none
            | some (m1, root1) => some (m1, root1, edges))
         | EventData.edgeIntersect _ _ isValid =>
           if isValid then RemoveArcFromBeachline env m root edges nextEvent
           else some (m, root, edges)) with
  | none => none
  | some (m1, root1, edges1) =>
    some ({ m1 with events := free m1.events nextEvent }, root1, edges1)

/-- One turn of the main loop of `FortunesAlgorithm`: the loop condition, the test against the
cutoff and the body.  The inner option is `none` when the loop is left (empty queue or
`break`), otherwise the memory, root and edges after the body. -/
def mainLoopStep (env : Env F) (cutoffY : F) (m : Mem F) (root : Nat)
    (edges : List (CompleteEdge F)) : Option (Option (Mem F × Nat × List (CompleteEdge F))) :=
  if m.queue = [] then some none
  else
    match queueTop env m with
    | none => none
    | some nextEvent =>
      match deref m.events nextEvent with
      | none => none
      | some e =>
        if e.yCoord < cutoffY then some none
        else
          match processEvent env (queuePop m nextEvent) root edges nextEvent e with
          | none => none
          | some s => some (some s)

/-- The main loop of `FortunesAlgorithm`; the fuel bounds the number of events processed. -/
def mainLoop (env : Env F) (cutoffY : F) :
    Nat → Mem F → Nat → List (CompleteEdge F) → Option (Mem F × Nat × List (CompleteEdge F))
  | 0, _, _, _ => none
  | fuel + 1, m, root, edges =>
    match mainLoopStep env cutoffY m root edges with
    | none => none
    | some none => some (m, root, edges)
    | some (some (m1, root1, edges1)) => mainLoop env cutoffY fuel m1 root1 edges1

/-- The memory, root and edges at the head of the main loop after `k` further turns, `none`
when the loop is left or the model fails before. -/
def mainLoopIterate (env : Env F) (cutoffY : F) :
    Nat → Mem F × Nat × List (CompleteEdge F) → Option (Mem F × Nat × List (CompleteEdge F))
  | 0, s => some s
  | k + 1, (m, root, edges) =>
    match mainLoopStep env cutoffY m root edges with
    | some (some s1) => mainLoopIterate env cutoffY k s1
    | _ => none

/-- The end of `FortunesAlgorithm`: the finalisation of the remaining edges and the assembly of
the result. -/
def assembleResult (env : Env F) (cutoffY : F) (m : Mem F) (root : Nat)
    (edges : List (CompleteEdge F)) : Option (FortuneState F) :=
  match (if m.queue = [] ∨ cutoffY < -200 then
           (match FinishEdge (m.items.length + 1) m.items (some root) edges with
            | none => none
            | some (items1, edges1) => some (items1, edges1, (none : Option Nat)))
         else some (m.items, edges, some root)) with
  | none => none
  | some (items1, edges1, root1) =>
    match drainQueue env (m.queue.length + 1) m [] with
    | none => none
    | some (m1, unencountered) =>
      some { sweepY := 0, edges := edges1, unencounteredEvents := unencountered,
             beachlineRoot := root1, items := items1, events := m1.events }

/-- The outcome of the part of `FortunesAlgorithm` that precedes the main loop: the early
return of the result, or the memory and the root with which the main loop is entered. -/
inductive Bootstrap (F : Type) where
  | aborted (result : FortuneState F)
  | entered (m : Mem F) (root : Nat)
deriving DecidableEq

/-- The part of `FortunesAlgorithm` before the main loop: seeding, the first event, the early
return when it lies below the cutoff, the first arc and the start-up loop. -/
def bootstrap (env : Env F) (sites : List (Vector2 F)) (cutoffY : F) : Option (Bootstrap F) :=
  let m0 := seedEvents { items := [], events := [], queue := [], pops := 0 } sites
  match queueTop env m0 with
  | none => none
  | some firstEvent =>
  match deref m0.events firstEvent with
  | none => none
  | some fe =>
  match sitePoint m0.events firstEvent with
  | none => none
  | some firstPoint =>
  if fe.yCoord < cutoffY then
    match drainQueue env (m0.queue.length + 1) m0 [] with
    | none => none
    | some (m1, unencountered) =>
      some (Bootstrap.aborted
        { sweepY := cutoffY, edges := [], unencounteredEvents := unencountered,
          beachlineRoot := none, items := m1.items, events := m1.events })
  else
    let m1 := queuePop m0 firstEvent
    let firstArc := m1.items.length
    let m2 : Mem F :=
      { m1 with
        items := alloc m1.items
          { data := ItemData.arc { focus := firstPoint, squeezeEvent := none },
            parent := none, left := none, right := none }
        events := free m1.events firstEvent }
    let startupSpecialCaseEndY := firstPoint.y - 1
    match startupLoop env cutoffY startupSpecialCaseEndY (m2.queue.length + 1) m2 firstArc with
    | none => none
    | some (m3, root) => some (Bootstrap.entered m3 root)

/-- `FortunesAlgorithm`.  `fuel` bounds the number of iterations of the main loop. -/
def FortunesAlgorithm (env : Env F) (fuel : Nat) (sites : List (Vector2 F)) (cutoffY : F) :
    Option (FortuneState F) :=
  match bootstrap env sites cutoffY with
  | none => none
  | some (Bootstrap.aborted result) => some result
  | some (Bootstrap.entered m3 root) =>
    match mainLoop env cutoffY fuel m3 root [] with
    | none => none
    | some (m4, root1, edges) => assembleResult env cutoffY m4 root1 edges

end Driver

/-- The memory, root and edges of a run at the head of the main loop after `k` turns of it;
`none` when the run returned early, left the loop or failed before. -/
def runState {F : Type} [LinearOrderedField F] (env : Env F) (sites : List (Vector2 F))
    (cutoffY : F) (k : Nat) : Option (Mem F × Nat × List (CompleteEdge F)) :=
  match bootstrap env sites cutoffY with
  | some (Bootstrap.entered m root) => mainLoopIterate env cutoffY k (m, root, [])
  | _ => none

/-! ## The interactive parabola example (parabolaInteractiveExample/main.cpp) -/

namespace parabolaInteractiveExample

/-- `GetArcYForXCoord` of the example (`a = 1.0f/(4.0f*(focus.y - directrixY))`); `none` when
the result is not finite, that is when the focus lies on the directrix. -/
def GetArcYForXCoord {F : Type} [LinearOrderedField F] (focus : Vector2 F) (x directrixY : F) :
    Option F := do
  let a ← (fdiv 1 (4 * (focus.y - directrixY))).toOption
  let c := (focus.y + directrixY) * (1 / 2)
  let w := x - focus.x
  pure (a * w * w + c)

end parabolaInteractiveExample

/-! ## Vocabulary of the claims -/

/-- The square of the Euclidean distance between two points. -/
def distSq {F : Type} [LinearOrderedField F] (p q : Vector2 F) : F :=
  (p.x - q.x) * (p.x - q.x) + (p.y - q.y) * (p.y - q.y)

/-- The shape of a beachline tree: arc leaves and edge nodes with two children, each with the
address of its record in the arena. -/
inductive Tree (F : Type) where
  | leaf (addr : Nat) (arc : Arc F)
  | node (addr : Nat) (edge : Edge F) (left right : Tree F)

/-- The address of the root of a tree. -/
def Tree.addr {F : Type} : Tree F → Nat
  | Tree.leaf a _ => a
  | Tree.node a _ _ _ => a

/-- The addresses of all nodes of a tree, root first. -/
def Tree.addrs {F : Type} : Tree F → List Nat
  | Tree.leaf a _ => [a]
  | Tree.node a _ l r => a :: (l.addrs ++ r.addrs)

/-- The edges of the edge nodes of a tree, in the order `FinishEdge` visits them. -/
def Tree.edges {F : Type} : Tree F → List (Edge F)
  | Tree.leaf _ _ => []
  | Tree.node _ e l r => e :: (l.edges ++ r.edges)

/-- The arc leaves of a tree from left to right, with their addresses. -/
def Tree.leaves {F : Type} : Tree F → List (Nat × Arc F)
  | Tree.leaf a arc => [(a, arc)]
  | Tree.node _ _ l r => l.leaves ++ r.leaves

/-- The height of a tree (0 for a leaf). -/
def Tree.height {F : Type} : Tree F → Nat
  | Tree.leaf _ _ => 0
  | Tree.node _ _ l r => max l.height r.height + 1

/-- The address of the rightmost leaf. -/
def Tree.rightmost {F : Type} : Tree F → Nat
  | Tree.leaf a _ => a
  | Tree.node _ _ _ r => r.rightmost

/-- The address of the leftmost leaf. -/
def Tree.leftmost {F : Type} : Tree F → Nat
  | Tree.leaf a _ => a
  | Tree.node _ _ l _ => l.leftmost

/-- The arena `items` holds the tree `t` below the parent pointer `parent`: every node of `t`
is a live record of the right kind whose `parent`, `left` and `right` pointers are those of the
tree (an arc has no children, an edge has exactly its two). -/
def Repr {F : Type} (items : Items F) : Option Nat → Tree F → Prop
  | parent, Tree.leaf a arc =>
    deref items a = some { data := ItemData.arc arc, parent := parent, left := none, right := none }
  | parent, Tree.node a e l r =>
    deref items a = some { data := ItemData.edge e, parent := parent,
                           left := some l.addr, right := some r.addr } ∧
    Repr items (some a) l ∧ Repr items (some a) r

/-- `Repr` is decidable. -/
instance Repr.decidable {F : Type} [DecidableEq F] (items : Items F) :
    (parent : Option Nat) → (t : Tree F) → Decidable (Repr items parent t)
  | parent, Tree.leaf a arc =>
    inferInstanceAs (Decidable (deref items a
      = some { data := ItemData.arc arc, parent := parent, left := none, right := none }))
  | parent, Tree.node a e l r =>
    @instDecidableAnd _ _
      (inferInstanceAs (Decidable (deref items a
        = some { data := ItemData.edge e, parent := parent,
                 left := some l.addr, right := some r.addr })))
      (@instDecidableAnd _ _ (Repr.decidable items (some a) l) (Repr.decidable items (some a) r))

/-- The beachline tree with root `root` is well formed and has the shape `t`: the root has no
parent, the records are linked as in `t`, and no record occurs twice. -/
def WellFormed {F : Type} (items : Items F) (root : Nat) (t : Tree F) : Prop :=
  t.addr = root ∧ Repr items none t ∧ t.addrs.Nodup

/-- The number of edge nodes on the path from the root to the rightmost leaf. -/
def Tree.rspine {F : Type} : Tree F → Nat
  | Tree.leaf _ _ => 0
  | Tree.node _ _ _ r => r.rspine + 1

/-- The number of edge nodes on the path from the root to the leftmost leaf. -/
def Tree.lspine {F : Type} : Tree F → Nat
  | Tree.leaf _ _ => 0
  | Tree.node _ _ l _ => l.lspine + 1

/-- The tree in which the leaf with address `act` is replaced by the tree `sub`. -/
def Tree.replaceLeaf {F : Type} (t : Tree F) (act : Nat) (sub : Tree F) : Tree F :=
  match t with
  | Tree.leaf a arc => if a = act then sub else Tree.leaf a arc
  | Tree.node a e l r => Tree.node a e (l.replaceLeaf act sub) (r.replaceLeaf act sub)

/-- The record in which a child pointer to `old` is redirected to `new`. -/
def swapChild {F : Type} (old new : Nat) (i : BeachlineItem F) : BeachlineItem F :=
  { i with left := if i.left = some old then some new else i.left
           right := if i.right = some old then some new else i.right }

/-- The subtree that the start-up loop puts in place of the active arc `act` with record `aA`:
the new edge at address `n + 1` over the new arc at address `n` and the active arc, the new arc
on the left when its focus has the smaller `x`. -/
def startupSubtree {F : Type} [LinearOrderedField F] (n act : Nat) (aA : Arc F)
    (newFocus : Vector2 F) : Tree F :=
  if newFocus.x < aA.focus.x then
    Tree.node (n + 1)
      { start := startupEdgeStart newFocus aA.focus, direction := { x := 0, y := -1 },
        extendsUpwardsForever := true }
      (Tree.leaf n { focus := newFocus, squeezeEvent := none }) (Tree.leaf act aA)
  else
    Tree.node (n + 1)
      { start := startupEdgeStart newFocus aA.focus, direction := { x := 0, y := -1 },
        extendsUpwardsForever := true }
      (Tree.leaf act aA) (Tree.leaf n { focus := newFocus, squeezeEvent := none })

/-- The subtree that `AddArcToBeachline` puts in place of the replaced arc when the arena has
`n` records: `edgeLeft` (address `n + 3`) over `splitArcLeft` (`n`) and `edgeRight` (`n + 4`),
which is over `newArc` (`n + 2`) and `splitArcRight` (`n + 1`).  `sl` and `sr` are the
`squeezeEvent` pointers of the two halves of the split arc. -/
def splitSubtree {F : Type} [LinearOrderedField F] (n : Nat)
    (focus newPoint edgeStart edgeDir : Vector2 F) (sl sr : Option Nat) : Tree F :=
  Tree.node (n + 3) { start := edgeStart, direction := edgeDir, extendsUpwardsForever := false }
    (Tree.leaf n { focus := focus, squeezeEvent := sl })
    (Tree.node (n + 4)
      { start := edgeStart, direction := { x := -edgeDir.x, y := -edgeDir.y },
        extendsUpwardsForever := false }
      (Tree.leaf (n + 2) { focus := newPoint, squeezeEvent := none })
      (Tree.leaf (n + 1) { focus := focus, squeezeEvent := sr }))

/-- The arena after the allocations and pointer updates of `AddArcToBeachline` on a beachline
that is the single arc of focus `f` at address 0, for the new site `s`. -/
def singleSplitItems {F : Type} (f s es ed : Vector2 F) [Neg F] : Items F :=
  [some { data := ItemData.arc { focus := f, squeezeEvent := none },
          parent := none, left := none, right := none },
   some { data := ItemData.arc { focus := f, squeezeEvent := none },
          parent := some 4, left := none, right := none },
   some { data := ItemData.arc { focus := f, squeezeEvent := none },
          parent := some 5, left := none, right := none },
   some { data := ItemData.arc { focus := s, squeezeEvent := none },
          parent := some 5, left := none, right := none },
   some { data := ItemData.edge { start := es, direction := ed, extendsUpwardsForever := false },
          parent := none, left := some 1, right := some 5 },
   some { data := ItemData.edge { start := es, direction := { x := -ed.x, y := -ed.y },
                                  extendsUpwardsForever := false },
          parent := some 4, left := some 3, right := some 2 }]

/-- The subtree whose root has the address `x`, `none` when the tree has no such node. -/
def Tree.subAt {F : Type} (t : Tree F) (x : Nat) : Option (Tree F) :=
  match t with
  | Tree.leaf a arc => if a = x then some (Tree.leaf a arc) else none
  | Tree.node a e l r =>
    if a = x then some (Tree.node a e l r)
    else
      match l.subAt x with
      | some s => some s
      | none => r.subAt x

/-- The tree in which the subtree whose root has the address `x` is replaced by `sub`. -/
def Tree.replaceAt {F : Type} (t : Tree F) (x : Nat) (sub : Tree F) : Tree F :=
  match t with
  | Tree.leaf a arc => if a = x then sub else Tree.leaf a arc
  | Tree.node a e l r =>
    if a = x then sub else Tree.node a e (l.replaceAt x sub) (r.replaceAt x sub)

/-- The nodes of a tree in in-order, each with its address and its tag and union member: the
arcs of the beachline from left to right, each two separated by the edge between them. -/
def Tree.inorder {F : Type} : Tree F → List (Nat × ItemData F)
  | Tree.leaf a arc => [(a, ItemData.arc arc)]
  | Tree.node a e l r => l.inorder ++ (a, ItemData.edge e) :: r.inorder

/-- The tag, and the focus of an arc or the edge of an edge node: the record without the
`squeezeEvent` pointer. -/
def ItemData.geometry {F : Type} : ItemData F → Vector2 F ⊕ Edge F
  | ItemData.arc a => Sum.inl a.focus
  | ItemData.edge e => Sum.inr e

/-- The in-order sequence of a tree without the `squeezeEvent` pointers of the arcs. -/
def Tree.shape {F : Type} (t : Tree F) : List (Nat × (Vector2 F ⊕ Edge F)) :=
  t.inorder.map (fun x => (x.1, x.2.geometry))

/-- The arena after `delete` of every address of a list. -/
def freeAll {α : Type} (h : List (Option α)) : List Nat → List (Option α)
  | [] => h
  | a :: rest => freeAll (free h a) rest

/-- The `CompleteEdge` that `FinishEdge` makes of an edge. -/
def finishedEdge {F : Type} [LinearOrderedField F] (e : Edge F) : CompleteEdge F :=
  { endpointA := e.start
    endpointB := { x := e.start.x + 10000 * e.direction.x, y := e.start.y + 10000 * e.direction.y } }

/-- The tag and union member stored at an address. -/
def dataAt {F : Type} (items : Items F) (a : Nat) : Option (ItemData F) :=
  match deref items a with
  | some i => some i.data
  | none => none

/-! ## The locals of `GetEdgeArcIntersectionPoint` and `TryGetEdgeIntersectionPoint` -/

section GeometryLocals
variable {F : Type} [LinearOrderedField F]

/-- The local `p` of `GetEdgeArcIntersectionPoint`: the slope of the line of the edge. -/
def edgeSlope (edge : Edge F) : F := edge.direction.y / edge.direction.x

/-- The local `q` of `GetEdgeArcIntersectionPoint`: the intercept of the line of the edge. -/
def edgeIntercept (edge : Edge F) : F := edge.start.y - edgeSlope edge * edge.start.x

/-- The local `a2` of `GetEdgeArcIntersectionPoint`. -/
def quadA2 (arc : Arc F) (directrixY : F) : F := 1 / (2 * (arc.focus.y - directrixY))

/-- The local `a1` of `GetEdgeArcIntersectionPoint`. -/
def quadA1 (edge : Edge F) (arc : Arc F) (directrixY : F) : F :=
  -edgeSlope edge - 2 * quadA2 arc directrixY * arc.focus.x

/-- The local `a0` of `GetEdgeArcIntersectionPoint`. -/
def quadA0 (edge : Edge F) (arc : Arc F) (directrixY : F) : F :=
  quadA2 arc directrixY * arc.focus.x * arc.focus.x + (arc.focus.y + directrixY) * (1 / 2)
    - edgeIntercept edge

/-- The local `discriminant` of `GetEdgeArcIntersectionPoint`. -/
def discriminant (edge : Edge F) (arc : Arc F) (directrixY : F) : F :=
  quadA1 edge arc directrixY * quadA1 edge arc directrixY
    - 4 * quadA2 arc directrixY * quadA0 edge arc directrixY

/-- The local `x1` of `GetEdgeArcIntersectionPoint`. -/
def rootX1 (env : Env F) (edge : Edge F) (arc : Arc F) (directrixY : F) : F :=
  (-quadA1 edge arc directrixY + env.sqrt (discriminant edge arc directrixY))
    / (2 * quadA2 arc directrixY)

/-- The local `x2` of `GetEdgeArcIntersectionPoint`. -/
def rootX2 (env : Env F) (edge : Edge F) (arc : Arc F) (directrixY : F) : F :=
  (-quadA1 edge arc directrixY - env.sqrt (discriminant edge arc directrixY))
    / (2 * quadA2 arc directrixY)

/-- The locals `x1Dot`, `x2Dot` of `GetEdgeArcIntersectionPoint`: the offset of `x` from the
start of the edge, times the x-direction of the edge. -/
def rootDot (edge : Edge F) (x : F) : F := (x - edge.start.x) * edge.direction.x

/-- The local `x` of `GetEdgeArcIntersectionPoint`: the root selected by the four-way test
on `x1Dot` and `x2Dot`. -/
def chosenRoot (env : Env F) (edge : Edge F) (arc : Arc F) (directrixY : F) : F :=
  let x1 := rootX1 env edge arc directrixY
  let x2 := rootX2 env edge arc directrixY
  let x1Dot := rootDot edge x1
  let x2Dot := rootDot edge x2
  if 0 ≤ x1Dot ∧ x2Dot < 0 then x1
  else if x1Dot < 0 ∧ 0 ≤ x2Dot then x2
  else if 0 ≤ x1Dot ∧ 0 ≤ x2Dot then (if x1Dot < x2Dot then x1 else x2)
  else (if x1Dot < x2Dot then x2 else x1)

/-- The local `det` of `TryGetEdgeIntersectionPoint`. -/
def rayDet (e1 e2 : Edge F) : F :=
  e2.direction.x * e1.direction.y - e2.direction.y * e1.direction.x

/-- The numerator of the local `u` of `TryGetEdgeIntersectionPoint`. -/
def rayNumU (e1 e2 : Edge F) : F :=
  (e2.start.y - e1.start.y) * e2.direction.x - (e2.start.x - e1.start.x) * e2.direction.y

/-- The numerator of the local `v` of `TryGetEdgeIntersectionPoint`. -/
def rayNumV (e1 e2 : Edge F) : F :=
  (e2.start.y - e1.start.y) * e1.direction.x - (e2.start.x - e1.start.x) * e1.direction.y

end GeometryLocals

/-! ## Invariants of the event queue -/

/-- The points of the site events in the queue, in queue order. -/
def siteQueue {F : Type} (m : Mem F) : List (Vector2 F) :=
  m.queue.filterMap (sitePoint m.events)

/-- The memory `m1` extends `m` as the handlers of the sweep do: the event arena only grows,
the events of `m` keep their `yCoord` and their site point, and the queue gains only freshly
allocated events that are not site events. -/
def QueueExtends {F : Type} [LinearOrderedField F] (m m1 : Mem F) : Prop :=
  m.events.length ≤ m1.events.length ∧
  (∀ e, e < m.events.length →
    sitePoint m1.events e = sitePoint m.events e ∧ eventY m1.events e = eventY m.events e) ∧
  ∃ new, m1.queue = m.queue ++ new ∧ new.Nodup ∧
    ∀ e ∈ new, m.events.length ≤ e ∧ e < m1.events.length ∧ sitePoint m1.events e = none

/-- The queue holds no event twice, only addresses of the event arena, and every queued site
event has the `y` of its point as `yCoord`. -/
def QueueInv {F : Type} [LinearOrderedField F] (m : Mem F) : Prop :=
  m.queue.Nodup ∧ (∀ e ∈ m.queue, e < m.events.length) ∧
  ∀ e ∈ m.queue, ∀ pt, sitePoint m.events e = some pt → eventY m.events e = some pt.y

/-- The invariant of the sweep for the sites: the queued sites together with the sites already
processed are the input sites, and no processed site lies below the cutoff. -/
def SweepInv {F : Type} [LinearOrderedField F] (sites : List (Vector2 F)) (cutoffY : F)
    (m : Mem F) : Prop :=
  QueueInv m ∧ ∃ processed : List (Vector2 F),
    (siteQueue m ++ processed).Perm sites ∧ ∀ p ∈ processed, ¬ p.y < cutoffY

/-- The events `un` left in the queue lie below the cutoff, and the site events among them are
the sites below the cutoff: every event of `un` is live with `yCoord < cutoffY`, and the points
of its site events are, as a multiset, the sites with `y < cutoffY`. -/
def UnencounteredBelowCutoff {F : Type} [LinearOrderedField F] (sites : List (Vector2 F))
    (cutoffY : F) (events : Events F) (un : List Nat) : Prop :=
  (∀ e ∈ un, ∃ s, deref events e = some s ∧ s.yCoord < cutoffY) ∧
  (un.filterMap (sitePoint events)).Perm (sites.filter (fun p => decide (p.y < cutoffY)))

/-! ## A concrete environment over the rationals -/

/-- Newton iteration for the integer square root. -/
def natSqrtAux (n : Nat) : Nat → Nat → Nat
  | 0, x => x
  | k + 1, x => if (x + n / x) / 2 < x then natSqrtAux n k ((x + n / x) / 2) else x

/-- The integer square root (rounded down). -/
def natSqrt (n : Nat) : Nat := if n = 0 then 0 else natSqrtAux n n n

/-- A square root on the rationals: the exact root of the square of a rational, and elsewhere
the root rounded down to a multiple of `1 / (10^6 * denominator)`. -/
def ratSqrt (q : ℚ) : ℚ :=
  (natSqrt (q.num.natAbs * q.den * 10 ^ 12) : ℚ) / ((q.den : ℚ) * 10 ^ 6)

/-- An environment over the rationals: `ratSqrt`, the value of `FLT_MAX` for IEEE single
precision, a constant for the unwritten local and the given tie-breaking. -/
def envQ (tie : Nat → Nat) (unwritten : ℚ) : Env ℚ :=
  { sqrt := ratSqrt
    FLT_MAX := 340282346638528859811704183484516925440
    uninit := fun _ _ _ => unwritten
    tie := tie }

/-- The event pushed for a site by the seeding loop. -/
def siteEvent {F : Type} (pt : Vector2 F) : SweepEvent F :=
  { yCoord := pt.y, data := EventData.newPoint pt }

/-! ## Concrete runs used as inputs -/

/-- The memory of an optional loop state, empty when there is none. -/
def memOfState (s : Option (Mem ℚ × Nat × List (CompleteEdge ℚ))) : Mem ℚ :=
  match s with
  | some x => x.1
  | none => { items := [], events := [], queue := [], pops := 0 }

/-- The rational environment that always yields the first-inserted of the events of greatest
`yCoord`. -/
def envQ0 : Env ℚ := envQ (fun _ => 0) 0

/-- Two sites of equal y and a third one below; the three lie on the circle of centre (0,0) and
radius 25, and all square roots taken in the run are rational. -/
def levelSites : List (Vector2 ℚ) := [⟨-7, 24⟩, ⟨7, 24⟩, ⟨-25, 0⟩]

/-- The memory of the run on `levelSites` after the third site is inserted. -/
def levelMem : Mem ℚ := memOfState (runState envQ0 levelSites (-1000) 1)

/-- The memory of the run on `levelSites` inside `AddArcToBeachline`, at the call of
`AddArcSqueezeEvent` for `splitArcRight` (address 4). -/
def levelMemBefore : Mem ℚ :=
  { items := store levelMem.items 4
      { data := ItemData.arc { focus := ⟨-7, 24⟩, squeezeEvent := none },
        parent := some 7, left := none, right := none }
    events := [none, none, none]
    queue := []
    pops := 3 }

/-- The sites of test case 5 of main.cpp. -/
def preemptedSites : List (Vector2 ℚ) := [⟨300, 500⟩, ⟨200, 450⟩, ⟨400, 450⟩, ⟨300, 400⟩]

/-- The memory of the run on `preemptedSites` at the head of the main loop after five turns. -/
def preemptedMem : Mem ℚ := memOfState (runState envQ0 preemptedSites (-1000) 5)

/-- The complete edges of an optional loop state, none when there is no state. -/
def edgesOfState (s : Option (Mem ℚ × Nat × List (CompleteEdge ℚ))) : List (CompleteEdge ℚ) :=
  match s with
  | some x => x.2.2
  | none => []

/-- The complete edges of the run on `preemptedSites` after five turns of the main loop. -/
def preemptedEdges : List (CompleteEdge ℚ) :=
  edgesOfState (runState envQ0 preemptedSites (-1000) 5)

/-- The arc of focus (0,1), which over the directrix `y = -1` is the parabola `y = x²/4`. -/
def sampleArc : Arc ℚ := ⟨⟨0, 1⟩, none⟩

/-- The horizontal edge from (-3,1) to the right; it meets `sampleArc` over the directrix
`y = -1` at `x = -2` and at `x = 2`. -/
def sampleEdge : Edge ℚ := ⟨⟨-3, 1⟩, ⟨1, 0⟩, false⟩

/-- A vertical edge at `x = 2`. -/
def sampleVerticalEdge : Edge ℚ := ⟨⟨2, 5⟩, ⟨0, -1⟩, false⟩

/-- The diagonal edge from the origin. -/
def sampleDiagonalEdge : Edge ℚ := ⟨⟨0, 0⟩, ⟨1, 1⟩, false⟩

/-- Three sites on a vertical line. -/
def collinearSites : List (Vector2 ℚ) := [⟨0, 10⟩, ⟨0, 0⟩, ⟨0, -10⟩]

/-- The edge between the arcs of (0,10) and (0,0) in the run on `collinearSites`, going left. -/
def parallelEdgeA : Edge ℚ := ⟨⟨0, 5⟩, ⟨-1, 0⟩, false⟩

/-- The edge between the arcs of (0,0) and (0,-10) in the run on `collinearSites`, going
left. -/
def parallelEdgeB : Edge ℚ := ⟨⟨0, -5⟩, ⟨-1, 0⟩, false⟩

/-- The result of `RemoveArcFromBeachline` for the circle event of the run on `levelSites`. -/
def levelMemAfter : Mem ℚ :=
  match RemoveArcFromBeachline envQ0 (queuePop levelMem 3) 2 [] 3 with
  | some x => x.1
  | none => { items := [], events := [], queue := [], pops := 0 }

/-- The result of the run on `levelSites` without cutoff. -/
def levelResult : FortuneState ℚ :=
  match FortunesAlgorithm envQ0 3 levelSites (-1000) with
  | some r => r
  | none => { sweepY := 0, edges := [], unencounteredEvents := [], beachlineRoot := none,
              items := [], events := [] }

/-- The memory of the run on `levelSites` at the head of the main loop, before the third site
is inserted. -/
def levelMemStart : Mem ℚ := memOfState (runState envQ0 levelSites (-1000) 0)

/-- The beachline tree of the run on `levelSites` before the third site is inserted. -/
def levelTreeStart : Tree ℚ :=
  Tree.node 2 ⟨⟨0, 124⟩, ⟨0, -1⟩, true⟩ (Tree.leaf 0 ⟨⟨-7, 24⟩, none⟩) (Tree.leaf 1 ⟨⟨7, 24⟩, none⟩)

/-- The memory after `AddArcToBeachline` for the third site of `levelSites`. -/
def levelMemInserted : Mem ℚ :=
  match AddArcToBeachline envQ0 (queuePop levelMemStart 2) 2 2 0 with
  | some x => x.1
  | none => { items := [], events := [], queue := [], pops := 0 }

/-- The result of the run on `levelSites` with the cutoff 10, which lies between the first two
sites and the third. -/
def levelCutResult : FortuneState ℚ :=
  match FortunesAlgorithm envQ0 1 levelSites 10 with
  | some r => r
  | none => { sweepY := 0, edges := [], unencounteredEvents := [], beachlineRoot := none,
              items := [], events := [] }

/-- The beachline tree of the run on `levelSites` after the third site is inserted. -/
def levelTree : Tree ℚ :=
  Tree.node 2 ⟨⟨0, 124⟩, ⟨0, -1⟩, true⟩
    (Tree.node 6 ⟨⟨-25, 75 / 4⟩, ⟨-4 / 5, 3 / 5⟩, false⟩
      (Tree.leaf 3 ⟨⟨-7, 24⟩, none⟩)
      (Tree.node 7 ⟨⟨-25, 75 / 4⟩, ⟨4 / 5, -3 / 5⟩, false⟩
        (Tree.leaf 5 ⟨⟨-25, 0⟩, none⟩)
        (Tree.leaf 4 ⟨⟨-7, 24⟩, some 3⟩)))
    (Tree.leaf 1 ⟨⟨7, 24⟩, none⟩)

/-! ## The claims that fail, as propositions -/

section ClaimStatements
variable {F : Type} [LinearOrderedField F]

/-- Claim C2 for the edge at address `edge` of an arena: its start is equidistant from the
foci of the arcs that are its immediate left and right neighbours. -/
def EdgeStartEquidistant (items : Items F) (edge : Nat) : Prop :=
  ∀ (e : Edge F) (leftArc rightArc : Nat) (l r : Arc F),
    derefEdge items edge = some e →
    GetFirstLeafOnTheLeft items edge = some (some leftArc) →
    GetFirstLeafOnTheRight items edge = some (some rightArc) →
    derefArc items leftArc = some l →
    derefArc items rightArc = some r →
    distSq e.start l.focus = distSq e.start r.focus

/-- Claim C5 for one input: no remaining beachline root and at least one complete edge. -/
def DeepCutoffResult (env : Env F) (fuel : Nat) (sites : List (Vector2 F)) (cutoffY : F) : Prop :=
  ∀ r, FortunesAlgorithm env fuel sites cutoffY = some r → r.beachlineRoot = none ∧ r.edges ≠ []

/-- Claim C11 for one input: the run on the two sites returns a non-empty list of complete
edges, and both endpoints of every returned edge are equidistant from the two sites. -/
def TwoSiteBisector (env : Env F) (fuel : Nat) (p q : Vector2 F) (cutoffY : F) : Prop :=
  ∃ r, FortunesAlgorithm env fuel [p, q] cutoffY = some r ∧ r.edges ≠ [] ∧
    ∀ e ∈ r.edges, distSq e.endpointA p = distSq e.endpointA q ∧
      distSq e.endpointB p = distSq e.endpointB q

/-- The link between the arcs of the beachline tree and the circle events of the arena: the
`squeezeEvent` of every arc leaf is a live, valid circle event that references the leaf, and
every live, valid circle event references an arc leaf that is neither the leftmost nor the
rightmost one and has the event as its `squeezeEvent`. -/
def EventsInv (events : Events F) (t : Tree F) : Prop :=
  (∀ a arc e, (a, arc) ∈ t.leaves → arc.squeezeEvent = some e →
    ∃ y V, deref events e = some ⟨y, EventData.edgeIntersect V a true⟩) ∧
  (∀ e y V a, deref events e = some ⟨y, EventData.edgeIntersect V a true⟩ →
    ∃ arc, (a, arc) ∈ t.leaves ∧ arc.squeezeEvent = some e ∧
      a ≠ t.leftmost ∧ a ≠ t.rightmost)

/-- The invariant of the main loop for the beachline: the arena holds a well-formed tree below
the root, and the arcs and the circle events are linked as `EventsInv` says. -/
def BeachInv (m : Mem F) (root : Nat) : Prop :=
  ∃ t, WellFormed m.items root t ∧ EventsInv m.events t

/-- The nodes of the beachline tree below `root` as the pointers of the arena give them: the
root and, with every node, its left and its right child. -/
inductive TreeNode (items : Items F) (root : Nat) : Nat → Prop
  | root : TreeNode items root root
  | left {p b : Nat} {rec : BeachlineItem F} :
      TreeNode items root p → deref items p = some rec → rec.left = some b →
      TreeNode items root b
  | right {p b : Nat} {rec : BeachlineItem F} :
      TreeNode items root p → deref items p = some rec → rec.right = some b →
      TreeNode items root b

/-- Well-formedness of the tree below `root` in the words of the specification: the root has
no parent; every node is a live record; every non-root node is exactly one of its parent's left
or right child; every `Arc` node has no children; every `Edge` node has exactly two
children. -/
def WellFormedAsSpecified (items : Items F) (root : Nat) : Prop :=
  (∃ rec, deref items root = some rec ∧ rec.parent = none) ∧
  (∀ b, TreeNode items root b → ∃ rec, deref items b = some rec) ∧
  (∀ b, TreeNode items root b → b ≠ root →
    ∃ rec p prec, deref items b = some rec ∧ rec.parent = some p ∧
      deref items p = some prec ∧
      ((prec.left = some b ∧ prec.right ≠ some b) ∨
       (prec.left ≠ some b ∧ prec.right = some b))) ∧
  (∀ b rec, TreeNode items root b → deref items b = some rec → rec.isArc = true →
    rec.left = none ∧ rec.right = none) ∧
  (∀ b rec, TreeNode items root b → deref items b = some rec → rec.isEdge = true →
    ∃ l r, rec.left = some l ∧ rec.right = some r ∧ l ≠ r)

/-- Four sites on the circle of centre (0,0) and radius 625, no two within 1 in y; all square
roots taken in the run are rational. -/
def cocircularSites : List (Vector2 ℚ) := [⟨175, 600⟩, ⟨-527, 336⟩, ⟨625, 0⟩, ⟨-175, -600⟩]

/-- The memory of the run on `cocircularSites` after the four sites are inserted: the circle
events 4 (of the arc at address 6) and 5 (of the arc at address 12) are queued. -/
def cocircularMem : Mem ℚ := memOfState (runState envQ0 cocircularSites (-1000) 3)

/-- The result of `RemoveArcFromBeachline` for the circle event 4 of the run on
`cocircularSites`. -/
def cocircularMemAfter : Mem ℚ :=
  match RemoveArcFromBeachline envQ0 (queuePop cocircularMem 4) 4 [] 4 with
  | some x => x.1
  | none => { items := [], events := [], queue := [], pops := 0 }

/-- Four sites in general position; in the run the circle event 4 removes the arc at address 7,
whose right neighbour (address 11) has the pending event 5. -/
def replacedSites : List (Vector2 ℚ) := [⟨0, 20⟩, ⟨5, 17⟩, ⟨-7, 15⟩, ⟨9, 12⟩]

/-- The memory of the run on `replacedSites` after the four sites are inserted. -/
def replacedMem : Mem ℚ := memOfState (runState envQ0 replacedSites (-1000) 3)

/-- The result of `RemoveArcFromBeachline` for the circle event 4 of the run on
`replacedSites`. -/
def replacedMemAfter : Mem ℚ :=
  match RemoveArcFromBeachline envQ0 (queuePop replacedMem 4) 4 [] 4 with
  | some x => x.1
  | none => { items := [], events := [], queue := [], pops := 0 }

/-- Claim C24 as amended, for one call of `RemoveArcFromBeachline` on the memory `m` that
returns the memory `m1` and the root `root1`.  The processed event `evt` of the removed arc `A`
has `isValid = false` afterwards.  After the splice (memory `mB`, in which the neighbouring arcs
`l` and `r` are separated by the new edge that starts at the vertex) the function calls
`AddArcSqueezeEvent` for `l` (giving `mA`) and then for `r` (giving `m1`).  For each neighbour
`x` that had a pending event `se` of `yCoord` `ys`, the candidate of the call
(`squeezeCandidateFor`, on `mB` for `l` and on `mA` for `r`) is defined, and: when the candidate
exists and its `yCoord` is strictly greater than `ys`, it is allocated, pushed and recorded as
the arc's `squeezeEvent`, and `se` has `isValid = false` afterwards; when there is no candidate
(a bounding edge is missing or the rays of the two edges do not intersect) or its `yCoord` is
not greater than `ys`, the event `se` is still valid and still the arc's `squeezeEvent`. -/
def NeighbourEventsDecided (env : Env F) (m m1 : Mem F) (root1 evt : Nat) : Prop :=
  ∃ c A L R l r y mB mA,
    deref m.events evt = some ⟨y, EventData.edgeIntersect c A true⟩ ∧
    squeezeNeighbours m.items A = some (L, R, l, r) ∧
    deref m1.events evt = some ⟨y, EventData.edgeIntersect c A false⟩ ∧
    (∃ t2 X Y lArc rArc dir, WellFormed mB.items root1 t2 ∧
      t2.inorder = X ++ [(l, ItemData.arc lArc),
        (m.items.length, ItemData.edge ⟨c, dir, false⟩), (r, ItemData.arc rArc)] ++ Y) ∧
    mB.events = store m.events evt ⟨y, EventData.edgeIntersect c A false⟩ ∧
    mB.queue = m.queue ∧
    AddArcSqueezeEvent env mB l = some mA ∧ AddArcSqueezeEvent env mA r = some m1 ∧
    ∀ x mx, (x = l ∧ mx = mB) ∨ (x = r ∧ mx = mA) →
      ∀ arcx se, derefArc m.items x = some arcx → arcx.squeezeEvent = some se →
      ∃ ys Vs cand, deref m.events se = some ⟨ys, EventData.edgeIntersect Vs x true⟩ ∧
        squeezeCandidateFor env mx.items x = some cand ∧
        (∀ V1 c1, cand = some (V1, c1) → ys < c1 →
          m.events.length ≤ mx.events.length ∧ mx.events.length ∈ m1.queue ∧
          derefArc m1.items x = some { arcx with squeezeEvent := some mx.events.length } ∧
          deref m1.events mx.events.length = some ⟨c1, EventData.edgeIntersect V1 x true⟩ ∧
          deref m1.events se = some ⟨ys, EventData.edgeIntersect Vs x false⟩) ∧
        ((cand = none ∨ ∃ V1 c1, cand = some (V1, c1) ∧ c1 ≤ ys) →
          derefArc m1.items x = some arcx ∧
          deref m1.events se = some ⟨ys, EventData.edgeIntersect Vs x true⟩)

/-- Claim C24 for one call of `RemoveArcFromBeachline`: every valid circle event that was
pending for the left or the right neighbour of the removed arc has `isValid = false` after the
call. -/
def NeighbourEventsCleared (env : Env F) (m : Mem F) (root : Nat)
    (out : List (CompleteEdge F)) (evt : Nat) : Prop :=
  ∀ m1 root1 out1 c A L R l r,
    RemoveArcFromBeachline env m root out evt = some (m1, root1, out1) →
    validCircleEvent m.events evt = some (c, A) →
    squeezeNeighbours m.items A = some (L, R, l, r) →
    ∀ x, x = l ∨ x = r → ∀ arcx se ys Vs, derefArc m.items x = some arcx →
      arcx.squeezeEvent = some se →
      deref m.events se = some ⟨ys, EventData.edgeIntersect Vs x true⟩ →
      deref m1.events se = some ⟨ys, EventData.edgeIntersect Vs x false⟩

/-- The arc of the leftmost leaf. -/
def Tree.leftmostArc : Tree F → Arc F
  | Tree.leaf _ arc => arc
  | Tree.node _ _ l _ => l.leftmostArc

/-- The arc of the rightmost leaf. -/
def Tree.rightmostArc : Tree F → Arc F
  | Tree.leaf _ arc => arc
  | Tree.node _ _ _ r => r.rightmostArc

/-- The descent of `GetActiveArcForXCoord` read on a tree: at each edge node the two
intersections of the edge with its neighbouring arcs give `intersectionX` as in the code
(`chooseIntersectionX`, with the content of the unwritten local when neither exists), and the
descent moves to the left child if and only if `x < intersectionX`. -/
def Tree.activeArc (env : Env F) (x directrixY : F) : Tree F → Option Nat
  | Tree.leaf a _ => some a
  | Tree.node a e l r =>
    match GetEdgeArcIntersectionPoint env e l.rightmostArc directrixY,
          GetEdgeArcIntersectionPoint env e r.leftmostArc directrixY with
    | some li, some ri =>
      if x < chooseIntersectionX li ri (env.uninit a x directrixY) then
        l.activeArc env x directrixY
      else r.activeArc env x directrixY
    | _, _ => none

/-- The breakpoint `bx` of an edge node in the words of the specification: the `x` of the
intersection of the edge with its left neighbouring arc when that intersection exists, otherwise
the `x` of its intersection with its right neighbouring arc; the specification gives no value
when neither exists. -/
def breakpointAsSpecified (leftIntersect rightIntersect : Option (Vector2 F)) : Option F :=
  match leftIntersect with
  | some pl => some pl.x
  | none =>
    match rightIntersect with
    | some pr => some pr.x
    | none => none

/-- The descent of the specification from the root of a tree to an arc leaf: at each edge node
it moves to the left child if and only if `x < bx`; it has no result when an edge node on the
way has no breakpoint. -/
def Tree.activeArcAsSpecified (env : Env F) (x directrixY : F) : Tree F → Option Nat
  | Tree.leaf a _ => some a
  | Tree.node _ e l r =>
    match GetEdgeArcIntersectionPoint env e l.rightmostArc directrixY,
          GetEdgeArcIntersectionPoint env e r.leftmostArc directrixY with
    | some li, some ri =>
      match breakpointAsSpecified li ri with
      | some bx =>
        if x < bx then l.activeArcAsSpecified env x directrixY
        else r.activeArcAsSpecified env x directrixY
      | none => none
    | _, _ => none

/-- Claim C28, last part, for one tree, `x` and `directrixY`: the result of
`GetActiveArcForXCoord` is the same in any two environments with the same square root, the same
`FLT_MAX` and the same tie-breaking. -/
def ActiveArcDetermined (items : Items F) (root : Nat) (x directrixY : F) : Prop :=
  ∀ env1 env2 : Env F, env1.sqrt = env2.sqrt → env1.FLT_MAX = env2.FLT_MAX →
    env1.tie = env2.tie →
    GetActiveArcForXCoord env1 items items.length root x directrixY
      = GetActiveArcForXCoord env2 items items.length root x directrixY

/-- The order by `x` that the start-up loop keeps in the tree: every edge is vertical, the arcs
below its left child have a focus `x` below the `x` of its start, and the arcs below its right
child have a focus `x` not below it. -/
def Tree.SplitByX : Tree F → Prop
  | Tree.leaf _ _ => True
  | Tree.node _ e l r =>
    e.direction.x = 0 ∧ (∀ z ∈ l.leaves, z.2.focus.x < e.start.x) ∧
    (∀ z ∈ r.leaves, e.start.x ≤ z.2.focus.x) ∧ l.SplitByX ∧ r.SplitByX

/-- Every edge of the tree starts at an `x` strictly above the focus `x` of its left
neighbouring arc and in the relation `rel` to the focus `x` of its right neighbouring arc. -/
def Tree.EdgesBetweenNeighbours (rel : F → F → Prop) : Tree F → Prop
  | Tree.leaf _ _ => True
  | Tree.node _ e l r =>
    l.rightmostArc.focus.x < e.start.x ∧ rel e.start.x r.leftmostArc.focus.x ∧
    l.EdgesBetweenNeighbours rel ∧ r.EdgesBetweenNeighbours rel

/-- The sites that the start-up loop can pop: those whose `y` is above the `y` of every site
minus 1, in the order of the input. -/
def leadingRun (sites : List (Vector2 F)) : List (Vector2 F) :=
  sites.filter (fun p => sites.all (fun q => decide (q.y - 1 < p.y)))

/-- Claim C29 for one run: when the main loop is entered, the focus `x` of the arc leaves is
strictly increasing from left to right, and the start `x` of every edge lies strictly between
the focus `x` of its left and of its right neighbouring arc. -/
def StartupOrderedByX (env : Env F) (sites : List (Vector2 F)) (cutoffY : F) : Prop :=
  ∀ m root t, bootstrap env sites cutoffY = some (Bootstrap.entered m root) →
    WellFormed m.items root t →
    (t.leaves.map (fun z => z.2.focus.x)).Pairwise (fun a b => a < b) ∧
    t.EdgesBetweenNeighbours (fun a b => a < b)

/-- Three sites of the start-up window with distinct `x` and distinct `y`; the `x` of the third
one is the mean of the `x` of the first two. -/
def edgeAlignedSites : List (Vector2 ℚ) := [⟨0, 0⟩, ⟨10, -1 / 4⟩, ⟨5, -1 / 2⟩]

/-- The beachline tree of the run on `edgeAlignedSites` when the main loop is entered. -/
def edgeAlignedTree : Tree ℚ :=
  Tree.node 2 ⟨⟨5, 399 / 4⟩, ⟨0, -1⟩, true⟩ (Tree.leaf 0 ⟨⟨0, 0⟩, none⟩)
    (Tree.node 4 ⟨⟨15 / 2, 199 / 2⟩, ⟨0, -1⟩, true⟩ (Tree.leaf 3 ⟨⟨5, -1 / 2⟩, none⟩)
      (Tree.leaf 1 ⟨⟨10, -1 / 4⟩, none⟩))

/-- Three sites of equal `y` with distinct `x`. -/
def levelThreeSites : List (Vector2 ℚ) := [⟨5, 0⟩, ⟨10, 0⟩, ⟨1, 0⟩]

/-- The beachline tree of the run on `levelThreeSites` when the main loop is entered, the
unwritten local holding 0. -/
def levelThreeTree : Tree ℚ :=
  Tree.node 2 ⟨⟨15 / 2, 100⟩, ⟨0, -1⟩, true⟩ (Tree.leaf 0 ⟨⟨5, 0⟩, none⟩)
    (Tree.node 4 ⟨⟨11 / 2, 100⟩, ⟨0, -1⟩, true⟩ (Tree.leaf 3 ⟨⟨1, 0⟩, none⟩)
      (Tree.leaf 1 ⟨⟨10, 0⟩, none⟩))

/-- The beachline tree of the run on `levelThreeSites` when the main loop is entered, the
unwritten local holding 8. -/
def levelThreeTreeOrdered : Tree ℚ :=
  Tree.node 2 ⟨⟨15 / 2, 100⟩, ⟨0, -1⟩, true⟩
    (Tree.node 4 ⟨⟨3, 100⟩, ⟨0, -1⟩, true⟩ (Tree.leaf 3 ⟨⟨1, 0⟩, none⟩)
      (Tree.leaf 0 ⟨⟨5, 0⟩, none⟩))
    (Tree.leaf 1 ⟨⟨10, 0⟩, none⟩)

end ClaimStatements

/-! # Theorems -/

set_option linter.unusedVariables false

section ArenaLemmas
variable {α : Type}

theorem deref_eq_some_iff (h : List (Option α)) (a : Nat) (v : α) :
    deref h a = some v ↔ h[a]? = some (some v) := by
  unfold deref
  split
  · next w hw => simp [hw]
  · next hn =>
    constructor
    · intro h1; cases h1
    · intro h1; exact absurd h1 (hn v)

theorem deref_lt_length {h : List (Option α)} {a : Nat} {v : α} (hd : deref h a = some v) :
    a < h.length := by
  rw [deref_eq_some_iff] at hd
  exact (List.getElem?_eq_some.mp hd).1

theorem deref_store_same (h : List (Option α)) (a : Nat) (v : α) (ha : a < h.length) :
    deref (store h a v) a = some v := by
  rw [deref_eq_some_iff]; simp [store, ha]

theorem deref_store_ne (h : List (Option α)) (a b : Nat) (v : α) (hab : a ≠ b) :
    deref (store h a v) b = deref h b := by
  unfold deref store
  rw [List.getElem?_set_ne hab]

theorem deref_free_same (h : List (Option α)) (a : Nat) : deref (free h a) a = none := by
  unfold deref free
  by_cases ha : a < h.length
  · simp [ha]
  · simp [List.getElem?_eq_none (by simpa using ha : (h.set a none).length ≤ a)]

theorem deref_free_ne (h : List (Option α)) (a b : Nat) (hab : a ≠ b) :
    deref (free h a) b = deref h b := by
  unfold deref free
  rw [List.getElem?_set_ne hab]

theorem deref_alloc_lt (h : List (Option α)) (v : α) (a : Nat) (ha : a < h.length) :
    deref (alloc h v) a = deref h a := by
  unfold deref alloc
  rw [List.getElem?_append_left ha]

theorem deref_alloc_length (h : List (Option α)) (v : α) :
    deref (alloc h v) h.length = some v := by
  rw [deref_eq_some_iff]; simp [alloc]

theorem deref_alloc_of_some (h : List (Option α)) (v w : α) (a : Nat) (hd : deref h a = some w) :
    deref (alloc h v) a = some w := by
  rw [deref_alloc_lt h v a (deref_lt_length hd), hd]

@[simp] theorem length_store (h : List (Option α)) (a : Nat) (v : α) :
    (store h a v).length = h.length := by simp [store]
@[simp] theorem length_free (h : List (Option α)) (a : Nat) :
    (free h a).length = h.length := by simp [free]
@[simp] theorem length_alloc (h : List (Option α)) (v : α) :
    (alloc h v).length = h.length + 1 := by simp [alloc]
end ArenaLemmas

section QueueLemmas
variable {F : Type} [LinearOrderedField F]

theorem greatest_eq_none {ys : List F} : greatest ys = none ↔ ys = [] := by
  cases ys with
  | nil => simp [greatest]
  | cons y ys =>
    simp only [greatest]
    cases greatest ys <;> simp

theorem greatest_mem_ge {ys : List F} {b : F} (h : greatest ys = some b) :
    b ∈ ys ∧ ∀ y ∈ ys, y ≤ b := by
  induction ys generalizing b with
  | nil => simp [greatest] at h
  | cons y ys ih =>
    simp only [greatest] at h
    cases hg : greatest ys with
    | none =>
      rw [hg] at h
      have : ys = [] := greatest_eq_none.mp hg
      subst this
      simp only [Option.some.injEq] at h
      subst h
      simp
    | some m =>
      rw [hg] at h
      simp only [Option.some.injEq] at h
      obtain ⟨hm, hle⟩ := ih hg
      by_cases hlt : m < y
      · rw [if_pos hlt] at h
        subst h
        refine ⟨List.mem_cons_self _ _, ?_⟩
        intro z hz
        rcases List.mem_cons.mp hz with rfl | hz
        · exact le_refl _
        · exact le_trans (hle z hz) (le_of_lt hlt)
      · rw [if_neg hlt] at h
        subst h
        refine ⟨List.mem_cons_of_mem _ hm, ?_⟩
        intro z hz
        rcases List.mem_cons.mp hz with rfl | hz
        · exact not_lt.mp hlt
        · exact hle z hz

omit [LinearOrderedField F] in
theorem queueKeys_some_iff {events : Events F} {q : List Nat} :
    (∃ ys, queueKeys events q = some ys) ↔ ∀ e ∈ q, ∃ y, eventY events e = some y := by
  induction q with
  | nil => simp [queueKeys]
  | cons e es ih =>
    simp only [queueKeys, List.mem_cons, forall_eq_or_imp]
    constructor
    · rintro ⟨ys, h⟩
      cases hy : eventY events e with
      | none => rw [hy] at h; simp at h
      | some y =>
        cases hk : queueKeys events es with
        | none => rw [hy, hk] at h; simp at h
        | some ks => exact ⟨⟨y, rfl⟩, ih.mp ⟨ks, hk⟩⟩
    · rintro ⟨⟨y, hy⟩, hall⟩
      obtain ⟨ks, hk⟩ := ih.mpr hall
      exact ⟨y :: ks, by rw [hy, hk]⟩

theorem queueKeys_mem {events : Events F} {q : List Nat} {ys : List F}
    (h : queueKeys events q = some ys) :
    (∀ e ∈ q, ∃ y ∈ ys, eventY events e = some y) ∧
    (∀ y ∈ ys, ∃ e ∈ q, eventY events e = some y) := by
  induction q generalizing ys with
  | nil =>
    simp only [queueKeys, Option.some.injEq] at h
    subst h; simp
  | cons e es ih =>
    simp only [queueKeys] at h
    cases hy : eventY events e with
    | none => rw [hy] at h; simp at h
    | some y =>
      cases hk : queueKeys events es with
      | none => rw [hy, hk] at h; simp at h
      | some ks =>
        rw [hy, hk] at h
        simp only [Option.some.injEq] at h
        subst h
        obtain ⟨h1, h2⟩ := ih hk
        constructor
        · intro e' he'
          rcases List.mem_cons.mp he' with rfl | he'
          · exact ⟨y, List.mem_cons_self _ _, hy⟩
          · obtain ⟨y', hy', hey'⟩ := h1 e' he'
            exact ⟨y', List.mem_cons_of_mem _ hy', hey'⟩
        · intro y' hy'
          rcases List.mem_cons.mp hy' with rfl | hy'
          · exact ⟨e, List.mem_cons_self _ _, hy⟩
          · obtain ⟨e', he', hey'⟩ := h2 y' hy'
            exact ⟨e', List.mem_cons_of_mem _ he', hey'⟩

/-- Every top candidate is queued and carries a key that no queued key exceeds. -/
theorem topCandidates_spec {events : Events F} {q : List Nat} {e : Nat}
    (h : e ∈ topCandidates events q) :
    e ∈ q ∧ ∃ y, eventY events e = some y ∧
      ∀ e2 ∈ q, ∀ y2, eventY events e2 = some y2 → y2 ≤ y := by
  unfold topCandidates at h
  cases hk : queueKeys events q with
  | none => simp [hk] at h
  | some ys =>
    cases hg : greatest ys with
    | none => simp [hk, hg] at h
    | some best =>
      simp only [hk, hg, List.mem_filter, decide_eq_true_eq] at h
      obtain ⟨hb, hle⟩ := greatest_mem_ge hg
      refine ⟨h.1, best, h.2, ?_⟩
      intro e2 he2 y2 hy2
      obtain ⟨y3, hy3, hey3⟩ := (queueKeys_mem hk).1 e2 he2
      rw [hy2] at hey3
      cases hey3
      exact hle _ hy3

/-- When every queued event is live and the queue is not empty, there is a top candidate. -/
theorem topCandidates_ne_nil {events : Events F} {q : List Nat} (hq : q ≠ [])
    (hlive : ∀ e ∈ q, ∃ y, eventY events e = some y) : topCandidates events q ≠ [] := by
  obtain ⟨ys, hk⟩ := queueKeys_some_iff.mpr hlive
  unfold topCandidates
  rw [hk]
  cases hg : greatest ys with
  | none =>
    have hys : ys = [] := greatest_eq_none.mp hg
    subst hys
    cases q with
    | nil => exact absurd rfl hq
    | cons e es =>
      obtain ⟨y, hy, _⟩ := (queueKeys_mem hk).1 e (List.mem_cons_self _ _)
      simp at hy
  | some best =>
    obtain ⟨hb, _⟩ := greatest_mem_ge hg
    obtain ⟨e, he, hey⟩ := (queueKeys_mem hk).2 best hb
    intro hnil
    have : e ∈ q.filter (fun e => decide (eventY events e = some best)) := by
      simp [List.mem_filter, he, hey]
    simp only [hg] at hnil
    rw [hnil] at this
    simp at this

theorem queueTop_spec {env : Env F} {m : Mem F} {e : Nat} (h : queueTop env m = some e) :
    e ∈ m.queue ∧ ∃ y, eventY m.events e = some y ∧
      ∀ e2 ∈ m.queue, ∀ y2, eventY m.events e2 = some y2 → y2 ≤ y := by
  unfold queueTop at h
  simp only at h
  exact topCandidates_spec (List.getElem?_mem h)

theorem queueTop_isSome (env : Env F) (m : Mem F) (hq : m.queue ≠ [])
    (hlive : ∀ e ∈ m.queue, ∃ y, eventY m.events e = some y) :
    ∃ e, queueTop env m = some e := by
  have hne := topCandidates_ne_nil hq hlive
  unfold queueTop
  simp only
  have hpos : 0 < (topCandidates m.events m.queue).length := List.length_pos.mpr hne
  have hlt : env.tie m.pops % (topCandidates m.events m.queue).length
      < (topCandidates m.events m.queue).length := Nat.mod_lt _ hpos
  exact ⟨_, List.getElem?_eq_getElem hlt⟩

omit [LinearOrderedField F] in
theorem eventY_eq_some_iff {events : Events F} {e : Nat} {y : F} :
    eventY events e = some y ↔ ∃ s, deref events e = some s ∧ s.yCoord = y := by
  unfold eventY
  cases deref events e <;> simp

/-- The drain loop returns the queued events in some order and leaves the arenas alone. -/
theorem drainQueue_spec (env : Env F) (fuel : Nat) (m : Mem F) (acc : List Nat)
    (hfuel : m.queue.length < fuel)
    (hlive : ∀ e ∈ m.queue, ∃ y, eventY m.events e = some y) :
    ∃ m1 un, drainQueue env fuel m acc = some (m1, acc ++ un) ∧ un.Perm m.queue ∧
      m1.items = m.items ∧ m1.events = m.events ∧ m1.queue = [] := by
  induction fuel generalizing m acc with
  | zero => omega
  | succ fuel ih =>
    unfold drainQueue
    by_cases hq : m.queue = []
    · rw [if_pos hq]
      exact ⟨m, [], by simp, by simp [hq], rfl, rfl, hq⟩
    · rw [if_neg hq]
      obtain ⟨e, he⟩ := queueTop_isSome env m hq hlive
      rw [he]
      simp only
      have hmem := (queueTop_spec he).1
      have hlen : (queuePop m e).queue.length < fuel := by
        simp only [queuePop, List.length_erase_of_mem hmem]
        have : 0 < m.queue.length := List.length_pos.mpr hq
        omega
      have hlive2 : ∀ e2 ∈ (queuePop m e).queue, ∃ y, eventY (queuePop m e).events e2 = some y := by
        intro e2 he2
        exact hlive e2 (List.mem_of_mem_erase he2)
      obtain ⟨m1, un, hd, hperm, hi, hev, hqe⟩ := ih (queuePop m e) (acc ++ [e]) hlen hlive2
      refine ⟨m1, e :: un, ?_, ?_, hi, hev, hqe⟩
      · rw [hd]; simp
      · exact (List.Perm.cons e hperm).trans (List.perm_cons_erase hmem).symm

end QueueLemmas

section Seeding
variable {F : Type}

theorem seedEvents_eq (m : Mem F) (sites : List (Vector2 F)) :
    seedEvents m sites =
      { m with events := m.events ++ sites.map (fun pt => some (siteEvent pt))
               queue := m.queue ++ List.range' m.events.length sites.length } := by
  induction sites generalizing m with
  | nil => simp [seedEvents]
  | cons pt rest ih =>
    rw [seedEvents, ih]
    simp [alloc, siteEvent, List.range'_succ, List.append_assoc]

theorem seedEvents_empty (sites : List (Vector2 F)) :
    seedEvents { items := [], events := [], queue := [], pops := 0 } sites =
      { items := [], events := sites.map (fun pt => some (siteEvent pt)),
        queue := List.range sites.length, pops := 0 } := by
  rw [seedEvents_eq]
  simp [List.range_eq_range']

theorem deref_seed (sites : List (Vector2 F)) (i : Nat) :
    deref (sites.map (fun pt => some (siteEvent pt))) i = (sites[i]?).map siteEvent := by
  unfold deref
  rw [List.getElem?_map]
  cases sites[i]? <;> rfl

theorem sitePoint_seed (sites : List (Vector2 F)) (i : Nat) :
    sitePoint (sites.map (fun pt => some (siteEvent pt))) i = sites[i]? := by
  unfold sitePoint
  rw [deref_seed]
  cases sites[i]? <;> simp [siteEvent]

theorem map_sitePoint_range (sites : List (Vector2 F)) :
    (List.range sites.length).map (sitePoint (sites.map (fun pt => some (siteEvent pt))))
      = sites.map some := by
  apply List.ext_getElem?
  intro i
  simp only [List.getElem?_map]
  by_cases hi : i < sites.length
  · simp [List.getElem?_range hi, List.getElem?_eq_getElem hi, sitePoint_seed]
  · have h1 : (List.range sites.length)[i]? = none := by
      apply List.getElem?_eq_none; simpa using hi
    have h2 : sites[i]? = none := by
      apply List.getElem?_eq_none; simpa using hi
    simp [h1, h2]

end Seeding

section C3
variable {F : Type} [LinearOrderedField F]

/-- C3: with a cutoff strictly above the y of every site of a non-empty list, the run returns
no complete edge and no beachline root, and the unencountered events are site events whose
points are the input sites as a multiset (one event per site). -/
theorem C3_cutoff_above_every_site (env : Env F) (fuel : Nat) (sites : List (Vector2 F))
    (cutoffY : F) (hne : sites ≠ []) (habove : ∀ p ∈ sites, p.y < cutoffY) :
    ∃ r, FortunesAlgorithm env fuel sites cutoffY = some r ∧ r.edges = [] ∧
      r.beachlineRoot = none ∧ r.unencounteredEvents.length = sites.length ∧
      (r.unencounteredEvents.map (sitePoint r.events)).Perm (sites.map some) := by
  have hlive : ∀ e ∈ List.range sites.length,
      ∃ y, eventY (sites.map (fun pt => some (siteEvent pt))) e = some y := by
    intro e he
    have he2 : e < sites.length := List.mem_range.mp he
    refine ⟨(sites[e]).y, ?_⟩
    rw [eventY_eq_some_iff]
    exact ⟨siteEvent sites[e], by rw [deref_seed]; simp [List.getElem?_eq_getElem he2], rfl⟩
  have hq : List.range sites.length ≠ [] := by
    intro h
    have := congrArg List.length h
    simp at this
    exact hne this
  unfold FortunesAlgorithm bootstrap
  rw [seedEvents_empty]
  simp only
  obtain ⟨e, he⟩ := queueTop_isSome env
    { items := [], events := sites.map (fun pt => some (siteEvent pt)),
      queue := List.range sites.length, pops := 0 } hq hlive
  rw [he]
  simp only
  have hmem : e < sites.length := List.mem_range.mp (queueTop_spec he).1
  have hde : deref (sites.map (fun pt => some (siteEvent pt))) e = some (siteEvent sites[e]) := by
    rw [deref_seed]; simp [List.getElem?_eq_getElem hmem]
  have hsp : sitePoint (sites.map (fun pt => some (siteEvent pt))) e = some sites[e] := by
    rw [sitePoint_seed]; simp [List.getElem?_eq_getElem hmem]
  rw [hde, hsp]
  simp only
  have hy : (siteEvent sites[e]).yCoord < cutoffY := habove _ (List.getElem_mem _)
  rw [if_pos hy]
  obtain ⟨m1, un, hd, hperm, hi, hev, -⟩ := drainQueue_spec env (List.range sites.length).length.succ
    { items := [], events := sites.map (fun pt => some (siteEvent pt)),
      queue := List.range sites.length, pops := 0 } [] (Nat.lt_succ_self _) hlive
  simp only [List.nil_append] at hd
  rw [hd]
  refine ⟨_, rfl, rfl, rfl, ?_, ?_⟩
  · simpa using hperm.length_eq
  · simp only [hev]
    rw [← map_sitePoint_range]
    exact hperm.map _

end C3

section DataFrame
variable {F : Type}

theorem derefEdge_eq_dataAt (items : Items F) (a : Nat) :
    derefEdge items a = (dataAt items a).bind ItemData.edge? := by
  unfold derefEdge dataAt
  cases deref items a <;> rfl

theorem derefArc_eq_dataAt (items : Items F) (a : Nat) :
    derefArc items a = (dataAt items a).bind ItemData.arc? := by
  unfold derefArc dataAt
  cases deref items a <;> rfl

theorem dataAt_store {items : Items F} {a : Nat} {old : BeachlineItem F} (v : BeachlineItem F)
    (hd : deref items a = some old) (hv : v.data = old.data) (b : Nat) :
    dataAt (store items a v) b = dataAt items b := by
  unfold dataAt
  by_cases hab : a = b
  · subst hab
    simp only [deref_store_same _ _ _ (deref_lt_length hd), hd, hv]
  · rw [deref_store_ne _ _ _ _ hab]

theorem dataAt_store_fields {items : Items F} {a : Nat} {old : BeachlineItem F}
    (p l r : Option Nat) (hd : deref items a = some old) (b : Nat) :
    dataAt (store items a { data := old.data, parent := p, left := l, right := r }) b
      = dataAt items b :=
  dataAt_store { data := old.data, parent := p, left := l, right := r } hd rfl b

theorem dataAt_free_ne (items : Items F) {a b : Nat} (hab : a ≠ b) :
    dataAt (free items a) b = dataAt items b := by
  unfold dataAt; rw [deref_free_ne _ _ _ hab]

theorem dataAt_alloc_lt (items : Items F) (v : BeachlineItem F) {a : Nat} (ha : a < items.length) :
    dataAt (alloc items v) a = dataAt items a := by
  unfold dataAt; rw [deref_alloc_lt _ _ _ ha]

theorem dataAt_alloc_length (items : Items F) (v : BeachlineItem F) :
    dataAt (alloc items v) items.length = some v.data := by
  unfold dataAt; rw [deref_alloc_length]

theorem dataAt_lt_length {items : Items F} {a : Nat} {d : ItemData F}
    (h : dataAt items a = some d) : a < items.length := by
  unfold dataAt at h
  cases hd : deref items a with
  | none => rw [hd] at h; cases h
  | some i => exact deref_lt_length hd

theorem SetLeft_frame {items items1 : Items F} {self newLeft : Nat}
    (h : SetLeft items self newLeft = some items1) :
    items1.length = items.length ∧ ∀ b, dataAt items1 b = dataAt items b := by
  unfold SetLeft at h
  cases hs : deref items self with
  | none => simp [hs] at h
  | some s =>
    simp only [hs, Option.bind_eq_bind, Option.some_bind] at h
    split_ifs at h
    cases hn : deref (store items self { s with left := some newLeft }) newLeft with
    | none => simp [hn] at h
    | some n =>
      simp only [hn, Option.some_bind, Option.pure_def, Option.some.injEq] at h
      subst h
      refine ⟨by simp, fun b => ?_⟩
      rw [dataAt_store_fields _ _ _ hn, dataAt_store_fields _ _ _ hs]

theorem SetRight_frame {items items1 : Items F} {self newRight : Nat}
    (h : SetRight items self newRight = some items1) :
    items1.length = items.length ∧ ∀ b, dataAt items1 b = dataAt items b := by
  unfold SetRight at h
  cases hs : deref items self with
  | none => simp [hs] at h
  | some s =>
    simp only [hs, Option.bind_eq_bind, Option.some_bind] at h
    split_ifs at h
    cases hn : deref (store items self { s with right := some newRight }) newRight with
    | none => simp [hn] at h
    | some n =>
      simp only [hn, Option.some_bind, Option.pure_def, Option.some.injEq] at h
      subst h
      refine ⟨by simp, fun b => ?_⟩
      rw [dataAt_store_fields _ _ _ hn, dataAt_store_fields _ _ _ hs]

theorem SetParentFromItem_frame {items items1 : Items F} {self item : Nat}
    (h : SetParentFromItem items self item = some items1) :
    items1.length = items.length ∧ ∀ b, dataAt items1 b = dataAt items b := by
  unfold SetParentFromItem at h
  cases hi : deref items item with
  | none => simp [hi] at h
  | some i =>
    simp only [hi, Option.bind_eq_bind, Option.some_bind] at h
    split at h
    · cases hs : deref items self with
      | none => simp [hs] at h
      | some s =>
        simp only [hs, Option.some_bind, Option.pure_def, Option.some.injEq] at h
        subst h
        exact ⟨by simp, fun b => dataAt_store_fields _ _ _ hs b⟩
    · next p hp =>
      cases hpi : deref items p with
      | none => simp [hpi] at h
      | some pi =>
        simp only [hpi, Option.some_bind] at h
        split_ifs at h
        · exact SetLeft_frame h
        · exact SetRight_frame h

end DataFrame

section GeometryLemmas
variable {F : Type} [LinearOrderedField F]

theorem fdiv_eq_fin {a b v : F} (h : fdiv a b = Flt.fin v) : b ≠ 0 ∧ v = a / b := by
  unfold fdiv at h
  by_cases hb : b = 0
  · rw [if_pos hb] at h
    split_ifs at h
  · rw [if_neg hb] at h
    exact ⟨hb, by cases h; rfl⟩

theorem fdiv_of_ne_zero {a b : F} (hb : b ≠ 0) : fdiv a b = Flt.fin (a / b) := by
  unfold fdiv; rw [if_neg hb]

/-- A point of a line through `s` with a direction orthogonal to `q - p` is equidistant from
`p` and `q` when `s` is. -/
theorem distSq_along_bisector (s d p q : Vector2 F) (t : F)
    (h1 : distSq s p = distSq s q)
    (h2 : d.x * (q.x - p.x) + d.y * (q.y - p.y) = 0) :
    distSq ⟨s.x + d.x * t, s.y + d.y * t⟩ p = distSq ⟨s.x + d.x * t, s.y + d.y * t⟩ q := by
  unfold distSq at *
  simp only
  linear_combination h1 + 2 * t * h2

end GeometryLemmas
section SqueezeLemmas
variable {F : Type} [LinearOrderedField F]

omit [LinearOrderedField F] in
theorem clearValid_length {events events1 : Events F} {se : Nat}
    (h : clearValid events se = some events1) : events1.length = events.length := by
  unfold clearValid at h
  split at h
  · cases h
  · split at h
    · cases h; simp
    · cases h

/-- `registerSqueezeEvent` either leaves the memory alone or pushes one new valid circle event
for the arc, with the given vertex and key. -/
theorem registerSqueezeEvent_spec {m m1 : Mem F} {arc : Nat} {P : Vector2 F} {y : F}
    (h : registerSqueezeEvent m arc P y = some m1) :
    m1 = m ∨ (m1.queue = m.queue ++ [m.events.length] ∧
      deref m1.events m.events.length = some ⟨y, EventData.edgeIntersect P arc true⟩) := by
  unfold registerSqueezeEvent at h
  split at h
  · cases h
  · split at h
    · cases h
    · split at h
      · cases h
        right
        exact ⟨rfl, deref_alloc_length _ _⟩
      · split at h
        · cases h
        · split_ifs at h
          · cases h; left; rfl
          · split at h
            · cases h
            · next events1 hc =>
              cases h
              right
              simp only [newSqueezeEvent]
              rw [← clearValid_length hc]
              exact ⟨rfl, deref_alloc_length _ _⟩

end SqueezeLemmas

section RemoveFrame
variable {F : Type} [LinearOrderedField F]

theorem registerSqueezeEvent_items {m m1 : Mem F} {arc : Nat} {P : Vector2 F} {y : F}
    (h : registerSqueezeEvent m arc P y = some m1) :
    m1.items.length = m.items.length ∧ ∀ b, derefEdge m1.items b = derefEdge m.items b := by
  have key : ∀ (m2 : Mem F) (it : BeachlineItem F) (a : Arc F),
      deref m2.items arc = some it → it.data.arc? = some a →
      (newSqueezeEvent m2 arc it a P y).items.length = m2.items.length ∧
      ∀ b, derefEdge (newSqueezeEvent m2 arc it a P y).items b = derefEdge m2.items b := by
    intro m2 it a hit ha
    refine ⟨by simp [newSqueezeEvent], fun b => ?_⟩
    simp only [newSqueezeEvent, derefEdge]
    by_cases hab : arc = b
    · subst hab
      rw [deref_store_same _ _ _ (deref_lt_length hit), hit]
      cases hdat : it.data with
      | arc a2 => simp [hdat, ItemData.edge?]
      | edge e => rw [hdat] at ha; simp [ItemData.arc?] at ha
    · rw [deref_store_ne _ _ _ _ hab]
  unfold registerSqueezeEvent at h
  split at h
  · cases h
  · next it hit =>
    split at h
    · cases h
    · next a ha =>
      split at h
      · cases h
        exact key m it a hit ha
      · split at h
        · cases h
        · split_ifs at h
          · cases h; exact ⟨rfl, fun _ => rfl⟩
          · split at h
            · cases h
            · next events1 hc =>
              cases h
              exact key { m with events := events1 } it a hit ha

theorem AddArcSqueezeEvent_items {env : Env F} {m m1 : Mem F} {arc : Nat}
    (h : AddArcSqueezeEvent env m arc = some m1) :
    m1.items.length = m.items.length ∧ ∀ b, derefEdge m1.items b = derefEdge m.items b := by
  unfold AddArcSqueezeEvent at h
  split at h
  · split at h
    · cases h
    · cases h; exact ⟨rfl, fun _ => rfl⟩
    · exact registerSqueezeEvent_items h
  · cases h; exact ⟨rfl, fun _ => rfl⟩
  · cases h

omit [LinearOrderedField F] in
theorem spliceOut_frame {items items1 : Items F} {sa l r hE n : Nat}
    (h : spliceOut items sa l r hE n = some items1) :
    items1.length = items.length ∧ ∀ b, dataAt items1 b = dataAt items b := by
  unfold spliceOut at h
  split at h
  · cases h
  · next i1 h1 =>
    split at h
    · cases h
    · split at h
      · cases h
      · next i2 h2 =>
        split at h
        · cases h
        · split at h
          · cases h
          · next i3 h3 =>
            have f1 := SetParentFromItem_frame h1
            have f2 := SetLeft_frame h2
            have f3 := SetRight_frame h3
            have f123 : i3.length = items.length ∧ ∀ b, dataAt i3 b = dataAt items b :=
              ⟨by rw [f3.1, f2.1, f1.1], fun b => by rw [f3.2, f2.2, f1.2]⟩
            revert h
            repeat' split
            all_goals intro h
            all_goals first
              | cases h
              | exact ⟨by rw [(SetParentFromItem_frame h).1, f123.1],
                  fun b => by rw [(SetParentFromItem_frame h).2, f123.2]⟩

omit [LinearOrderedField F] in
theorem derefEdge_free_ne (items : Items F) {a b : Nat} (hab : a ≠ b) :
    derefEdge (free items a) b = derefEdge items b := by
  unfold derefEdge; rw [deref_free_ne _ _ _ hab]

theorem finishRemoval_frame {env : Env F} {m m1 : Mem F} {newRoot sa l r la ra : Nat}
    (h : finishRemoval env m newRoot sa l r la ra = some m1) :
    m1.items.length = m.items.length ∧
      ∀ b, b ≠ l → b ≠ sa → b ≠ r → derefEdge m1.items b = derefEdge m.items b := by
  unfold finishRemoval at h
  split at h
  · split at h
    · cases h
    · split at h
      · cases h
      · simp only at h
        split at h
        · cases h
        · next m2 h2 =>
          have f2 := AddArcSqueezeEvent_items h2
          have f3 := AddArcSqueezeEvent_items h
          simp only [length_free] at f2
          refine ⟨by rw [f3.1, f2.1], fun b hl hs hr => ?_⟩
          rw [f3.2, f2.2, derefEdge_free_ne _ (Ne.symm hr), derefEdge_free_ne _ (Ne.symm hs),
            derefEdge_free_ne _ (Ne.symm hl)]
  · cases h

omit [LinearOrderedField F] in
theorem derefArc_lt_length {items : Items F} {a : Nat} {v : Arc F}
    (h : derefArc items a = some v) : a < items.length := by
  unfold derefArc at h
  cases hd : deref items a with
  | none => rw [hd] at h; cases h
  | some i => exact deref_lt_length hd

omit [LinearOrderedField F] in
theorem derefEdge_lt_length {items : Items F} {a : Nat} {v : Edge F}
    (h : derefEdge items a = some v) : a < items.length := by
  unfold derefEdge at h
  cases hd : deref items a with
  | none => rw [hd] at h; cases h
  | some i => exact deref_lt_length hd

/-- The edge that `RemoveArcFromBeachline` creates is live afterwards at the first fresh
address and starts at the vertex of the circle event; the two complete edges are appended. -/
theorem RemoveArcFromBeachline_new_edge {env : Env F} {m m1 : Mem F} {root root1 evt : Nat}
    {out out1 : List (CompleteEdge F)}
    (h : RemoveArcFromBeachline env m root out evt = some (m1, root1, out1)) :
    ∃ c sa l r la ra le re dir,
      validCircleEvent m.events evt = some (c, sa) ∧
      squeezeNeighbours m.items sa = some (l, r, la, ra) ∧
      derefEdge m.items l = some le ∧ derefEdge m.items r = some re ∧
      derefEdge m1.items m.items.length = some ⟨c, dir, false⟩ ∧
      out1 = out ++ [(squeezeEdges env le re c).1, (squeezeEdges env le re c).2] := by
  unfold RemoveArcFromBeachline at h
  split at h
  · cases h
  · next c sa hv =>
    split at h
    · cases h
    · next a ha =>
      split_ifs at h
      split at h
      · cases h
      · next l r la ra hn =>
        split at h
        · next le re hle hre =>
          split at h
          · split at h
            · cases h
            · next dir hdir =>
              simp only at h
              split at h
              · next hE hh =>
                split at h
                · cases h
                · split at h
                  · cases h
                  · next items2 hsp =>
                    split at h
                    · cases h
                    · next m2 hfin =>
                      cases h
                      refine ⟨c, sa, l, r, la, ra, le, re, dir, hv, hn, hle, hre, ?_, rfl⟩
                      have f1 := spliceOut_frame hsp
                      have f2 := finishRemoval_frame hfin
                      simp only [CreateEdge, length_alloc] at f1
                      have hl : m.items.length ≠ l := (Nat.ne_of_lt (derefEdge_lt_length hle)).symm
                      have hr : m.items.length ≠ r := (Nat.ne_of_lt (derefEdge_lt_length hre)).symm
                      have hs : m.items.length ≠ sa := (Nat.ne_of_lt (derefArc_lt_length ha)).symm
                      rw [f2.2 _ hl hs hr]
                      simp only
                      rw [derefEdge_eq_dataAt, f1.2, dataAt_alloc_length]
                      rfl
              · cases h
          · cases h
        · cases h

end RemoveFrame

set_option maxRecDepth 100000

section C9
variable {F : Type} [LinearOrderedField F]

/-- C9: when the event on top of the queue is a circle event whose `isValid` flag is false (and
is not below the cutoff), the turn of the main loop only removes it from the queue and deletes
it: the arena of beachline items, the root, the complete edges and every other event are
unchanged, and `RemoveArcFromBeachline` is not evaluated. -/
theorem C9_invalid_circle_event_is_dropped (env : Env F) (cutoffY : F) (m : Mem F)
    (root evt : Nat) (edges : List (CompleteEdge F)) (e : SweepEvent F) (ip : Vector2 F)
    (sa : Nat) (htop : queueTop env m = some evt) (hd : deref m.events evt = some e)
    (hdata : e.data = EventData.edgeIntersect ip sa false) (hcut : ¬ e.yCoord < cutoffY) :
    mainLoopStep env cutoffY m root edges =
      some (some ({ items := m.items, events := free m.events evt,
                    queue := m.queue.erase evt, pops := m.pops + 1 }, root, edges)) := by
  have hq : m.queue ≠ [] := by
    intro h
    have := (queueTop_spec htop).1
    rw [h] at this
    cases this
  unfold mainLoopStep
  rw [if_neg hq, htop]
  simp only [hd, if_neg hcut]
  unfold processEvent
  simp [hdata, queuePop]

end C9

set_option maxRecDepth 100000 in
/-- Witness of C9: in the run on the sites of test case 5, after five turns of the main loop the
event on top is the invalidated circle event of the arc at address 6. -/
theorem C9_witness :
    (runState envQ0 preemptedSites (-1000) 5 = some (preemptedMem, 4, preemptedEdges) ∧
     queueTop envQ0 preemptedMem = some 4 ∧
     deref preemptedMem.events 4 = some ⟨250, EventData.edgeIntersect ⟨300, 375⟩ 6 false⟩ ∧
     ¬ ((250 : ℚ) < -1000)) ∧
    mainLoopStep envQ0 (-1000) preemptedMem 4 preemptedEdges =
      some (some ({ items := preemptedMem.items, events := free preemptedMem.events 4,
                    queue := preemptedMem.queue.erase 4, pops := preemptedMem.pops + 1 }, 4,
                  preemptedEdges)) :=
  ⟨⟨by decide!, by decide!, by decide!, by decide!⟩,
   C9_invalid_circle_event_is_dropped envQ0 (-1000) preemptedMem 4 4 preemptedEdges
     ⟨250, EventData.edgeIntersect ⟨300, 375⟩ 6 false⟩ ⟨300, 375⟩ 6 (by decide!) (by decide!) rfl
     (by decide!)⟩

section C2
variable {F : Type} [LinearOrderedField F]

omit [LinearOrderedField F] in
theorem Flt.toOption_eq_some {x : Flt F} {v : F} (h : x.toOption = some v) : x = Flt.fin v := by
  cases x <;> simp [Flt.toOption] at h
  rw [h]

theorem GetArcYForXCoord_eq_some {arc : Arc F} {x d y : F}
    (h : GetArcYForXCoord arc x d = some y) :
    arc.focus.y - d ≠ 0 ∧
    y = 1 / (2 * (arc.focus.y - d)) * (x - arc.focus.x) * (x - arc.focus.x)
          + (arc.focus.y + d) * (1 / 2) := by
  unfold GetArcYForXCoord at h
  cases hf : (fdiv 1 (2 * (arc.focus.y - d))).toOption with
  | none => simp [hf] at h
  | some a =>
    simp only [hf, Option.bind_eq_bind, Option.some_bind, Option.pure_def, Option.some.injEq] at h
    obtain ⟨hne, ha⟩ := fdiv_eq_fin (Flt.toOption_eq_some hf)
    refine ⟨fun h0 => hne (by rw [h0]; ring), ?_⟩
    rw [← h, ha]

/-- The start of the edges made by `AddArcToBeachline` is equidistant from the new site and
from the focus of the replaced arc. -/
theorem newEdgeGeometry_start {env : Env F} {replaced : Arc F} {newPoint edgeStart edgeDir : Vector2 F}
    (h : newEdgeGeometry env replaced newPoint newPoint.y = some (edgeStart, edgeDir)) :
    distSq edgeStart newPoint = distSq edgeStart replaced.focus := by
  unfold newEdgeGeometry at h
  cases hy : GetArcYForXCoord replaced newPoint.x newPoint.y with
  | none => simp [hy] at h
  | some iy =>
    simp only [hy, Option.bind_eq_bind, Option.some_bind, Option.pure_def] at h
    rw [Option.bind_eq_some] at h
    obtain ⟨dir, -, h2⟩ := h
    simp only [Option.some.injEq, Prod.mk.injEq] at h2
    obtain ⟨hne, hiy⟩ := GetArcYForXCoord_eq_some hy
    rw [← h2.1]
    unfold distSq
    simp only
    rw [hiy]
    field_simp
    ring


/-- C2 (amended): the two edges created by `AddArcToBeachline` start at a point equidistant
from the new site and from the focus of the replaced arc; the unbounded edge created by the
start-up loop starts at a point equidistant from the new site and from the focus of the active
arc when the two have the same y; the edge created by `RemoveArcFromBeachline` starts at the
vertex of the circle event, hence at a point equidistant from the foci of the two neighbouring
arcs when the vertex is equidistant from the three foci. -/
theorem C2_edge_start_equidistant (env : Env F)
    (replaced : Arc F) (newPoint edgeStart edgeDir : Vector2 F)
    (hgeo : newEdgeGeometry env replaced newPoint newPoint.y = some (edgeStart, edgeDir))
    (newFocus activeFocus : Vector2 F) (hlevel : newFocus.y = activeFocus.y)
    (m m1 : Mem F) (root root1 evt : Nat) (out out1 : List (CompleteEdge F)) (c : Vector2 F)
    (sa leftEdge rightEdge leftArc rightArc : Nat) (a l r : Arc F)
    (hrem : RemoveArcFromBeachline env m root out evt = some (m1, root1, out1))
    (hev : validCircleEvent m.events evt = some (c, sa))
    (hnb : squeezeNeighbours m.items sa = some (leftEdge, rightEdge, leftArc, rightArc))
    (ha : derefArc m.items sa = some a) (hl : derefArc m.items leftArc = some l)
    (hr : derefArc m.items rightArc = some r)
    (hcl : distSq c a.focus = distSq c l.focus) (hcr : distSq c a.focus = distSq c r.focus) :
    distSq edgeStart newPoint = distSq edgeStart replaced.focus ∧
    distSq (startupEdgeStart newFocus activeFocus) newFocus
      = distSq (startupEdgeStart newFocus activeFocus) activeFocus ∧
    ∃ e, derefEdge m1.items m.items.length = some e ∧ e.start = c ∧
      distSq e.start l.focus = distSq e.start r.focus := by
  refine ⟨newEdgeGeometry_start hgeo, ?_, ?_⟩
  · unfold distSq startupEdgeStart
    simp only
    rw [hlevel]
    ring
  · obtain ⟨c2, sa2, _, _, _, _, _, _, dir, hv, _, _, _, hd, _⟩ :=
      RemoveArcFromBeachline_new_edge hrem
    rw [hev] at hv
    cases hv
    exact ⟨_, hd, rfl, by rw [← hcl, hcr]⟩

end C2

set_option maxRecDepth 100000

/-- Witness of C2 (amended), on the run on `levelSites`. -/
theorem C2_witness :
    (newEdgeGeometry envQ0 (⟨⟨-7, 24⟩, none⟩ : Arc ℚ) ⟨-25, 0⟩ (0 : ℚ)
        = some (⟨-25, 75 / 4⟩, ⟨-4 / 5, 3 / 5⟩) ∧
     (24 : ℚ) = 24 ∧
     RemoveArcFromBeachline envQ0 (queuePop levelMem 3) 2 [] 3
        = some (levelMemAfter, 8,
            [⟨⟨-25, 75 / 4⟩, ⟨0, 0⟩⟩, ⟨⟨0, 340282346638528859811704183484516925440⟩, ⟨0, 124⟩⟩]) ∧
     validCircleEvent (queuePop levelMem 3).events 3 = some (⟨0, 0⟩, 4) ∧
     squeezeNeighbours (queuePop levelMem 3).items 4 = some (7, 2, 5, 1) ∧
     derefArc (queuePop levelMem 3).items 4 = some ⟨⟨-7, 24⟩, some 3⟩ ∧
     derefArc (queuePop levelMem 3).items 5 = some ⟨⟨-25, 0⟩, none⟩ ∧
     derefArc (queuePop levelMem 3).items 1 = some ⟨⟨7, 24⟩, none⟩ ∧
     distSq (⟨0, 0⟩ : Vector2 ℚ) ⟨-7, 24⟩ = distSq (⟨0, 0⟩ : Vector2 ℚ) ⟨-25, 0⟩ ∧
     distSq (⟨0, 0⟩ : Vector2 ℚ) ⟨-7, 24⟩ = distSq (⟨0, 0⟩ : Vector2 ℚ) ⟨7, 24⟩) ∧
    (distSq (⟨-25, 75 / 4⟩ : Vector2 ℚ) ⟨-25, 0⟩ = distSq (⟨-25, 75 / 4⟩ : Vector2 ℚ) ⟨-7, 24⟩ ∧
     distSq (startupEdgeStart (⟨7, 24⟩ : Vector2 ℚ) ⟨-7, 24⟩) ⟨7, 24⟩
       = distSq (startupEdgeStart (⟨7, 24⟩ : Vector2 ℚ) ⟨-7, 24⟩) ⟨-7, 24⟩ ∧
     ∃ e, derefEdge levelMemAfter.items (queuePop levelMem 3).items.length = some e ∧
       e.start = ⟨0, 0⟩ ∧ distSq e.start (⟨-25, 0⟩ : Vector2 ℚ) = distSq e.start (⟨7, 24⟩ : Vector2 ℚ)) :=
  ⟨⟨by decide!, rfl, by decide!, by decide!, by decide!, by decide!, by decide!, by decide!,
    by decide!, by decide!⟩,
   C2_edge_start_equidistant envQ0 ⟨⟨-7, 24⟩, none⟩ ⟨-25, 0⟩ ⟨-25, 75 / 4⟩ ⟨-4 / 5, 3 / 5⟩
     (by decide!) ⟨7, 24⟩ ⟨-7, 24⟩ rfl (queuePop levelMem 3) levelMemAfter 2 8 3 []
     [⟨⟨-25, 75 / 4⟩, ⟨0, 0⟩⟩, ⟨⟨0, 340282346638528859811704183484516925440⟩, ⟨0, 124⟩⟩]
     ⟨0, 0⟩ 4 7 2 5 1 ⟨⟨-7, 24⟩, some 3⟩ ⟨⟨-25, 0⟩, none⟩ ⟨⟨7, 24⟩, none⟩
     (by decide!) (by decide!) (by decide!) (by decide!) (by decide!) (by decide!) (by decide!)
     (by decide!)⟩

/-- Counterexample to C2: the start-up loop, on the sites (0,0) and (9,-11/16) whose y differ by
less than 1, creates the unbounded edge with start (9/2, 1589/16) between the arcs of the two
sites; that point is not equidistant from the two sites. -/
theorem C2_counterexample :
    ∃ m : Mem ℚ, bootstrap envQ0 [⟨0, 0⟩, ⟨9, -11 / 16⟩] (-1000) = some (Bootstrap.entered m 2) ∧
      ¬ EdgeStartEquidistant m.items 2 := by
  refine ⟨{ items := [some ⟨ItemData.arc ⟨⟨0, 0⟩, none⟩, some 2, none, none⟩,
                      some ⟨ItemData.arc ⟨⟨9, -11 / 16⟩, none⟩, some 2, none, none⟩,
                      some ⟨ItemData.edge ⟨⟨9 / 2, 1589 / 16⟩, ⟨0, -1⟩, true⟩, none, some 0, some 1⟩],
            events := [none, none], queue := [], pops := 2 }, by decide!, ?_⟩
  intro h
  have h1 := h ⟨⟨9 / 2, 1589 / 16⟩, ⟨0, -1⟩, true⟩ 0 1 ⟨⟨0, 0⟩, none⟩ ⟨⟨9, -11 / 16⟩, none⟩
    (by decide!) (by decide!) (by decide!) (by decide!) (by decide!)
  exact absurd h1 (by decide!)

/-- Witness of C3: the three sites of test case 3b with the cutoff 1000. -/
theorem C3_witness :
    (([⟨300, 300⟩, ⟨200, 300⟩, ⟨400, 300⟩] : List (Vector2 ℚ)) ≠ [] ∧
     ∀ p ∈ ([⟨300, 300⟩, ⟨200, 300⟩, ⟨400, 300⟩] : List (Vector2 ℚ)), p.y < 1000) ∧
    ∃ r, FortunesAlgorithm envQ0 0 [⟨300, 300⟩, ⟨200, 300⟩, ⟨400, 300⟩] 1000 = some r ∧
      r.edges = [] ∧ r.beachlineRoot = none ∧ r.unencounteredEvents.length = 3 ∧
      (r.unencounteredEvents.map (sitePoint r.events)).Perm
        (([⟨300, 300⟩, ⟨200, 300⟩, ⟨400, 300⟩] : List (Vector2 ℚ)).map some) :=
  ⟨⟨by decide, by decide!⟩,
   C3_cutoff_above_every_site envQ0 0 [⟨300, 300⟩, ⟨200, 300⟩, ⟨400, 300⟩] 1000 (by decide)
     (by decide!)⟩

section C5
variable {F : Type} [LinearOrderedField F]

/-- `FinishEdge` only appends to the list of edges. -/
theorem FinishEdge_appends (fuel : Nat) (items : Items F) (item : Option Nat)
    (edges : List (CompleteEdge F)) (items1 : Items F) (edges1 : List (CompleteEdge F))
    (h : FinishEdge fuel items item edges = some (items1, edges1)) :
    ∃ more, edges1 = edges ++ more := by
  induction fuel generalizing items item edges items1 edges1 with
  | zero =>
    cases item with
    | none => simp only [FinishEdge, Option.some.injEq, Prod.mk.injEq] at h; exact ⟨[], by simp [h.2]⟩
    | some i => simp [FinishEdge] at h
  | succ fuel ih =>
    cases item with
    | none => simp only [FinishEdge, Option.some.injEq, Prod.mk.injEq] at h; exact ⟨[], by simp [h.2]⟩
    | some i =>
      simp only [FinishEdge] at h
      split at h
      · cases h
      · split at h
        · split at h
          · cases h
          · next itemsL edgesL hL =>
            split at h
            · cases h
            · split at h
              · cases h
              · next itemsR edgesR hR =>
                simp only [Option.some.injEq, Prod.mk.injEq] at h
                obtain ⟨moreL, hmL⟩ := ih _ _ _ _ _ hL
                obtain ⟨moreR, hmR⟩ := ih _ _ _ _ _ hR
                rw [← h.2, hmR, hmL]
                exact ⟨_, by rw [List.append_assoc, List.append_assoc]⟩
        · simp only [Option.some.injEq, Prod.mk.injEq] at h
          exact ⟨[], by simp [h.2]⟩

/-- `FinishEdge` on an edge node returns at least one edge. -/
theorem FinishEdge_edge_ne_nil (fuel : Nat) (items : Items F) (root : Nat) (e : Edge F)
    (edges : List (CompleteEdge F)) (items1 : Items F) (edges1 : List (CompleteEdge F))
    (he : derefEdge items root = some e)
    (h : FinishEdge fuel items (some root) edges = some (items1, edges1)) : edges1 ≠ [] := by
  cases fuel with
  | zero => simp [FinishEdge] at h
  | succ fuel =>
    simp only [FinishEdge] at h
    unfold derefEdge at he
    split at h
    · cases h
    · next it hit =>
      rw [hit] at he
      split at h
      · split at h
        · cases h
        · next itemsL edgesL hL =>
          split at h
          · cases h
          · split at h
            · cases h
            · next itemsR edgesR hR =>
              simp only [Option.some.injEq, Prod.mk.injEq] at h
              obtain ⟨moreL, hmL⟩ := FinishEdge_appends _ _ _ _ _ _ hL
              obtain ⟨moreR, hmR⟩ := FinishEdge_appends _ _ _ _ _ _ hR
              rw [← h.2, hmR, hmL]
              simp
      · next a hdat =>
        simp [hdat, ItemData.edge?] at he

/-- C5 (amended): with a cutoff strictly below -200, a run that returns has no remaining
beachline root; its list of complete edges is not empty when the root at the end of the main
loop is an edge node, that is when the beachline then has at least two arcs. -/
theorem C5_deep_cutoff_discards_tree (env : Env F) (fuel : Nat) (sites : List (Vector2 F))
    (cutoffY : F) (r : FortuneState F) (hcut : cutoffY < -200)
    (hrun : FortunesAlgorithm env fuel sites cutoffY = some r) :
    r.beachlineRoot = none ∧
    ∀ m root m4 root1 edges e, bootstrap env sites cutoffY = some (Bootstrap.entered m root) →
      mainLoop env cutoffY fuel m root [] = some (m4, root1, edges) →
      derefEdge m4.items root1 = some e → r.edges ≠ [] := by
  unfold FortunesAlgorithm at hrun
  cases hb : bootstrap env sites cutoffY with
  | none => simp [hb] at hrun
  | some b =>
    cases b with
    | aborted result =>
      simp only [hb, Option.some.injEq] at hrun
      subst hrun
      refine ⟨?_, fun m root m4 root1 edges e h => by cases h⟩
      unfold bootstrap at hb
      simp only at hb
      revert hb
      repeat' split
      all_goals intro hb
      all_goals first
        | (cases hb; rfl)
        | cases hb
    | entered m3 root =>
      simp only [hb] at hrun
      cases hm : mainLoop env cutoffY fuel m3 root [] with
      | none => simp [hm] at hrun
      | some res =>
        obtain ⟨m4, root1, edges⟩ := res
        simp only [hm] at hrun
        unfold assembleResult at hrun
        have hc : m4.queue = [] ∨ cutoffY < -200 := Or.inr hcut
        rw [if_pos hc] at hrun
        cases hf : FinishEdge (m4.items.length + 1) m4.items (some root1) edges with
        | none => simp [hf] at hrun
        | some fr =>
          obtain ⟨items1, edges1⟩ := fr
          simp only [hf] at hrun
          cases hd : drainQueue env (m4.queue.length + 1) m4 [] with
          | none => simp [hd] at hrun
          | some dr =>
            simp only [hd, Option.some.injEq] at hrun
            subst hrun
            refine ⟨rfl, ?_⟩
            intro m root2 m5 root3 edges2 e h1 h2 h3
            simp only [Option.some.injEq, Bootstrap.entered.injEq] at h1
            obtain ⟨rfl, rfl⟩ := h1
            rw [hm] at h2
            simp only [Option.some.injEq, Prod.mk.injEq] at h2
            obtain ⟨rfl, rfl, rfl⟩ := h2
            exact FinishEdge_edge_ne_nil _ _ _ _ _ _ _ h3 hf

end C5

set_option maxRecDepth 100000

/-- Witness of C5 (amended): the run on `levelSites` with the cutoff -1000. -/
theorem C5_witness :
    ((-1000 : ℚ) < -200 ∧ FortunesAlgorithm envQ0 3 levelSites (-1000) = some levelResult) ∧
    (levelResult.beachlineRoot = none ∧
     ∀ m root m4 root1 edges e, bootstrap envQ0 levelSites (-1000) = some (Bootstrap.entered m root) →
      mainLoop envQ0 (-1000) 3 m root [] = some (m4, root1, edges) →
      derefEdge m4.items root1 = some e → levelResult.edges ≠ []) :=
  ⟨⟨by decide!, by decide!⟩,
   C5_deep_cutoff_discards_tree envQ0 3 levelSites (-1000) levelResult (by decide!) (by decide!)⟩

/-- Counterexample to C5: at the cutoff -200 itself the run on (0,0), (0,-300) returns the
beachline root 0 and no complete edge; at the cutoff -500 the run on the single site (0,0)
returns no complete edge. -/
theorem C5_counterexample :
    (([⟨0, 0⟩, ⟨0, -300⟩] : List (Vector2 ℚ)) ≠ [] ∧ (-200 : ℚ) ≤ -200 ∧
      ¬ DeepCutoffResult envQ0 1 [⟨0, 0⟩, ⟨0, -300⟩] (-200)) ∧
    (([⟨0, 0⟩] : List (Vector2 ℚ)) ≠ [] ∧ (-500 : ℚ) ≤ -200 ∧
      ¬ DeepCutoffResult envQ0 1 [⟨0, 0⟩] (-500)) := by
  refine ⟨⟨by decide, by decide!, ?_⟩, ⟨by decide, by decide!, ?_⟩⟩
  · intro h
    have h1 := h { sweepY := 0, edges := [], unencounteredEvents := [1], beachlineRoot := some 0,
                   items := [some ⟨ItemData.arc ⟨⟨0, 0⟩, none⟩, none, none, none⟩],
                   events := [none, some ⟨-300, EventData.newPoint ⟨0, -300⟩⟩] } (by decide!)
    exact absurd h1.1 (by decide)
  · intro h
    have h1 := h { sweepY := 0, edges := [], unencounteredEvents := [], beachlineRoot := none,
                   items := [none], events := [none] } (by decide!)
    exact h1.2 rfl

/-- C7 (evaluation at the failing input): in the run on `levelSites` the circle event with
vertex (0,0) squeezes an arc whose right bounding edge is the unbounded start-up edge with
start (0,124).  The second edge emitted joins (0, FLT_MAX) to (0,124): the vertex is not one of
its endpoints and the y of the start of the unbounded edge is not replaced.  In general, for a
right bounding edge flagged `extendsUpwardsForever`, the second edge emitted joins the vertex
with its y replaced by `FLT_MAX` to the start of that edge. -/
theorem C7_right_unbounded_edge_evaluation :
    (FortunesAlgorithm envQ0 3 levelSites (-1000)).map (fun r => r.edges.take 2)
      = some [⟨⟨-25, 75 / 4⟩, ⟨0, 0⟩⟩,
              ⟨⟨0, 340282346638528859811704183484516925440⟩, ⟨0, 124⟩⟩] ∧
    ∀ (F : Type) (_ : LinearOrderedField F) (env : Env F) (le : Edge F)
      (start dir c : Vector2 F),
      (squeezeEdges env le ⟨start, dir, true⟩ c).2 = ⟨⟨c.x, env.FLT_MAX⟩, start⟩ :=
  ⟨by decide!, fun F _ env le start dir c => rfl⟩

section TreeLemmas
variable {F : Type}

theorem free_comm {α : Type} (h : List (Option α)) (a b : Nat) :
    free (free h a) b = free (free h b) a := by
  unfold free
  by_cases hab : a = b
  · subst hab; rfl
  · exact List.set_comm _ _ _ hab

theorem freeAll_free {α : Type} (h : List (Option α)) (a : Nat) (l : List Nat) :
    freeAll (free h a) l = free (freeAll h l) a := by
  induction l generalizing h with
  | nil => rfl
  | cons b rest ih =>
    simp only [freeAll]
    rw [free_comm, ih]

theorem freeAll_append {α : Type} (h : List (Option α)) (l1 l2 : List Nat) :
    freeAll h (l1 ++ l2) = freeAll (freeAll h l1) l2 := by
  induction l1 generalizing h with
  | nil => rfl
  | cons b rest ih =>
    simp only [List.cons_append, freeAll]
    exact ih _

theorem deref_freeAll_of_not_mem {α : Type} (h : List (Option α)) (l : List Nat) (b : Nat)
    (hb : b ∉ l) : deref (freeAll h l) b = deref h b := by
  induction l generalizing h with
  | nil => rfl
  | cons a rest ih =>
    simp only [freeAll]
    rw [ih _ (fun hm => hb (List.mem_cons_of_mem _ hm)),
      deref_free_ne _ _ _ (fun hab => hb (by rw [hab]; exact List.mem_cons_self _ _))]

theorem deref_freeAll_of_mem {α : Type} (h : List (Option α)) (l : List Nat) (b : Nat)
    (hb : b ∈ l) : deref (freeAll h l) b = none := by
  induction l generalizing h with
  | nil => cases hb
  | cons a rest ih =>
    simp only [freeAll]
    by_cases hr : b ∈ rest
    · exact ih _ hr
    · rcases List.mem_cons.mp hb with rfl | hb2
      · rw [deref_freeAll_of_not_mem _ _ _ hr, deref_free_same]
      · exact absurd hb2 hr

@[simp] theorem length_freeAll {α : Type} (h : List (Option α)) (l : List Nat) :
    (freeAll h l).length = h.length := by
  induction l generalizing h with
  | nil => rfl
  | cons a rest ih => simp only [freeAll, ih, length_free]

theorem Tree.addr_mem_addrs (t : Tree F) : t.addr ∈ t.addrs := by
  cases t <;> simp [Tree.addr, Tree.addrs]

/-- `Repr` only reads the records at the addresses of the tree. -/
theorem Repr_congr {items items1 : Items F} {t : Tree F} {p : Option Nat}
    (hagree : ∀ a ∈ t.addrs, deref items1 a = deref items a) (h : Repr items p t) :
    Repr items1 p t := by
  induction t generalizing p with
  | leaf a arc =>
    simp only [Repr] at h ⊢
    rw [hagree a (by simp [Tree.addrs]), h]
  | node a e l r ihl ihr =>
    simp only [Repr] at h ⊢
    refine ⟨?_, ihl ?_ h.2.1, ihr ?_ h.2.2⟩
    · rw [hagree a (by simp [Tree.addrs]), h.1]
    · intro b hb; exact hagree b (by simp [Tree.addrs, hb])
    · intro b hb; exact hagree b (by simp [Tree.addrs, hb])

theorem Repr_lt_length {items : Items F} {t : Tree F} {p : Option Nat} (h : Repr items p t) :
    ∀ a ∈ t.addrs, a < items.length := by
  induction t generalizing p with
  | leaf a arc =>
    intro b hb
    simp only [Tree.addrs, List.mem_singleton] at hb
    subst hb
    exact deref_lt_length h
  | node a e l r ihl ihr =>
    intro b hb
    simp only [Tree.addrs, List.mem_cons, List.mem_append] at hb
    rcases hb with rfl | hb | hb
    · exact deref_lt_length h.1
    · exact ihl h.2.1 b hb
    · exact ihr h.2.2 b hb

theorem nodup_bounded_length (l : List Nat) (n : Nat) (hn : l.Nodup) (hb : ∀ a ∈ l, a < n) :
    l.length ≤ n := by
  have h1 : l.toFinset ⊆ Finset.range n := by
    intro a ha
    rw [List.mem_toFinset] at ha
    exact Finset.mem_range.mpr (hb a ha)
  have h2 := Finset.card_le_card h1
  rw [List.toFinset_card_of_nodup hn, Finset.card_range] at h2
  exact h2

theorem Tree.height_lt_length_addrs (t : Tree F) : t.height < t.addrs.length := by
  induction t with
  | leaf a arc => simp [Tree.height, Tree.addrs]
  | node a e l r ihl ihr =>
    simp only [Tree.height, Tree.addrs, List.length_cons, List.length_append]
    omega

theorem WellFormed.height_lt {items : Items F} {root : Nat} {t : Tree F}
    (h : WellFormed items root t) : t.height < items.length :=
  lt_of_lt_of_le t.height_lt_length_addrs
    (nodup_bounded_length _ _ h.2.2 (Repr_lt_length h.2.1))

end TreeLemmas

section C6
variable {F : Type} [LinearOrderedField F]

/-- `FinishEdge` on a tree held by the arena: it deletes the records of the tree and appends the
finished edges of its edge nodes. -/
theorem FinishEdge_spec (t : Tree F) (fuel : Nat) (items : Items F) (p : Option Nat)
    (edges : List (CompleteEdge F)) (hrepr : Repr items p t) (hnd : t.addrs.Nodup)
    (hfuel : t.height < fuel) :
    FinishEdge fuel items (some t.addr) edges
      = some (freeAll items t.addrs, edges ++ t.edges.map finishedEdge) := by
  induction t generalizing fuel items p edges with
  | leaf a arc =>
    cases fuel with
    | zero => omega
    | succ fuel =>
      simp only [Repr] at hrepr
      rw [show (Tree.leaf a arc).addr = a from rfl]
      simp [FinishEdge, hrepr, Tree.addrs, Tree.edges, freeAll]
  | node a e l r ihl ihr =>
    cases fuel with
    | zero => omega
    | succ fuel =>
      simp only [Repr] at hrepr
      obtain ⟨ha, hl, hr⟩ := hrepr
      simp only [Tree.addrs, List.nodup_cons, List.mem_append, not_or] at hnd
      obtain ⟨⟨hal, har⟩, hnd2⟩ := hnd
      have hndl : l.addrs.Nodup := (List.nodup_append.mp hnd2).1
      have hndr : r.addrs.Nodup := (List.nodup_append.mp hnd2).2.1
      have hdisj : ∀ b ∈ r.addrs, b ∉ l.addrs := fun b hb hb2 =>
        (List.nodup_append.mp hnd2).2.2 hb2 hb
      simp only [Tree.height] at hfuel
      have hfl : l.height < fuel := by omega
      have hfr : r.height < fuel := by omega
      have h1 := ihl fuel items (some a) (edges ++ [finishedEdge e]) hl hndl hfl
      have ha1 : deref (freeAll items l.addrs) a = some
          { data := ItemData.edge e, parent := p, left := some l.addr, right := some r.addr } := by
        rw [deref_freeAll_of_not_mem _ _ _ hal, ha]
      have hr1 : Repr (freeAll items l.addrs) (some a) r :=
        Repr_congr (fun b hb => deref_freeAll_of_not_mem _ _ _ (hdisj b hb)) hr
      have h2 := ihr fuel (freeAll items l.addrs) (some a)
        (edges ++ [finishedEdge e] ++ l.edges.map finishedEdge) hr1 hndr hfr
      simp only [finishedEdge] at h1 h2
      rw [show (Tree.node a e l r).addr = a from rfl]
      simp only [FinishEdge, ha, h1, ha1, h2]
      congr 2
      · simp only [Tree.addrs, freeAll]
        rw [freeAll_free, freeAll_append]
      · simp [Tree.edges, List.append_assoc, finishedEdge]

end C6

section C6thm
variable {F : Type} [LinearOrderedField F]

/-- C6: on a well-formed beachline tree, `FinishEdge` (with the fuel the driver gives it)
returns; it appends exactly one complete edge per edge node of the tree, from the start of the
edge to the start plus 10000 times its direction, and none for the arcs, and it deletes the
records of the tree.  The result assembled after the main loop has no beachline root when the
queue is then empty or the cutoff is below -200. -/
theorem C6_FinishEdge_one_edge_per_edge_node (items : Items F) (root : Nat) (t : Tree F)
    (edges : List (CompleteEdge F)) (hwf : WellFormed items root t) :
    FinishEdge (items.length + 1) items (some root) edges
      = some (freeAll items t.addrs, edges ++ t.edges.map finishedEdge) ∧
    (∀ e : Edge F, (finishedEdge e).endpointA = e.start ∧
      (finishedEdge e).endpointB
        = ⟨e.start.x + 10000 * e.direction.x, e.start.y + 10000 * e.direction.y⟩) ∧
    ∀ (env : Env F) (cutoffY : F) (m : Mem F) (root1 : Nat) (edges1 : List (CompleteEdge F))
      (r : FortuneState F), (m.queue = [] ∨ cutoffY < -200) →
      assembleResult env cutoffY m root1 edges1 = some r → r.beachlineRoot = none := by
  refine ⟨?_, fun e => ⟨rfl, rfl⟩, ?_⟩
  · have h := FinishEdge_spec t (items.length + 1) items none edges hwf.2.1 hwf.2.2
      (Nat.lt_succ_of_lt hwf.height_lt)
    rw [hwf.1] at h
    exact h
  · intro env cutoffY m root1 edges1 r hc hr
    unfold assembleResult at hr
    rw [if_pos hc] at hr
    cases hf : FinishEdge (m.items.length + 1) m.items (some root1) edges1 with
    | none => simp [hf] at hr
    | some fr =>
      simp only [hf] at hr
      cases hd : drainQueue env (m.queue.length + 1) m [] with
      | none => simp [hd] at hr
      | some dr =>
        simp only [hd, Option.some.injEq] at hr
        rw [← hr]

end C6thm

set_option maxRecDepth 100000

/-- Witness of C6: the beachline of the run on `levelSites` after the third site is inserted. -/
theorem C6_witness :
    WellFormed levelMem.items 2 levelTree ∧
    (FinishEdge (levelMem.items.length + 1) levelMem.items (some 2) []
      = some (freeAll levelMem.items levelTree.addrs, [] ++ levelTree.edges.map finishedEdge) ∧
    (∀ e : Edge ℚ, (finishedEdge e).endpointA = e.start ∧
      (finishedEdge e).endpointB
        = ⟨e.start.x + 10000 * e.direction.x, e.start.y + 10000 * e.direction.y⟩) ∧
    ∀ (env : Env ℚ) (cutoffY : ℚ) (m : Mem ℚ) (root1 : Nat) (edges1 : List (CompleteEdge ℚ))
      (r : FortuneState ℚ), (m.queue = [] ∨ cutoffY < -200) →
      assembleResult env cutoffY m root1 edges1 = some r → r.beachlineRoot = none) :=
  have hwf : WellFormed levelMem.items 2 levelTree :=
    ⟨rfl, by decide!, by decide⟩
  ⟨hwf, C6_FinishEdge_one_edge_per_edge_node levelMem.items 2 levelTree [] hwf⟩

section Navigation
variable {F : Type}

theorem Repr_root {items : Items F} {p : Option Nat} {t : Tree F} (h : Repr items p t) :
    ∃ it, deref items t.addr = some it ∧ it.parent = p := by
  cases t with
  | leaf a arc => exact ⟨_, h, rfl⟩
  | node a e l r => exact ⟨_, h.1, rfl⟩

theorem Tree.rspine_le_height (t : Tree F) : t.rspine ≤ t.height := by
  induction t with
  | leaf a arc => simp [Tree.rspine, Tree.height]
  | node a e l r ihl ihr => simp only [Tree.rspine, Tree.height]; omega

theorem Tree.lspine_le_height (t : Tree F) : t.lspine ≤ t.height := by
  induction t with
  | leaf a arc => simp [Tree.lspine, Tree.height]
  | node a e l r ihl ihr => simp only [Tree.lspine, Tree.height]; omega

/-- The rightmost leaf is an arc of the arena, the last of the leaves. -/
theorem Repr_rightmost {items : Items F} {p : Option Nat} {t : Tree F} (h : Repr items p t) :
    ∃ arc, derefArc items t.rightmost = some arc ∧ (t.rightmost, arc) ∈ t.leaves ∧
      ∃ it, deref items t.rightmost = some it ∧ it.isArc = true := by
  induction t generalizing p with
  | leaf a arc =>
    simp only [Repr] at h
    exact ⟨arc, by simp [derefArc, Tree.rightmost, h, ItemData.arc?],
      by simp [Tree.rightmost, Tree.leaves], _, h, rfl⟩
  | node a e l r ihl ihr =>
    obtain ⟨arc, h1, h2, h3⟩ := ihr h.2.2
    exact ⟨arc, h1, by simp [Tree.leaves, Tree.rightmost, h2], h3⟩

theorem Repr_leftmost {items : Items F} {p : Option Nat} {t : Tree F} (h : Repr items p t) :
    ∃ arc, derefArc items t.leftmost = some arc ∧ (t.leftmost, arc) ∈ t.leaves ∧
      ∃ it, deref items t.leftmost = some it ∧ it.isArc = true := by
  induction t generalizing p with
  | leaf a arc =>
    simp only [Repr] at h
    exact ⟨arc, by simp [derefArc, Tree.leftmost, h, ItemData.arc?],
      by simp [Tree.leftmost, Tree.leaves], _, h, rfl⟩
  | node a e l r ihl ihr =>
    obtain ⟨arc, h1, h2, h3⟩ := ihl h.2.1
    exact ⟨arc, h1, by simp [Tree.leaves, Tree.leftmost, h2], h3⟩

theorem descendRight_spec (t : Tree F) (fuel : Nat) (items : Items F) (p : Option Nat)
    (h : Repr items p t) (hf : t.rspine < fuel) :
    descendRight items fuel t.addr = some t.rightmost := by
  induction t generalizing fuel p with
  | leaf a arc =>
    cases fuel with
    | zero => omega
    | succ fuel =>
      simp only [Repr] at h
      rw [show (Tree.leaf a arc).addr = a from rfl]
      simp [descendRight, h, Tree.rightmost]
  | node a e l r ihl ihr =>
    cases fuel with
    | zero => omega
    | succ fuel =>
      simp only [Tree.rspine] at hf
      rw [show (Tree.node a e l r).addr = a from rfl]
      simp only [descendRight, h.1, Option.bind_eq_bind, Option.some_bind, Tree.rightmost]
      exact ihr fuel (some a) h.2.2 (by omega)

theorem descendLeft_spec (t : Tree F) (fuel : Nat) (items : Items F) (p : Option Nat)
    (h : Repr items p t) (hf : t.lspine < fuel) :
    descendLeft items fuel t.addr = some t.leftmost := by
  induction t generalizing fuel p with
  | leaf a arc =>
    cases fuel with
    | zero => omega
    | succ fuel =>
      simp only [Repr] at h
      rw [show (Tree.leaf a arc).addr = a from rfl]
      simp [descendLeft, h, Tree.leftmost]
  | node a e l r ihl ihr =>
    cases fuel with
    | zero => omega
    | succ fuel =>
      simp only [Tree.lspine] at hf
      rw [show (Tree.node a e l r).addr = a from rfl]
      simp only [descendLeft, h.1, Option.bind_eq_bind, Option.some_bind, Tree.leftmost]
      exact ihl fuel (some a) h.2.1 (by omega)

/-- Climbing from the rightmost leaf of a subtree reaches its root after `rspine` steps. -/
theorem climbWhileRightChild_spine (t : Tree F) (items : Items F) (p : Option Nat) (f : Nat)
    (h : Repr items p t) :
    climbWhileRightChild items (f + t.rspine) t.rightmost = climbWhileRightChild items f t.addr := by
  induction t generalizing p f with
  | leaf a arc => rfl
  | node a e l r ihl ihr =>
    simp only [Tree.rspine, Tree.rightmost]
    rw [show f + (r.rspine + 1) = (f + 1) + r.rspine by omega, ihr (some a) (f + 1) h.2.2]
    obtain ⟨it, hit, hp⟩ := Repr_root h.2.2
    rw [show (Tree.node a e l r).addr = a from rfl]
    simp [climbWhileRightChild, hit, hp, h.1]

theorem climbWhileLeftChild_spine (t : Tree F) (items : Items F) (p : Option Nat) (f : Nat)
    (h : Repr items p t) :
    climbWhileLeftChild items (f + t.lspine) t.leftmost = climbWhileLeftChild items f t.addr := by
  induction t generalizing p f with
  | leaf a arc => rfl
  | node a e l r ihl ihr =>
    simp only [Tree.lspine, Tree.leftmost]
    rw [show f + (l.lspine + 1) = (f + 1) + l.lspine by omega, ihl (some a) (f + 1) h.2.1]
    obtain ⟨it, hit, hp⟩ := Repr_root h.2.1
    rw [show (Tree.node a e l r).addr = a from rfl]
    simp [climbWhileLeftChild, hit, hp, h.1]

/-- At an edge node of a well-formed tree, the first leaf on the left is the rightmost leaf of
the left subtree and its first parent on the right is the node itself. -/
theorem neighbours_left {items : Items F} {p : Option Nat} {a : Nat} {e : Edge F} {l r : Tree F}
    (h : Repr items p (Tree.node a e l r)) (hne : l.addr ≠ r.addr)
    (hlen : l.height + 1 < items.length) :
    GetFirstLeafOnTheLeft items a = some (some l.rightmost) ∧
    GetFirstParentOnTheRight items l.rightmost = some (some a) := by
  have hsp : l.rspine < items.length := by have := l.rspine_le_height; omega
  obtain ⟨arc, -, -, it, hit, harc⟩ := Repr_rightmost h.2.1
  obtain ⟨lt, hlt, hlp⟩ := Repr_root h.2.1
  constructor
  · simp [GetFirstLeafOnTheLeft, h.1, descendRight_spec l _ items (some a) h.2.1 hsp, hit, harc]
  · unfold GetFirstParentOnTheRight
    obtain ⟨f, hf⟩ : ∃ f, items.length = (f + 1) + l.rspine := ⟨items.length - l.rspine - 1, by omega⟩
    rw [hf, climbWhileRightChild_spine l items (some a) (f + 1) h.2.1]
    have hstop : climbWhileRightChild items (f + 1) l.addr = some l.addr := by
      simp [climbWhileRightChild, hlt, hlp, h.1, Ne.symm hne]
    rw [hstop]
    simp [parentChecked, hlt, hlp, h.1, BeachlineItem.isEdge]

theorem neighbours_right {items : Items F} {p : Option Nat} {a : Nat} {e : Edge F} {l r : Tree F}
    (h : Repr items p (Tree.node a e l r)) (hne : l.addr ≠ r.addr)
    (hlen : r.height + 1 < items.length) :
    GetFirstLeafOnTheRight items a = some (some r.leftmost) ∧
    GetFirstParentOnTheLeft items r.leftmost = some (some a) := by
  have hsp : r.lspine < items.length := by have := r.lspine_le_height; omega
  obtain ⟨arc, -, -, it, hit, harc⟩ := Repr_leftmost h.2.2
  obtain ⟨rt, hrt, hrp⟩ := Repr_root h.2.2
  constructor
  · simp [GetFirstLeafOnTheRight, h.1, descendLeft_spec r _ items (some a) h.2.2 hsp, hit, harc]
  · unfold GetFirstParentOnTheLeft
    obtain ⟨f, hf⟩ : ∃ f, items.length = (f + 1) + r.lspine := ⟨items.length - r.lspine - 1, by omega⟩
    rw [hf, climbWhileLeftChild_spine r items (some a) (f + 1) h.2.2]
    have hstop : climbWhileLeftChild items (f + 1) r.addr = some r.addr := by
      simp [climbWhileLeftChild, hrt, hrp, h.1, hne]
    rw [hstop]
    simp [parentChecked, hrt, hrp, h.1, BeachlineItem.isEdge]

end Navigation

section ActiveArc
variable {F : Type} [LinearOrderedField F]

theorem GetArcYForXCoord_of_ne (arc : Arc F) (x d : F) (h : arc.focus.y ≠ d) :
    GetArcYForXCoord arc x d
      = some (1 / (2 * (arc.focus.y - d)) * (x - arc.focus.x) * (x - arc.focus.x)
          + (arc.focus.y + d) * (1 / 2)) := by
  unfold GetArcYForXCoord
  have h2 : 2 * (arc.focus.y - d) ≠ 0 := by
    intro h0
    apply h
    have : arc.focus.y - d = 0 := by
      rcases mul_eq_zero.mp h0 with h1 | h1
      · norm_num at h1
      · exact h1
    exact sub_eq_zero.mp this
  rw [fdiv_of_ne_zero h2]
  rfl

/-- `GetEdgeArcIntersectionPoint` never fails: its assertion always holds. -/
theorem GetEdgeArcIntersectionPoint_isSome (env : Env F) (edge : Edge F) (arc : Arc F) (d : F) :
    ∃ res, GetEdgeArcIntersectionPoint env edge arc d = some res := by
  unfold GetEdgeArcIntersectionPoint
  by_cases h1 : edge.direction.x = 0
  · simp only [h1, if_true]
    by_cases h2 : d = arc.focus.y
    · simp only [h2, if_true]
      split_ifs <;> exact ⟨_, rfl⟩
    · simp only [h2, if_false, GetArcYForXCoord_of_ne arc _ d (fun h => h2 h.symm)]
      exact ⟨_, rfl⟩
  · simp only [h1, if_false]
    by_cases h3 : arc.focus.y = d
    · simp only [h3, if_true]
      split_ifs <;> exact ⟨_, rfl⟩
    · simp only [h3, if_false, GetArcYForXCoord_of_ne arc _ d h3]
      split_ifs <;> exact ⟨_, rfl⟩

theorem breakpointX_isSome (env : Env F) {items : Items F} {p : Option Nat} {a : Nat} {e : Edge F}
    {l r : Tree F} (h : Repr items p (Tree.node a e l r)) (hne : l.addr ≠ r.addr)
    (hlen : (Tree.node a e l r).height < items.length) (x d : F) :
    ∃ ix, breakpointX env items a x d = some ix := by
  simp only [Tree.height] at hlen
  obtain ⟨hL1, hL2⟩ := neighbours_left h hne (by omega)
  obtain ⟨hR1, hR2⟩ := neighbours_right h hne (by omega)
  obtain ⟨la, hla, -, -⟩ := Repr_rightmost h.2.1
  obtain ⟨ra, hra, -, -⟩ := Repr_leftmost h.2.2
  obtain ⟨li, hli⟩ := GetEdgeArcIntersectionPoint_isSome env e la d
  obtain ⟨ri, hri⟩ := GetEdgeArcIntersectionPoint_isSome env e ra d
  have hde : derefEdge items a = some e := by simp [derefEdge, h.1, ItemData.edge?]
  unfold breakpointX
  simp only [hL1, hR1, hla, hra, hL2, hR2, if_true, hde, hli, hri]
  exact ⟨_, rfl⟩

/-- On a tree held by the arena, `GetActiveArcForXCoord` returns one of its arc leaves. -/
theorem GetActiveArcForXCoord_leaf (env : Env F) (t : Tree F) (fuel : Nat) (items : Items F)
    (p : Option Nat) (x d : F) (h : Repr items p t) (hnd : t.addrs.Nodup)
    (hfuel : t.height < fuel) (hlen : t.height < items.length) :
    ∃ act arc, GetActiveArcForXCoord env items fuel t.addr x d = some act ∧
      (act, arc) ∈ t.leaves := by
  induction t generalizing fuel p with
  | leaf a arc =>
    cases fuel with
    | zero => omega
    | succ fuel =>
      simp only [Repr] at h
      refine ⟨a, arc, ?_, by simp [Tree.leaves]⟩
      rw [show (Tree.leaf a arc).addr = a from rfl]
      simp [GetActiveArcForXCoord, h, BeachlineItem.isArc]
  | node a e l r ihl ihr =>
    cases fuel with
    | zero => omega
    | succ fuel =>
      have hne : l.addr ≠ r.addr := by
        intro heq
        simp only [Tree.addrs, List.nodup_cons] at hnd
        exact (List.nodup_append.mp hnd.2).2.2 l.addr_mem_addrs (heq ▸ r.addr_mem_addrs)
      obtain ⟨ix, hix⟩ := breakpointX_isSome env h hne hlen x d
      simp only [Tree.addrs, List.nodup_cons] at hnd
      simp only [Tree.height] at hfuel hlen
      rw [show (Tree.node a e l r).addr = a from rfl]
      simp only [GetActiveArcForXCoord, h.1, BeachlineItem.isArc, hix]
      by_cases hx : x < ix
      · obtain ⟨act, arc, h1, h2⟩ := ihl fuel (some a) h.2.1 (List.nodup_append.mp hnd.2).1
          (by omega) (by omega)
        exact ⟨act, arc, by simp [hx, h1], by simp [Tree.leaves, h2]⟩
      · obtain ⟨act, arc, h1, h2⟩ := ihr fuel (some a) h.2.2 (List.nodup_append.mp hnd.2).2.1
          (by omega) (by omega)
        exact ⟨act, arc, by simp [hx, h1], by simp [Tree.leaves, h2]⟩

end ActiveArc

section Replace
variable {F : Type}

theorem Tree.leaves_addr_mem {t : Tree F} {act : Nat} {aA : Arc F} (h : (act, aA) ∈ t.leaves) :
    act ∈ t.addrs := by
  induction t with
  | leaf a arc =>
    simp only [Tree.leaves, List.mem_singleton, Prod.mk.injEq] at h
    simp [Tree.addrs, h.1]
  | node a e l r ihl ihr =>
    simp only [Tree.leaves, List.mem_append] at h
    simp only [Tree.addrs, List.mem_cons, List.mem_append]
    rcases h with h | h
    · exact Or.inr (Or.inl (ihl h))
    · exact Or.inr (Or.inr (ihr h))

/-- The child pointers of the records of a tree point into the tree. -/
theorem Repr_children_mem {items : Items F} {p : Option Nat} {t : Tree F} (h : Repr items p t)
    {b c : Nat} {rec : BeachlineItem F} (hb : b ∈ t.addrs) (hrec : deref items b = some rec)
    (hc : rec.left = some c ∨ rec.right = some c) : c ∈ t.addrs := by
  induction t generalizing p with
  | leaf a arc =>
    simp only [Tree.addrs, List.mem_singleton] at hb
    subst hb
    simp only [Repr] at h
    rw [h] at hrec
    cases hrec
    simp at hc
  | node a e l r ihl ihr =>
    simp only [Tree.addrs, List.mem_cons, List.mem_append] at hb ⊢
    rcases hb with rfl | hb | hb
    · rw [h.1] at hrec
      cases hrec
      simp only [Option.some.injEq] at hc
      rcases hc with hc | hc
      · exact Or.inr (Or.inl (hc ▸ l.addr_mem_addrs))
      · exact Or.inr (Or.inr (hc ▸ r.addr_mem_addrs))
    · exact Or.inr (Or.inl (ihl h.2.1 hb))
    · exact Or.inr (Or.inr (ihr h.2.2 hb))

theorem Repr_deref_isSome {items : Items F} {p : Option Nat} {t : Tree F} (h : Repr items p t)
    {b : Nat} (hb : b ∈ t.addrs) : ∃ rec, deref items b = some rec := by
  induction t generalizing p with
  | leaf a arc =>
    simp only [Tree.addrs, List.mem_singleton] at hb
    subst hb
    exact ⟨_, h⟩
  | node a e l r ihl ihr =>
    simp only [Tree.addrs, List.mem_cons, List.mem_append] at hb
    rcases hb with rfl | hb | hb
    · exact ⟨_, h.1⟩
    · exact ihl h.2.1 hb
    · exact ihr h.2.2 hb

/-- The record of a leaf of the tree, and its parent: either the leaf is the root, or its
parent pointer is an edge node of the tree that has it as exactly one of its children. -/
theorem Repr_leaf_parent {items : Items F} {p : Option Nat} {t : Tree F} (h : Repr items p t)
    (hnd : t.addrs.Nodup) {act : Nat} {aA : Arc F} (hl : (act, aA) ∈ t.leaves) :
    ∃ q, deref items act
        = some { data := ItemData.arc aA, parent := q, left := none, right := none } ∧
      ((q = p ∧ t = Tree.leaf act aA) ∨
       ∃ pa rec, q = some pa ∧ pa ∈ t.addrs ∧ deref items pa = some rec ∧ rec.isEdge = true ∧
         ((rec.left = some act ∧ rec.right ≠ some act) ∨
          (rec.right = some act ∧ rec.left ≠ some act))) := by
  induction t generalizing p with
  | leaf a arc =>
    simp only [Tree.leaves, List.mem_singleton, Prod.mk.injEq] at hl
    obtain ⟨rfl, rfl⟩ := hl
    exact ⟨p, h, Or.inl ⟨rfl, rfl⟩⟩
  | node a e l r ihl ihr =>
    simp only [Tree.addrs, List.nodup_cons] at hnd
    have hndl := (List.nodup_append.mp hnd.2).1
    have hndr := (List.nodup_append.mp hnd.2).2.1
    have hne : l.addr ≠ r.addr := fun heq =>
      (List.nodup_append.mp hnd.2).2.2 l.addr_mem_addrs (heq ▸ r.addr_mem_addrs)
    simp only [Tree.leaves, List.mem_append] at hl
    rcases hl with hl | hl
    · obtain ⟨q, hq, hcase⟩ := ihl h.2.1 hndl hl
      refine ⟨q, hq, Or.inr ?_⟩
      rcases hcase with ⟨rfl, hleaf⟩ | ⟨pa, rec, h1, h2, h3, h4, h5⟩
      · refine ⟨a, _, rfl, by simp [Tree.addrs], h.1, rfl, Or.inl ⟨?_, ?_⟩⟩
        · simp [hleaf, Tree.addr]
        · simp only [ne_eq, Option.some.injEq]
          intro hr
          apply hne
          rw [hleaf, hr]
          rfl
      · exact ⟨pa, rec, h1, by simp [Tree.addrs, h2], h3, h4, h5⟩
    · obtain ⟨q, hq, hcase⟩ := ihr h.2.2 hndr hl
      refine ⟨q, hq, Or.inr ?_⟩
      rcases hcase with ⟨rfl, hleaf⟩ | ⟨pa, rec, h1, h2, h3, h4, h5⟩
      · refine ⟨a, _, rfl, by simp [Tree.addrs], h.1, rfl, Or.inr ⟨?_, ?_⟩⟩
        · simp [hleaf, Tree.addr]
        · simp only [ne_eq, Option.some.injEq]
          intro hr
          apply hne
          rw [hleaf, hr]
          rfl
      · exact ⟨pa, rec, h1, by simp [Tree.addrs, h2], h3, h4, h5⟩

theorem Tree.replaceLeaf_of_not_mem (t : Tree F) (act : Nat) (sub : Tree F)
    (h : act ∉ t.addrs) : t.replaceLeaf act sub = t := by
  induction t with
  | leaf a arc =>
    simp only [Tree.addrs, List.mem_singleton] at h
    simp [Tree.replaceLeaf, Ne.symm h]
  | node a e l r ihl ihr =>
    simp only [Tree.addrs, List.mem_cons, List.mem_append, not_or] at h
    simp [Tree.replaceLeaf, ihl h.2.1, ihr h.2.2]

theorem Tree.replaceLeaf_addr (t : Tree F) (act : Nat) (sub : Tree F) (hnd : t.addrs.Nodup)
    {aA : Arc F} (hl : (act, aA) ∈ t.leaves) :
    (t.replaceLeaf act sub).addr = if t.addr = act then sub.addr else t.addr := by
  cases t with
  | leaf a arc =>
    simp only [Tree.replaceLeaf, Tree.addr]
    split_ifs <;> rfl
  | node a e l r =>
    simp only [Tree.replaceLeaf, Tree.addr]
    have hmem : act ∈ l.addrs ++ r.addrs := by
      simp only [Tree.leaves, List.mem_append] at hl
      rcases hl with hl | hl
      · exact List.mem_append_left _ (Tree.leaves_addr_mem hl)
      · exact List.mem_append_right _ (Tree.leaves_addr_mem hl)
    simp only [Tree.addrs, List.nodup_cons] at hnd
    have : a ≠ act := fun h => hnd.1 (h ▸ hmem)
    simp [this]

/-- Replacing a leaf by a subtree, in the arena and in the shape.  The arena `items1` holds
`sub` below the parent pointer of the leaf, redirects the child pointer of that parent, and
agrees with `items` on the other records of the tree. -/
theorem Repr_replaceLeaf {items items1 : Items F} {act : Nat} {aA : Arc F} {q : Option Nat}
    {sub : Tree F} (hact : deref items act
        = some { data := ItemData.arc aA, parent := q, left := none, right := none })
    (hsub : Repr items1 q sub)
    (hsame : ∀ b, b ≠ act → some b ≠ q → b < items.length → deref items1 b = deref items b)
    (hpar : ∀ pa rec, q = some pa → deref items pa = some rec →
      deref items1 pa = some (swapChild act sub.addr rec))
    (t : Tree F) (p : Option Nat) (h : Repr items p t) (hnd : t.addrs.Nodup)
    (hl : (act, aA) ∈ t.leaves) :
    Repr items1 p (t.replaceLeaf act sub) := by
  induction t generalizing p with
  | leaf a arc =>
    simp only [Tree.leaves, List.mem_singleton, Prod.mk.injEq] at hl
    obtain ⟨rfl, rfl⟩ := hl
    simp only [Repr] at h
    rw [h] at hact
    simp only [Option.some.injEq, BeachlineItem.mk.injEq, true_and, and_true] at hact
    subst hact
    simpa [Tree.replaceLeaf] using hsub
  | node a e l r ihl ihr =>
    have hnd0 := hnd
    simp only [Tree.addrs, List.nodup_cons, List.mem_append, not_or] at hnd
    obtain ⟨⟨hal, har⟩, hnd2⟩ := hnd
    have hndl := (List.nodup_append.mp hnd2).1
    have hndr := (List.nodup_append.mp hnd2).2.1
    have hdisj : ∀ b, b ∈ l.addrs → b ∈ r.addrs → False := fun b h1 h2 =>
      (List.nodup_append.mp hnd2).2.2 h1 h2
    have hlt := Repr_lt_length h
    -- a subtree that does not contain `act` is untouched
    have huntouched : ∀ (s : Tree F) (ps : Option Nat), Repr items ps s → act ∉ s.addrs →
        Repr items1 ps s := by
      intro s ps hs hns
      apply Repr_congr _ hs
      intro b hb
      have hba : b ≠ act := fun hh => hns (hh ▸ hb)
      by_cases hq : some b = q
      · obtain ⟨rec, hrec⟩ := Repr_deref_isSome hs hb
        rw [hpar b rec hq.symm hrec, hrec]
        have h1 : rec.left ≠ some act := fun hh =>
          hns (Repr_children_mem hs hb hrec (Or.inl hh))
        have h2 : rec.right ≠ some act := fun hh =>
          hns (Repr_children_mem hs hb hrec (Or.inr hh))
        simp [swapChild, h1, h2]
      · exact hsame b hba hq (Repr_lt_length hs b hb)
    simp only [Tree.leaves, List.mem_append] at hl
    have haact : a ≠ act := by
      intro hh
      rcases hl with hl | hl
      · exact hal (hh ▸ Tree.leaves_addr_mem hl)
      · exact har (hh ▸ Tree.leaves_addr_mem hl)
    -- the record of the node itself
    have hnode : ∀ (l1 r1 : Nat),
        l1 = (if l.addr = act then sub.addr else l.addr) →
        r1 = (if r.addr = act then sub.addr else r.addr) →
        deref items1 a = some { data := ItemData.edge e, parent := p,
                                left := some l1, right := some r1 } := by
      intro l1 r1 hl1 hr1
      by_cases hq : some a = q
      · rw [hpar a _ hq.symm h.1]
        simp only [swapChild, Option.some.injEq]
        rw [hl1, hr1]
        congr 2
        · split_ifs <;> rfl
        · split_ifs <;> rfl
      · rw [hsame a haact hq (deref_lt_length h.1), h.1]
        have h1 : l.addr ≠ act := by
          intro hh
          obtain ⟨it, hit, hp⟩ := Repr_root h.2.1
          rw [hh, hact] at hit
          cases hit
          exact hq hp.symm
        have h2 : r.addr ≠ act := by
          intro hh
          obtain ⟨it, hit, hp⟩ := Repr_root h.2.2
          rw [hh, hact] at hit
          cases hit
          exact hq hp.symm
        rw [hl1, hr1, if_neg h1, if_neg h2]
    rcases hl with hl | hl
    · have hnr : act ∉ r.addrs := fun hh => hdisj act (Tree.leaves_addr_mem hl) hh
      simp only [Tree.replaceLeaf, Repr]
      rw [Tree.replaceLeaf_of_not_mem r act sub hnr]
      refine ⟨hnode _ _ (Tree.replaceLeaf_addr l act sub hndl hl) ?_, ihl (some a) h.2.1 hndl hl,
        huntouched r (some a) h.2.2 hnr⟩
      rw [if_neg (fun hh : r.addr = act => hnr (hh ▸ r.addr_mem_addrs))]
    · have hnl : act ∉ l.addrs := fun hh => hdisj act hh (Tree.leaves_addr_mem hl)
      simp only [Tree.replaceLeaf, Repr]
      rw [Tree.replaceLeaf_of_not_mem l act sub hnl]
      refine ⟨hnode _ _ ?_ (Tree.replaceLeaf_addr r act sub hndr hl),
        huntouched l (some a) h.2.1 hnl, ihr (some a) h.2.2 hndr hl⟩
      rw [if_neg (fun hh : l.addr = act => hnl (hh ▸ l.addr_mem_addrs))]

end Replace

section ReplaceShape
variable {F : Type}

theorem Tree.replaceLeaf_addrs_perm (t : Tree F) (act : Nat) (sub : Tree F) (hnd : t.addrs.Nodup)
    {aA : Arc F} (hl : (act, aA) ∈ t.leaves) :
    (t.replaceLeaf act sub).addrs.Perm (t.addrs.erase act ++ sub.addrs) := by
  induction t with
  | leaf a arc =>
    simp only [Tree.leaves, List.mem_singleton, Prod.mk.injEq] at hl
    obtain ⟨rfl, rfl⟩ := hl
    simp [Tree.replaceLeaf, Tree.addrs]
  | node a e l r ihl ihr =>
    simp only [Tree.addrs, List.nodup_cons, List.mem_append, not_or] at hnd
    obtain ⟨⟨hal, har⟩, hnd2⟩ := hnd
    have hndl := (List.nodup_append.mp hnd2).1
    have hndr := (List.nodup_append.mp hnd2).2.1
    simp only [Tree.leaves, List.mem_append] at hl
    simp only [Tree.replaceLeaf, Tree.addrs]
    rcases hl with hl | hl
    · have hm := Tree.leaves_addr_mem hl
      have hnr : act ∉ r.addrs := fun hh => (List.nodup_append.mp hnd2).2.2 hm hh
      have hne : a ≠ act := fun hh => hal (hh ▸ hm)
      rw [Tree.replaceLeaf_of_not_mem r act sub hnr, List.erase_cons_tail (by simpa using hne),
        List.erase_append_left _ hm]
      refine List.Perm.cons a ?_
      refine ((ihl hndl hl).append_right r.addrs).trans ?_
      simp only [List.append_eq, List.append_assoc]
      exact List.Perm.append_left _ List.perm_append_comm
    · have hm := Tree.leaves_addr_mem hl
      have hnl : act ∉ l.addrs := fun hh => (List.nodup_append.mp hnd2).2.2 hh hm
      have hne : a ≠ act := fun hh => har (hh ▸ hm)
      rw [Tree.replaceLeaf_of_not_mem l act sub hnl, List.erase_cons_tail (by simpa using hne),
        List.erase_append_right _ hnl]
      refine List.Perm.cons a ?_
      simp only [List.append_eq, List.append_assoc]
      exact List.Perm.append_left _ (ihr hndr hl)

theorem Tree.replaceLeaf_edges_perm (t : Tree F) (act : Nat) (sub : Tree F) (hnd : t.addrs.Nodup)
    {aA : Arc F} (hl : (act, aA) ∈ t.leaves) :
    (t.replaceLeaf act sub).edges.Perm (t.edges ++ sub.edges) := by
  induction t with
  | leaf a arc =>
    simp only [Tree.leaves, List.mem_singleton, Prod.mk.injEq] at hl
    obtain ⟨rfl, rfl⟩ := hl
    simp [Tree.replaceLeaf, Tree.edges]
  | node a e l r ihl ihr =>
    simp only [Tree.addrs, List.nodup_cons, List.mem_append, not_or] at hnd
    obtain ⟨⟨hal, har⟩, hnd2⟩ := hnd
    have hndl := (List.nodup_append.mp hnd2).1
    have hndr := (List.nodup_append.mp hnd2).2.1
    simp only [Tree.leaves, List.mem_append] at hl
    simp only [Tree.replaceLeaf, Tree.edges]
    rcases hl with hl | hl
    · have hm := Tree.leaves_addr_mem hl
      have hnr : act ∉ r.addrs := fun hh => (List.nodup_append.mp hnd2).2.2 hm hh
      rw [Tree.replaceLeaf_of_not_mem r act sub hnr]
      refine List.Perm.cons e ?_
      refine ((ihl hndl hl).append_right r.edges).trans ?_
      simp only [List.append_eq, List.append_assoc]
      exact List.Perm.append_left _ List.perm_append_comm
    · have hm := Tree.leaves_addr_mem hl
      have hnl : act ∉ l.addrs := fun hh => (List.nodup_append.mp hnd2).2.2 hh hm
      rw [Tree.replaceLeaf_of_not_mem l act sub hnl]
      refine List.Perm.cons e ?_
      simp only [List.append_eq, List.append_assoc]
      exact List.Perm.append_left _ (ihr hndr hl)

theorem deref_store {α : Type} (h : List (Option α)) (a b : Nat) (v : α) :
    deref (store h a v) b = if a = b ∧ a < h.length then some v else deref h b := by
  by_cases hab : a = b
  · subst hab
    by_cases hl : a < h.length
    · simp [hl, deref_store_same _ _ _ hl]
    · simp only [hl, and_false, if_false]
      unfold store
      rw [List.set_eq_of_length_le (not_lt.mp hl)]
  · simp [hab, deref_store_ne _ _ _ _ hab]

theorem deref_alloc {α : Type} (h : List (Option α)) (v : α) (b : Nat) :
    deref (alloc h v) b = if b = h.length then some v else deref h b := by
  by_cases hb : b = h.length
  · subst hb; simp [deref_alloc_length]
  · simp only [hb, if_false]
    by_cases hlt : b < h.length
    · exact deref_alloc_lt _ _ _ hlt
    · have h1 : deref h b = none := by
        unfold deref
        rw [List.getElem?_eq_none (by omega)]
      have h2 : deref (alloc h v) b = none := by
        unfold deref
        rw [List.getElem?_eq_none (by simp [alloc]; omega)]
      rw [h1, h2]

theorem SetLeft_eq {items : Items F} {self newLeft : Nat} {s n : BeachlineItem F}
    (hs : deref items self = some s) (he : s.isEdge = true) (hn : deref items newLeft = some n)
    (hne : self ≠ newLeft) :
    SetLeft items self newLeft
      = some (store (store items self { s with left := some newLeft }) newLeft
          { n with parent := some self }) := by
  unfold SetLeft
  simp [hs, he, deref_store_ne _ _ _ _ hne, hn]

theorem SetRight_eq {items : Items F} {self newRight : Nat} {s n : BeachlineItem F}
    (hs : deref items self = some s) (he : s.isEdge = true) (hn : deref items newRight = some n)
    (hne : self ≠ newRight) :
    SetRight items self newRight
      = some (store (store items self { s with right := some newRight }) newRight
          { n with parent := some self }) := by
  unfold SetRight
  simp [hs, he, deref_store_ne _ _ _ _ hne, hn]

end ReplaceShape

section Startup
variable {F : Type} [LinearOrderedField F]

/-- The records of the arena after the pointer updates of the start-up loop, in terms of the
arena before, for the active arc that `GetActiveArcForXCoord` returns. -/
theorem startupInsert_arena_of (env : Env F) (items : Items F) (t : Tree F)
    (newFocus : Vector2 F) (hrepr : Repr items none t) (hnd : t.addrs.Nodup) {act : Nat}
    {aA : Arc F}
    (hga : GetActiveArcForXCoord env (CreateArc items newFocus).1
      (CreateArc items newFocus).1.length t.addr newFocus.x newFocus.y = some act)
    (hleaf : (act, aA) ∈ t.leaves) :
    ∃ q, deref items act
        = some { data := ItemData.arc aA, parent := q, left := none, right := none } ∧
      ∃ items1, startupInsert env items t.addr newFocus
        = some (items1, if q = none then items.length + 1 else t.addr) ∧
      items1.length = items.length + 2 ∧
      Repr items1 q (startupSubtree items.length act aA newFocus) ∧
      (∀ b, b ≠ act → some b ≠ q → b < items.length → deref items1 b = deref items b) ∧
      (∀ pa rec, q = some pa → deref items pa = some rec →
        deref items1 pa = some (swapChild act (items.length + 1) rec)) := by
  have hlt := Repr_lt_length hrepr
  obtain ⟨q, hact, hcase⟩ := Repr_leaf_parent hrepr hnd hleaf
  have hactlt : act < items.length := hlt act (Tree.leaves_addr_mem hleaf)
  have hact1 : deref (CreateArc items newFocus).1 act
      = some { data := ItemData.arc aA, parent := q, left := none, right := none } := by
    rw [← hact]; exact deref_alloc_lt _ _ _ hactlt
  refine ⟨q, hact, ?_⟩
  unfold startupInsert
  simp only [hga, hact1, ItemData.arc?]
  have h1 : act ≠ items.length := by omega
  have h2 : act ≠ items.length + 1 := by omega
  rcases hcase with ⟨rfl, -⟩ | ⟨pa, rec, rfl, hpa, hrec, hedge, hside⟩
  · simp only [CreateArc, CreateEdge, length_alloc]
    by_cases hx : newFocus.x < aA.focus.x
    · simp [hx, SetLeft, SetRight, deref_store, deref_alloc, BeachlineItem.isEdge, hact, h1, h2,
        h1.symm, h2.symm, startupSubtree, Repr, Tree.addr]
      refine ⟨⟨by omega, by omega⟩, fun b hb1 hb3 => ?_⟩
      have e1 : ¬ act = b := fun h => hb1 h.symm
      have e2 : ¬ items.length + 1 = b := by omega
      have e3 : ¬ items.length = b := by omega
      have e4 : ¬ b = items.length + 1 := by omega
      have e5 : ¬ b = items.length := by omega
      simp [e1, e2, e3, e4, e5]
    · simp [hx, SetLeft, SetRight, deref_store, deref_alloc, BeachlineItem.isEdge, hact, h1, h2,
        h1.symm, h2.symm, startupSubtree, Repr, Tree.addr]
      refine ⟨⟨by omega, by omega⟩, fun b hb1 hb3 => ?_⟩
      have e1 : ¬ act = b := fun h => hb1 h.symm
      have e2 : ¬ items.length + 1 = b := by omega
      have e3 : ¬ items.length = b := by omega
      have e4 : ¬ b = items.length + 1 := by omega
      have e5 : ¬ b = items.length := by omega
      simp [e1, e2, e3, e4, e5]
  · have hpalt : pa < items.length := hlt pa hpa
    have h3 : pa ≠ items.length := by omega
    have h4 : pa ≠ items.length + 1 := by omega
    have h5 : pa ≠ act := by
      rintro rfl
      rw [hact] at hrec
      cases hrec
      simp [BeachlineItem.isEdge] at hedge
    simp only [CreateArc, CreateEdge, length_alloc]
    obtain ⟨d, rp, rl, rr⟩ := rec
    cases d with
    | arc a => simp [BeachlineItem.isEdge] at hedge
    | edge ed =>
    simp only at hside
    have e6 : ∀ b, b < items.length → ¬ items.length + 1 = b := fun b hb => by omega
    have e7 : ∀ b, b < items.length → ¬ items.length = b := fun b hb => by omega
    have e8 : ∀ b, b < items.length → ¬ b = items.length + 1 := fun b hb => by omega
    have e9 : ∀ b, b < items.length → ¬ b = items.length := fun b hb => by omega
    rcases hside with ⟨hl, hr⟩ | ⟨hr, hl⟩
    · subst hl
      by_cases hx : newFocus.x < aA.focus.x
      · simp [hx, SetLeft, SetRight, deref_store, deref_alloc, BeachlineItem.isEdge, hact, h1, h2,
          h1.symm, h2.symm, startupSubtree, Repr, Tree.addr, h3, h4, h5, h3.symm, h4.symm, h5.symm,
          hrec, hr, swapChild]
        refine ⟨⟨by omega, by omega⟩, fun b hb1 hb2 hb3 => ?_, ?_⟩
        · simp [e6 b hb3, e7 b hb3, e8 b hb3, e9 b hb3, Ne.symm hb1, Ne.symm hb2]
        · intro pa1 rec1 hpp hrec1
          subst hpp
          rw [hrec] at hrec1
          cases hrec1
          simp [h3, h4, h5, h3.symm, h4.symm, h5.symm, hr]
          omega
      · simp [hx, SetLeft, SetRight, deref_store, deref_alloc, BeachlineItem.isEdge, hact, h1, h2,
          h1.symm, h2.symm, startupSubtree, Repr, Tree.addr, h3, h4, h5, h3.symm, h4.symm, h5.symm,
          hrec, hr, swapChild]
        refine ⟨⟨by omega, by omega⟩, fun b hb1 hb2 hb3 => ?_, ?_⟩
        · simp [e6 b hb3, e7 b hb3, e8 b hb3, e9 b hb3, Ne.symm hb1, Ne.symm hb2]
        · intro pa1 rec1 hpp hrec1
          subst hpp
          rw [hrec] at hrec1
          cases hrec1
          simp [h3, h4, h5, h3.symm, h4.symm, h5.symm, hr]
          omega
    · subst hr
      by_cases hx : newFocus.x < aA.focus.x
      · simp [hx, SetLeft, SetRight, deref_store, deref_alloc, BeachlineItem.isEdge, hact, h1, h2,
          h1.symm, h2.symm, startupSubtree, Repr, Tree.addr, h3, h4, h5, h3.symm, h4.symm, h5.symm,
          hrec, hl, swapChild]
        refine ⟨⟨by omega, by omega⟩, fun b hb1 hb2 hb3 => ?_, ?_⟩
        · simp [e6 b hb3, e7 b hb3, e8 b hb3, e9 b hb3, Ne.symm hb1, Ne.symm hb2]
        · intro pa1 rec1 hpp hrec1
          subst hpp
          rw [hrec] at hrec1
          cases hrec1
          simp [h3, h4, h5, h3.symm, h4.symm, h5.symm, hl]
          omega
      · simp [hx, SetLeft, SetRight, deref_store, deref_alloc, BeachlineItem.isEdge, hact, h1, h2,
          h1.symm, h2.symm, startupSubtree, Repr, Tree.addr, h3, h4, h5, h3.symm, h4.symm, h5.symm,
          hrec, hl, swapChild]
        refine ⟨⟨by omega, by omega⟩, fun b hb1 hb2 hb3 => ?_, ?_⟩
        · simp [e6 b hb3, e7 b hb3, e8 b hb3, e9 b hb3, Ne.symm hb1, Ne.symm hb2]
        · intro pa1 rec1 hpp hrec1
          subst hpp
          rw [hrec] at hrec1
          cases hrec1
          simp [h3, h4, h5, h3.symm, h4.symm, h5.symm, hl]
          omega

/-- The records of the arena after the pointer updates of the start-up loop, in terms of the
arena before. -/
theorem startupInsert_arena (env : Env F) (items : Items F) (t : Tree F)
    (newFocus : Vector2 F) (hrepr : Repr items none t) (hnd : t.addrs.Nodup) :
    ∃ act aA q, (act, aA) ∈ t.leaves ∧
      deref items act
        = some { data := ItemData.arc aA, parent := q, left := none, right := none } ∧
      ∃ items1, startupInsert env items t.addr newFocus
        = some (items1, if q = none then items.length + 1 else t.addr) ∧
      items1.length = items.length + 2 ∧
      Repr items1 q (startupSubtree items.length act aA newFocus) ∧
      (∀ b, b ≠ act → some b ≠ q → b < items.length → deref items1 b = deref items b) ∧
      (∀ pa rec, q = some pa → deref items pa = some rec →
        deref items1 pa = some (swapChild act (items.length + 1) rec)) := by
  have hlt := Repr_lt_length hrepr
  have hrepr1 : Repr (CreateArc items newFocus).1 none t :=
    Repr_congr (fun a ha => deref_alloc_lt _ _ _ (hlt a ha)) hrepr
  have hh := WellFormed.height_lt ⟨rfl, hrepr, hnd⟩
  obtain ⟨act, aA, hga, hleaf⟩ := GetActiveArcForXCoord_leaf env t (CreateArc items newFocus).1.length
    (CreateArc items newFocus).1 none newFocus.x newFocus.y hrepr1 hnd
    (by simp [CreateArc]; omega) (by simp [CreateArc]; omega)
  obtain ⟨q, hrest⟩ := startupInsert_arena_of env items t newFocus hrepr hnd hga hleaf
  exact ⟨act, aA, q, hleaf, hrest⟩

end Startup

section StartupLoop
variable {F : Type} [LinearOrderedField F]

theorem startupSubtree_edges (n act : Nat) (aA : Arc F) (newFocus : Vector2 F) :
    (startupSubtree n act aA newFocus).edges
      = [{ start := startupEdgeStart newFocus aA.focus, direction := { x := 0, y := -1 },
           extendsUpwardsForever := true }] := by
  unfold startupSubtree
  split_ifs <;> simp [Tree.edges]

theorem startupSubtree_addr (n act : Nat) (aA : Arc F) (newFocus : Vector2 F) :
    (startupSubtree n act aA newFocus).addr = n + 1 := by
  unfold startupSubtree
  split_ifs <;> rfl

theorem startupSubtree_addrs (n act : Nat) (aA : Arc F) (newFocus : Vector2 F) :
    (startupSubtree n act aA newFocus).addrs.Perm [n + 1, n, act] := by
  unfold startupSubtree
  split_ifs
  · simp [Tree.addrs]
  · simp only [Tree.addrs, List.singleton_append]
    exact List.Perm.cons _ (List.Perm.swap _ _ _)

/-- The body of the start-up loop on a well-formed tree: it returns, the tree stays well formed,
and it gains exactly one edge node, whose edge is vertical. -/
theorem startupInsert_spec (env : Env F) (items : Items F) (root : Nat) (t : Tree F)
    (newFocus : Vector2 F) (hwf : WellFormed items root t) :
    ∃ items1 root1 t1 focus, startupInsert env items root newFocus = some (items1, root1) ∧
      WellFormed items1 root1 t1 ∧ items1.length = items.length + 2 ∧
      t1.edges.Perm (t.edges ++ [{ start := startupEdgeStart newFocus focus,
                                    direction := { x := 0, y := -1 },
                                    extendsUpwardsForever := true }]) := by
  obtain ⟨hroot, hrepr, hnd⟩ := hwf
  subst hroot
  obtain ⟨act, aA, q, hleaf, hact, items1, hrun, hlen, hsub, hsame, hpar⟩ :=
    startupInsert_arena env items t newFocus hrepr hnd
  have hlt := Repr_lt_length hrepr
  have hactlt : act < items.length := hlt act (Tree.leaves_addr_mem hleaf)
  refine ⟨items1, _, t.replaceLeaf act (startupSubtree items.length act aA newFocus), aA.focus,
    hrun, ⟨?_, ?_, ?_⟩, hlen, ?_⟩
  · rw [Tree.replaceLeaf_addr t act _ hnd hleaf, startupSubtree_addr]
    obtain ⟨it, hit, hitp⟩ := Repr_root hrepr
    by_cases hq : q = none
    · subst hq
      obtain ⟨q2, hact2, hcase⟩ := Repr_leaf_parent hrepr hnd hleaf
      rw [hact] at hact2
      rcases hcase with ⟨-, ht⟩ | ⟨pa, rec, hq2, -⟩
      · rw [ht]; simp [Tree.addr]
      · rw [hq2] at hact2; simp at hact2
    · have hne : t.addr ≠ act := by
        intro h
        rw [h, hact] at hit
        cases hit
        exact hq hitp
      simp [hq, hne]
  · refine Repr_replaceLeaf hact hsub hsame ?_ t none hrepr hnd hleaf
    intro pa rec hq hrec
    rw [startupSubtree_addr]
    exact hpar pa rec hq hrec
  · refine (Tree.replaceLeaf_addrs_perm t act _ hnd hleaf).nodup_iff.mpr ?_
    rw [List.nodup_append]
    refine ⟨hnd.erase act, (startupSubtree_addrs _ _ _ _).nodup_iff.mpr ?_, ?_⟩
    · simp; omega
    · intro a ha hb
      rw [hnd.mem_erase_iff] at ha
      have h1 := (startupSubtree_addrs _ _ _ _).mem_iff.mp hb
      have h2 := hlt a ha.2
      simp at h1
      rcases h1 with h1 | h1 | h1
      · omega
      · omega
      · exact ha.1 h1
  · have h := Tree.replaceLeaf_edges_perm t act (startupSubtree items.length act aA newFocus) hnd hleaf
    rw [startupSubtree_edges] at h
    exact h

/-- The start-up loop on a queue of site events that all have the `yCoord` of the first site:
it pops every one of them, pushes no event, and each pop adds one vertical edge to the tree. -/
theorem startupLoop_level (env : Env F) (cutoffY y0 : F) (hcut : ¬ y0 < cutoffY) (fuel : Nat)
    (m : Mem F) (root : Nat) (t : Tree F) (hfuel : m.queue.length < fuel)
    (hwf : WellFormed m.items root t) (hnd : m.queue.Nodup)
    (hq : ∀ e ∈ m.queue, ∃ pt, pt.y = y0 ∧ deref m.events e = some (siteEvent pt)) :
    ∃ m1 root1 t1, startupLoop env cutoffY (y0 - 1) fuel m root = some (m1, root1) ∧
      m1.queue = [] ∧ m1.events.length = m.events.length ∧
      m1.items.length = m.items.length + 2 * m.queue.length ∧
      WellFormed m1.items root1 t1 ∧ t1.edges.length = t.edges.length + m.queue.length ∧
      ∀ e ∈ t1.edges, e ∈ t.edges ∨ e.direction = { x := 0, y := -1 } := by
  induction fuel generalizing m root t with
  | zero => omega
  | succ fuel ih =>
    unfold startupLoop
    by_cases hempty : m.queue = []
    · rw [if_pos hempty]
      exact ⟨m, root, t, rfl, hempty, rfl, by simp [hempty], hwf, by simp [hempty],
        fun e he => Or.inl he⟩
    · rw [if_neg hempty]
      have hlive : ∀ e ∈ m.queue, ∃ y, eventY m.events e = some y := by
        intro e he
        obtain ⟨pt, -, hd⟩ := hq e he
        exact ⟨_, eventY_eq_some_iff.mpr ⟨_, hd, rfl⟩⟩
      obtain ⟨evt, htop⟩ := queueTop_isSome env m hempty hlive
      obtain ⟨hmem, -⟩ := queueTop_spec htop
      obtain ⟨pt, hpt, hd⟩ := hq evt hmem
      have hsp : sitePoint m.events evt = some pt := by simp [sitePoint, hd, siteEvent]
      obtain ⟨items1, root1, t1, focus, hins, hwf1, hlen1, hperm⟩ :=
        startupInsert_spec env m.items root t pt hwf
      have hy : (siteEvent pt).yCoord = y0 := hpt
      simp only [htop, hd, hy, sub_one_lt, if_true, hcut, if_false, hsp, hins]
      have hmlen : (m.queue.erase evt).length + 1 = m.queue.length := by
        rw [List.length_erase_of_mem hmem]
        have := List.length_pos_of_mem hmem
        omega
      obtain ⟨m2, root2, t2, hrun, hq2, hev2, hit2, hwf2, hed2, hdir2⟩ :=
        ih { (queuePop m evt) with items := items1, events := free m.events evt } root1 t1
          (by simp only [queuePop]; omega) hwf1 (by simp only [queuePop]; exact hnd.erase evt)
          (by
            intro e he
            simp only [queuePop] at he
            rw [hnd.mem_erase_iff] at he
            obtain ⟨pt2, hpt2, hd2⟩ := hq e he.2
            exact ⟨pt2, hpt2, by simp only; rw [deref_free_ne _ _ _ (Ne.symm he.1), hd2]⟩)
      refine ⟨m2, root2, t2, hrun, hq2, ?_, ?_, hwf2, ?_, ?_⟩
      · rw [hev2]; simp
      · rw [hit2]; simp only [queuePop]; omega
      · rw [hed2, hperm.length_eq]; simp only [queuePop, List.length_append, List.length_singleton]
        omega
      · intro e he
        rcases hdir2 e he with h | h
        · have := hperm.mem_iff.mp h
          simp only [List.mem_append, List.mem_singleton] at this
          rcases this with h | h
          · exact Or.inl h
          · exact Or.inr (by rw [h])
        · exact Or.inr h

end StartupLoop

section C8
variable {F : Type} [LinearOrderedField F]

/-- The part of `FortunesAlgorithm` before the main loop on sites that all have the same `y`, not
below the cutoff: the start-up loop consumes the whole queue, no event is allocated besides the
site events, and the tree has one vertical edge per site after the first. -/
theorem bootstrap_level (env : Env F) (sites : List (Vector2 F)) (cutoffY y0 : F)
    (hne : sites ≠ []) (hlevel : ∀ p ∈ sites, p.y = y0) (hcut : ¬ y0 < cutoffY) :
    ∃ m root t, bootstrap env sites cutoffY = some (Bootstrap.entered m root) ∧
      m.queue = [] ∧ m.events.length = sites.length ∧ m.items.length + 1 = 2 * sites.length ∧
      WellFormed m.items root t ∧ t.edges.length + 1 = sites.length ∧
      ∀ e ∈ t.edges, e.direction = { x := 0, y := -1 } := by
  have hq0 : ∀ e ∈ List.range sites.length, ∃ pt, pt.y = y0 ∧
      deref (sites.map (fun pt => some (siteEvent pt))) e = some (siteEvent pt) := by
    intro e he
    rw [List.mem_range] at he
    refine ⟨sites[e], hlevel _ (List.getElem_mem he), ?_⟩
    rw [deref_seed, List.getElem?_eq_getElem he]
    rfl
  have hpos : 0 < sites.length := List.length_pos.mpr hne
  have hqne : List.range sites.length ≠ [] := by
    intro h
    have := congrArg List.length h
    simp only [List.length_range, List.length_nil] at this
    omega
  unfold bootstrap
  rw [seedEvents_empty]
  have hlive : ∀ e ∈ List.range sites.length,
      ∃ y, eventY (sites.map (fun pt => some (siteEvent pt))) e = some y := by
    intro e he
    obtain ⟨pt, -, hd⟩ := hq0 e he
    exact ⟨_, eventY_eq_some_iff.mpr ⟨_, hd, rfl⟩⟩
  obtain ⟨evt, htop⟩ := queueTop_isSome env
    { items := [], events := sites.map (fun pt => some (siteEvent pt)),
      queue := List.range sites.length, pops := 0 } hqne hlive
  obtain ⟨hmem, -⟩ := queueTop_spec htop
  simp only at hmem
  obtain ⟨pt, hpt, hd⟩ := hq0 evt hmem
  have hsp : sitePoint (sites.map (fun pt => some (siteEvent pt))) evt = some pt := by
    unfold sitePoint
    rw [hd]
    rfl
  have hy : (siteEvent pt).yCoord = y0 := hpt
  simp only [htop, hd, hsp, hy, hcut, if_false, hpt]
  have hnd : (List.range sites.length).Nodup := List.nodup_range _
  have hmlen : ((List.range sites.length).erase evt).length + 1 = sites.length := by
    rw [List.length_erase_of_mem hmem]
    simp
    omega
  obtain ⟨m1, root1, t1, hrun, hq1, hev1, hit1, hwf1, hed1, hdir1⟩ :=
    startupLoop_level env cutoffY y0 hcut
      (((List.range sites.length).erase evt).length + 1)
      { items := alloc []
          { data := ItemData.arc { focus := pt, squeezeEvent := none },
            parent := none, left := none, right := none },
        events := free (sites.map (fun pt => some (siteEvent pt))) evt,
        queue := (List.range sites.length).erase evt, pops := 0 + 1 }
      0 (Tree.leaf 0 { focus := pt, squeezeEvent := none })
      (by simp only; omega)
      ⟨rfl, by simp [Repr, deref, alloc], by simp [Tree.addrs]⟩
      (hnd.erase evt)
      (by
        intro e he
        simp only at he
        rw [hnd.mem_erase_iff] at he
        obtain ⟨pt2, hpt2, hd2⟩ := hq0 e he.2
        exact ⟨pt2, hpt2, by simp only; rw [deref_free_ne _ _ _ (Ne.symm he.1), hd2]⟩)
  simp only [queuePop, List.length_nil] at hrun ⊢
  rw [hrun]
  refine ⟨m1, root1, t1, rfl, hq1, ?_, ?_, hwf1, ?_, ?_⟩
  · rw [hev1]; simp
  · rw [hit1]; simp [alloc]; omega
  · rw [hed1]; simp only [Tree.edges, List.length_nil]; omega
  · intro e he
    rcases hdir1 e he with h | h
    · simp [Tree.edges] at h
    · exact h

end C8

section C8
variable {F : Type} [LinearOrderedField F]

/-- A run on sites that all have the same `y`, not below the cutoff: the main loop is entered
with an empty queue and left at once, and the result has one vertical edge per site after the
first, no tree, no unencountered event and no event besides the site events. -/
theorem FortunesAlgorithm_level (env : Env F) (fuel : Nat) (sites : List (Vector2 F))
    (cutoffY y0 : F) (hfuel : 0 < fuel) (hne : sites ≠ []) (hlevel : ∀ p ∈ sites, p.y = y0)
    (hcut : ¬ y0 < cutoffY) :
    (∃ m root, bootstrap env sites cutoffY = some (Bootstrap.entered m root) ∧ m.queue = [] ∧
      m.events.length = sites.length ∧ m.items.length = 2 * sites.length - 1 ∧
      mainLoop env cutoffY fuel m root [] = some (m, root, [])) ∧
    ∃ r, FortunesAlgorithm env fuel sites cutoffY = some r ∧ r.beachlineRoot = none ∧
      r.edges.length = sites.length - 1 ∧
      (∀ e ∈ r.edges, e.endpointA.x = e.endpointB.x ∧ e.endpointB.y = e.endpointA.y - 10000) ∧
      r.unencounteredEvents = [] ∧ r.events.length = sites.length := by
  obtain ⟨m, root, t, hboot, hq, hev, hit, hwf, hed, hdir⟩ :=
    bootstrap_level env sites cutoffY y0 hne hlevel hcut
  obtain ⟨k, rfl⟩ : ∃ k, fuel = k + 1 := ⟨fuel - 1, by omega⟩
  have hmain : mainLoop env cutoffY (k + 1) m root [] = some (m, root, []) := by
    simp [mainLoop, mainLoopStep, hq]
  refine ⟨⟨m, root, hboot, hq, hev, by omega, hmain⟩, ?_⟩
  have hfin := FinishEdge_spec t (m.items.length + 1) m.items none [] hwf.2.1 hwf.2.2
    (by have := WellFormed.height_lt hwf; omega)
  rw [hwf.1] at hfin
  unfold FortunesAlgorithm
  simp only [hboot, hmain]
  unfold assembleResult
  simp only [hq, true_or, if_true, hfin, List.length_nil]
  have hdrain : drainQueue env (0 + 1) m [] = some (m, []) := by simp [drainQueue, hq]
  rw [hdrain]
  refine ⟨_, rfl, rfl, ?_, ?_, rfl, hev⟩
  · simp only [List.nil_append, List.length_map]
    omega
  · intro e he
    simp only [List.nil_append, List.mem_map] at he
    obtain ⟨ed, hmem, rfl⟩ := he
    have h := hdir ed hmem
    simp [finishedEdge, h]
    ring

/-- C8, for sites whose common y has an absolute value below 2^24 (the range in which
`y - 1.0f < y` holds in binary32, as it does in the exact arithmetic of the model).  For every
non-empty list of sites that all have that y and pairwise distinct x, and every cutoff not above
that y, the run of `FortunesAlgorithm` (with fuel for one turn of the main loop) consumes every
site event in the start-up loop: the main loop is entered with an empty queue and left without
a turn, no circle event is allocated (the event arena holds the site events only), and the
result has exactly `n - 1` complete edges, each vertical, no tree and no unencountered event.
For the three sites (300,300), (200,300), (400,300) the result has exactly two edges. -/
theorem C8_level_sites_bootstrap_edges (env : Env F) (fuel : Nat) (sites : List (Vector2 F))
    (cutoffY y0 : F) (hfuel : 0 < fuel) (hne : sites ≠ []) (hlevel : ∀ p ∈ sites, p.y = y0)
    (hrange : -16777216 < y0 ∧ y0 < 16777216)
    (hdist : sites.Pairwise (fun p q => p.x ≠ q.x)) (hcut : ¬ y0 < cutoffY) :
    ((∃ m root, bootstrap env sites cutoffY = some (Bootstrap.entered m root) ∧ m.queue = [] ∧
        m.events.length = sites.length ∧ m.items.length = 2 * sites.length - 1 ∧
        mainLoop env cutoffY fuel m root [] = some (m, root, [])) ∧
      ∃ r, FortunesAlgorithm env fuel sites cutoffY = some r ∧ r.beachlineRoot = none ∧
        r.edges.length = sites.length - 1 ∧
        (∀ e ∈ r.edges, e.endpointA.x = e.endpointB.x ∧ e.endpointB.y = e.endpointA.y - 10000) ∧
        r.unencounteredEvents = [] ∧ r.events.length = sites.length) ∧
    ∀ c : F, ¬ 300 < c →
      ∃ r, FortunesAlgorithm env fuel [⟨300, 300⟩, ⟨200, 300⟩, ⟨400, 300⟩] c = some r ∧
        r.edges.length = 2 ∧ r.beachlineRoot = none ∧ r.unencounteredEvents = [] ∧
        r.events.length = 3 := by
  refine ⟨FortunesAlgorithm_level env fuel sites cutoffY y0 hfuel hne hlevel hcut, ?_⟩
  intro c hc
  obtain ⟨-, r, hr, hroot, hlen, -, hun, hev⟩ :=
    FortunesAlgorithm_level env fuel [⟨300, 300⟩, ⟨200, 300⟩, ⟨400, 300⟩] c 300 hfuel
      (by simp) (by simp) hc
  exact ⟨r, hr, by simpa using hlen, hroot, hun, by simpa using hev⟩

/-- Witness of C8: the three sites of test case 32 in the rational environment, without
cutoff. -/
theorem C8_witness :
    ((0 < 1 ∧ ((-16777216 : ℚ) < 300 ∧ (300 : ℚ) < 16777216) ∧ ¬ (300 : ℚ) < -1000) ∧
    ((∃ m root, bootstrap envQ0 [⟨300, 300⟩, ⟨200, 300⟩, ⟨400, 300⟩] (-1000)
          = some (Bootstrap.entered m root) ∧ m.queue = [] ∧
        m.events.length = 3 ∧ m.items.length = 5 ∧
        mainLoop envQ0 (-1000) 1 m root [] = some (m, root, [])) ∧
      ∃ r, FortunesAlgorithm envQ0 1 [⟨300, 300⟩, ⟨200, 300⟩, ⟨400, 300⟩] (-1000) = some r ∧
        r.beachlineRoot = none ∧ r.edges.length = 2 ∧
        (∀ e ∈ r.edges, e.endpointA.x = e.endpointB.x ∧ e.endpointB.y = e.endpointA.y - 10000) ∧
        r.unencounteredEvents = [] ∧ r.events.length = 3) ∧
    ∀ c : ℚ, ¬ 300 < c →
      ∃ r, FortunesAlgorithm envQ0 1 [⟨300, 300⟩, ⟨200, 300⟩, ⟨400, 300⟩] c = some r ∧
        r.edges.length = 2 ∧ r.beachlineRoot = none ∧ r.unencounteredEvents = [] ∧
        r.events.length = 3) :=
  ⟨⟨by decide, by norm_num, by norm_num⟩,
   C8_level_sites_bootstrap_edges envQ0 1 [⟨300, 300⟩, ⟨200, 300⟩, ⟨400, 300⟩] (-1000) 300
     (by decide) (by simp) (by simp) (by norm_num) (by simp) (by norm_num)⟩

end C8

section QueueFrame
variable {F : Type} [LinearOrderedField F]

theorem QueueExtends.refl (m : Mem F) : QueueExtends m m :=
  ⟨le_refl _, fun _ _ => ⟨rfl, rfl⟩, [], by simp, List.nodup_nil, by simp⟩

theorem QueueExtends.trans {m m1 m2 : Mem F} (h1 : QueueExtends m m1) (h2 : QueueExtends m1 m2) :
    QueueExtends m m2 := by
  obtain ⟨hl1, hs1, new1, hq1, hn1, hnew1⟩ := h1
  obtain ⟨hl2, hs2, new2, hq2, hn2, hnew2⟩ := h2
  refine ⟨le_trans hl1 hl2, fun e he => ?_, new1 ++ new2, ?_, ?_, ?_⟩
  · have a := hs1 e he
    have b := hs2 e (lt_of_lt_of_le he hl1)
    exact ⟨b.1.trans a.1, b.2.trans a.2⟩
  · rw [hq2, hq1, List.append_assoc]
  · rw [List.nodup_append]
    refine ⟨hn1, hn2, fun a ha hb => ?_⟩
    have := (hnew1 a ha).2.1
    have := (hnew2 a hb).1
    omega
  · intro e he
    rcases List.mem_append.mp he with he | he
    · obtain ⟨a, b, c⟩ := hnew1 e he
      exact ⟨a, lt_of_lt_of_le b hl2, (hs2 e b).1.trans c⟩
    · obtain ⟨a, b, c⟩ := hnew2 e he
      exact ⟨le_trans hl1 a, b, c⟩

/-- A change of the arena of items, or of the counter of pops, is no change for the queue. -/
theorem QueueExtends.of_eq {m m1 : Mem F} (he : m1.events = m.events) (hq : m1.queue = m.queue) :
    QueueExtends m m1 :=
  ⟨by rw [he], fun _ _ => by rw [he]; exact ⟨rfl, rfl⟩, [], by simp [hq], List.nodup_nil, by simp⟩

/-- A write to the events that changes neither a `yCoord` nor a site point. -/
theorem QueueExtends.of_same {m m1 : Mem F} (hl : m1.events.length = m.events.length)
    (hs : ∀ e, sitePoint m1.events e = sitePoint m.events e ∧
      eventY m1.events e = eventY m.events e) (hq : m1.queue = m.queue) :
    QueueExtends m m1 :=
  ⟨by rw [hl], fun e _ => hs e, [], by simp [hq], List.nodup_nil, by simp⟩

theorem QueueExtends.of_same_events (m : Mem F) (items : Items F) (ev1 : Events F)
    (hl : ev1.length = m.events.length)
    (hs : ∀ e, sitePoint ev1 e = sitePoint m.events e ∧ eventY ev1 e = eventY m.events e) :
    QueueExtends m { items := items, events := ev1, queue := m.queue, pops := m.pops } :=
  QueueExtends.of_same hl hs rfl

omit [LinearOrderedField F] in
theorem clearValid_same {events events1 : Events F} {se : Nat}
    (h : clearValid events se = some events1) :
    events1.length = events.length ∧
    ∀ e, sitePoint events1 e = sitePoint events e ∧ eventY events1 e = eventY events e := by
  unfold clearValid at h
  cases hd : deref events se with
  | none => simp [hd] at h
  | some s =>
    obtain ⟨y, d⟩ := s
    cases d with
    | newPoint pt => simp [hd] at h
    | edgeIntersect ip sa v =>
      simp only [hd, Option.some.injEq] at h
      subst h
      refine ⟨by simp, fun e => ?_⟩
      by_cases hse : se = e
      · subst hse
        simp [sitePoint, eventY, deref_store_same _ _ _ (deref_lt_length hd), hd]
      · simp [sitePoint, eventY, deref_store_ne _ _ _ _ hse]

omit [LinearOrderedField F] in
theorem clearValidAsserted_same {events events1 : Events F} {se : Nat}
    (h : clearValidAsserted events se = some events1) :
    events1.length = events.length ∧
    ∀ e, sitePoint events1 e = sitePoint events e ∧ eventY events1 e = eventY events e := by
  unfold clearValidAsserted at h
  cases hd : deref events se with
  | none => simp [hd] at h
  | some s =>
    obtain ⟨y, d⟩ := s
    cases d with
    | newPoint pt => simp [hd] at h
    | edgeIntersect ip sa v =>
      cases v with
      | false => simp [hd] at h
      | true =>
        simp only [hd, Option.some.injEq] at h
        subst h
        refine ⟨by simp, fun e => ?_⟩
        by_cases hse : se = e
        · subst hse
          simp [sitePoint, eventY, deref_store_same _ _ _ (deref_lt_length hd), hd]
        · simp [sitePoint, eventY, deref_store_ne _ _ _ _ hse]

omit [LinearOrderedField F] in
theorem invalidateReplaced_same {events events1 : Events F} {se : Option Nat}
    (h : invalidateReplaced events se = some events1) :
    events1.length = events.length ∧
    ∀ e, sitePoint events1 e = sitePoint events e ∧ eventY events1 e = eventY events e := by
  unfold invalidateReplaced at h
  cases se with
  | none => simp only [Option.some.injEq] at h; subst h; exact ⟨rfl, fun _ => ⟨rfl, rfl⟩⟩
  | some s => exact clearValidAsserted_same h

theorem newSqueezeEvent_extends (m : Mem F) (arc : Nat) (it : BeachlineItem F) (a : Arc F)
    (P : Vector2 F) (y : F) : QueueExtends m (newSqueezeEvent m arc it a P y) := by
  refine ⟨by simp [newSqueezeEvent], fun e he => ?_, [m.events.length], rfl, by simp, ?_⟩
  · simp [newSqueezeEvent, sitePoint, eventY, deref_alloc_lt _ _ _ he]
  · intro e he
    simp only [List.mem_singleton] at he
    subst he
    simp [newSqueezeEvent, sitePoint, deref_alloc_length]

theorem registerSqueezeEvent_extends {m m1 : Mem F} {arc : Nat} {P : Vector2 F} {y : F}
    (h : registerSqueezeEvent m arc P y = some m1) : QueueExtends m m1 := by
  unfold registerSqueezeEvent at h
  revert h
  repeat' split
  all_goals intro h
  all_goals first
    | (cases h; exact QueueExtends.refl _)
    | (cases h; exact newSqueezeEvent_extends _ _ _ _ _ _)
    | cases h
  rename_i ev1 hc
  obtain ⟨hl, hs⟩ := clearValid_same hc
  exact (QueueExtends.of_same_events m m.items ev1 hl hs).trans
    (newSqueezeEvent_extends _ _ _ _ _ _)

theorem AddArcSqueezeEvent_extends {env : Env F} {m m1 : Mem F} {arc : Nat}
    (h : AddArcSqueezeEvent env m arc = some m1) : QueueExtends m m1 := by
  unfold AddArcSqueezeEvent at h
  split at h
  · split at h
    · cases h
    · cases h; exact QueueExtends.refl _
    · exact registerSqueezeEvent_extends h
  · cases h; exact QueueExtends.refl _
  · cases h

theorem AddArcToBeachline_extends {env : Env F} {m m1 : Mem F} {root root1 evt : Nat} {y : F}
    (h : AddArcToBeachline env m root evt y = some (m1, root1)) : QueueExtends m m1 := by
  unfold AddArcToBeachline at h
  split at h
  · cases h
  split at h
  · cases h
  split at h
  · cases h
  split at h
  · cases h
  split at h
  · cases h
  split at h
  · cases h
  dsimp only at h
  generalize (if root = _ then _ else root) = newRoot at h
  split at h
  · cases h
  split at h
  · cases h
  split at h
  · cases h
  split at h
  · cases h
  rename_i ev1 hinv _ _ _ _ m2 h2 _ m3 h3
  cases h
  obtain ⟨hl, hs⟩ := invalidateReplaced_same hinv
  exact ((QueueExtends.of_same_events m _ ev1 hl hs).trans
    (AddArcSqueezeEvent_extends h2)).trans (AddArcSqueezeEvent_extends h3)

theorem finishRemoval_extends {env : Env F} {m m1 : Mem F}
    {newRoot squeezedArc leftEdge rightEdge leftArc rightArc : Nat}
    (h : finishRemoval env m newRoot squeezedArc leftEdge rightEdge leftArc rightArc = some m1) :
    QueueExtends m m1 := by
  unfold finishRemoval at h
  split at h
  swap
  · cases h
  split at h
  · cases h
  split at h
  · cases h
  dsimp only at h
  split at h
  · cases h
  rename_i ev1 hinv _ m2 h2
  obtain ⟨hl, hs⟩ := invalidateReplaced_same hinv
  exact ((QueueExtends.of_same_events m _ ev1 hl hs).trans
    (AddArcSqueezeEvent_extends h2)).trans (AddArcSqueezeEvent_extends h)

theorem RemoveArcFromBeachline_extends {env : Env F} {m m1 : Mem F} {root root1 evt : Nat}
    {edges edges1 : List (CompleteEdge F)}
    (h : RemoveArcFromBeachline env m root edges evt = some (m1, root1, edges1)) :
    QueueExtends m m1 := by
  unfold RemoveArcFromBeachline at h
  split at h
  · cases h
  split at h
  · cases h
  split at h
  swap
  · cases h
  split at h
  · cases h
  split at h
  swap
  · cases h
  split at h
  swap
  · cases h
  split at h
  · cases h
  dsimp only at h
  split at h
  swap
  · cases h
  split at h
  · cases h
  split at h
  · cases h
  split at h
  · cases h
  rename_i m2 h2
  cases h
  exact (QueueExtends.of_same_events m _ m.events rfl (fun _ => ⟨rfl, rfl⟩)).trans
    (finishRemoval_extends h2)

end QueueFrame

section QueueInvariant
variable {F : Type} [LinearOrderedField F]

theorem QueueInv.extends {m m1 : Mem F} (hinv : QueueInv m) (hext : QueueExtends m m1) :
    QueueInv m1 ∧ siteQueue m1 = siteQueue m := by
  obtain ⟨hnd, hb, hy⟩ := hinv
  obtain ⟨hl, hs, new, hq, hn, hnew⟩ := hext
  refine ⟨⟨?_, ?_, ?_⟩, ?_⟩
  · rw [hq, List.nodup_append]
    refine ⟨hnd, hn, fun a ha hb2 => ?_⟩
    have := hb a ha
    have := (hnew a hb2).1
    omega
  · intro e he
    rw [hq] at he
    rcases List.mem_append.mp he with he | he
    · exact lt_of_lt_of_le (hb e he) hl
    · exact (hnew e he).2.1
  · intro e he pt hpt
    rw [hq] at he
    rcases List.mem_append.mp he with he | he
    · obtain ⟨h1, h2⟩ := hs e (hb e he)
      rw [h2]
      exact hy e he pt (h1 ▸ hpt)
    · rw [(hnew e he).2.2] at hpt
      cases hpt
  · unfold siteQueue
    rw [hq, List.filterMap_append]
    have h1 : new.filterMap (sitePoint m1.events) = [] := by
      rw [List.filterMap_eq_nil_iff]
      exact fun e he => (hnew e he).2.2
    rw [h1, List.append_nil]
    apply List.filterMap_congr
    intro e he
    exact (hs e (hb e he)).1

/-- The pop of a queued event: the invariant stays, and the queued sites lose the point of
the event when it is a site event. -/
theorem QueueInv.pop {m : Mem F} (hinv : QueueInv m) {evt : Nat} (hmem : evt ∈ m.queue) :
    QueueInv (queuePop m evt) ∧ evt ∉ (queuePop m evt).queue ∧
    (siteQueue m).Perm ((sitePoint m.events evt).toList ++ siteQueue (queuePop m evt)) := by
  obtain ⟨hnd, hb, hy⟩ := hinv
  refine ⟨⟨hnd.erase evt, fun e he => hb e (List.mem_of_mem_erase he),
    fun e he pt hpt => hy e (List.mem_of_mem_erase he) pt hpt⟩, ?_, ?_⟩
  · simp only [queuePop]
    rw [hnd.mem_erase_iff]
    exact fun h => h.1 rfl
  · unfold siteQueue
    simp only [queuePop]
    have hp := (List.perm_cons_erase hmem).filterMap (sitePoint m.events)
    refine hp.trans ?_
    cases hsp : sitePoint m.events evt with
    | none => simp [List.filterMap_cons, hsp]
    | some pt => simp [List.filterMap_cons, hsp]

/-- The `delete` of an event that is not queued. -/
theorem QueueInv.free {m : Mem F} (hinv : QueueInv m) {evt : Nat} (hmem : evt ∉ m.queue) :
    QueueInv { m with events := free m.events evt } ∧
    siteQueue { m with events := free m.events evt } = siteQueue m := by
  obtain ⟨hnd, hb, hy⟩ := hinv
  have hne : ∀ e ∈ m.queue, evt ≠ e := fun e he h => hmem (h ▸ he)
  have hsp : ∀ e ∈ m.queue, sitePoint (Fortune.free m.events evt) e = sitePoint m.events e := by
    intro e he
    simp only [sitePoint, deref_free_ne _ _ _ (hne e he)]
  have hey : ∀ e ∈ m.queue, eventY (Fortune.free m.events evt) e = eventY m.events e := by
    intro e he
    simp only [eventY, deref_free_ne _ _ _ (hne e he)]
  refine ⟨⟨hnd, fun e he => by simpa using hb e he, fun e he pt hpt => ?_⟩, ?_⟩
  · simp only at he hpt ⊢
    rw [hey e he]
    exact hy e he pt (hsp e he ▸ hpt)
  · unfold siteQueue
    exact List.filterMap_congr hsp

/-- A popped event is not in the queue of an extension of the popped memory. -/
theorem not_mem_queue_of_extends {m m1 : Mem F} (hinv : QueueInv m) {evt : Nat}
    (hmem : evt ∈ m.queue) (hext : QueueExtends (queuePop m evt) m1) : evt ∉ m1.queue := by
  obtain ⟨hl, hs, new, hq, hn, hnew⟩ := hext
  rw [hq]
  intro h
  rcases List.mem_append.mp h with h | h
  · exact (hinv.pop hmem).2.1 h
  · have := (hnew evt h).1
    have := hinv.2.1 evt hmem
    simp only [queuePop] at *
    omega

theorem queueTop_live {env : Env F} {m : Mem F} {evt : Nat} (h : queueTop env m = some evt) :
    ∀ e ∈ m.queue, ∃ y, eventY m.events e = some y := by
  have hc : evt ∈ topCandidates m.events m.queue := by
    unfold queueTop at h
    exact List.getElem?_mem h
  unfold topCandidates at hc
  cases hk : queueKeys m.events m.queue with
  | none => simp [hk] at hc
  | some ys => exact queueKeys_some_iff.mp ⟨ys, hk⟩

end QueueInvariant

section SweepInvariant
variable {F : Type} [LinearOrderedField F]

/-- A pop of a queued event that is not below the cutoff, followed by a handler that extends the
queue and by the `delete` of the event, keeps the invariant of the sweep. -/
theorem SweepInv.pop_process {sites : List (Vector2 F)} {cutoffY : F} {m m1 : Mem F}
    (hinv : SweepInv sites cutoffY m) {evt : Nat} {e : SweepEvent F} (hmem : evt ∈ m.queue)
    (hd : deref m.events evt = some e) (hy : ¬ e.yCoord < cutoffY)
    (hext : QueueExtends (queuePop m evt) m1) :
    SweepInv sites cutoffY { m1 with events := free m1.events evt } := by
  obtain ⟨hq, P, hperm, hP⟩ := hinv
  obtain ⟨hq1, -, hpop⟩ := hq.pop hmem
  obtain ⟨hq2, hs2⟩ := hq1.extends hext
  obtain ⟨hq3, hs3⟩ := hq2.free (not_mem_queue_of_extends hq hmem hext)
  refine ⟨hq3, (sitePoint m.events evt).toList ++ P, ?_, ?_⟩
  · rw [hs3, hs2]
    refine List.Perm.trans ?_ hperm
    refine List.Perm.trans ?_ (hpop.symm.append_right P)
    rw [← List.append_assoc]
    exact List.Perm.append_right P List.perm_append_comm
  · intro p hp
    rcases List.mem_append.mp hp with hp | hp
    · have hsp : sitePoint m.events evt = some p := by
        cases h : sitePoint m.events evt with
        | none => simp [h] at hp
        | some pt => simp [h] at hp; rw [hp]
      have h1 := hq.2.2 evt hmem p hsp
      have h2 : eventY m.events evt = some e.yCoord := eventY_eq_some_iff.mpr ⟨e, hd, rfl⟩
      rw [h2] at h1
      rw [← Option.some.inj h1]
      exact hy
    · exact hP p hp

/-- A pop of a queued site event that is not below the cutoff, followed by writes to the arena
of items only and by the `delete` of the event, keeps the invariant of the sweep. -/
theorem SweepInv.pop_items {sites : List (Vector2 F)} {cutoffY : F} {m : Mem F}
    (hinv : SweepInv sites cutoffY m) (items1 : Items F) {evt : Nat} {e : SweepEvent F}
    (hmem : evt ∈ m.queue) (hd : deref m.events evt = some e) (hy : ¬ e.yCoord < cutoffY) :
    SweepInv sites cutoffY
      { items := items1, events := free m.events evt, queue := (queuePop m evt).queue,
        pops := (queuePop m evt).pops } :=
  have hext : QueueExtends (queuePop m evt)
      { items := items1, events := (queuePop m evt).events, queue := (queuePop m evt).queue,
        pops := (queuePop m evt).pops } := QueueExtends.of_eq rfl rfl
  hinv.pop_process hmem hd hy hext

/-- At the exit of the sweep the queue is drained into the unencountered events, which lie below
the cutoff and hold the sites below the cutoff. -/
theorem SweepInv.drain {env : Env F} {sites : List (Vector2 F)} {cutoffY : F} {m m1 : Mem F}
    {un : List Nat} {fuel : Nat}
    (hinv : SweepInv sites cutoffY m)
    (hexit : m.queue = [] ∨ ∃ evt e, queueTop env m = some evt ∧ deref m.events evt = some e ∧
      e.yCoord < cutoffY)
    (hfuel : m.queue.length < fuel) (hdrain : drainQueue env fuel m [] = some (m1, un)) :
    UnencounteredBelowCutoff sites cutoffY m1.events un := by
  obtain ⟨hq, P, hperm, hP⟩ := hinv
  have hlive : ∀ e ∈ m.queue, ∃ y, eventY m.events e = some y := by
    rcases hexit with h | ⟨evt, e, htop, -, -⟩
    · simp [h]
    · exact queueTop_live htop
  have hbelow : ∀ e ∈ m.queue, ∃ s, deref m.events e = some s ∧ s.yCoord < cutoffY := by
    rcases hexit with h | ⟨evt, e, htop, hd, hlt⟩
    · simp [h]
    · intro e2 he2
      obtain ⟨-, y, hy, hmax⟩ := queueTop_spec htop
      obtain ⟨y2, hy2⟩ := hlive e2 he2
      obtain ⟨s, hs, hsy⟩ := eventY_eq_some_iff.mp hy2
      have h1 : eventY m.events evt = some e.yCoord := eventY_eq_some_iff.mpr ⟨e, hd, rfl⟩
      rw [h1] at hy
      cases hy
      exact ⟨s, hs, lt_of_le_of_lt (hsy ▸ hmax e2 he2 y2 hy2) hlt⟩
  obtain ⟨m2, un2, hrun, hun, -, hev, -⟩ := drainQueue_spec env fuel m [] hfuel hlive
  rw [hrun] at hdrain
  simp only [List.nil_append, Option.some.injEq, Prod.mk.injEq] at hdrain
  obtain ⟨rfl, rfl⟩ := hdrain
  rw [hev]
  refine ⟨fun e he => hbelow e (hun.mem_iff.mp he), ?_⟩
  have h1 : (un2.filterMap (sitePoint m.events)).Perm (siteQueue m) := hun.filterMap _
  refine h1.trans ?_
  have h2 := (hperm.filter (fun p => decide (p.y < cutoffY))).symm
  refine List.Perm.trans ?_ h2.symm
  rw [List.filter_append]
  have h3 : P.filter (fun p => decide (p.y < cutoffY)) = [] := by
    rw [List.filter_eq_nil_iff]
    intro p hp
    simpa using hP p hp
  have h4 : (siteQueue m).filter (fun p => decide (p.y < cutoffY)) = siteQueue m := by
    rw [List.filter_eq_self]
    intro p hp
    unfold siteQueue at hp
    rw [List.mem_filterMap] at hp
    obtain ⟨e, he, hsp⟩ := hp
    obtain ⟨s, hs, hlt⟩ := hbelow e he
    have h5 := hq.2.2 e he p hsp
    have h6 : eventY m.events e = some s.yCoord := eventY_eq_some_iff.mpr ⟨s, hs, rfl⟩
    rw [h6] at h5
    rw [← Option.some.inj h5]
    simpa using hlt
  rw [h3, h4, List.append_nil]

theorem processEvent_extends {env : Env F} {m m1 : Mem F} {root root1 evt : Nat}
    {edges edges1 : List (CompleteEdge F)} {e : SweepEvent F}
    (h : processEvent env m root edges evt e = some (m1, root1, edges1)) :
    ∃ m2, QueueExtends m m2 ∧ m1 = { m2 with events := free m2.events evt } := by
  unfold processEvent at h
  split at h
  · cases h
  rename_i m2 r2 e2 hh
  cases h
  refine ⟨m2, ?_, rfl⟩
  split at hh
  · split at hh
    · cases hh
    · rename_i h3
      cases hh
      exact AddArcToBeachline_extends h3
  · split at hh
    · exact RemoveArcFromBeachline_extends hh
    · cases hh
      exact QueueExtends.refl _

theorem mainLoopStep_inv {env : Env F} {sites : List (Vector2 F)} {cutoffY : F} {m m1 : Mem F}
    {root root1 : Nat} {edges edges1 : List (CompleteEdge F)}
    (hinv : SweepInv sites cutoffY m)
    (h : mainLoopStep env cutoffY m root edges = some (some (m1, root1, edges1))) :
    SweepInv sites cutoffY m1 := by
  unfold mainLoopStep at h
  split at h
  · cases h
  split at h
  · cases h
  rename_i evt htop
  split at h
  · cases h
  rename_i e hd
  split at h
  · cases h
  rename_i hy
  split at h
  · cases h
  rename_i s hp
  cases h
  obtain ⟨m2, hext, rfl⟩ := processEvent_extends hp
  exact hinv.pop_process (queueTop_spec htop).1 hd hy hext

theorem mainLoopStep_exit {env : Env F} {cutoffY : F} {m : Mem F}
    {root : Nat} {edges : List (CompleteEdge F)}
    (h : mainLoopStep env cutoffY m root edges = some none) :
    m.queue = [] ∨ ∃ evt e, queueTop env m = some evt ∧ deref m.events evt = some e ∧
      e.yCoord < cutoffY := by
  unfold mainLoopStep at h
  split at h
  · rename_i hq; exact Or.inl hq
  split at h
  · cases h
  rename_i evt htop
  split at h
  · cases h
  rename_i e hd
  split at h
  · rename_i hy; exact Or.inr ⟨evt, e, htop, hd, hy⟩
  split at h
  · cases h
  · cases h

theorem mainLoop_inv {env : Env F} {sites : List (Vector2 F)} {cutoffY : F} (fuel : Nat)
    {m m1 : Mem F} {root root1 : Nat} {edges edges1 : List (CompleteEdge F)}
    (hinv : SweepInv sites cutoffY m)
    (h : mainLoop env cutoffY fuel m root edges = some (m1, root1, edges1)) :
    SweepInv sites cutoffY m1 ∧
    (m1.queue = [] ∨ ∃ evt e, queueTop env m1 = some evt ∧ deref m1.events evt = some e ∧
      e.yCoord < cutoffY) := by
  induction fuel generalizing m root edges with
  | zero => simp [mainLoop] at h
  | succ fuel ih =>
    unfold mainLoop at h
    split at h
    · cases h
    · rename_i hs
      cases h
      exact ⟨hinv, mainLoopStep_exit hs⟩
    · rename_i m2 r2 e2 hs
      exact ih (mainLoopStep_inv hinv hs) h

theorem startupLoop_inv {env : Env F} {sites : List (Vector2 F)} {cutoffY y : F} (fuel : Nat)
    {m m1 : Mem F} {root root1 : Nat}
    (hinv : SweepInv sites cutoffY m)
    (h : startupLoop env cutoffY y fuel m root = some (m1, root1)) :
    SweepInv sites cutoffY m1 := by
  induction fuel generalizing m root with
  | zero => simp [startupLoop] at h
  | succ fuel ih =>
    unfold startupLoop at h
    split at h
    · cases h; exact hinv
    split at h
    · cases h
    rename_i evt htop
    split at h
    · cases h
    rename_i e hd
    split at h
    swap
    · cases h; exact hinv
    split at h
    · cases h; exact hinv
    rename_i hy
    split at h
    · cases h
    split at h
    · cases h
    rename_i items1 r1 hins
    refine ih ?_ h
    exact hinv.pop_items items1 (queueTop_spec htop).1 hd hy

end SweepInvariant

section C4
variable {F : Type} [LinearOrderedField F]

/-- The queue seeded with the sites satisfies the invariant of the sweep. -/
theorem SweepInv.seed (sites : List (Vector2 F)) (cutoffY : F) :
    SweepInv sites cutoffY
      { items := [], events := sites.map (fun pt => some (siteEvent pt)),
        queue := List.range sites.length, pops := 0 } := by
  refine ⟨⟨List.nodup_range _, ?_, ?_⟩, [], ?_, by simp⟩
  · intro e he
    simpa using he
  · intro e he pt hpt
    simp only at hpt ⊢
    rw [sitePoint_seed] at hpt
    rw [eventY_eq_some_iff]
    refine ⟨siteEvent pt, ?_, rfl⟩
    rw [deref_seed, hpt]
    rfl
  · unfold siteQueue
    simp only [List.append_nil]
    have h := map_sitePoint_range sites
    have h2 : (List.range sites.length).filterMap
        (sitePoint (sites.map (fun pt => some (siteEvent pt))))
        = ((List.range sites.length).map
            (sitePoint (sites.map (fun pt => some (siteEvent pt))))).filterMap id := by
      rw [List.filterMap_map]
      rfl
    rw [h2, h]
    rw [List.filterMap_map]
    simp

/-- The part of `FortunesAlgorithm` before the main loop: an early return satisfies the claim on
the unencountered events, and otherwise the main loop is entered with the invariant. -/
theorem bootstrap_inv {env : Env F} {sites : List (Vector2 F)} {cutoffY : F}
    {b : Bootstrap F} (h : bootstrap env sites cutoffY = some b) :
    (∀ r, b = Bootstrap.aborted r →
      UnencounteredBelowCutoff sites cutoffY r.events r.unencounteredEvents) ∧
    (∀ m root, b = Bootstrap.entered m root → SweepInv sites cutoffY m) := by
  have hinv := SweepInv.seed sites cutoffY
  unfold bootstrap at h
  rw [seedEvents_empty] at h
  dsimp only at h
  split at h
  · cases h
  rename_i evt htop
  split at h
  · cases h
  rename_i fe hd
  split at h
  · cases h
  rename_i pt hsp
  split at h
  · rename_i hlt
    split at h
    · cases h
    rename_i m1 un hdrain
    cases h
    refine ⟨fun r hr => ?_, fun m root hm => by cases hm⟩
    cases hr
    exact hinv.drain (Or.inr ⟨evt, fe, htop, hd, hlt⟩) (by simp) hdrain
  · rename_i hlt
    split at h
    · cases h
    rename_i m3 root hstart
    cases h
    refine ⟨fun r hr => (by cases hr), fun m root hm => ?_⟩
    cases hm
    refine startupLoop_inv _ ?_ hstart
    exact hinv.pop_items _ (queueTop_spec htop).1 hd hlt

theorem assembleResult_unencountered {env : Env F} {sites : List (Vector2 F)} {cutoffY : F}
    {m : Mem F} {root : Nat} {edges : List (CompleteEdge F)} {r : FortuneState F}
    (hinv : SweepInv sites cutoffY m)
    (hexit : m.queue = [] ∨ ∃ evt e, queueTop env m = some evt ∧ deref m.events evt = some e ∧
      e.yCoord < cutoffY)
    (h : assembleResult env cutoffY m root edges = some r) :
    UnencounteredBelowCutoff sites cutoffY r.events r.unencounteredEvents := by
  unfold assembleResult at h
  split at h
  · cases h
  split at h
  · cases h
  rename_i m1 un hdrain
  cases h
  exact hinv.drain hexit (by simp) hdrain

/-- C4. Every event that a run of `FortunesAlgorithm` on a non-empty site list returns in
`unencounteredEvents` is a live event with `yCoord < cutoffY`, and the points of the site events
among them are, as a multiset, the input sites with `y < cutoffY`: no site at or above the
cutoff is left unprocessed and no site below the cutoff is processed.  (The model returns no
result when an assertion of the code fails, a stored coordinate is not finite, or the fuel of
the main loop runs out; the statement is about the runs that return.) -/
theorem C4_unencountered_events_below_cutoff (env : Env F) (fuel : Nat)
    (sites : List (Vector2 F)) (cutoffY : F) (r : FortuneState F) (hne : sites ≠ [])
    (h : FortunesAlgorithm env fuel sites cutoffY = some r) :
    (∀ e ∈ r.unencounteredEvents, ∃ s, deref r.events e = some s ∧ s.yCoord < cutoffY) ∧
    (r.unencounteredEvents.filterMap (sitePoint r.events)).Perm
      (sites.filter (fun p => decide (p.y < cutoffY))) := by
  unfold FortunesAlgorithm at h
  split at h
  · cases h
  · rename_i res hb
    cases h
    exact (bootstrap_inv hb).1 _ rfl
  · rename_i m3 root hb
    split at h
    · cases h
    rename_i m4 root1 edges hmain
    obtain ⟨hinv, hexit⟩ := mainLoop_inv fuel ((bootstrap_inv hb).2 _ _ rfl) hmain
    exact assembleResult_unencountered hinv hexit h

end C4

section C4Witness
set_option maxRecDepth 100000

/-- Witness of C4: the run on `levelSites` with the cutoff 10 processes the two sites with
`y = 24` and leaves the event of the site (-25,0) unencountered. -/
theorem C4_witness :
    (levelSites ≠ [] ∧ FortunesAlgorithm envQ0 1 levelSites 10 = some levelCutResult ∧
      levelCutResult.unencounteredEvents = [2]) ∧
    ((∀ e ∈ levelCutResult.unencounteredEvents,
        ∃ s, deref levelCutResult.events e = some s ∧ s.yCoord < 10) ∧
     (levelCutResult.unencounteredEvents.filterMap (sitePoint levelCutResult.events)).Perm
      (levelSites.filter (fun p => decide (p.y < 10)))) :=
  ⟨⟨by decide, by decide!, by decide!⟩,
   C4_unencountered_events_below_cutoff envQ0 1 levelSites 10 levelCutResult (by decide)
     (by decide!)⟩

/-- The failing input of C4 in the embedding: on the sites (0,10), (0,0), (0,-10), (0,-100) with
the cutoff -50 the first turn of the main loop inserts (0,0), and the second turn, which inserts
(0,-10), calls `AddArcSqueezeEvent` for an arc whose bounding edges start at (0,5) and (0,-5)
with the same direction (-1,0).  `TryGetEdgeIntersectionPoint` gives the non-finite result for
them and the embedding of the run ends there; the code pushes a circle event with that vertex
and goes on. -/
theorem parallel_edges_end_the_run :
    (runState envQ0 [⟨0, 10⟩, ⟨0, 0⟩, ⟨0, -10⟩, ⟨0, -100⟩] (-50) 1).isSome = true ∧
    runState envQ0 [⟨0, 10⟩, ⟨0, 0⟩, ⟨0, -10⟩, ⟨0, -100⟩] (-50) 2 = none ∧
    TryGetEdgeIntersectionPoint (⟨⟨0, 5⟩, ⟨-1, 0⟩, false⟩ : Edge ℚ) ⟨⟨0, -5⟩, ⟨-1, 0⟩, false⟩
      = RayHit.nonFinite ∧
    FortunesAlgorithm envQ0 10 [⟨0, 10⟩, ⟨0, 0⟩, ⟨0, -10⟩, ⟨0, -100⟩] (-50) = none :=
  ⟨by decide!, by decide!, by decide!, by decide!⟩

end C4Witness

section TieIndependence
variable {F : Type} [LinearOrderedField F]

end TieIndependence

section TieIndependenceRun
variable {F : Type} [LinearOrderedField F]

end TieIndependenceRun

section C10Witness
set_option maxRecDepth 100000

end C10Witness

section ArcHeight
variable {F : Type} [LinearOrderedField F]

/-- The value of `GetArcYForXCoord` for a focus off the directrix. -/
theorem GetArcYForXCoord_eq (arc : Arc F) (x d : F) (h : arc.focus.y ≠ d) :
    GetArcYForXCoord arc x d
      = some (quadA2 arc d * (x - arc.focus.x) * (x - arc.focus.x)
          + (arc.focus.y + d) * (1 / 2)) := by
  have h2 : 2 * (arc.focus.y - d) ≠ 0 := mul_ne_zero two_ne_zero (sub_ne_zero.mpr h)
  unfold GetArcYForXCoord quadA2
  simp [fdiv, h2, Flt.toOption]

/-- C12. For a focus off the directrix, `GetArcYForXCoord` returns a value `y`, and the point
`(x, y)` is equidistant from the focus and from the line `y = directrixY`. -/
theorem C12_arc_point_equidistant_from_focus_and_directrix (arc : Arc F) (x directrixY : F)
    (h : arc.focus.y ≠ directrixY) :
    ∃ y, GetArcYForXCoord arc x directrixY = some y ∧
      (x - arc.focus.x) ^ 2 + (y - arc.focus.y) ^ 2 = (y - directrixY) ^ 2 := by
  refine ⟨_, GetArcYForXCoord_eq arc x directrixY h, ?_⟩
  have h2 : arc.focus.y - directrixY ≠ 0 := sub_ne_zero.mpr h
  unfold quadA2
  field_simp
  ring

end ArcHeight

section C12Witness
set_option maxRecDepth 100000

/-- Witness of C12: the arc of focus (3,4) over the directrix `y = 0` at `x = 7`. -/
theorem C12_witness :
    ((4 : ℚ) ≠ 0) ∧
    ∃ y, GetArcYForXCoord (⟨⟨3, 4⟩, none⟩ : Arc ℚ) 7 0 = some y ∧
      (7 - (3 : ℚ)) ^ 2 + (y - 4) ^ 2 = (y - 0) ^ 2 :=
  ⟨by decide!,
   C12_arc_point_equidistant_from_focus_and_directrix (⟨⟨3, 4⟩, none⟩ : Arc ℚ) 7 0 (by decide!)⟩

end C12Witness

section EdgeArc
variable {F : Type} [LinearOrderedField F]

/-- The general branch of `GetEdgeArcIntersectionPoint` in terms of its locals. -/
theorem GetEdgeArcIntersectionPoint_general (env : Env F) (edge : Edge F) (arc : Arc F) (d : F)
    (hx : edge.direction.x ≠ 0) (hy : arc.focus.y ≠ d) :
    GetEdgeArcIntersectionPoint env edge arc d =
      if discriminant edge arc d < 0 then some none
      else (GetArcYForXCoord arc (chosenRoot env edge arc d) d).bind
        (fun y => some (some { x := chosenRoot env edge arc d, y := y })) := by
  unfold GetEdgeArcIntersectionPoint
  rw [if_neg hx]
  simp only [if_neg hy]
  rfl

theorem quadA2_ne_zero (arc : Arc F) (d : F)
    (hy : arc.focus.y ≠ d) : quadA2 arc d ≠ 0 := by
  unfold quadA2
  exact one_div_ne_zero (mul_ne_zero two_ne_zero (sub_ne_zero.mpr hy))

/-- The difference between the arc and the line of the edge at `x` is the quadratic with the
coefficients `a2`, `a1`, `a0`. -/
theorem arc_sub_line (edge : Edge F) (arc : Arc F) (d x : F) :
    quadA2 arc d * (x - arc.focus.x) * (x - arc.focus.x) + (arc.focus.y + d) * (1 / 2)
      - (edge.start.y + edge.direction.y / edge.direction.x * (x - edge.start.x))
    = quadA2 arc d * x * x + quadA1 edge arc d * x + quadA0 edge arc d := by
  unfold quadA1 quadA0 edgeIntercept edgeSlope
  ring

/-- The roots of a quadratic from an exact square root of its discriminant. -/
theorem quadratic_root (a2 a1 a0 r x : F) (h2 : a2 ≠ 0)
    (hr : r * r = a1 * a1 - 4 * a2 * a0) (hx : 2 * a2 * x = -a1 + r ∨ 2 * a2 * x = -a1 - r) :
    a2 * x * x + a1 * x + a0 = 0 := by
  have h4 : 4 * a2 * (a2 * x * x + a1 * x + a0) = 0 := by
    rcases hx with hx | hx
    · linear_combination (2 * a2 * x + a1 + r) * hx + hr
    · linear_combination (2 * a2 * x + a1 - r) * hx + hr
  rcases mul_eq_zero.mp h4 with h | h
  · exact absurd h (mul_ne_zero four_ne_zero h2)
  · exact h

theorem quadratic_at_rootX1 (env : Env F) (edge : Edge F) (arc : Arc F) (d : F)
    (hy : arc.focus.y ≠ d)
    (hs : env.sqrt (discriminant edge arc d) * env.sqrt (discriminant edge arc d)
      = discriminant edge arc d) :
    quadA2 arc d * rootX1 env edge arc d * rootX1 env edge arc d
      + quadA1 edge arc d * rootX1 env edge arc d + quadA0 edge arc d = 0 := by
  have h2 := quadA2_ne_zero arc d hy
  refine quadratic_root _ _ _ (env.sqrt (discriminant edge arc d)) _ h2 hs (Or.inl ?_)
  unfold rootX1
  field_simp

theorem quadratic_at_rootX2 (env : Env F) (edge : Edge F) (arc : Arc F) (d : F)
    (hy : arc.focus.y ≠ d)
    (hs : env.sqrt (discriminant edge arc d) * env.sqrt (discriminant edge arc d)
      = discriminant edge arc d) :
    quadA2 arc d * rootX2 env edge arc d * rootX2 env edge arc d
      + quadA1 edge arc d * rootX2 env edge arc d + quadA0 edge arc d = 0 := by
  have h2 := quadA2_ne_zero arc d hy
  refine quadratic_root _ _ _ (env.sqrt (discriminant edge arc d)) _ h2 hs (Or.inr ?_)
  unfold rootX2
  field_simp

theorem chosenRoot_eq (env : Env F) (edge : Edge F) (arc : Arc F) (d : F) :
    chosenRoot env edge arc d = rootX1 env edge arc d ∨
    chosenRoot env edge arc d = rootX2 env edge arc d := by
  unfold chosenRoot
  simp only
  split_ifs <;> simp

/-- With a negative discriminant the quadratic has no root. -/
theorem quadratic_ne_zero_of_discriminant_neg (edge : Edge F) (arc : Arc F) (d x : F)
    (hy : arc.focus.y ≠ d) (hd : discriminant edge arc d < 0) :
    quadA2 arc d * x * x + quadA1 edge arc d * x + quadA0 edge arc d ≠ 0 := by
  intro h
  have h2 := quadA2_ne_zero arc d hy
  have key : (2 * quadA2 arc d * x + quadA1 edge arc d) ^ 2 = discriminant edge arc d := by
    unfold discriminant
    linear_combination 4 * quadA2 arc d * h
  have := sq_nonneg (2 * quadA2 arc d * x + quadA1 edge arc d)
  rw [key] at this
  exact absurd hd (not_lt.mpr this)

/-- C13. For an edge that is not vertical and an arc whose focus is off the directrix,
`GetEdgeArcIntersectionPoint` returns no intersection exactly when the discriminant is negative,
in which case no point of the arc lies on the line of the edge; otherwise it returns a point
whose `y` is `GetArcYForXCoord` at its `x` and which, the square root of the discriminant being
exact, lies on the line through `edge.start` with slope `direction.y / direction.x`. -/
theorem C13_general_intersection_on_arc_and_line (env : Env F) (edge : Edge F) (arc : Arc F)
    (directrixY : F) (hx : edge.direction.x ≠ 0) (hy : arc.focus.y ≠ directrixY)
    (hsqrt : 0 ≤ discriminant edge arc directrixY →
      env.sqrt (discriminant edge arc directrixY) * env.sqrt (discriminant edge arc directrixY)
        = discriminant edge arc directrixY) :
    (GetEdgeArcIntersectionPoint env edge arc directrixY = some none
      ↔ discriminant edge arc directrixY < 0) ∧
    (discriminant edge arc directrixY < 0 → ∀ x y, GetArcYForXCoord arc x directrixY = some y →
      y ≠ edge.start.y + edge.direction.y / edge.direction.x * (x - edge.start.x)) ∧
    (¬ discriminant edge arc directrixY < 0 →
      ∃ pt, GetEdgeArcIntersectionPoint env edge arc directrixY = some (some pt) ∧
        GetArcYForXCoord arc pt.x directrixY = some pt.y ∧
        pt.y = edge.start.y + edge.direction.y / edge.direction.x * (pt.x - edge.start.x)) := by
  have hgen := GetEdgeArcIntersectionPoint_general env edge arc directrixY hx hy
  have hpos : ¬ discriminant edge arc directrixY < 0 →
      ∃ pt, GetEdgeArcIntersectionPoint env edge arc directrixY = some (some pt) ∧
        GetArcYForXCoord arc pt.x directrixY = some pt.y ∧
        pt.y = edge.start.y + edge.direction.y / edge.direction.x * (pt.x - edge.start.x) := by
    intro hd
    have hs := hsqrt (not_lt.mp hd)
    have harc := GetArcYForXCoord_eq arc (chosenRoot env edge arc directrixY) directrixY hy
    rw [if_neg hd, harc] at hgen
    refine ⟨_, hgen, harc, ?_⟩
    simp only
    have hq : quadA2 arc directrixY * chosenRoot env edge arc directrixY
          * chosenRoot env edge arc directrixY
        + quadA1 edge arc directrixY * chosenRoot env edge arc directrixY
        + quadA0 edge arc directrixY = 0 := by
      rcases chosenRoot_eq env edge arc directrixY with h | h
      · rw [h]; exact quadratic_at_rootX1 env edge arc directrixY hy hs
      · rw [h]; exact quadratic_at_rootX2 env edge arc directrixY hy hs
    have := arc_sub_line edge arc directrixY (chosenRoot env edge arc directrixY)
    rw [hq] at this
    exact sub_eq_zero.mp this
  refine ⟨⟨fun h => ?_, fun h => by rw [hgen, if_pos h]⟩, ?_, hpos⟩
  · by_contra hd
    obtain ⟨pt, hpt, -⟩ := hpos hd
    rw [hpt] at h
    cases h
  · intro hd x y hxy heq
    rw [GetArcYForXCoord_eq arc x directrixY hy] at hxy
    have hy2 := Option.some.inj hxy
    have := arc_sub_line edge arc directrixY x
    rw [hy2, heq, sub_self] at this
    exact quadratic_ne_zero_of_discriminant_neg edge arc directrixY x hy hd this.symm

/-- C14. In the general case of `GetEdgeArcIntersectionPoint` (edge not vertical, focus off the
directrix, discriminant not negative), with `d1`, `d2` the values of `rootDot` at the roots
`x1`, `x2`: the `x` of the returned point is `x1` when only `d1` is non-negative, `x2` when only
`d2` is; when both are non-negative it is a root at which `rootDot` is the smaller of `d1`,
`d2`; when both are negative it is a root at which `rootDot` is the larger of `d1`, `d2`. -/
theorem C14_root_selection (env : Env F) (edge : Edge F) (arc : Arc F) (directrixY : F)
    (hx : edge.direction.x ≠ 0) (hy : arc.focus.y ≠ directrixY)
    (hd : ¬ discriminant edge arc directrixY < 0) :
    ∃ pt, GetEdgeArcIntersectionPoint env edge arc directrixY = some (some pt) ∧
      (0 ≤ rootDot edge (rootX1 env edge arc directrixY) ∧
        rootDot edge (rootX2 env edge arc directrixY) < 0 →
          pt.x = rootX1 env edge arc directrixY) ∧
      (rootDot edge (rootX1 env edge arc directrixY) < 0 ∧
        0 ≤ rootDot edge (rootX2 env edge arc directrixY) →
          pt.x = rootX2 env edge arc directrixY) ∧
      (0 ≤ rootDot edge (rootX1 env edge arc directrixY) ∧
        0 ≤ rootDot edge (rootX2 env edge arc directrixY) →
          (pt.x = rootX1 env edge arc directrixY ∨ pt.x = rootX2 env edge arc directrixY) ∧
          rootDot edge pt.x = min (rootDot edge (rootX1 env edge arc directrixY))
            (rootDot edge (rootX2 env edge arc directrixY))) ∧
      (rootDot edge (rootX1 env edge arc directrixY) < 0 ∧
        rootDot edge (rootX2 env edge arc directrixY) < 0 →
          (pt.x = rootX1 env edge arc directrixY ∨ pt.x = rootX2 env edge arc directrixY) ∧
          rootDot edge pt.x = max (rootDot edge (rootX1 env edge arc directrixY))
            (rootDot edge (rootX2 env edge arc directrixY))) := by
  have hgen := GetEdgeArcIntersectionPoint_general env edge arc directrixY hx hy
  have harc := GetArcYForXCoord_eq arc (chosenRoot env edge arc directrixY) directrixY hy
  rw [if_neg hd, harc] at hgen
  refine ⟨_, hgen, ?_, ?_, ?_, ?_⟩
  · intro h
    simp only [chosenRoot, Option.bind]
    rw [if_pos h]
  · intro h
    simp only [chosenRoot, Option.bind]
    rw [if_neg (fun h2 => absurd h.1 (not_lt.mpr h2.1)), if_pos h]
  · intro h
    simp only [chosenRoot, Option.bind]
    rw [if_neg (fun h2 => absurd h2.2 (not_lt.mpr h.2)),
      if_neg (fun h2 => absurd h2.1 (not_lt.mpr h.1)), if_pos h]
    by_cases hlt : rootDot edge (rootX1 env edge arc directrixY)
        < rootDot edge (rootX2 env edge arc directrixY)
    · rw [if_pos hlt]
      exact ⟨Or.inl rfl, (min_eq_left (le_of_lt hlt)).symm⟩
    · rw [if_neg hlt]
      exact ⟨Or.inr rfl, (min_eq_right (not_lt.mp hlt)).symm⟩
  · intro h
    simp only [chosenRoot, Option.bind]
    rw [if_neg (fun h2 => absurd h.1 (not_lt.mpr h2.1)),
      if_neg (fun h2 => absurd h.2 (not_lt.mpr h2.2)),
      if_neg (fun h2 => absurd h.1 (not_lt.mpr h2.1))]
    by_cases hlt : rootDot edge (rootX1 env edge arc directrixY)
        < rootDot edge (rootX2 env edge arc directrixY)
    · rw [if_pos hlt]
      exact ⟨Or.inr rfl, (max_eq_right (le_of_lt hlt)).symm⟩
    · rw [if_neg hlt]
      exact ⟨Or.inl rfl, (max_eq_left (not_lt.mp hlt)).symm⟩

/-- C15. For a vertical edge: when the focus of the arc is on the directrix,
`GetEdgeArcIntersectionPoint` returns the focus if `edge.start.x = focus.x` and no intersection
otherwise; when the focus is off the directrix it returns the point of the arc at
`edge.start.x`. -/
theorem C15_vertical_edge (env : Env F) (edge : Edge F) (arc : Arc F) (directrixY : F)
    (hx : edge.direction.x = 0) :
    (arc.focus.y = directrixY → edge.start.x = arc.focus.x →
      GetEdgeArcIntersectionPoint env edge arc directrixY = some (some arc.focus)) ∧
    (arc.focus.y = directrixY → edge.start.x ≠ arc.focus.x →
      GetEdgeArcIntersectionPoint env edge arc directrixY = some none) ∧
    (arc.focus.y ≠ directrixY →
      ∃ y, GetArcYForXCoord arc edge.start.x directrixY = some y ∧
        GetEdgeArcIntersectionPoint env edge arc directrixY
          = some (some { x := edge.start.x, y := y })) := by
  unfold GetEdgeArcIntersectionPoint
  rw [if_pos hx]
  refine ⟨fun h1 h2 => ?_, fun h1 h2 => ?_, fun h1 => ?_⟩
  · rw [if_pos h1.symm, if_pos h2]
  · rw [if_pos h1.symm, if_neg h2]
  · rw [if_neg (fun h => h1 h.symm)]
    refine ⟨_, GetArcYForXCoord_eq arc edge.start.x directrixY h1, ?_⟩
    rw [GetArcYForXCoord_eq arc edge.start.x directrixY h1]
    rfl

/-- C16. For an edge that is not vertical and an arc whose focus is on the directrix,
`GetEdgeArcIntersectionPoint` returns no intersection exactly when
`(focus.x - edge.start.x) * edge.direction.x < 0`; otherwise it returns the point of the line of
the edge at `x = focus.x`, which is `start + t * direction` for some `t ≥ 0`. -/
theorem C16_degenerate_arc (env : Env F) (edge : Edge F) (arc : Arc F) (directrixY : F)
    (hx : edge.direction.x ≠ 0) (hy : arc.focus.y = directrixY) :
    (GetEdgeArcIntersectionPoint env edge arc directrixY = some none
      ↔ (arc.focus.x - edge.start.x) * edge.direction.x < 0) ∧
    (¬ (arc.focus.x - edge.start.x) * edge.direction.x < 0 →
      ∃ pt t, GetEdgeArcIntersectionPoint env edge arc directrixY = some (some pt) ∧
        pt.x = arc.focus.x ∧
        pt.y = edge.start.y + edge.direction.y / edge.direction.x * (pt.x - edge.start.x) ∧
        0 ≤ t ∧ pt.x = edge.start.x + t * edge.direction.x ∧
        pt.y = edge.start.y + t * edge.direction.y) := by
  have hpos : ¬ (arc.focus.x - edge.start.x) * edge.direction.x < 0 →
      ∃ pt t, GetEdgeArcIntersectionPoint env edge arc directrixY = some (some pt) ∧
        pt.x = arc.focus.x ∧
        pt.y = edge.start.y + edge.direction.y / edge.direction.x * (pt.x - edge.start.x) ∧
        0 ≤ t ∧ pt.x = edge.start.x + t * edge.direction.x ∧
        pt.y = edge.start.y + t * edge.direction.y := by
    intro h
    refine ⟨{ x := arc.focus.x,
              y := edge.direction.y / edge.direction.x * arc.focus.x
                + (edge.start.y - edge.direction.y / edge.direction.x * edge.start.x) },
      (arc.focus.x - edge.start.x) / edge.direction.x, ?_, rfl, ?_, ?_, ?_, ?_⟩
    · unfold GetEdgeArcIntersectionPoint
      rw [if_neg hx]
      simp only [if_pos hy, if_neg h]
    · simp only; ring
    · have h0 := not_lt.mp h
      have hsq : 0 < edge.direction.x * edge.direction.x := mul_self_pos.mpr hx
      have : (arc.focus.x - edge.start.x) / edge.direction.x
          = (arc.focus.x - edge.start.x) * edge.direction.x
            / (edge.direction.x * edge.direction.x) := by
        field_simp
        ring
      rw [this]
      exact div_nonneg h0 (le_of_lt hsq)
    · simp only; field_simp
    · simp only; field_simp; ring
  refine ⟨⟨fun h => ?_, fun h => ?_⟩, hpos⟩
  · by_contra hn
    obtain ⟨pt, t, hpt, -⟩ := hpos hn
    rw [hpt] at h
    cases h
  · unfold GetEdgeArcIntersectionPoint
    rw [if_neg hx]
    simp only [if_pos hy, if_pos h]

end EdgeArc

section EdgeArcWitness
set_option maxRecDepth 100000

/-- Witness of C13: the horizontal edge from (0,1) and the arc of focus (0,1) over the directrix
`y = -1`; the discriminant is 1 and the point returned is (2,1). -/
theorem C13_witness :
    ((1 : ℚ) ≠ 0 ∧ (1 : ℚ) ≠ -1 ∧
      (0 ≤ discriminant (⟨⟨0, 1⟩, ⟨1, 0⟩, false⟩ : Edge ℚ) ⟨⟨0, 1⟩, none⟩ (-1) →
        envQ0.sqrt (discriminant (⟨⟨0, 1⟩, ⟨1, 0⟩, false⟩ : Edge ℚ) ⟨⟨0, 1⟩, none⟩ (-1))
          * envQ0.sqrt (discriminant (⟨⟨0, 1⟩, ⟨1, 0⟩, false⟩ : Edge ℚ) ⟨⟨0, 1⟩, none⟩ (-1))
          = discriminant (⟨⟨0, 1⟩, ⟨1, 0⟩, false⟩ : Edge ℚ) ⟨⟨0, 1⟩, none⟩ (-1)) ∧
      GetEdgeArcIntersectionPoint envQ0 (⟨⟨0, 1⟩, ⟨1, 0⟩, false⟩ : Edge ℚ) ⟨⟨0, 1⟩, none⟩ (-1)
        = some (some ⟨2, 1⟩)) ∧
    ((GetEdgeArcIntersectionPoint envQ0 (⟨⟨0, 1⟩, ⟨1, 0⟩, false⟩ : Edge ℚ) ⟨⟨0, 1⟩, none⟩ (-1)
        = some none
      ↔ discriminant (⟨⟨0, 1⟩, ⟨1, 0⟩, false⟩ : Edge ℚ) ⟨⟨0, 1⟩, none⟩ (-1) < 0) ∧
    (discriminant (⟨⟨0, 1⟩, ⟨1, 0⟩, false⟩ : Edge ℚ) ⟨⟨0, 1⟩, none⟩ (-1) < 0 →
      ∀ x y, GetArcYForXCoord (⟨⟨0, 1⟩, none⟩ : Arc ℚ) x (-1) = some y →
        y ≠ 1 + 0 / 1 * (x - 0)) ∧
    (¬ discriminant (⟨⟨0, 1⟩, ⟨1, 0⟩, false⟩ : Edge ℚ) ⟨⟨0, 1⟩, none⟩ (-1) < 0 →
      ∃ pt, GetEdgeArcIntersectionPoint envQ0 (⟨⟨0, 1⟩, ⟨1, 0⟩, false⟩ : Edge ℚ)
          ⟨⟨0, 1⟩, none⟩ (-1) = some (some pt) ∧
        GetArcYForXCoord (⟨⟨0, 1⟩, none⟩ : Arc ℚ) pt.x (-1) = some pt.y ∧
        pt.y = 1 + 0 / 1 * (pt.x - 0))) :=
  ⟨⟨by decide!, by decide!, by decide!, by decide!⟩,
   C13_general_intersection_on_arc_and_line envQ0 (⟨⟨0, 1⟩, ⟨1, 0⟩, false⟩ : Edge ℚ)
     ⟨⟨0, 1⟩, none⟩ (-1) (by decide!) (by decide!) (by decide!)⟩

/-- Witness of C14: for `sampleEdge` and `sampleArc` both roots lie ahead of the start of the
edge, and the nearer one, `x = -2`, is returned. -/
theorem C14_witness :
    ((1 : ℚ) ≠ 0 ∧ (1 : ℚ) ≠ -1 ∧ ¬ discriminant sampleEdge sampleArc (-1) < 0 ∧
      GetEdgeArcIntersectionPoint envQ0 sampleEdge sampleArc (-1) = some (some ⟨-2, 1⟩) ∧
      rootX1 envQ0 sampleEdge sampleArc (-1) = 2 ∧ rootX2 envQ0 sampleEdge sampleArc (-1) = -2) ∧
    ∃ pt, GetEdgeArcIntersectionPoint envQ0 sampleEdge sampleArc (-1) = some (some pt) ∧
      (0 ≤ rootDot sampleEdge (rootX1 envQ0 sampleEdge sampleArc (-1)) ∧
        rootDot sampleEdge (rootX2 envQ0 sampleEdge sampleArc (-1)) < 0 →
          pt.x = rootX1 envQ0 sampleEdge sampleArc (-1)) ∧
      (rootDot sampleEdge (rootX1 envQ0 sampleEdge sampleArc (-1)) < 0 ∧
        0 ≤ rootDot sampleEdge (rootX2 envQ0 sampleEdge sampleArc (-1)) →
          pt.x = rootX2 envQ0 sampleEdge sampleArc (-1)) ∧
      (0 ≤ rootDot sampleEdge (rootX1 envQ0 sampleEdge sampleArc (-1)) ∧
        0 ≤ rootDot sampleEdge (rootX2 envQ0 sampleEdge sampleArc (-1)) →
          (pt.x = rootX1 envQ0 sampleEdge sampleArc (-1) ∨
            pt.x = rootX2 envQ0 sampleEdge sampleArc (-1)) ∧
          rootDot sampleEdge pt.x = min (rootDot sampleEdge (rootX1 envQ0 sampleEdge sampleArc (-1)))
            (rootDot sampleEdge (rootX2 envQ0 sampleEdge sampleArc (-1)))) ∧
      (rootDot sampleEdge (rootX1 envQ0 sampleEdge sampleArc (-1)) < 0 ∧
        rootDot sampleEdge (rootX2 envQ0 sampleEdge sampleArc (-1)) < 0 →
          (pt.x = rootX1 envQ0 sampleEdge sampleArc (-1) ∨
            pt.x = rootX2 envQ0 sampleEdge sampleArc (-1)) ∧
          rootDot sampleEdge pt.x = max (rootDot sampleEdge (rootX1 envQ0 sampleEdge sampleArc (-1)))
            (rootDot sampleEdge (rootX2 envQ0 sampleEdge sampleArc (-1)))) :=
  ⟨⟨by decide!, by decide!, by decide!, by decide!, by decide!, by decide!⟩,
   C14_root_selection envQ0 sampleEdge sampleArc (-1) (by decide!) (by decide!) (by decide!)⟩

/-- Witness of C15: the vertical edge at `x = 2` meets `sampleArc` over the directrix `y = -1`
at (2,1). -/
theorem C15_witness :
    ((0 : ℚ) = 0 ∧
      GetEdgeArcIntersectionPoint envQ0 sampleVerticalEdge sampleArc (-1) = some (some ⟨2, 1⟩)) ∧
    ((sampleArc.focus.y = -1 → sampleVerticalEdge.start.x = sampleArc.focus.x →
      GetEdgeArcIntersectionPoint envQ0 sampleVerticalEdge sampleArc (-1)
        = some (some sampleArc.focus)) ∧
    (sampleArc.focus.y = -1 → sampleVerticalEdge.start.x ≠ sampleArc.focus.x →
      GetEdgeArcIntersectionPoint envQ0 sampleVerticalEdge sampleArc (-1) = some none) ∧
    (sampleArc.focus.y ≠ -1 →
      ∃ y, GetArcYForXCoord sampleArc sampleVerticalEdge.start.x (-1) = some y ∧
        GetEdgeArcIntersectionPoint envQ0 sampleVerticalEdge sampleArc (-1)
          = some (some { x := sampleVerticalEdge.start.x, y := y }))) :=
  ⟨⟨rfl, by decide!⟩, C15_vertical_edge envQ0 sampleVerticalEdge sampleArc (-1) rfl⟩

/-- Witness of C16: the diagonal edge from the origin meets the degenerate arc of focus (0,1)
(directrix `y = 1`) at the origin, and does not meet it when started at (1,1). -/
theorem C16_witness :
    ((1 : ℚ) ≠ 0 ∧ sampleArc.focus.y = 1 ∧
      GetEdgeArcIntersectionPoint envQ0 sampleDiagonalEdge sampleArc 1 = some (some ⟨0, 0⟩) ∧
      GetEdgeArcIntersectionPoint envQ0 (⟨⟨1, 1⟩, ⟨1, 1⟩, false⟩ : Edge ℚ) sampleArc 1
        = some none) ∧
    ((GetEdgeArcIntersectionPoint envQ0 sampleDiagonalEdge sampleArc 1 = some none
      ↔ (sampleArc.focus.x - sampleDiagonalEdge.start.x) * sampleDiagonalEdge.direction.x < 0) ∧
    (¬ (sampleArc.focus.x - sampleDiagonalEdge.start.x) * sampleDiagonalEdge.direction.x < 0 →
      ∃ pt t, GetEdgeArcIntersectionPoint envQ0 sampleDiagonalEdge sampleArc 1 = some (some pt) ∧
        pt.x = sampleArc.focus.x ∧
        pt.y = sampleDiagonalEdge.start.y
          + sampleDiagonalEdge.direction.y / sampleDiagonalEdge.direction.x
            * (pt.x - sampleDiagonalEdge.start.x) ∧
        0 ≤ t ∧ pt.x = sampleDiagonalEdge.start.x + t * sampleDiagonalEdge.direction.x ∧
        pt.y = sampleDiagonalEdge.start.y + t * sampleDiagonalEdge.direction.y)) :=
  ⟨⟨by decide!, by decide!, by decide!, by decide!⟩,
   C16_degenerate_arc envQ0 sampleDiagonalEdge sampleArc 1 (by decide!) (by decide!)⟩

end EdgeArcWitness

section Rays
variable {F : Type} [LinearOrderedField F]

/-- `TryGetEdgeIntersectionPoint` for directions that are not parallel, in terms of the finite
parameters `u` and `v`. -/
theorem TryGetEdgeIntersectionPoint_of_det_ne (e1 e2 : Edge F) (hdet : rayDet e1 e2 ≠ 0) :
    TryGetEdgeIntersectionPoint e1 e2 =
      if (decide (rayNumU e1 e2 / rayDet e1 e2 < 0) && !e1.extendsUpwardsForever) = true then
        RayHit.miss
      else if (decide (rayNumV e1 e2 / rayDet e1 e2 < 0) && !e2.extendsUpwardsForever) = true then
        RayHit.miss
      else if (decide (rayNumU e1 e2 / rayDet e1 e2 = 0)
          && decide (rayNumV e1 e2 / rayDet e1 e2 = 0)
          && !e1.extendsUpwardsForever && !e2.extendsUpwardsForever) = true then
        RayHit.miss
      else
        RayHit.hit { x := e1.start.x + e1.direction.x * (rayNumU e1 e2 / rayDet e1 e2),
                     y := e1.start.y + e1.direction.y * (rayNumU e1 e2 / rayDet e1 e2) } := by
  unfold rayDet at hdet
  unfold TryGetEdgeIntersectionPoint rayNumU rayNumV rayDet
  simp only [fdiv, if_neg hdet, Flt.ltZero, Flt.eqZero]

/-- `TryGetEdgeIntersectionPoint` for parallel directions: `false` when a parameter is `-inf`
on an edge that is not a start-up edge, and otherwise `true` with a point that is not finite. -/
theorem TryGetEdgeIntersectionPoint_of_det_eq (e1 e2 : Edge F) (hdet : rayDet e1 e2 = 0) :
    TryGetEdgeIntersectionPoint e1 e2 =
      if (rayNumU e1 e2 < 0 ∧ e1.extendsUpwardsForever = false) ∨
          (rayNumV e1 e2 < 0 ∧ e2.extendsUpwardsForever = false) then RayHit.miss
      else RayHit.nonFinite := by
  unfold rayDet at hdet
  unfold TryGetEdgeIntersectionPoint rayNumU rayNumV
  simp only [fdiv, hdet, if_true]
  by_cases hu : 0 < (e2.start.y - e1.start.y) * e2.direction.x
      - (e2.start.x - e1.start.x) * e2.direction.y
  · have hu2 := not_lt.mpr (le_of_lt hu)
    by_cases hv : 0 < (e2.start.y - e1.start.y) * e1.direction.x
        - (e2.start.x - e1.start.x) * e1.direction.y
    · have hv2 := not_lt.mpr (le_of_lt hv)
      simp [hu, hv, hu2, hv2, Flt.ltZero, Flt.eqZero]
    · by_cases hv2 : (e2.start.y - e1.start.y) * e1.direction.x
          - (e2.start.x - e1.start.x) * e1.direction.y < 0
      · cases h2 : e2.extendsUpwardsForever <;>
          simp [hu, hv, hu2, hv2, h2, Flt.ltZero, Flt.eqZero]
      · simp [hu, hv, hu2, hv2, Flt.ltZero, Flt.eqZero]
  · by_cases hu2 : (e2.start.y - e1.start.y) * e2.direction.x
        - (e2.start.x - e1.start.x) * e2.direction.y < 0
    · cases h1 : e1.extendsUpwardsForever
      · simp [hu, hu2, h1, Flt.ltZero, Flt.eqZero]
      · by_cases hv : 0 < (e2.start.y - e1.start.y) * e1.direction.x
            - (e2.start.x - e1.start.x) * e1.direction.y
        · have hv2 := not_lt.mpr (le_of_lt hv)
          simp [hu, hv, hu2, hv2, h1, Flt.ltZero, Flt.eqZero]
        · by_cases hv2 : (e2.start.y - e1.start.y) * e1.direction.x
              - (e2.start.x - e1.start.x) * e1.direction.y < 0
          · cases h2 : e2.extendsUpwardsForever <;>
              simp [hu, hv, hu2, hv2, h1, h2, Flt.ltZero, Flt.eqZero]
          · simp [hu, hv, hu2, hv2, h1, Flt.ltZero, Flt.eqZero]
    · by_cases hv : 0 < (e2.start.y - e1.start.y) * e1.direction.x
          - (e2.start.x - e1.start.x) * e1.direction.y
      · have hv2 := not_lt.mpr (le_of_lt hv)
        simp [hu, hv, hu2, hv2, Flt.ltZero, Flt.eqZero]
      · by_cases hv2 : (e2.start.y - e1.start.y) * e1.direction.x
            - (e2.start.x - e1.start.x) * e1.direction.y < 0
        · cases h2 : e2.extendsUpwardsForever <;>
            simp [hu, hv, hu2, hv2, h2, Flt.ltZero, Flt.eqZero]
        · simp [hu, hv, hu2, hv2, Flt.ltZero, Flt.eqZero]

/-- C17. For two edges whose directions are not parallel, `u = rayNumU / rayDet` and
`v = rayNumV / rayDet` are the unique parameters with
`e1.start + u * e1.direction = e2.start + v * e2.direction`.  `TryGetEdgeIntersectionPoint`
returns a point exactly when (`u ≥ 0` or `e1` is a start-up edge) and (`v ≥ 0` or `e2` is a
start-up edge) and not (`u = 0`, `v = 0` and neither is a start-up edge), and returns `false`
otherwise; the point returned is `e1.start + u * e1.direction`, which is also
`e2.start + v * e2.direction`. -/
theorem C17_ray_intersection (e1 e2 : Edge F) (hdet : rayDet e1 e2 ≠ 0) :
    (e1.start.x + rayNumU e1 e2 / rayDet e1 e2 * e1.direction.x
        = e2.start.x + rayNumV e1 e2 / rayDet e1 e2 * e2.direction.x ∧
      e1.start.y + rayNumU e1 e2 / rayDet e1 e2 * e1.direction.y
        = e2.start.y + rayNumV e1 e2 / rayDet e1 e2 * e2.direction.y) ∧
    (∀ u v : F, e1.start.x + u * e1.direction.x = e2.start.x + v * e2.direction.x →
      e1.start.y + u * e1.direction.y = e2.start.y + v * e2.direction.y →
      u = rayNumU e1 e2 / rayDet e1 e2 ∧ v = rayNumV e1 e2 / rayDet e1 e2) ∧
    ((∃ p, TryGetEdgeIntersectionPoint e1 e2 = RayHit.hit p) ↔
      (0 ≤ rayNumU e1 e2 / rayDet e1 e2 ∨ e1.extendsUpwardsForever = true) ∧
      (0 ≤ rayNumV e1 e2 / rayDet e1 e2 ∨ e2.extendsUpwardsForever = true) ∧
      ¬ (rayNumU e1 e2 / rayDet e1 e2 = 0 ∧ rayNumV e1 e2 / rayDet e1 e2 = 0 ∧
          e1.extendsUpwardsForever = false ∧ e2.extendsUpwardsForever = false)) ∧
    ((¬ ∃ p, TryGetEdgeIntersectionPoint e1 e2 = RayHit.hit p) →
      TryGetEdgeIntersectionPoint e1 e2 = RayHit.miss) ∧
    (∀ p, TryGetEdgeIntersectionPoint e1 e2 = RayHit.hit p →
      p = { x := e1.start.x + rayNumU e1 e2 / rayDet e1 e2 * e1.direction.x,
            y := e1.start.y + rayNumU e1 e2 / rayDet e1 e2 * e1.direction.y } ∧
      p = { x := e2.start.x + rayNumV e1 e2 / rayDet e1 e2 * e2.direction.x,
            y := e2.start.y + rayNumV e1 e2 / rayDet e1 e2 * e2.direction.y }) := by
  have hsol : e1.start.x + rayNumU e1 e2 / rayDet e1 e2 * e1.direction.x
        = e2.start.x + rayNumV e1 e2 / rayDet e1 e2 * e2.direction.x ∧
      e1.start.y + rayNumU e1 e2 / rayDet e1 e2 * e1.direction.y
        = e2.start.y + rayNumV e1 e2 / rayDet e1 e2 * e2.direction.y := by
    constructor
    · field_simp
      unfold rayNumU rayNumV rayDet
      ring
    · field_simp
      unfold rayNumU rayNumV rayDet
      ring
  have hform := TryGetEdgeIntersectionPoint_of_det_ne e1 e2 hdet
  refine ⟨hsol, ?_, ?_, ?_, ?_⟩
  · intro u v hx hy
    constructor
    · rw [eq_div_iff hdet]
      unfold rayNumU rayDet
      linear_combination e2.direction.x * hy - e2.direction.y * hx
    · rw [eq_div_iff hdet]
      unfold rayNumV rayDet
      linear_combination e1.direction.x * hy - e1.direction.y * hx
  · rw [hform]
    cases h1 : e1.extendsUpwardsForever <;> cases h2 : e2.extendsUpwardsForever <;>
      by_cases hu : rayNumU e1 e2 / rayDet e1 e2 < 0 <;>
      by_cases hv : rayNumV e1 e2 / rayDet e1 e2 < 0 <;>
      by_cases hu0 : rayNumU e1 e2 / rayDet e1 e2 = 0 <;>
      by_cases hv0 : rayNumV e1 e2 / rayDet e1 e2 = 0 <;>
      simp [hu, hv, hu0, hv0, not_lt.mp, le_of_lt]
  · intro hno
    rw [hform] at hno ⊢
    split_ifs at hno ⊢ with a b c
    · rfl
    · rfl
    · rfl
    · exact absurd ⟨_, rfl⟩ hno
  · intro p hp
    rw [hform] at hp
    split_ifs at hp
    cases hp
    refine ⟨by simp only [mul_comm], ?_⟩
    rw [← hsol.1, ← hsol.2]
    simp only [mul_comm]

/-- C18 (what the code does). For two edges with parallel directions
`TryGetEdgeIntersectionPoint` never returns `true` with a finite point; it returns `false` only
when the numerator of `u` is negative and `e1` is not a start-up edge, or the numerator of `v`
is negative and `e2` is not a start-up edge (the quotient is then `-inf`), and otherwise it
returns `true` with a point computed from an infinite or NaN parameter. -/
theorem C18_parallel_edges_result (e1 e2 : Edge F) (hdet : rayDet e1 e2 = 0) :
    (∀ p, TryGetEdgeIntersectionPoint e1 e2 ≠ RayHit.hit p) ∧
    (TryGetEdgeIntersectionPoint e1 e2 = RayHit.miss ↔
      (rayNumU e1 e2 < 0 ∧ e1.extendsUpwardsForever = false) ∨
      (rayNumV e1 e2 < 0 ∧ e2.extendsUpwardsForever = false)) ∧
    (TryGetEdgeIntersectionPoint e1 e2 = RayHit.nonFinite ↔
      ¬ ((rayNumU e1 e2 < 0 ∧ e1.extendsUpwardsForever = false) ∨
         (rayNumV e1 e2 < 0 ∧ e2.extendsUpwardsForever = false))) := by
  rw [TryGetEdgeIntersectionPoint_of_det_eq e1 e2 hdet]
  by_cases h : (rayNumU e1 e2 < 0 ∧ e1.extendsUpwardsForever = false) ∨
      (rayNumV e1 e2 < 0 ∧ e2.extendsUpwardsForever = false)
  · rw [if_pos h]
    exact ⟨fun p hp => (by cases hp), ⟨fun _ => h, fun _ => rfl⟩,
      ⟨fun hh => (by cases hh), fun hh => absurd h hh⟩⟩
  · rw [if_neg h]
    exact ⟨fun p hp => (by cases hp), ⟨fun hh => (by cases hh), fun hh => absurd hh h⟩,
      ⟨fun _ => h, fun _ => rfl⟩⟩

end Rays

section RaysWitness
set_option maxRecDepth 100000

/-- Witness of C17: the diagonal edge from the origin and the horizontal edge from (-3,1) meet
at (1,1), with `u = 1` and `v = 4`. -/
theorem C17_witness :
    (rayDet sampleDiagonalEdge sampleEdge ≠ 0 ∧
      TryGetEdgeIntersectionPoint sampleDiagonalEdge sampleEdge = RayHit.hit ⟨1, 1⟩ ∧
      rayNumU sampleDiagonalEdge sampleEdge / rayDet sampleDiagonalEdge sampleEdge = 1 ∧
      rayNumV sampleDiagonalEdge sampleEdge / rayDet sampleDiagonalEdge sampleEdge = 4) ∧
    ((sampleDiagonalEdge.start.x
          + rayNumU sampleDiagonalEdge sampleEdge / rayDet sampleDiagonalEdge sampleEdge
            * sampleDiagonalEdge.direction.x
        = sampleEdge.start.x
          + rayNumV sampleDiagonalEdge sampleEdge / rayDet sampleDiagonalEdge sampleEdge
            * sampleEdge.direction.x ∧
      sampleDiagonalEdge.start.y
          + rayNumU sampleDiagonalEdge sampleEdge / rayDet sampleDiagonalEdge sampleEdge
            * sampleDiagonalEdge.direction.y
        = sampleEdge.start.y
          + rayNumV sampleDiagonalEdge sampleEdge / rayDet sampleDiagonalEdge sampleEdge
            * sampleEdge.direction.y) ∧
    (∀ u v : ℚ, sampleDiagonalEdge.start.x + u * sampleDiagonalEdge.direction.x
        = sampleEdge.start.x + v * sampleEdge.direction.x →
      sampleDiagonalEdge.start.y + u * sampleDiagonalEdge.direction.y
        = sampleEdge.start.y + v * sampleEdge.direction.y →
      u = rayNumU sampleDiagonalEdge sampleEdge / rayDet sampleDiagonalEdge sampleEdge ∧
      v = rayNumV sampleDiagonalEdge sampleEdge / rayDet sampleDiagonalEdge sampleEdge) ∧
    ((∃ p, TryGetEdgeIntersectionPoint sampleDiagonalEdge sampleEdge = RayHit.hit p) ↔
      (0 ≤ rayNumU sampleDiagonalEdge sampleEdge / rayDet sampleDiagonalEdge sampleEdge ∨
        sampleDiagonalEdge.extendsUpwardsForever = true) ∧
      (0 ≤ rayNumV sampleDiagonalEdge sampleEdge / rayDet sampleDiagonalEdge sampleEdge ∨
        sampleEdge.extendsUpwardsForever = true) ∧
      ¬ (rayNumU sampleDiagonalEdge sampleEdge / rayDet sampleDiagonalEdge sampleEdge = 0 ∧
          rayNumV sampleDiagonalEdge sampleEdge / rayDet sampleDiagonalEdge sampleEdge = 0 ∧
          sampleDiagonalEdge.extendsUpwardsForever = false ∧
          sampleEdge.extendsUpwardsForever = false)) ∧
    ((¬ ∃ p, TryGetEdgeIntersectionPoint sampleDiagonalEdge sampleEdge = RayHit.hit p) →
      TryGetEdgeIntersectionPoint sampleDiagonalEdge sampleEdge = RayHit.miss) ∧
    (∀ p, TryGetEdgeIntersectionPoint sampleDiagonalEdge sampleEdge = RayHit.hit p →
      p = { x := sampleDiagonalEdge.start.x
              + rayNumU sampleDiagonalEdge sampleEdge / rayDet sampleDiagonalEdge sampleEdge
                * sampleDiagonalEdge.direction.x,
            y := sampleDiagonalEdge.start.y
              + rayNumU sampleDiagonalEdge sampleEdge / rayDet sampleDiagonalEdge sampleEdge
                * sampleDiagonalEdge.direction.y } ∧
      p = { x := sampleEdge.start.x
              + rayNumV sampleDiagonalEdge sampleEdge / rayDet sampleDiagonalEdge sampleEdge
                * sampleEdge.direction.x,
            y := sampleEdge.start.y
              + rayNumV sampleDiagonalEdge sampleEdge / rayDet sampleDiagonalEdge sampleEdge
                * sampleEdge.direction.y })) :=
  ⟨⟨by decide!, by decide!, by decide!, by decide!⟩,
   C17_ray_intersection sampleDiagonalEdge sampleEdge (by decide!)⟩

/-- Witness of C18: the two parallel edges that bound the left half of the arc of (0,0) when
the site (0,-10) is inserted in the run on `collinearSites`; the code returns `true` for them,
and the run of the model stops there. -/
theorem C18_witness :
    (rayDet parallelEdgeA parallelEdgeB = 0 ∧
      TryGetEdgeIntersectionPoint parallelEdgeA parallelEdgeB = RayHit.nonFinite ∧
      (runState envQ0 collinearSites (-1000) 1).isSome = true ∧
      runState envQ0 collinearSites (-1000) 2 = none) ∧
    ((∀ p, TryGetEdgeIntersectionPoint parallelEdgeA parallelEdgeB ≠ RayHit.hit p) ∧
    (TryGetEdgeIntersectionPoint parallelEdgeA parallelEdgeB = RayHit.miss ↔
      (rayNumU parallelEdgeA parallelEdgeB < 0 ∧ parallelEdgeA.extendsUpwardsForever = false) ∨
      (rayNumV parallelEdgeA parallelEdgeB < 0 ∧ parallelEdgeB.extendsUpwardsForever = false)) ∧
    (TryGetEdgeIntersectionPoint parallelEdgeA parallelEdgeB = RayHit.nonFinite ↔
      ¬ ((rayNumU parallelEdgeA parallelEdgeB < 0 ∧
            parallelEdgeA.extendsUpwardsForever = false) ∨
         (rayNumV parallelEdgeA parallelEdgeB < 0 ∧
            parallelEdgeB.extendsUpwardsForever = false)))) :=
  ⟨⟨by decide!, by decide!, by decide!, by decide!⟩,
   C18_parallel_edges_result parallelEdgeA parallelEdgeB (by decide!)⟩

end RaysWitness

section SplitArc
variable {F : Type} [LinearOrderedField F]

/-- The five allocations and five pointer updates of `AddArcToBeachline` on a leaf of a tree held
by the arena: they succeed, and the records afterwards are those of the new subtree, of the
parent with its child pointer redirected, and the old ones elsewhere. -/
theorem splitArc_arena (items : Items F) (t : Tree F) (hrepr : Repr items none t)
    (hnd : t.addrs.Nodup) (act : Nat) (aA : Arc F) (hleaf : (act, aA) ∈ t.leaves)
    (focus newPoint edgeStart edgeDir : Vector2 F) :
    ∃ q replaced, deref items act = some replaced ∧
      replaced = { data := ItemData.arc aA, parent := q, left := none, right := none } ∧
      ∃ items1, splitArc items act replaced focus newPoint edgeStart edgeDir
        = some (items1, items.length, items.length + 1, items.length + 3) ∧
      items1.length = items.length + 5 ∧
      Repr items1 q (splitSubtree items.length focus newPoint edgeStart edgeDir none none) ∧
      (∀ b, b ≠ act → some b ≠ q → b < items.length → deref items1 b = deref items b) ∧
      (∀ pa rec, q = some pa → deref items pa = some rec →
        deref items1 pa = some (swapChild act (items.length + 3) rec)) ∧
      deref items1 act = deref items act := by
  have hlt := Repr_lt_length hrepr
  obtain ⟨q, hact, hcase⟩ := Repr_leaf_parent hrepr hnd hleaf
  have hactlt : act < items.length := hlt act (Tree.leaves_addr_mem hleaf)
  refine ⟨q, _, hact, rfl, ?_⟩
  unfold splitArc
  have h0 : act ≠ items.length := by omega
  have h1 : act ≠ items.length + 1 := by omega
  have h2 : act ≠ items.length + 2 := by omega
  have h3 : act ≠ items.length + 3 := by omega
  have h4 : act ≠ items.length + 4 := by omega
  simp only [CreateArc, CreateEdge, length_alloc, and_self, if_true, Nat.add_assoc, Nat.reduceAdd]
  have e : ∀ b k, b < items.length → ¬ items.length + k = b := fun b k hb => by omega
  have e' : ∀ b k, b < items.length → ¬ b = items.length + k := fun b k hb => by omega
  have e0 : ∀ b, b < items.length → ¬ items.length = b := fun b hb => by omega
  have e0' : ∀ b, b < items.length → ¬ b = items.length := fun b hb => by omega
  rcases hcase with ⟨rfl, -⟩ | ⟨pa, rec, rfl, hpa, hrec, hedge, hside⟩
  · simp [SetParentFromItem, SetLeft, SetRight, deref_store, deref_alloc, BeachlineItem.isEdge,
      hact, h0, h1, h2, h3, h4, h0.symm, h1.symm, h2.symm, h3.symm, h4.symm, splitSubtree, Repr,
      Tree.addr, Nat.add_assoc]
    intro b hb1 hb3
    simp [e b _ hb3, e' b _ hb3, e0 b hb3, e0' b hb3]
  · have hpalt : pa < items.length := hlt pa hpa
    have h5 : pa ≠ act := by
      rintro rfl
      rw [hact] at hrec
      cases hrec
      simp [BeachlineItem.isEdge] at hedge
    obtain ⟨d, rp, rl, rr⟩ := rec
    cases d with
    | arc a => simp [BeachlineItem.isEdge] at hedge
    | edge ed =>
    simp only at hside
    rcases hside with ⟨hl, hr⟩ | ⟨hr, hl⟩
    · subst hl
      simp [SetParentFromItem, SetLeft, SetRight, deref_store, deref_alloc, BeachlineItem.isEdge,
        hact, h0, h1, h2, h3, h4, h0.symm, h1.symm, h2.symm, h3.symm, h4.symm, splitSubtree, Repr,
        Tree.addr, Nat.add_assoc, h5, h5.symm, hrec, hr, swapChild, e pa _ hpalt, e' pa _ hpalt,
        e0 pa hpalt, e0' pa hpalt]
      refine ⟨fun b hb1 hb2 hb3 => ?_, ?_⟩
      · simp [e b _ hb3, e' b _ hb3, e0 b hb3, e0' b hb3, Ne.symm hb2]
      · intro pa1 rec1 hpp hrec1
        subst hpp
        rw [hrec] at hrec1
        cases hrec1
        simp [e pa _ hpalt, e' pa _ hpalt, e0 pa hpalt, e0' pa hpalt, hr]
        omega
    · subst hr
      simp [SetParentFromItem, SetLeft, SetRight, deref_store, deref_alloc, BeachlineItem.isEdge,
        hact, h0, h1, h2, h3, h4, h0.symm, h1.symm, h2.symm, h3.symm, h4.symm, splitSubtree, Repr,
        Tree.addr, Nat.add_assoc, h5, h5.symm, hrec, hl, swapChild, e pa _ hpalt, e' pa _ hpalt,
        e0 pa hpalt, e0' pa hpalt]
      refine ⟨fun b hb1 hb2 hb3 => ?_, ?_⟩
      · simp [e b _ hb3, e' b _ hb3, e0 b hb3, e0' b hb3, Ne.symm hb2]
      · intro pa1 rec1 hpp hrec1
        subst hpp
        rw [hrec] at hrec1
        cases hrec1
        simp [e pa _ hpalt, e' pa _ hpalt, e0 pa hpalt, e0' pa hpalt, hl]
        omega

end SplitArc

section SplitTree
variable {F : Type} [LinearOrderedField F]

omit [LinearOrderedField F] in
theorem swapChild_self (a : Nat) (rec : BeachlineItem F) : swapChild a a rec = rec := by
  obtain ⟨d, p, l, r⟩ := rec
  unfold swapChild
  simp only [BeachlineItem.mk.injEq, true_and]
  constructor
  · split_ifs with h
    · exact h.symm
    · rfl
  · split_ifs with h
    · exact h.symm
    · rfl

omit [LinearOrderedField F] in
/-- A replacement inside the subtree that was put in place of a leaf. -/
theorem Tree.replaceLeaf_replaceLeaf (t : Tree F) (act b : Nat) (sub sub2 : Tree F)
    (hb : b ∉ t.addrs) :
    (t.replaceLeaf act sub).replaceLeaf b sub2 = t.replaceLeaf act (sub.replaceLeaf b sub2) := by
  induction t with
  | leaf a arc =>
    simp only [Tree.addrs, List.mem_singleton] at hb
    by_cases h : a = act
    · simp [Tree.replaceLeaf, h]
    · simp [Tree.replaceLeaf, h, Ne.symm hb]
  | node a e l r ihl ihr =>
    simp only [Tree.addrs, List.mem_cons, List.mem_append, not_or] at hb
    simp only [Tree.replaceLeaf]
    rw [ihl hb.2.1, ihr hb.2.2]

omit [LinearOrderedField F] in
/-- The leaves of a tree around one of them, and after its replacement. -/
theorem Tree.replaceLeaf_leaves (t : Tree F) (hnd : t.addrs.Nodup) (act : Nat) (aA : Arc F)
    (hl : (act, aA) ∈ t.leaves) :
    ∃ pre post, t.leaves = pre ++ [(act, aA)] ++ post ∧
      ∀ sub, (t.replaceLeaf act sub).leaves = pre ++ sub.leaves ++ post := by
  induction t with
  | leaf a arc =>
    simp only [Tree.leaves, List.mem_singleton, Prod.mk.injEq] at hl
    obtain ⟨rfl, rfl⟩ := hl
    exact ⟨[], [], by simp [Tree.leaves], fun sub => by simp [Tree.replaceLeaf]⟩
  | node a e l r ihl ihr =>
    simp only [Tree.addrs, List.nodup_cons, List.mem_append, not_or] at hnd
    obtain ⟨⟨hal, har⟩, hnd2⟩ := hnd
    have hndl := (List.nodup_append.mp hnd2).1
    have hndr := (List.nodup_append.mp hnd2).2.1
    simp only [Tree.leaves, List.mem_append] at hl
    rcases hl with hl | hl
    · have hm := Tree.leaves_addr_mem hl
      have hnr : act ∉ r.addrs := fun hh => (List.nodup_append.mp hnd2).2.2 hm hh
      obtain ⟨pre, post, h1, h2⟩ := ihl hndl hl
      refine ⟨pre, post ++ r.leaves, ?_, fun sub => ?_⟩
      · simp only [Tree.leaves, h1, List.append_assoc]
      · simp only [Tree.replaceLeaf, Tree.leaves, h2 sub,
          Tree.replaceLeaf_of_not_mem r act sub hnr, List.append_assoc]
    · have hm := Tree.leaves_addr_mem hl
      have hnl : act ∉ l.addrs := fun hh => (List.nodup_append.mp hnd2).2.2 hh hm
      obtain ⟨pre, post, h1, h2⟩ := ihr hndr hl
      refine ⟨l.leaves ++ pre, post, ?_, fun sub => ?_⟩
      · simp only [Tree.leaves, h1, List.append_assoc]
      · simp only [Tree.replaceLeaf, Tree.leaves, h2 sub,
          Tree.replaceLeaf_of_not_mem l act sub hnl, List.append_assoc]

/-- The arena of items after `AddArcSqueezeEvent`: unchanged, or the arc has a new
`squeezeEvent`. -/
theorem AddArcSqueezeEvent_items_cases {env : Env F} {m m1 : Mem F} {arc : Nat}
    (h : AddArcSqueezeEvent env m arc = some m1) :
    m1.items = m.items ∨ ∃ it a e, deref m.items arc = some it ∧ it.data.arc? = some a ∧
      m1.items = store m.items arc
        { it with data := ItemData.arc { a with squeezeEvent := some e } } := by
  have key : ∀ {P : Vector2 F} {y : F}, registerSqueezeEvent m arc P y = some m1 →
      m1.items = m.items ∨ ∃ it a e, deref m.items arc = some it ∧ it.data.arc? = some a ∧
        m1.items = store m.items arc
          { it with data := ItemData.arc { a with squeezeEvent := some e } } := by
    intro P y h
    unfold registerSqueezeEvent at h
    split at h
    · cases h
    rename_i it hit
    split at h
    · cases h
    rename_i a ha
    split at h
    · cases h
      exact Or.inr ⟨it, a, _, hit, ha, rfl⟩
    split at h
    · cases h
    split at h
    · cases h
      exact Or.inl rfl
    split at h
    · cases h
    cases h
    exact Or.inr ⟨it, a, _, hit, ha, rfl⟩
  unfold AddArcSqueezeEvent at h
  split at h
  · split at h
    · cases h
    · cases h; exact Or.inl rfl
    · exact key h
  · cases h; exact Or.inl rfl
  · cases h

omit [LinearOrderedField F] in
/-- A write of the arc data of a leaf is the replacement of the leaf by a leaf. -/
theorem Repr_store_leaf {items : Items F} {t : Tree F} (h : Repr items none t)
    (hnd : t.addrs.Nodup) {arc : Nat} {a : Arc F} (hl : (arc, a) ∈ t.leaves)
    {it : BeachlineItem F} (hit : deref items arc = some it) (a1 : Arc F) :
    Repr (store items arc { it with data := ItemData.arc a1 }) none
      (t.replaceLeaf arc (Tree.leaf arc a1)) := by
  obtain ⟨q, hact, hcase⟩ := Repr_leaf_parent h hnd hl
  rw [hit] at hact
  have hit2 := Option.some.inj hact
  have hlt := deref_lt_length hit
  refine Repr_replaceLeaf (q := q) (hit ▸ hit2 ▸ rfl) ?_ ?_ ?_ t none h hnd hl
  · simp only [Repr]
    rw [deref_store_same _ _ _ hlt, hit2]
  · intro b hb _ _
    exact deref_store_ne _ _ _ _ (Ne.symm hb)
  · intro pa rec hq hrec
    rw [show (Tree.leaf arc a1).addr = arc from rfl, swapChild_self]
    have hne : arc ≠ pa := by
      rcases hcase with ⟨hq0, -⟩ | ⟨pa2, rec2, hq2, -, hrec2, hedge, -⟩
      · rw [hq] at hq0; cases hq0
      · rw [hq] at hq2
        cases hq2
        rintro rfl
        rw [hit] at hrec2
        cases hrec2
        rw [hit2] at hedge
        simp [BeachlineItem.isEdge] at hedge
    rw [deref_store_ne _ _ _ _ hne, hrec]

end SplitTree

section SplitTree2
variable {F : Type} [LinearOrderedField F]

theorem splitSubtree_addr (n : Nat) (f np es ed : Vector2 F) (sl sr : Option Nat) :
    (splitSubtree n f np es ed sl sr).addr = n + 3 := rfl

theorem splitSubtree_addrs (n : Nat) (f np es ed : Vector2 F) (sl sr : Option Nat) :
    (splitSubtree n f np es ed sl sr).addrs = [n + 3, n, n + 4, n + 2, n + 1] := rfl

theorem splitSubtree_leaves (n : Nat) (f np es ed : Vector2 F) (sl sr : Option Nat) :
    (splitSubtree n f np es ed sl sr).leaves
      = [(n, ⟨f, sl⟩), (n + 2, ⟨np, none⟩), (n + 1, ⟨f, sr⟩)] := rfl

theorem splitSubtree_replace_left (n : Nat) (f np es ed : Vector2 F) (sl sr s : Option Nat) :
    (splitSubtree n f np es ed sl sr).replaceLeaf n (Tree.leaf n ⟨f, s⟩)
      = splitSubtree n f np es ed s sr := by
  simp [splitSubtree, Tree.replaceLeaf]

theorem splitSubtree_replace_right (n : Nat) (f np es ed : Vector2 F) (sl sr s : Option Nat) :
    (splitSubtree n f np es ed sl sr).replaceLeaf (n + 1) (Tree.leaf (n + 1) ⟨f, s⟩)
      = splitSubtree n f np es ed sl s := by
  simp [splitSubtree, Tree.replaceLeaf]

/-- The addresses of a tree after the split of one of its leaves. -/
theorem splitTree_addrs (t : Tree F) (hnd : t.addrs.Nodup) (n : Nat)
    (hlt : ∀ a ∈ t.addrs, a < n) (act : Nat) (aA : Arc F) (hl : (act, aA) ∈ t.leaves)
    (f np es ed : Vector2 F) (sl sr : Option Nat) :
    (t.replaceLeaf act (splitSubtree n f np es ed sl sr)).addrs.Nodup ∧
    act ∉ (t.replaceLeaf act (splitSubtree n f np es ed sl sr)).addrs ∧
    (t.replaceLeaf act (splitSubtree n f np es ed sl sr)).addrs.length = t.addrs.length + 4 := by
  have hperm := Tree.replaceLeaf_addrs_perm t act (splitSubtree n f np es ed sl sr) hnd hl
  have hact := Tree.leaves_addr_mem hl
  have hactlt := hlt act hact
  rw [splitSubtree_addrs] at hperm
  refine ⟨hperm.nodup_iff.mpr ?_, fun h => ?_, ?_⟩
  · rw [List.nodup_append]
    refine ⟨hnd.erase act, by simp, ?_⟩
    intro a ha hb
    have := hlt a (List.mem_of_mem_erase ha)
    simp at hb
    omega
  · have h2 := hperm.mem_iff.mp h
    rw [List.mem_append] at h2
    rcases h2 with h2 | h2
    · exact ((hnd.mem_erase_iff).mp h2).1 rfl
    · simp at h2
      omega
  · rw [hperm.length_eq, List.length_append, List.length_erase_of_mem hact]
    have := List.length_pos_of_mem hact
    simp
    omega

/-- One call of `AddArcSqueezeEvent` for a half of the split arc: the tree is the same up to the
`squeezeEvent` pointer of that half. -/
theorem squeeze_split_left {env : Env F} {m m1 : Mem F} {t : Tree F} {n act : Nat} {aA : Arc F}
    (hnd : t.addrs.Nodup) (hlt : ∀ a ∈ t.addrs, a < n) (hl : (act, aA) ∈ t.leaves)
    (f np es ed : Vector2 F) (sr : Option Nat)
    (hrepr : Repr m.items none (t.replaceLeaf act (splitSubtree n f np es ed none sr)))
    (h : AddArcSqueezeEvent env m n = some m1) :
    ∃ sl, Repr m1.items none (t.replaceLeaf act (splitSubtree n f np es ed sl sr)) ∧
      m1.items.length = m.items.length ∧
      ∀ b, b ≠ n → deref m1.items b = deref m.items b := by
  rcases AddArcSqueezeEvent_items_cases h with h1 | ⟨it, a, e, hit, ha, h1⟩
  · exact ⟨none, h1 ▸ hrepr, by rw [h1], fun b _ => by rw [h1]⟩
  · obtain ⟨hnd1, -, -⟩ := splitTree_addrs t hnd n hlt act aA hl f np es ed none sr
    obtain ⟨pre, post, -, hlv⟩ := Tree.replaceLeaf_leaves t hnd act aA hl
    have hmem : (n, (⟨f, none⟩ : Arc F))
        ∈ (t.replaceLeaf act (splitSubtree n f np es ed none sr)).leaves := by
      rw [hlv, splitSubtree_leaves]
      simp
    obtain ⟨q, hrec, -⟩ := Repr_leaf_parent hrepr hnd1 hmem
    rw [hit] at hrec
    have hit2 := Option.some.inj hrec
    rw [hit2] at ha
    simp only [ItemData.arc?, Option.some.injEq] at ha
    subst ha
    have hn : n ∉ t.addrs := fun hh => absurd (hlt n hh) (lt_irrefl n)
    have hr := Repr_store_leaf hrepr hnd1 hmem hit ⟨f, some e⟩
    rw [Tree.replaceLeaf_replaceLeaf _ _ _ _ _ hn, splitSubtree_replace_left] at hr
    refine ⟨some e, h1 ▸ hr, by rw [h1]; simp, fun b hb => ?_⟩
    rw [h1]
    exact deref_store_ne _ _ _ _ (Ne.symm hb)

theorem squeeze_split_right {env : Env F} {m m1 : Mem F} {t : Tree F} {n act : Nat} {aA : Arc F}
    (hnd : t.addrs.Nodup) (hlt : ∀ a ∈ t.addrs, a < n) (hl : (act, aA) ∈ t.leaves)
    (f np es ed : Vector2 F) (sl : Option Nat)
    (hrepr : Repr m.items none (t.replaceLeaf act (splitSubtree n f np es ed sl none)))
    (h : AddArcSqueezeEvent env m (n + 1) = some m1) :
    ∃ sr, Repr m1.items none (t.replaceLeaf act (splitSubtree n f np es ed sl sr)) ∧
      m1.items.length = m.items.length ∧
      ∀ b, b ≠ n + 1 → deref m1.items b = deref m.items b := by
  rcases AddArcSqueezeEvent_items_cases h with h1 | ⟨it, a, e, hit, ha, h1⟩
  · exact ⟨none, h1 ▸ hrepr, by rw [h1], fun b _ => by rw [h1]⟩
  · obtain ⟨hnd1, -, -⟩ := splitTree_addrs t hnd n hlt act aA hl f np es ed sl none
    obtain ⟨pre, post, -, hlv⟩ := Tree.replaceLeaf_leaves t hnd act aA hl
    have hmem : (n + 1, (⟨f, none⟩ : Arc F))
        ∈ (t.replaceLeaf act (splitSubtree n f np es ed sl none)).leaves := by
      rw [hlv, splitSubtree_leaves]
      simp
    obtain ⟨q, hrec, -⟩ := Repr_leaf_parent hrepr hnd1 hmem
    rw [hit] at hrec
    have hit2 := Option.some.inj hrec
    rw [hit2] at ha
    simp only [ItemData.arc?, Option.some.injEq] at ha
    subst ha
    have hn : n + 1 ∉ t.addrs := fun hh => absurd (hlt (n + 1) hh) (by omega)
    have hr := Repr_store_leaf hrepr hnd1 hmem hit ⟨f, some e⟩
    rw [Tree.replaceLeaf_replaceLeaf _ _ _ _ _ hn, splitSubtree_replace_right] at hr
    refine ⟨some e, h1 ▸ hr, by rw [h1]; simp, fun b hb => ?_⟩
    rw [h1]
    exact deref_store_ne _ _ _ _ (Ne.symm hb)

end SplitTree2

section AddArcTree
variable {F : Type} [LinearOrderedField F]

/-- `AddArcToBeachline` on a well-formed tree, when it returns: the located arc is a leaf, the
tree afterwards is the old one with that leaf replaced by the subtree of the split, the record
of the replaced arc is deleted, the parent of the replaced arc has its child pointer redirected
to `edgeLeft`, and every other old record is unchanged. -/
theorem AddArcToBeachline_tree {env : Env F} {m m1 : Mem F} {root root1 evt : Nat} {y : F}
    {t : Tree F} (hwf : WellFormed m.items root t)
    (hrun : AddArcToBeachline env m root evt y = some (m1, root1)) :
    ∃ act aA q newPoint es ed sl sr,
      sitePoint m.events evt = some newPoint ∧
      GetActiveArcForXCoord env m.items m.items.length root newPoint.x y = some act ∧
      (act, aA) ∈ t.leaves ∧
      deref m.items act
        = some { data := ItemData.arc aA, parent := q, left := none, right := none } ∧
      newEdgeGeometry env aA newPoint y = some (es, ed) ∧
      root1 = (if root = act then m.items.length + 3 else root) ∧
      WellFormed m1.items root1
        (t.replaceLeaf act (splitSubtree m.items.length aA.focus newPoint es ed sl sr)) ∧
      m1.items.length = m.items.length + 5 ∧
      deref m1.items act = none ∧
      (∀ b, b < m.items.length → b ≠ act → some b ≠ q →
        deref m1.items b = deref m.items b) ∧
      (∀ pa rec, q = some pa → deref m.items pa = some rec →
        deref m1.items pa = some (swapChild act (m.items.length + 3) rec)) := by
  obtain ⟨hroot, hrepr, hnd⟩ := hwf
  have hlt := Repr_lt_length hrepr
  have hh := WellFormed.height_lt ⟨hroot, hrepr, hnd⟩
  unfold AddArcToBeachline at hrun
  split at hrun
  · cases hrun
  rename_i newPoint hsp
  split at hrun
  · cases hrun
  rename_i act hga
  split at hrun
  · cases hrun
  rename_i replaced hrep
  split at hrun
  · cases hrun
  rename_i rArc harc
  split at hrun
  · cases hrun
  rename_i es ed hgeo
  split at hrun
  · cases hrun
  rename_i items1 sL sR eL hsplit
  dsimp only at hrun
  split at hrun
  · cases hrun
  rename_i ev1 hinv
  split at hrun
  · cases hrun
  split at hrun
  · cases hrun
  rename_i m2 h2
  split at hrun
  · cases hrun
  rename_i m3 h3
  simp only [Option.some.injEq, Prod.mk.injEq] at hrun
  obtain ⟨rfl, hroot1⟩ := hrun
  -- the located arc is a leaf of the tree
  obtain ⟨act2, aA, hga2, hleaf⟩ := GetActiveArcForXCoord_leaf env t m.items.length m.items none
    newPoint.x y hrepr hnd hh hh
  rw [hroot, hga] at hga2
  cases hga2
  have hactlt : act < m.items.length := hlt act (Tree.leaves_addr_mem hleaf)
  obtain ⟨q, replaced2, hrep2, hrepeq, items2, hsplit2, hlen2, hsub, hsame, hpar, hkeep⟩ :=
    splitArc_arena m.items t hrepr hnd act aA hleaf aA.focus newPoint es ed
  rw [hrep] at hrep2
  cases hrep2
  subst hrepeq
  simp only [ItemData.arc?, Option.some.injEq] at harc
  subst harc
  rw [hsplit2] at hsplit
  simp only [Option.some.injEq, Prod.mk.injEq] at hsplit
  obtain ⟨rfl, rfl, rfl, rfl⟩ := hsplit
  -- the tree after the pointer updates and the deletion
  have hact : deref m.items act
      = some { data := ItemData.arc aA, parent := q, left := none, right := none } := hrep
  have hr1 : Repr items2 none
      (t.replaceLeaf act (splitSubtree m.items.length aA.focus newPoint es ed none none)) :=
    Repr_replaceLeaf hact hsub hsame
      (fun pa rec hq hrec => by rw [splitSubtree_addr]; exact hpar pa rec hq hrec)
      t none hrepr hnd hleaf
  obtain ⟨hnd1, hnot1, -⟩ := splitTree_addrs t hnd m.items.length hlt act aA hleaf
    aA.focus newPoint es ed none none
  have hr1f : Repr (free items2 act) none
      (t.replaceLeaf act (splitSubtree m.items.length aA.focus newPoint es ed none none)) :=
    Repr_congr (fun a ha => deref_free_ne _ _ _ (fun h => hnot1 (h ▸ ha))) hr1
  obtain ⟨sl, hr2, hl2, hs2⟩ := squeeze_split_left hnd hlt hleaf aA.focus newPoint es ed none
    hr1f h2
  obtain ⟨sr, hr3, hl3, hs3⟩ := squeeze_split_right hnd hlt hleaf aA.focus newPoint es ed sl
    hr2 h3
  obtain ⟨hnd3, -, -⟩ := splitTree_addrs t hnd m.items.length hlt act aA hleaf
    aA.focus newPoint es ed sl sr
  have hd : ∀ b, b < m.items.length → deref m3.items b = deref (free items2 act) b := by
    intro b hb
    rw [hs3 b (by omega), hs2 b (by omega)]
  refine ⟨act, aA, q, newPoint, es, ed, sl, sr, hsp, hga, hleaf, hact, hgeo, hroot1.symm,
    ⟨?_, hr3, hnd3⟩, ?_, ?_, ?_, ?_⟩
  · rw [Tree.replaceLeaf_addr t act _ hnd hleaf, splitSubtree_addr, hroot, ← hroot1]
  · rw [hl3, hl2]
    simp [hlen2]
  · rw [hd act hactlt]
    exact deref_free_same _ _
  · intro b hb1 hb2 hb3
    rw [hd b hb1, deref_free_ne _ _ _ (Ne.symm hb2)]
    exact hsame b hb2 hb3 hb1
  · intro pa rec hq hrec
    have hpalt := deref_lt_length hrec
    have hne : act ≠ pa := by
      intro hap
      obtain ⟨q2, hact2, hcase⟩ := Repr_leaf_parent hrepr hnd hleaf
      rw [hact] at hact2
      simp only [Option.some.injEq, BeachlineItem.mk.injEq, true_and, and_true] at hact2
      rcases hcase with ⟨h0, -⟩ | ⟨pa2, rec2, hq2, -, hrec2, hedge, -⟩
      · rw [← hact2, hq] at h0
        cases h0
      · rw [← hact2, hq] at hq2
        have hpp : pa = pa2 := Option.some.inj hq2
        rw [← hpp, ← hap, hact] at hrec2
        rw [← Option.some.inj hrec2] at hedge
        simp [BeachlineItem.isEdge] at hedge
    rw [hd pa hpalt, deref_free_ne _ _ _ hne]
    exact hpar pa rec hq hrec

end AddArcTree

section C19
variable {F : Type} [LinearOrderedField F]

omit [LinearOrderedField F] in
/-- `CountBeachlineItems` on a tree held by the arena counts its nodes. -/
theorem CountBeachlineItems_spec (t : Tree F) (fuel : Nat) (items : Items F) (p : Option Nat)
    (h : Repr items p t) (hf : t.height < fuel) :
    CountBeachlineItems items fuel (some t.addr) = some t.addrs.length := by
  induction t generalizing fuel p with
  | leaf a arc =>
    cases fuel with
    | zero => omega
    | succ fuel =>
      simp only [Repr] at h
      rw [show (Tree.leaf a arc).addr = a from rfl]
      simp [CountBeachlineItems, h, Tree.addrs]
  | node a e l r ihl ihr =>
    cases fuel with
    | zero => omega
    | succ fuel =>
      simp only [Tree.height] at hf
      have hl := ihl fuel (some a) h.2.1 (by omega)
      have hr := ihr fuel (some a) h.2.2 (by omega)
      rw [show (Tree.node a e l r).addr = a from rfl]
      simp only [CountBeachlineItems, h.1, Option.bind_eq_bind, Option.some_bind, hl, hr,
        Tree.addrs, List.length_cons, List.length_append]
      rfl

/-- C19. `AddArcToBeachline` on a well-formed tree, when it returns, has replaced exactly the
located arc leaf `R` by the subtree `Edge(Arc(R.focus), Edge(Arc(newSite), Arc(R.focus)))`: the
tree afterwards is well formed and is the old tree with that leaf replaced; the leaves from left
to right change from `pre, R, post` to `pre, R.focus, newSite, R.focus, post`; the number of
nodes grows by 4; the root returned is `edgeLeft` when `R` was the root and the old root
otherwise; the record of `R` is deleted, the parent of `R` has its child pointer redirected, and
every other record of the arena is unchanged. -/
theorem C19_AddArcToBeachline_splits_located_leaf (env : Env F) (m m1 : Mem F)
    (root root1 evt : Nat) (y : F) (t : Tree F) (hwf : WellFormed m.items root t)
    (hrun : AddArcToBeachline env m root evt y = some (m1, root1)) :
    ∃ act aA q newPoint es ed sl sr pre post,
      sitePoint m.events evt = some newPoint ∧
      GetActiveArcForXCoord env m.items m.items.length root newPoint.x y = some act ∧
      deref m.items act
        = some { data := ItemData.arc aA, parent := q, left := none, right := none } ∧
      t.leaves = pre ++ [(act, aA)] ++ post ∧
      WellFormed m1.items root1
        (t.replaceLeaf act (splitSubtree m.items.length aA.focus newPoint es ed sl sr)) ∧
      (t.replaceLeaf act (splitSubtree m.items.length aA.focus newPoint es ed sl sr)).leaves
        = pre ++ [(m.items.length, ⟨aA.focus, sl⟩), (m.items.length + 2, ⟨newPoint, none⟩),
                  (m.items.length + 1, ⟨aA.focus, sr⟩)] ++ post ∧
      CountBeachlineItems m.items m.items.length (some root) = some t.addrs.length ∧
      CountBeachlineItems m1.items m1.items.length (some root1) = some (t.addrs.length + 4) ∧
      root1 = (if root = act then m.items.length + 3 else root) ∧
      deref m1.items act = none ∧
      (∀ b, b < m.items.length → b ≠ act → some b ≠ q →
        deref m1.items b = deref m.items b) ∧
      (∀ pa rec, q = some pa → deref m.items pa = some rec →
        deref m1.items pa = some (swapChild act (m.items.length + 3) rec)) := by
  obtain ⟨act, aA, q, newPoint, es, ed, sl, sr, hsp, hga, hleaf, hact, -, hroot1, hwf1, hlen1,
    hdel, hsame, hpar⟩ := AddArcToBeachline_tree hwf hrun
  obtain ⟨pre, post, hlv, hlv2⟩ := Tree.replaceLeaf_leaves t hwf.2.2 act aA hleaf
  have hlt := Repr_lt_length hwf.2.1
  obtain ⟨-, -, hcount⟩ := splitTree_addrs t hwf.2.2 m.items.length hlt act aA hleaf
    aA.focus newPoint es ed sl sr
  refine ⟨act, aA, q, newPoint, es, ed, sl, sr, pre, post, hsp, hga, hact, hlv, hwf1, ?_, ?_, ?_,
    hroot1, hdel, hsame, hpar⟩
  · rw [hlv2, splitSubtree_leaves]
  · rw [← hwf.1]
    exact CountBeachlineItems_spec t _ _ none hwf.2.1 (WellFormed.height_lt hwf)
  · rw [← hwf1.1, ← hcount]
    exact CountBeachlineItems_spec _ _ _ none hwf1.2.1 (WellFormed.height_lt hwf1)

end C19

section C19Witness
set_option maxRecDepth 100000

/-- Witness of C19: the insertion of the third site of `levelSites`, which splits the arc of
(-7,24) at address 0. -/
theorem C19_witness :
    (WellFormed (queuePop levelMemStart 2).items 2 levelTreeStart ∧
      AddArcToBeachline envQ0 (queuePop levelMemStart 2) 2 2 0 = some (levelMemInserted, 2) ∧
      WellFormed levelMemInserted.items 2 levelTree) ∧
    ∃ act aA q newPoint es ed sl sr pre post,
      sitePoint (queuePop levelMemStart 2).events 2 = some newPoint ∧
      GetActiveArcForXCoord envQ0 (queuePop levelMemStart 2).items
        (queuePop levelMemStart 2).items.length 2 newPoint.x 0 = some act ∧
      deref (queuePop levelMemStart 2).items act
        = some { data := ItemData.arc aA, parent := q, left := none, right := none } ∧
      levelTreeStart.leaves = pre ++ [(act, aA)] ++ post ∧
      WellFormed levelMemInserted.items 2
        (levelTreeStart.replaceLeaf act
          (splitSubtree (queuePop levelMemStart 2).items.length aA.focus newPoint es ed sl sr)) ∧
      (levelTreeStart.replaceLeaf act
          (splitSubtree (queuePop levelMemStart 2).items.length aA.focus newPoint es ed sl
            sr)).leaves
        = pre ++ [((queuePop levelMemStart 2).items.length, ⟨aA.focus, sl⟩),
                  ((queuePop levelMemStart 2).items.length + 2, ⟨newPoint, none⟩),
                  ((queuePop levelMemStart 2).items.length + 1, ⟨aA.focus, sr⟩)] ++ post ∧
      CountBeachlineItems (queuePop levelMemStart 2).items
        (queuePop levelMemStart 2).items.length (some 2) = some levelTreeStart.addrs.length ∧
      CountBeachlineItems levelMemInserted.items levelMemInserted.items.length (some 2)
        = some (levelTreeStart.addrs.length + 4) ∧
      2 = (if 2 = act then (queuePop levelMemStart 2).items.length + 3 else 2) ∧
      deref levelMemInserted.items act = none ∧
      (∀ b, b < (queuePop levelMemStart 2).items.length → b ≠ act → some b ≠ q →
        deref levelMemInserted.items b = deref (queuePop levelMemStart 2).items b) ∧
      (∀ pa rec, q = some pa → deref (queuePop levelMemStart 2).items pa = some rec →
        deref levelMemInserted.items pa
          = some (swapChild act ((queuePop levelMemStart 2).items.length + 3) rec)) :=
  ⟨⟨⟨rfl, by decide!, by decide⟩, by decide!, ⟨rfl, by decide!, by decide⟩⟩,
   C19_AddArcToBeachline_splits_located_leaf envQ0 (queuePop levelMemStart 2) levelMemInserted
     2 2 2 0 levelTreeStart ⟨rfl, by decide!, by decide⟩ (by decide!)⟩

end C19Witness

section C20
variable {F : Type} [LinearOrderedField F]

omit [LinearOrderedField F] in
/-- The subtree put in place of a leaf is held by the arena. -/
theorem Repr_replaceLeaf_sub {items : Items F} {t sub : Tree F} {p : Option Nat} {act : Nat}
    {aA : Arc F} (h : Repr items p (t.replaceLeaf act sub)) (hl : (act, aA) ∈ t.leaves) :
    ∃ q, Repr items q sub := by
  induction t generalizing p with
  | leaf a arc =>
    simp only [Tree.leaves, List.mem_singleton, Prod.mk.injEq] at hl
    obtain ⟨rfl, rfl⟩ := hl
    simp only [Tree.replaceLeaf, if_true] at h
    exact ⟨p, h⟩
  | node a e l r ihl ihr =>
    simp only [Tree.leaves, List.mem_append] at hl
    simp only [Tree.replaceLeaf, Repr] at h
    rcases hl with hl | hl
    · exact ihl h.2.1 hl
    · exact ihr h.2.2 hl

/-- The value of `normalize`, when there is one. -/
theorem normalize_eq_some {env : Env F} {v d : Vector2 F} (h : normalize env v = some d) :
    (v.x ≠ 0 ∨ v.y ≠ 0) ∧ Magnitude env v ≠ 0 ∧
    d.x = v.x / Magnitude env v ∧ d.y = v.y / Magnitude env v := by
  unfold normalize at h
  split_ifs at h with hv
  cases hx : (fdiv v.x (Magnitude env v)).toOption with
  | none => simp [hx] at h
  | some rx =>
    cases hy : (fdiv v.y (Magnitude env v)).toOption with
    | none => simp [hx, hy] at h
    | some ry =>
      simp only [hx, hy, Option.bind_eq_bind, Option.some_bind, Option.pure_def,
        Option.some.injEq] at h
      obtain ⟨hne, hrx⟩ := fdiv_eq_fin (Flt.toOption_eq_some hx)
      obtain ⟨-, hry⟩ := fdiv_eq_fin (Flt.toOption_eq_some hy)
      rw [← h]
      exact ⟨hv, hne, hrx, hry⟩

/-- The two results of `newEdgeGeometry`. -/
theorem newEdgeGeometry_eq_some {env : Env F} {replaced : Arc F} {newPoint es ed : Vector2 F}
    {y : F} (h : newEdgeGeometry env replaced newPoint y = some (es, ed)) :
    ∃ yArc, GetArcYForXCoord replaced newPoint.x y = some yArc ∧
      es = { x := newPoint.x, y := yArc } ∧
      normalize env { x := newPoint.y - replaced.focus.y, y := -(newPoint.x - replaced.focus.x) }
        = some ed := by
  unfold newEdgeGeometry at h
  cases hy : GetArcYForXCoord replaced newPoint.x y with
  | none => simp [hy] at h
  | some iy =>
    simp only [hy, Option.bind_eq_bind, Option.some_bind, Option.pure_def] at h
    rw [Option.bind_eq_some] at h
    obtain ⟨dir, hdir, h2⟩ := h
    simp only [Option.some.injEq, Prod.mk.injEq] at h2
    exact ⟨iy, rfl, h2.1.symm, h2.2 ▸ hdir⟩

/-- C20. For an insertion by `AddArcToBeachline` (on a well-formed tree) of the site `s` over
the located arc with focus `f`: the call returns only if `f.y ≠ sweepLineY` and `s ≠ f`; the
two new edges (`edgeLeft` at address `n + 3`, `edgeRight` at `n + 4`) both start at
`(s.x, GetArcYForXCoord(replacedArc, s.x, sweepLineY))`; the direction of `edgeLeft` is
`normalize((s.y - f.y, -(s.x - f.x)))`, that of `edgeRight` is its negative, both are orthogonal
to `s - f`, and both are unit vectors when the square root is exact at the squared length of
`s - f`; neither edge is flagged `extendsUpwardsForever`. -/
theorem C20_new_edges_of_insertion (env : Env F) (m m1 : Mem F) (root root1 evt : Nat) (y : F)
    (t : Tree F) (hwf : WellFormed m.items root t)
    (hrun : AddArcToBeachline env m root evt y = some (m1, root1))
    (s : Vector2 F) (act : Nat) (rArc : Arc F)
    (hs : sitePoint m.events evt = some s)
    (hact : GetActiveArcForXCoord env m.items m.items.length root s.x y = some act)
    (harc : derefArc m.items act = some rArc)
    (hsqrt : Magnitude env { x := s.y - rArc.focus.y, y := -(s.x - rArc.focus.x) }
        * Magnitude env { x := s.y - rArc.focus.y, y := -(s.x - rArc.focus.x) }
      = (s.y - rArc.focus.y) * (s.y - rArc.focus.y)
        + -(s.x - rArc.focus.x) * -(s.x - rArc.focus.x)) :
    rArc.focus.y ≠ y ∧ s ≠ rArc.focus ∧
    ∃ yArc eL eR, GetArcYForXCoord rArc s.x y = some yArc ∧
      derefEdge m1.items (m.items.length + 3) = some eL ∧
      derefEdge m1.items (m.items.length + 4) = some eR ∧
      eL.start = { x := s.x, y := yArc } ∧ eR.start = { x := s.x, y := yArc } ∧
      normalize env { x := s.y - rArc.focus.y, y := -(s.x - rArc.focus.x) }
        = some eL.direction ∧
      eR.direction = { x := -eL.direction.x, y := -eL.direction.y } ∧
      eL.direction.x * (s.x - rArc.focus.x) + eL.direction.y * (s.y - rArc.focus.y) = 0 ∧
      eR.direction.x * (s.x - rArc.focus.x) + eR.direction.y * (s.y - rArc.focus.y) = 0 ∧
      eL.direction.x * eL.direction.x + eL.direction.y * eL.direction.y = 1 ∧
      eR.direction.x * eR.direction.x + eR.direction.y * eR.direction.y = 1 ∧
      eL.extendsUpwardsForever = false ∧ eR.extendsUpwardsForever = false := by
  obtain ⟨act2, aA, q, newPoint, es, ed, sl, sr, hsp, hga, hleaf, hrec, hgeo, -, hwf1, -⟩ :=
    AddArcToBeachline_tree hwf hrun
  rw [hs] at hsp
  cases hsp
  rw [hact] at hga
  cases hga
  have haA : rArc = aA := by
    unfold derefArc at harc
    rw [hrec] at harc
    simpa [ItemData.arc?] using harc.symm
  subst haA
  obtain ⟨yArc, hy, hes, hnorm⟩ := newEdgeGeometry_eq_some hgeo
  obtain ⟨hfy, -⟩ := GetArcYForXCoord_eq_some hy
  obtain ⟨hv, hL, hdx, hdy⟩ := normalize_eq_some hnorm
  obtain ⟨q2, hsub⟩ := Repr_replaceLeaf_sub hwf1.2.1 hleaf
  simp only [splitSubtree, Repr] at hsub
  obtain ⟨hL3, -, hR4, -, -⟩ := hsub
  have hLL : Magnitude env { x := s.y - rArc.focus.y, y := -(s.x - rArc.focus.x) }
      * Magnitude env { x := s.y - rArc.focus.y, y := -(s.x - rArc.focus.x) } ≠ 0 :=
    mul_ne_zero hL hL
  have horth : ed.x * (s.x - rArc.focus.x) + ed.y * (s.y - rArc.focus.y) = 0 := by
    rw [hdx, hdy]
    simp only
    rw [div_mul_eq_mul_div, div_mul_eq_mul_div, ← add_div, div_eq_zero_iff]
    left
    ring
  have hunit : ed.x * ed.x + ed.y * ed.y = 1 := by
    rw [hdx, hdy]
    simp only
    rw [div_mul_div_comm, div_mul_div_comm, ← add_div, hsqrt]
    exact div_self (hsqrt ▸ hLL)
  refine ⟨fun h => hfy (sub_eq_zero.mpr h), ?_, yArc,
    { start := es, direction := ed, extendsUpwardsForever := false },
    { start := es, direction := { x := -ed.x, y := -ed.y }, extendsUpwardsForever := false },
    hy, ?_, ?_, hes, hes, hnorm, rfl, horth, ?_, hunit, ?_, rfl, rfl⟩
  · intro hsf
    rcases hv with hv | hv
    · exact hv (by simp only; rw [hsf]; ring)
    · exact hv (by simp only; rw [hsf]; ring)
  · simp [derefEdge, hL3, ItemData.edge?]
  · simp [derefEdge, hR4, ItemData.edge?]
  · simp only
    linear_combination -horth
  · simp only
    linear_combination hunit

end C20

section C20Witness
set_option maxRecDepth 100000

/-- Witness of C20: the insertion of the third site of `levelSites`; the new edges start at
(-25, 75/4) with the directions (-4/5, 3/5) and (4/5, -3/5). -/
theorem C20_witness :
    (WellFormed (queuePop levelMemStart 2).items 2 levelTreeStart ∧
      AddArcToBeachline envQ0 (queuePop levelMemStart 2) 2 2 0 = some (levelMemInserted, 2) ∧
      sitePoint (queuePop levelMemStart 2).events 2 = some ⟨-25, 0⟩ ∧
      GetActiveArcForXCoord envQ0 (queuePop levelMemStart 2).items
        (queuePop levelMemStart 2).items.length 2 (-25) 0 = some 0 ∧
      derefArc (queuePop levelMemStart 2).items 0 = some ⟨⟨-7, 24⟩, none⟩ ∧
      derefEdge levelMemInserted.items 6 = some ⟨⟨-25, 75 / 4⟩, ⟨-4 / 5, 3 / 5⟩, false⟩ ∧
      derefEdge levelMemInserted.items 7 = some ⟨⟨-25, 75 / 4⟩, ⟨4 / 5, -3 / 5⟩, false⟩) ∧
    ((24 : ℚ) ≠ 0 ∧ (⟨-25, 0⟩ : Vector2 ℚ) ≠ ⟨-7, 24⟩ ∧
    ∃ yArc eL eR, GetArcYForXCoord (⟨⟨-7, 24⟩, none⟩ : Arc ℚ) (-25) 0 = some yArc ∧
      derefEdge levelMemInserted.items ((queuePop levelMemStart 2).items.length + 3) = some eL ∧
      derefEdge levelMemInserted.items ((queuePop levelMemStart 2).items.length + 4) = some eR ∧
      eL.start = { x := -25, y := yArc } ∧ eR.start = { x := -25, y := yArc } ∧
      normalize envQ0 { x := 0 - 24, y := -(-25 - -7) } = some eL.direction ∧
      eR.direction = { x := -eL.direction.x, y := -eL.direction.y } ∧
      eL.direction.x * (-25 - -7) + eL.direction.y * (0 - 24) = 0 ∧
      eR.direction.x * (-25 - -7) + eR.direction.y * (0 - 24) = 0 ∧
      eL.direction.x * eL.direction.x + eL.direction.y * eL.direction.y = 1 ∧
      eR.direction.x * eR.direction.x + eR.direction.y * eR.direction.y = 1 ∧
      eL.extendsUpwardsForever = false ∧ eR.extendsUpwardsForever = false) :=
  ⟨⟨⟨rfl, by decide!, by decide⟩, by decide!, by decide!, by decide!, by decide!, by decide!,
      by decide!⟩,
   C20_new_edges_of_insertion envQ0 (queuePop levelMemStart 2) levelMemInserted 2 2 2 0
     levelTreeStart ⟨rfl, by decide!, by decide⟩ (by decide!) ⟨-25, 0⟩ 0 ⟨⟨-7, 24⟩, none⟩
     (by decide!) (by decide!) (by decide!) (by decide!)⟩

end C20Witness

section TwoSites
variable {F : Type} [LinearOrderedField F]

/-- The top of a queue with one live event. -/
theorem queueTop_singleton (env : Env F) (m : Mem F) (e : Nat) (ev : SweepEvent F)
    (hq : m.queue = [e]) (hd : deref m.events e = some ev) : queueTop env m = some e := by
  unfold queueTop topCandidates
  simp [hq, queueKeys, eventY, hd, greatest, Nat.mod_one]

theorem splitArc_single (f s es ed : Vector2 F) :
    splitArc [some { data := ItemData.arc { focus := f, squeezeEvent := none },
                     parent := none, left := none, right := none }] 0
      { data := ItemData.arc { focus := f, squeezeEvent := none },
        parent := none, left := none, right := none } f s es ed
    = some (singleSplitItems f s es ed, 1, 2, 4) := by
  simp [splitArc, CreateArc, CreateEdge, alloc, SetParentFromItem, SetLeft, SetRight, deref, store,
    singleSplitItems, BeachlineItem.isEdge]

theorem verify_single (f s es ed : Vector2 F) :
    VerifyThatThereAreNoReferencesToItem (singleSplitItems f s es ed)
      (singleSplitItems f s es ed).length (some 4) 0 = some () := by
  simp [VerifyThatThereAreNoReferencesToItem, singleSplitItems, deref, BeachlineItem.isArc]

theorem squeeze_single_left (env : Env F) (f s es ed : Vector2 F) (ev : Events F)
    (q : List Nat) (k : Nat) :
    AddArcSqueezeEvent env
      { items := free (singleSplitItems f s es ed) 0, events := ev, queue := q, pops := k } 1
    = some { items := free (singleSplitItems f s es ed) 0, events := ev, queue := q, pops := k } := by
  simp [AddArcSqueezeEvent, GetFirstParentOnTheLeft, GetFirstParentOnTheRight,
    climbWhileLeftChild, climbWhileRightChild, parentChecked, singleSplitItems, deref, free,
    BeachlineItem.isEdge]

theorem squeeze_single_right (env : Env F) (f s es ed : Vector2 F) (ev : Events F)
    (q : List Nat) (k : Nat) :
    AddArcSqueezeEvent env
      { items := free (singleSplitItems f s es ed) 0, events := ev, queue := q, pops := k } 2
    = some { items := free (singleSplitItems f s es ed) 0, events := ev, queue := q, pops := k } := by
  simp [AddArcSqueezeEvent, GetFirstParentOnTheLeft, GetFirstParentOnTheRight,
    climbWhileLeftChild, climbWhileRightChild, parentChecked, singleSplitItems, deref, free,
    BeachlineItem.isEdge]

/-- `AddArcToBeachline` on a beachline that is a single arc. -/
theorem AddArcToBeachline_single (env : Env F) (m : Mem F) (evt : Nat) (f s : Vector2 F) (y : F)
    (hitems : m.items = [some { data := ItemData.arc { focus := f, squeezeEvent := none },
                                parent := none, left := none, right := none }])
    (hsp : sitePoint m.events evt = some s) (es ed : Vector2 F)
    (hgeo : newEdgeGeometry env ⟨f, none⟩ s y = some (es, ed)) :
    AddArcToBeachline env m 0 evt y
      = some ({ m with items := free (singleSplitItems f s es ed) 0 }, 4) := by
  unfold AddArcToBeachline
  simp only [hsp, hitems]
  simp [GetActiveArcForXCoord, deref, BeachlineItem.isArc, ItemData.arc?, hgeo]
  rw [splitArc_single]
  simp only [invalidateReplaced, verify_single, squeeze_single_left, squeeze_single_right]

end TwoSites

section TwoSites2
variable {F : Type} [LinearOrderedField F]

theorem wellFormed_single_split (f s es ed : Vector2 F) :
    WellFormed (free (singleSplitItems f s es ed) 0) 4 (splitSubtree 1 f s es ed none none) := by
  refine ⟨rfl, ?_, by simp [splitSubtree, Tree.addrs]⟩
  simp [Repr, splitSubtree, singleSplitItems, free, deref, Tree.addr]

/-- The end of a run whose queue is empty at the head of the main loop. -/
theorem run_end_of_empty_queue (env : Env F) (cutoffY : F) (fuel : Nat) (m : Mem F) (root : Nat)
    (edges : List (CompleteEdge F)) (t : Tree F) (hq : m.queue = [])
    (hwf : WellFormed m.items root t) :
    ∃ r, (match mainLoop env cutoffY (fuel + 1) m root edges with
          | none => none
          | some (m4, root1, edges1) => assembleResult env cutoffY m4 root1 edges1) = some r ∧
      r.edges = edges ++ t.edges.map finishedEdge ∧ r.beachlineRoot = none ∧
      r.unencounteredEvents = [] := by
  have hmain : mainLoop env cutoffY (fuel + 1) m root edges = some (m, root, edges) := by
    simp [mainLoop, mainLoopStep, hq]
  have hfin := FinishEdge_spec t (m.items.length + 1) m.items none edges hwf.2.1 hwf.2.2
    (by have := WellFormed.height_lt hwf; omega)
  rw [hwf.1] at hfin
  rw [hmain]
  simp only
  unfold assembleResult
  simp only [hq, true_or, if_true, hfin, List.length_nil]
  have hdrain : drainQueue env (0 + 1) m [] = some (m, []) := by simp [drainQueue, hq]
  rw [hdrain]
  exact ⟨_, rfl, rfl, rfl, rfl⟩

/-- The main loop on a beachline that is a single arc with one site event queued, not below the
cutoff: the site is inserted, the queue is empty, and the run ends with the two edges of the
split. -/
theorem run_end_single_arc (env : Env F) (cutoffY : F) (fuel : Nat) (m : Mem F) (e1 : Nat)
    (f s es ed : Vector2 F)
    (hitems : m.items = [some { data := ItemData.arc { focus := f, squeezeEvent := none },
                                parent := none, left := none, right := none }])
    (hq : m.queue = [e1]) (hd : deref m.events e1 = some (siteEvent s))
    (hcut : ¬ s.y < cutoffY)
    (hgeo : newEdgeGeometry env ⟨f, none⟩ s s.y = some (es, ed)) :
    ∃ r, (match mainLoop env cutoffY (fuel + 2) m 0 [] with
          | none => none
          | some (m4, root1, edges1) => assembleResult env cutoffY m4 root1 edges1) = some r ∧
      r.edges = [finishedEdge { start := es, direction := ed, extendsUpwardsForever := false },
                 finishedEdge { start := es, direction := { x := -ed.x, y := -ed.y },
                                extendsUpwardsForever := false }] ∧
      r.beachlineRoot = none ∧ r.unencounteredEvents = [] := by
  have htop := queueTop_singleton env m e1 _ hq hd
  have hsp : sitePoint (queuePop m e1).events e1 = some s := by
    simp [queuePop, sitePoint, hd, siteEvent]
  have hadd := AddArcToBeachline_single env (queuePop m e1) e1 f s s.y
    (by simp [queuePop, hitems]) hsp es ed hgeo
  have hy : (siteEvent s).yCoord = s.y := rfl
  have hstep : mainLoopStep env cutoffY m 0 []
      = some (some ({ items := free (singleSplitItems f s es ed) 0,
                      events := free m.events e1, queue := [], pops := m.pops + 1 }, 4, [])) := by
    unfold mainLoopStep
    simp only [hq, htop, hd, hy, hcut, if_false]
    unfold processEvent
    simp only [siteEvent, hadd]
    simp [queuePop, hq]
  have hwf := wellFormed_single_split f s es ed
  obtain ⟨r, hr, hedges, hroot, hun⟩ := run_end_of_empty_queue env cutoffY fuel
    { items := free (singleSplitItems f s es ed) 0,
      events := free m.events e1, queue := [], pops := m.pops + 1 } 4 []
    (splitSubtree 1 f s es ed none none) rfl hwf
  refine ⟨r, ?_, ?_, hroot, hun⟩
  · rw [show fuel + 2 = (fuel + 1) + 1 from rfl, mainLoop, hstep]
    exact hr
  · rw [hedges]
    simp [splitSubtree, Tree.edges]

end TwoSites2

section TwoSites3
variable {F : Type} [LinearOrderedField F]

/-- The body of the start-up loop on a beachline that is a single arc. -/
theorem startupInsert_single (env : Env F) (items : Items F) (f s : Vector2 F)
    (hitems : items = [some { data := ItemData.arc { focus := f, squeezeEvent := none },
                              parent := none, left := none, right := none }]) :
    ∃ items1, startupInsert env items 0 s = some (items1, 2) ∧
      WellFormed items1 2 (startupSubtree 1 0 ⟨f, none⟩ s) := by
  have hrepr : Repr items none (Tree.leaf 0 (⟨f, none⟩ : Arc F)) := by
    subst hitems
    simp [Repr, deref]
  obtain ⟨act, aA, q, hleaf, hact, items1, hrun, hlen, hsub, -, -⟩ :=
    startupInsert_arena env items (Tree.leaf 0 (⟨f, none⟩ : Arc F)) s hrepr
      (by simp [Tree.addrs])
  simp only [Tree.leaves, List.mem_singleton, Prod.mk.injEq] at hleaf
  obtain ⟨rfl, rfl⟩ := hleaf
  have hq : q = none := by
    subst hitems
    simp [deref] at hact
    exact hact.symm
  subst hq
  have hl : items.length = 1 := by subst hitems; rfl
  rw [hl] at hrun hsub
  simp only [Tree.addr, if_true] at hrun
  refine ⟨items1, hrun, ?_, hsub, ?_⟩
  · rw [startupSubtree_addr]
  · exact (startupSubtree_addrs _ _ _ _).nodup_iff.mpr (by simp)

/-- The run on a beachline that is a single arc with one site event queued, not below the
cutoff and inside the window of the start-up loop: one vertical edge. -/
theorem run_end_single_arc_window (env : Env F) (cutoffY endY : F) (fuel : Nat) (m : Mem F)
    (e1 : Nat) (f s : Vector2 F)
    (hitems : m.items = [some { data := ItemData.arc { focus := f, squeezeEvent := none },
                                parent := none, left := none, right := none }])
    (hq : m.queue = [e1]) (hd : deref m.events e1 = some (siteEvent s))
    (hcut : ¬ s.y < cutoffY) (hwin : endY < s.y) :
    ∃ r, (match (match startupLoop env cutoffY endY 2 m 0 with
                 | none => none
                 | some (m3, root) => some (Bootstrap.entered m3 root)) with
          | none => none
          | some (Bootstrap.aborted result) => some result
          | some (Bootstrap.entered m3 root) =>
            match mainLoop env cutoffY (fuel + 1) m3 root [] with
            | none => none
            | some (m4, root1, edges) => assembleResult env cutoffY m4 root1 edges) = some r ∧
      r.edges = [finishedEdge { start := startupEdgeStart s f, direction := { x := 0, y := -1 },
                                extendsUpwardsForever := true }] ∧
      r.beachlineRoot = none ∧ r.unencounteredEvents = [] := by
  have htop := queueTop_singleton env m e1 _ hq hd
  have hsp : sitePoint m.events e1 = some s := by
    simp [sitePoint, hd, siteEvent]
  obtain ⟨items1, hins, hwf⟩ := startupInsert_single env m.items f s hitems
  have hy : (siteEvent s).yCoord = s.y := rfl
  have hne : m.queue ≠ [] := by rw [hq]; simp
  have hloop : startupLoop env cutoffY endY 2 m 0
      = some ({ items := items1, events := free m.events e1, queue := [],
                pops := m.pops + 1 }, 2) := by
    rw [show (2 : Nat) = 1 + 1 from rfl, startupLoop]
    simp only [hne, if_false, htop, hd, hy, hwin, if_true, hcut, hsp, hins]
    rw [show (1 : Nat) = 0 + 1 from rfl, startupLoop]
    simp [queuePop, hq]
  obtain ⟨r, hr, hedges, hroot, hun⟩ := run_end_of_empty_queue env cutoffY fuel
    { items := items1, events := free m.events e1, queue := [], pops := m.pops + 1 } 2 []
    (startupSubtree 1 0 ⟨f, none⟩ s) rfl hwf
  refine ⟨r, ?_, ?_, hroot, hun⟩
  · rw [hloop]
    exact hr
  · rw [hedges, startupSubtree_edges]
    rfl

/-- The run on a beachline that is a single arc with one site event queued, not below the
cutoff and outside the window of the start-up loop: the two edges of the split. -/
theorem run_end_single_arc_apart (env : Env F) (cutoffY endY : F) (fuel : Nat) (m : Mem F)
    (e1 : Nat) (f s es ed : Vector2 F)
    (hitems : m.items = [some { data := ItemData.arc { focus := f, squeezeEvent := none },
                                parent := none, left := none, right := none }])
    (hq : m.queue = [e1]) (hd : deref m.events e1 = some (siteEvent s))
    (hcut : ¬ s.y < cutoffY) (hwin : ¬ endY < s.y)
    (hgeo : newEdgeGeometry env ⟨f, none⟩ s s.y = some (es, ed)) :
    ∃ r, (match (match startupLoop env cutoffY endY 2 m 0 with
                 | none => none
                 | some (m3, root) => some (Bootstrap.entered m3 root)) with
          | none => none
          | some (Bootstrap.aborted result) => some result
          | some (Bootstrap.entered m3 root) =>
            match mainLoop env cutoffY (fuel + 2) m3 root [] with
            | none => none
            | some (m4, root1, edges) => assembleResult env cutoffY m4 root1 edges) = some r ∧
      r.edges = [finishedEdge { start := es, direction := ed, extendsUpwardsForever := false },
                 finishedEdge { start := es, direction := { x := -ed.x, y := -ed.y },
                                extendsUpwardsForever := false }] ∧
      r.beachlineRoot = none ∧ r.unencounteredEvents = [] := by
  have htop := queueTop_singleton env m e1 _ hq hd
  have hy : (siteEvent s).yCoord = s.y := rfl
  have hne : m.queue ≠ [] := by rw [hq]; simp
  have hloop : startupLoop env cutoffY endY 2 m 0 = some (m, 0) := by
    rw [show (2 : Nat) = 1 + 1 from rfl, startupLoop]
    simp only [hne, if_false, htop, hd, hy, hwin]
  rw [hloop]
  exact run_end_single_arc env cutoffY fuel m e1 f s es ed hitems hq hd hcut hgeo

/-- The part of `FortunesAlgorithm` on two sites before the start-up loop. -/
theorem FortunesAlgorithm_two_sites (env : Env F) (fuel : Nat) (p q : Vector2 F) (cutoffY : F)
    (e0 e1 : Nat) (f s : Vector2 F)
    (hcase : (e0 = 0 ∧ e1 = 1 ∧ f = p ∧ s = q) ∨ (e0 = 1 ∧ e1 = 0 ∧ f = q ∧ s = p))
    (htop : queueTop env { items := [], events := [some (siteEvent p), some (siteEvent q)],
                           queue := [0, 1], pops := 0 } = some e0)
    (hcut : ¬ f.y < cutoffY) :
    ∃ m : Mem F,
      m.items = [some { data := ItemData.arc { focus := f, squeezeEvent := none },
                        parent := none, left := none, right := none }] ∧
      m.queue = [e1] ∧ deref m.events e1 = some (siteEvent s) ∧
      FortunesAlgorithm env fuel [p, q] cutoffY
        = (match (match startupLoop env cutoffY (f.y - 1) 2 m 0 with
                  | none => none
                  | some (m3, root) => some (Bootstrap.entered m3 root)) with
           | none => none
           | some (Bootstrap.aborted result) => some result
           | some (Bootstrap.entered m3 root) =>
             match mainLoop env cutoffY fuel m3 root [] with
             | none => none
             | some (m4, root1, edges) => assembleResult env cutoffY m4 root1 edges) := by
  have hseed := seedEvents_empty [p, q]
  simp only [List.map_cons, List.map_nil, List.length_cons, List.length_nil] at hseed
  have hrange : List.range (0 + 1 + 1) = [0, 1] := rfl
  rw [hrange] at hseed
  rcases hcase with ⟨rfl, rfl, rfl, rfl⟩ | ⟨rfl, rfl, rfl, rfl⟩
  · refine ⟨{ items := [some { data := ItemData.arc { focus := f, squeezeEvent := none },
                                parent := none, left := none, right := none }],
              events := free [some (siteEvent f), some (siteEvent s)] 0,
              queue := [1], pops := 1 }, rfl, rfl, by simp [free, deref], ?_⟩
    unfold FortunesAlgorithm bootstrap
    simp only [hseed, htop]
    have hy : (siteEvent f).yCoord = f.y := rfl
    simp [deref, sitePoint, siteEvent, hcut, queuePop, alloc]
  · refine ⟨{ items := [some { data := ItemData.arc { focus := f, squeezeEvent := none },
                                parent := none, left := none, right := none }],
              events := free [some (siteEvent s), some (siteEvent f)] 1,
              queue := [0], pops := 1 }, rfl, rfl, by simp [free, deref], ?_⟩
    unfold FortunesAlgorithm bootstrap
    simp only [hseed, htop]
    simp [deref, sitePoint, siteEvent, hcut, queuePop, alloc]

end TwoSites3

section TwoSites4
variable {F : Type} [LinearOrderedField F]

/-- The event that the queue of two site events yields first: one of the two, and its site is
not below the other. -/
theorem queueTop_two_sites (env : Env F) (p q : Vector2 F) :
    ∃ e0 e1 f s, ((e0 = 0 ∧ e1 = 1 ∧ f = p ∧ s = q) ∨ (e0 = 1 ∧ e1 = 0 ∧ f = q ∧ s = p)) ∧
      queueTop env { items := [], events := [some (siteEvent p), some (siteEvent q)],
                     queue := [0, 1], pops := 0 } = some e0 ∧ s.y ≤ f.y := by
  obtain ⟨e0, htop⟩ := queueTop_isSome env
    { items := [], events := [some (siteEvent p), some (siteEvent q)], queue := [0, 1], pops := 0 }
    (by simp)
    (by
      intro e he
      simp only [List.mem_cons, List.mem_singleton, List.not_mem_nil, or_false] at he
      rcases he with rfl | rfl
      · exact ⟨p.y, by simp [eventY, deref, siteEvent]⟩
      · exact ⟨q.y, by simp [eventY, deref, siteEvent]⟩)
  obtain ⟨hmem, y, hy, hmax⟩ := queueTop_spec htop
  simp only [List.mem_cons, List.mem_singleton, List.not_mem_nil, or_false] at hmem
  have h0 : eventY [some (siteEvent p), some (siteEvent q)] 0 = some p.y := by
    simp [eventY, deref, siteEvent]
  have h1 : eventY [some (siteEvent p), some (siteEvent q)] 1 = some q.y := by
    simp [eventY, deref, siteEvent]
  rcases hmem with rfl | rfl
  · refine ⟨0, 1, p, q, Or.inl ⟨rfl, rfl, rfl, rfl⟩, htop, ?_⟩
    simp only at hy
    rw [h0] at hy
    cases hy
    exact hmax 1 (by simp) q.y h1
  · refine ⟨1, 0, q, p, Or.inr ⟨rfl, rfl, rfl, rfl⟩, htop, ?_⟩
    simp only at hy
    rw [h1] at hy
    cases hy
    exact hmax 0 (by simp) p.y h0

/-- The geometry of the edges of an insertion exists when the new site is strictly below the
focus and the square root of the squared distance is not zero. -/
theorem newEdgeGeometry_of_below (env : Env F) (f s : Vector2 F) (hlt : s.y < f.y)
    (hsqrt : env.sqrt (distSq s f) ≠ 0) :
    ∃ es ed, newEdgeGeometry env ⟨f, none⟩ s s.y = some (es, ed) := by
  have hy := GetArcYForXCoord_eq (⟨f, none⟩ : Arc F) s.x s.y (ne_of_gt hlt)
  have hv : s.y - f.y ≠ 0 := sub_ne_zero.mpr (ne_of_lt hlt)
  have hmag : Magnitude env { x := s.y - f.y, y := -(s.x - f.x) } ≠ 0 := by
    unfold Magnitude
    simp only
    have : (s.y - f.y) * (s.y - f.y) + -(s.x - f.x) * -(s.x - f.x) = distSq s f := by
      unfold distSq; ring
    rw [this]
    exact hsqrt
  have hn : normalize env { x := s.y - f.y, y := -(s.x - f.x) }
      = some { x := (s.y - f.y) / Magnitude env { x := s.y - f.y, y := -(s.x - f.x) },
               y := -(s.x - f.x) / Magnitude env { x := s.y - f.y, y := -(s.x - f.x) } } := by
    unfold normalize
    rw [if_pos (Or.inl hv)]
    simp only [fdiv_of_ne_zero hmag, Flt.toOption, Option.bind_eq_bind, Option.some_bind,
      Option.pure_def]
  unfold newEdgeGeometry
  simp only [hy, Option.bind_eq_bind, Option.some_bind, Option.pure_def, hn]
  exact ⟨_, _, rfl⟩

/-- Both endpoints of both edges of the split of a single arc are equidistant from the new
site and the focus. -/
theorem split_edges_equidistant (env : Env F) (f s es ed : Vector2 F)
    (hgeo : newEdgeGeometry env ⟨f, none⟩ s s.y = some (es, ed)) :
    ∀ e ∈ [finishedEdge { start := es, direction := ed, extendsUpwardsForever := false },
           finishedEdge { start := es, direction := { x := -ed.x, y := -ed.y },
                          extendsUpwardsForever := false }],
      distSq e.endpointA s = distSq e.endpointA f ∧ distSq e.endpointB s = distSq e.endpointB f := by
  have hstart := newEdgeGeometry_start hgeo
  simp only at hstart
  obtain ⟨yArc, -, -, hnorm⟩ := newEdgeGeometry_eq_some hgeo
  obtain ⟨-, hL, hdx, hdy⟩ := normalize_eq_some hnorm
  simp only at hdx hdy
  have horth : ed.x * (f.x - s.x) + ed.y * (f.y - s.y) = 0 := by
    rw [hdx, hdy]
    rw [div_mul_eq_mul_div, div_mul_eq_mul_div, ← add_div, div_eq_zero_iff]
    left
    ring
  have hB := distSq_along_bisector es ed s f 10000 hstart horth
  have hB2 := distSq_along_bisector es { x := -ed.x, y := -ed.y } s f 10000 hstart
    (by simp only; linear_combination -horth)
  intro e he
  simp only [List.mem_cons, List.mem_singleton, List.not_mem_nil, or_false] at he
  rcases he with rfl | rfl
  · refine ⟨hstart, ?_⟩
    simp only [finishedEdge]
    rw [mul_comm (10000 : F) ed.x, mul_comm (10000 : F) ed.y]
    exact hB
  · refine ⟨hstart, ?_⟩
    simp only [finishedEdge]
    rw [mul_comm (10000 : F) (-ed.x), mul_comm (10000 : F) (-ed.y)]
    exact hB2

/-- Both endpoints of the vertical edge of the start-up loop are equidistant from two sites of
equal y. -/
theorem startup_edge_equidistant (f s : Vector2 F) (hy : s.y = f.y) :
    ∀ e ∈ [finishedEdge { start := startupEdgeStart s f, direction := { x := 0, y := -1 },
                          extendsUpwardsForever := true }],
      distSq e.endpointA s = distSq e.endpointA f ∧ distSq e.endpointB s = distSq e.endpointB f := by
  intro e he
  simp only [List.mem_singleton] at he
  subst he
  simp only [finishedEdge, startupEdgeStart, distSq, hy]
  constructor <;> ring

end TwoSites4

section C11
variable {F : Type} [LinearOrderedField F]

/-- C11 (amended). For two sites, neither below the cutoff, that have the same y of absolute
value below 2^24 (the range in which `y - 1.0f < y` holds in binary32, so that the start-up
loop pops the second site), or whose y differ by at least 1 (with a square root that is not
zero at their squared distance): the run of `FortunesAlgorithm` on `[p, q]` with fuel for two
turns of the main loop returns, with no remaining beachline root and no unencountered event; it
returns one complete edge when the y are equal and two otherwise, and both endpoints of every
returned edge are equidistant from `p` and `q`. -/
theorem C11_two_sites_edges_on_bisector (env : Env F) (fuel : Nat) (p q : Vector2 F)
    (cutoffY : F) (hfuel : 2 ≤ fuel) (hp : ¬ p.y < cutoffY) (hq : ¬ q.y < cutoffY)
    (hgap : (p.y = q.y ∧ -16777216 < p.y ∧ p.y < 16777216) ∨
      ((q.y + 1 ≤ p.y ∨ p.y + 1 ≤ q.y) ∧ env.sqrt (distSq p q) ≠ 0)) :
    TwoSiteBisector env fuel p q cutoffY ∧
    ∃ r, FortunesAlgorithm env fuel [p, q] cutoffY = some r ∧ r.beachlineRoot = none ∧
      r.unencounteredEvents = [] ∧ r.edges.length = (if p.y = q.y then 1 else 2) := by
  obtain ⟨e0, e1, f, s, hcase, htop, hle⟩ := queueTop_two_sites env p q
  have hcutf : ¬ f.y < cutoffY := by
    rcases hcase with ⟨-, -, rfl, -⟩ | ⟨-, -, rfl, -⟩
    · exact hp
    · exact hq
  have hcuts : ¬ s.y < cutoffY := by
    rcases hcase with ⟨-, -, -, rfl⟩ | ⟨-, -, -, rfl⟩
    · exact hq
    · exact hp
  obtain ⟨m, hitems, hqueue, hd, hrun⟩ :=
    FortunesAlgorithm_two_sites env fuel p q cutoffY e0 e1 f s hcase htop hcutf
  obtain ⟨k, rfl⟩ : ∃ k, fuel = k + 2 := ⟨fuel - 2, by omega⟩
  have hsym : ∀ (a : Vector2 F), (distSq a s = distSq a f) →
      distSq a p = distSq a q := by
    intro a h
    rcases hcase with ⟨-, -, rfl, rfl⟩ | ⟨-, -, rfl, rfl⟩
    · exact h.symm
    · exact h
  rcases hgap with ⟨hy, -, -⟩ | ⟨hapart, hsqrt⟩
  · have hsy : s.y = f.y := by
      rcases hcase with ⟨-, -, rfl, rfl⟩ | ⟨-, -, rfl, rfl⟩
      · exact hy.symm
      · exact hy
    obtain ⟨r, hr, hedges, hroot, hun⟩ := run_end_single_arc_window env cutoffY (f.y - 1) (k + 1)
      m e1 f s hitems hqueue hd hcuts (by rw [hsy]; linarith)
    rw [← hrun] at hr
    refine ⟨⟨r, hr, by rw [hedges]; simp, ?_⟩, r, hr, hroot, hun, by rw [hedges]; simp [hy]⟩
    intro e he
    rw [hedges] at he
    obtain ⟨hA, hB⟩ := startup_edge_equidistant f s hsy e he
    exact ⟨hsym _ hA, hsym _ hB⟩
  · have hlt : s.y + 1 ≤ f.y := by
      rcases hcase with ⟨-, -, rfl, rfl⟩ | ⟨-, -, rfl, rfl⟩
      · rcases hapart with h | h
        · exact h
        · linarith
      · rcases hapart with h | h
        · linarith
        · exact h
    have hne : p.y ≠ q.y := by
      intro h
      rcases hapart with h1 | h1 <;> rw [h] at h1 <;> linarith
    have hsq : env.sqrt (distSq s f) ≠ 0 := by
      have e1 : distSq s f = distSq p q := by
        rcases hcase with ⟨-, -, rfl, rfl⟩ | ⟨-, -, rfl, rfl⟩
        · unfold distSq; ring
        · rfl
      rw [e1]
      exact hsqrt
    obtain ⟨es, ed, hgeo⟩ := newEdgeGeometry_of_below env f s (by linarith) hsq
    obtain ⟨r, hr, hedges, hroot, hun⟩ := run_end_single_arc_apart env cutoffY (f.y - 1) k
      m e1 f s es ed hitems hqueue hd hcuts (by linarith) hgeo
    rw [← hrun] at hr
    refine ⟨⟨r, hr, by rw [hedges]; simp, ?_⟩, r, hr, hroot, hun, by rw [hedges]; simp [hne]⟩
    intro e he
    rw [hedges] at he
    obtain ⟨hA, hB⟩ := split_edges_equidistant env f s es ed hgeo e he
    exact ⟨hsym _ hA, hsym _ hB⟩

end C11

section C11Witness
set_option maxRecDepth 100000

/-- Witness of C11: the sites (0,0) and (3,-4), at distance 5, and the level sites (-7,24) and
(7,24). -/
theorem C11_witness :
    (((2 : Nat) ≤ 2 ∧ ¬ (0 : ℚ) < -1000 ∧ ¬ (-4 : ℚ) < -1000 ∧
      (((0 : ℚ) = -4 ∧ (-16777216 : ℚ) < 0 ∧ (0 : ℚ) < 16777216) ∨
        (((-4 : ℚ) + 1 ≤ 0 ∨ (0 : ℚ) + 1 ≤ -4) ∧
          envQ0.sqrt (distSq (⟨0, 0⟩ : Vector2 ℚ) ⟨3, -4⟩) ≠ 0))) ∧
     (TwoSiteBisector envQ0 2 ⟨0, 0⟩ ⟨3, -4⟩ (-1000) ∧
      ∃ r, FortunesAlgorithm envQ0 2 [⟨0, 0⟩, ⟨3, -4⟩] (-1000) = some r ∧
        r.beachlineRoot = none ∧ r.unencounteredEvents = [] ∧
        r.edges.length = (if (0 : ℚ) = -4 then 1 else 2))) ∧
    (((2 : Nat) ≤ 2 ∧ ¬ (24 : ℚ) < -1000 ∧
      ((24 : ℚ) = 24 ∧ (-16777216 : ℚ) < 24 ∧ (24 : ℚ) < 16777216)) ∧
     (TwoSiteBisector envQ0 2 ⟨-7, 24⟩ ⟨7, 24⟩ (-1000) ∧
      ∃ r, FortunesAlgorithm envQ0 2 [⟨-7, 24⟩, ⟨7, 24⟩] (-1000) = some r ∧
        r.beachlineRoot = none ∧ r.unencounteredEvents = [] ∧
        r.edges.length = (if (24 : ℚ) = 24 then 1 else 2))) :=
  ⟨⟨⟨le_refl 2, by norm_num, by norm_num, Or.inr ⟨Or.inl (by norm_num), by decide!⟩⟩,
    C11_two_sites_edges_on_bisector envQ0 2 ⟨0, 0⟩ ⟨3, -4⟩ (-1000) (le_refl 2) (by norm_num)
      (by norm_num) (Or.inr ⟨Or.inl (by norm_num), by decide!⟩)⟩,
   ⟨⟨le_refl 2, by norm_num, rfl, by norm_num, by norm_num⟩,
    C11_two_sites_edges_on_bisector envQ0 2 ⟨-7, 24⟩ ⟨7, 24⟩ (-1000) (le_refl 2) (by norm_num)
      (by norm_num) (Or.inl ⟨rfl, by norm_num, by norm_num⟩)⟩⟩

/-- Counterexample to C11: the sites (0,0) and (2,-1/2) are distinct and neither is below the
cutoff, but their y differ by less than 1, so the second site is inserted by the start-up loop:
the run returns the single edge from (1, 199/2) to (1, -19801/2), and (1, 199/2) is at squared
distance 39605/4 from (0,0) and 10001 from (2,-1/2). -/
theorem C11_counterexample :
    (∃ r, FortunesAlgorithm envQ0 2 [⟨0, 0⟩, ⟨2, -1 / 2⟩] (-1000) = some r ∧
      r.edges = [⟨⟨1, 199 / 2⟩, ⟨1, -19801 / 2⟩⟩]) ∧
    distSq (⟨1, 199 / 2⟩ : Vector2 ℚ) ⟨0, 0⟩ = 39605 / 4 ∧
    distSq (⟨1, 199 / 2⟩ : Vector2 ℚ) ⟨2, -1 / 2⟩ = 10001 ∧
    ¬ TwoSiteBisector envQ0 2 ⟨0, 0⟩ ⟨2, -1 / 2⟩ (-1000) := by
  have hrun : ∃ r, FortunesAlgorithm envQ0 2 [⟨0, 0⟩, ⟨2, -1 / 2⟩] (-1000) = some r ∧
      r.edges = [⟨⟨1, 199 / 2⟩, ⟨1, -19801 / 2⟩⟩] := by
    decide!
  refine ⟨hrun, by decide!, by decide!, ?_⟩
  rintro ⟨r, hr, -, hall⟩
  obtain ⟨r0, hr0, hedges⟩ := hrun
  rw [hr0] at hr
  cases hr
  have h := (hall ⟨⟨1, 199 / 2⟩, ⟨1, -19801 / 2⟩⟩ (by rw [hedges]; simp)).1
  revert h
  decide!

end C11Witness

section SqueezeEffect
variable {F : Type} [LinearOrderedField F]

/-- The candidate of `AddArcSqueezeEvent` in terms of the two edges and the arc. -/
theorem squeezeCandidate_eq_some {env : Env F} {items : Items F} {arc L R : Nat}
    {V : Vector2 F} {c : F} (h : squeezeCandidate env items arc L R = some (some (V, c))) :
    ∃ le re a, derefEdge items L = some le ∧ derefEdge items R = some re ∧
      TryGetEdgeIntersectionPoint le re = RayHit.hit V ∧ derefArc items arc = some a ∧
      c = V.y - env.sqrt (distSq a.focus V) := by
  unfold squeezeCandidate at h
  cases hle : derefEdge items L with
  | none => simp [hle] at h
  | some le =>
    cases hre : derefEdge items R with
    | none => simp [hle, hre] at h
    | some re =>
      simp only [hle, hre, Option.bind_eq_bind, Option.some_bind] at h
      split at h
      · cases h
      · cases h
      · rename_i P hP
        split at h
        · cases h
        · rename_i a ha
          simp only [Option.some.injEq, Prod.mk.injEq] at h
          obtain ⟨h1, h2⟩ := h
          subst h1
          exact ⟨le, re, a, rfl, rfl, hP, ha, h2.symm⟩

/-- The candidate is absent exactly when the ray intersection is. -/
theorem squeezeCandidate_miss {env : Env F} {items : Items F} {arc L R : Nat} {le re : Edge F}
    (hle : derefEdge items L = some le) (hre : derefEdge items R = some re)
    (hmiss : TryGetEdgeIntersectionPoint le re = RayHit.miss) :
    squeezeCandidate env items arc L R = some none := by
  unfold squeezeCandidate
  simp [hle, hre, hmiss]

/-- The outcomes of a call of `AddArcSqueezeEvent` that returns: nothing changes, or a
candidate was computed and either no event was pending, or the pending event had a smaller
`yCoord` and was invalidated; in both of the latter cases the new event is allocated, pushed
and recorded. -/
theorem AddArcSqueezeEvent_cases {env : Env F} {m m1 : Mem F} {arc : Nat}
    (h : AddArcSqueezeEvent env m arc = some m1) :
    m1 = m ∨
    ∃ L R V c it a, GetFirstParentOnTheLeft m.items arc = some (some L) ∧
      GetFirstParentOnTheRight m.items arc = some (some R) ∧
      squeezeCandidate env m.items arc L R = some (some (V, c)) ∧
      deref m.items arc = some it ∧ it.data = ItemData.arc a ∧
      ((a.squeezeEvent = none ∧ m1 = newSqueezeEvent m arc it a V c) ∨
       ∃ se s ev1, a.squeezeEvent = some se ∧ deref m.events se = some s ∧ s.yCoord < c ∧
         clearValid m.events se = some ev1 ∧
         m1 = newSqueezeEvent { m with events := ev1 } arc it a V c) := by
  unfold AddArcSqueezeEvent at h
  split at h
  · rename_i L R hL hR
    split at h
    · cases h
    · cases h; exact Or.inl rfl
    · rename_i V c hc
      unfold registerSqueezeEvent at h
      split at h
      · cases h
      rename_i it hit
      split at h
      · cases h
      rename_i a ha
      have hdata : it.data = ItemData.arc a := by
        cases hd : it.data with
        | arc a2 => rw [hd] at ha; simp only [ItemData.arc?, Option.some.injEq] at ha; rw [ha]
        | edge e => rw [hd] at ha; simp [ItemData.arc?] at ha
      split at h
      · rename_i hse
        cases h
        exact Or.inr ⟨L, R, V, c, it, a, hL, hR, hc, hit, hdata, Or.inl ⟨hse, rfl⟩⟩
      rename_i se hse
      split at h
      · cases h
      rename_i s hs
      split at h
      · cases h; exact Or.inl rfl
      rename_i hlt
      split at h
      · cases h
      rename_i ev1 hev1
      cases h
      exact Or.inr ⟨L, R, V, c, it, a, hL, hR, hc, hit, hdata,
        Or.inr ⟨se, s, ev1, hse, hs, not_le.mp hlt, hev1, rfl⟩⟩
  · cases h; exact Or.inl rfl
  · cases h

omit [LinearOrderedField F] in
/-- The effect of `clearValid` on the arena of events. -/
theorem clearValid_eq_some {events ev1 : Events F} {se : Nat} (h : clearValid events se = some ev1) :
    ∃ y ip sa v, deref events se = some ⟨y, EventData.edgeIntersect ip sa v⟩ ∧
      ev1 = store events se ⟨y, EventData.edgeIntersect ip sa false⟩ := by
  unfold clearValid at h
  split at h
  · cases h
  rename_i s hs
  split at h
  · rename_i ip sa v hd
    cases h
    refine ⟨s.yCoord, ip, sa, v, ?_, rfl⟩
    rw [hs]
    cases s
    simp only at hd
    rw [hd]
  · cases h

end SqueezeEffect

section C22
variable {F : Type} [LinearOrderedField F]

omit [LinearOrderedField F] in
/-- The memory after the allocation, push and recording of a new circle event. -/
theorem newSqueezeEvent_spec (m : Mem F) (arc : Nat) (it : BeachlineItem F) (a : Arc F)
    (V : Vector2 F) (c : F) (hit : deref m.items arc = some it) :
    (newSqueezeEvent m arc it a V c).queue = m.queue ++ [m.events.length] ∧
    (newSqueezeEvent m arc it a V c).events.length = m.events.length + 1 ∧
    deref (newSqueezeEvent m arc it a V c).events m.events.length
      = some ⟨c, EventData.edgeIntersect V arc true⟩ ∧
    (∀ e, e < m.events.length →
      deref (newSqueezeEvent m arc it a V c).events e = deref m.events e) ∧
    deref (newSqueezeEvent m arc it a V c).items arc
      = some { it with data := ItemData.arc { a with squeezeEvent := some m.events.length } } ∧
    (∀ b, b ≠ arc → deref (newSqueezeEvent m arc it a V c).items b = deref m.items b) ∧
    (newSqueezeEvent m arc it a V c).items.length = m.items.length ∧
    (newSqueezeEvent m arc it a V c).pops = m.pops := by
  have hlt := deref_lt_length hit
  refine ⟨rfl, by simp [newSqueezeEvent, alloc], ?_, ?_, ?_, ?_, by simp [newSqueezeEvent, store],
    rfl⟩
  · simp [newSqueezeEvent, deref_alloc]
  · intro e he
    simp only [newSqueezeEvent]
    exact deref_alloc_lt _ _ _ he
  · simp only [newSqueezeEvent]
    exact deref_store_same _ _ _ hlt
  · intro b hb
    simp only [newSqueezeEvent]
    exact deref_store_ne _ _ _ _ (Ne.symm hb)

/-- C22. `AddArcSqueezeEvent` returns the memory unchanged when the arc lacks a left or a right
bounding edge, and when its two bounding edges have no ray intersection.  A call that returns
either leaves the memory unchanged or pushes exactly one event: a freshly allocated
`EdgeIntersection` event with `isValid = true` and `squeezedArc = arc`, whose
`intersectionPoint` is the ray intersection `V` of the two bounding edges and whose `yCoord` is
`V.y - sqrt(|focus - V|^2)`; the event is recorded in the arc. -/
theorem C22_AddArcSqueezeEvent_pushes_circle_event (env : Env F) (m : Mem F) (arc : Nat) :
    (∀ l r, GetFirstParentOnTheLeft m.items arc = some l →
      GetFirstParentOnTheRight m.items arc = some r → (l = none ∨ r = none) →
      AddArcSqueezeEvent env m arc = some m) ∧
    (∀ L R le re, GetFirstParentOnTheLeft m.items arc = some (some L) →
      GetFirstParentOnTheRight m.items arc = some (some R) →
      derefEdge m.items L = some le → derefEdge m.items R = some re →
      TryGetEdgeIntersectionPoint le re = RayHit.miss →
      AddArcSqueezeEvent env m arc = some m) ∧
    (∀ m1, AddArcSqueezeEvent env m arc = some m1 →
      m1 = m ∨
      ∃ L R le re V a, GetFirstParentOnTheLeft m.items arc = some (some L) ∧
        GetFirstParentOnTheRight m.items arc = some (some R) ∧
        derefEdge m.items L = some le ∧ derefEdge m.items R = some re ∧
        TryGetEdgeIntersectionPoint le re = RayHit.hit V ∧
        derefArc m.items arc = some a ∧
        m1.queue = m.queue ++ [m.events.length] ∧
        m1.events.length = m.events.length + 1 ∧
        deref m1.events m.events.length
          = some ⟨V.y - env.sqrt (distSq a.focus V), EventData.edgeIntersect V arc true⟩ ∧
        derefArc m1.items arc = some { a with squeezeEvent := some m.events.length }) := by
  refine ⟨?_, ?_, ?_⟩
  · intro l r hl hr hnone
    unfold AddArcSqueezeEvent
    rw [hl, hr]
    rcases hnone with rfl | rfl
    · rfl
    · cases l <;> rfl
  · intro L R le re hL hR hle hre hmiss
    unfold AddArcSqueezeEvent
    rw [hL, hR]
    simp only [squeezeCandidate_miss hle hre hmiss]
  · intro m1 h
    rcases AddArcSqueezeEvent_cases h with h1 | ⟨L, R, V, c, it, a, hL, hR, hc, hit, ha, hcase⟩
    · exact Or.inl h1
    · right
      obtain ⟨le, re, a2, hle, hre, hhit, ha2, hcy⟩ := squeezeCandidate_eq_some hc
      have haa : a2 = a := by
        unfold derefArc at ha2
        rw [hit] at ha2
        simp only [ha, ItemData.arc?, Option.some.injEq] at ha2
        exact ha2.symm
      subst haa
      refine ⟨L, R, le, re, V, a2, hL, hR, hle, hre, hhit, ha2, ?_⟩
      rcases hcase with ⟨-, rfl⟩ | ⟨se, s, ev1, -, hs, -, hev1, rfl⟩
      · obtain ⟨h1, h2, h3, -, h5, -⟩ := newSqueezeEvent_spec m arc it a2 V c hit
        refine ⟨h1, h2, hcy ▸ h3, ?_⟩
        unfold derefArc
        rw [h5]
        rfl
      · obtain ⟨y, ip, sa, v, hse, rfl⟩ := clearValid_eq_some hev1
        have hlen : (store m.events se (⟨y, EventData.edgeIntersect ip sa false⟩ : SweepEvent F)).length
            = m.events.length := by simp [store]
        obtain ⟨h1, h2, h3, -, h5, -⟩ := newSqueezeEvent_spec
          { m with events := store m.events se ⟨y, EventData.edgeIntersect ip sa false⟩ }
          arc it a2 V c hit
        simp only [hlen] at h1 h2 h3 h5
        refine ⟨h1, h2, hcy ▸ h3, ?_⟩
        unfold derefArc
        rw [h5]
        rfl

/-- C23. In `AddArcSqueezeEvent`, once a candidate event `(V, c)` is computed for an arc: when
the arc has no pending event the candidate is allocated, pushed and recorded in the arc; when
the pending event `e` has `yCoord >= c` the memory is returned unchanged; when it has
`yCoord < c` the `isValid` flag of `e` is cleared, its other fields and its place in the queue
are kept, no other event changes, and the candidate is allocated, pushed and recorded in the
arc. -/
theorem C23_pending_event_comparison (env : Env F) (m : Mem F) (arc L R : Nat) (V : Vector2 F)
    (c : F) (it : BeachlineItem F) (a : Arc F)
    (hL : GetFirstParentOnTheLeft m.items arc = some (some L))
    (hR : GetFirstParentOnTheRight m.items arc = some (some R))
    (hcand : squeezeCandidate env m.items arc L R = some (some (V, c)))
    (hit : deref m.items arc = some it) (ha : it.data = ItemData.arc a) :
    (a.squeezeEvent = none →
      ∃ m1, AddArcSqueezeEvent env m arc = some m1 ∧
        m1.queue = m.queue ++ [m.events.length] ∧
        deref m1.events m.events.length = some ⟨c, EventData.edgeIntersect V arc true⟩ ∧
        derefArc m1.items arc = some { a with squeezeEvent := some m.events.length } ∧
        ∀ e2, e2 < m.events.length → deref m1.events e2 = deref m.events e2) ∧
    (∀ e s, a.squeezeEvent = some e → deref m.events e = some s → c ≤ s.yCoord →
      AddArcSqueezeEvent env m arc = some m) ∧
    (∀ e y ip sa v, a.squeezeEvent = some e →
      deref m.events e = some ⟨y, EventData.edgeIntersect ip sa v⟩ → y < c →
      ∃ m1, AddArcSqueezeEvent env m arc = some m1 ∧
        m1.queue = m.queue ++ [m.events.length] ∧
        deref m1.events e = some ⟨y, EventData.edgeIntersect ip sa false⟩ ∧
        deref m1.events m.events.length = some ⟨c, EventData.edgeIntersect V arc true⟩ ∧
        derefArc m1.items arc = some { a with squeezeEvent := some m.events.length } ∧
        ∀ e2, e2 ≠ e → e2 < m.events.length → deref m1.events e2 = deref m.events e2) := by
  have harc : it.data.arc? = some a := by rw [ha]; rfl
  refine ⟨?_, ?_, ?_⟩
  · intro hnone
    obtain ⟨h1, -, h3, h4, h5, -⟩ := newSqueezeEvent_spec m arc it a V c hit
    refine ⟨newSqueezeEvent m arc it a V c, ?_, h1, h3, ?_, h4⟩
    · unfold AddArcSqueezeEvent
      rw [hL, hR]
      simp only [hcand]
      unfold registerSqueezeEvent
      simp only [hit, harc, hnone]
    · unfold derefArc
      rw [h5]
      rfl
  · intro e s he hs hle
    unfold AddArcSqueezeEvent
    rw [hL, hR]
    simp only [hcand]
    unfold registerSqueezeEvent
    simp only [hit, harc, he, hs, hle, if_true]
  · intro e y ip sa v he hs hlt
    have helt := deref_lt_length hs
    have hlen : (store m.events e (⟨y, EventData.edgeIntersect ip sa false⟩ : SweepEvent F)).length
        = m.events.length := by simp [store]
    obtain ⟨h1, -, h3, h4, h5, -⟩ := newSqueezeEvent_spec
      { m with events := store m.events e ⟨y, EventData.edgeIntersect ip sa false⟩ }
      arc it a V c hit
    simp only [hlen] at h1 h3 h4 h5
    refine ⟨_, ?_, h1, ?_, h3, ?_, ?_⟩
    · unfold AddArcSqueezeEvent
      rw [hL, hR]
      simp only [hcand]
      unfold registerSqueezeEvent
      simp only [hit, harc, he, hs, not_le.mpr hlt, if_false, clearValid]
    · rw [h4 e helt]
      exact deref_store_same _ _ _ helt
    · unfold derefArc
      rw [h5]
      rfl
    · intro e2 hne h2
      rw [h4 e2 h2]
      exact deref_store_ne _ _ _ _ (Ne.symm hne)

end C22

section C23Witness
set_option maxRecDepth 100000

/-- Witness of C23: in the run on `levelSites`, after the third site is inserted, the arc at
address 4 has the pending event 3 with `yCoord = -25`; the candidate computed from its bounding
edges 7 and 2 is the point (0,0) with `c = -25`, and the call changes nothing. -/
theorem C23_witness :
    (GetFirstParentOnTheLeft levelMem.items 4 = some (some 7) ∧
      GetFirstParentOnTheRight levelMem.items 4 = some (some 2) ∧
      squeezeCandidate envQ0 levelMem.items 4 7 2 = some (some (⟨0, 0⟩, -25)) ∧
      deref levelMem.items 4
        = some ⟨ItemData.arc ⟨⟨-7, 24⟩, some 3⟩, some 7, none, none⟩ ∧
      deref levelMem.events 3 = some ⟨-25, EventData.edgeIntersect ⟨0, 0⟩ 4 true⟩) ∧
    AddArcSqueezeEvent envQ0 levelMem 4 = some levelMem :=
  ⟨⟨by decide!, by decide!, by decide!, by decide!, by decide!⟩,
   (C23_pending_event_comparison envQ0 levelMem 4 7 2 ⟨0, 0⟩ (-25)
      ⟨ItemData.arc ⟨⟨-7, 24⟩, some 3⟩, some 7, none, none⟩ ⟨⟨-7, 24⟩, some 3⟩
      (by decide!) (by decide!) (by decide!) (by decide!) rfl).2.1 3
      ⟨-25, EventData.edgeIntersect ⟨0, 0⟩ 4 true⟩ rfl (by decide!) (le_refl _)⟩

end C23Witness

section SqueezeLeaf
variable {F : Type} [LinearOrderedField F]

/-- A call of `AddArcSqueezeEvent` for a leaf of the tree that returns: either nothing changes,
or a new valid event for the arc is allocated at the end of the event arena, pushed and
recorded in the leaf, the event previously recorded in the leaf (if any) is invalidated, and
nothing else changes. -/
theorem AddArcSqueezeEvent_on_leaf {env : Env F} {m m1 : Mem F} {t : Tree F} {arc : Nat}
    {a : Arc F} (hrepr : Repr m.items none t) (hnd : t.addrs.Nodup) (hl : (arc, a) ∈ t.leaves)
    (h : AddArcSqueezeEvent env m arc = some m1) :
    m1 = m ∨
    ∃ L R V c, GetFirstParentOnTheLeft m.items arc = some (some L) ∧
      GetFirstParentOnTheRight m.items arc = some (some R) ∧
      squeezeCandidate env m.items arc L R = some (some (V, c)) ∧
      Repr m1.items none
        (t.replaceLeaf arc (Tree.leaf arc { a with squeezeEvent := some m.events.length })) ∧
      m1.items.length = m.items.length ∧
      (∀ b, b ≠ arc → deref m1.items b = deref m.items b) ∧
      m1.queue = m.queue ++ [m.events.length] ∧ m1.pops = m.pops ∧
      m1.events.length = m.events.length + 1 ∧
      deref m1.events m.events.length = some ⟨c, EventData.edgeIntersect V arc true⟩ ∧
      ((a.squeezeEvent = none ∧ ∀ e, e < m.events.length → deref m1.events e = deref m.events e) ∨
       ∃ se y ip sa v, a.squeezeEvent = some se ∧
         deref m.events se = some ⟨y, EventData.edgeIntersect ip sa v⟩ ∧ y < c ∧
         deref m1.events se = some ⟨y, EventData.edgeIntersect ip sa false⟩ ∧
         ∀ e, e ≠ se → e < m.events.length → deref m1.events e = deref m.events e) := by
  rcases AddArcSqueezeEvent_cases h with h1 | ⟨L, R, V, c, it, a2, hL, hR, hc, hit, ha, hcase⟩
  · exact Or.inl h1
  right
  obtain ⟨q, hrec, -⟩ := Repr_leaf_parent hrepr hnd hl
  rw [hit] at hrec
  have hit2 := Option.some.inj hrec
  have haa : a2 = a := by
    rw [hit2] at ha
    simp only [ItemData.arc.injEq] at ha
    exact ha.symm
  subst haa
  have hstore := Repr_store_leaf hrepr hnd hl hit { a2 with squeezeEvent := some m.events.length }
  refine ⟨L, R, V, c, hL, hR, hc, ?_⟩
  rcases hcase with ⟨hnone, rfl⟩ | ⟨se, s, ev1, hse, hs, hlt, hev1, rfl⟩
  · obtain ⟨h1, h2, h3, h4, -, h6, h7, h8⟩ := newSqueezeEvent_spec m arc it a2 V c hit
    exact ⟨hstore, h7, h6, h1, h8, h2, h3, Or.inl ⟨hnone, h4⟩⟩
  · obtain ⟨y, ip, sa, v, hse2, rfl⟩ := clearValid_eq_some hev1
    have helt := deref_lt_length hs
    have hlen : (store m.events se (⟨y, EventData.edgeIntersect ip sa false⟩ : SweepEvent F)).length
        = m.events.length := by simp [store]
    obtain ⟨h1, h2, h3, h4, -, h6, h7, h8⟩ := newSqueezeEvent_spec
      { m with events := store m.events se ⟨y, EventData.edgeIntersect ip sa false⟩ }
      arc it a2 V c hit
    simp only [hlen] at h1 h2 h3 h4
    rw [hs] at hse2
    have hsy : s = ⟨y, EventData.edgeIntersect ip sa v⟩ := Option.some.inj hse2
    subst hsy
    refine ⟨?_, h7, h6, h1, h8, h2, h3, Or.inr ⟨se, y, ip, sa, v, hse, hs, hlt, ?_, ?_⟩⟩
    · simp only [newSqueezeEvent, hlen]
      exact hstore
    · rw [h4 se helt]
      exact deref_store_same _ _ _ helt
    · intro e hne he
      rw [h4 e he]
      exact deref_store_ne _ _ _ _ (Ne.symm hne)

end SqueezeLeaf

section TreeSurgery
variable {F : Type}

theorem Tree.subAt_addr {x : Nat} {t s : Tree F} (h : t.subAt x = some s) : s.addr = x := by
  induction t with
  | leaf a arc =>
    simp only [Tree.subAt] at h
    split_ifs at h with hx
    cases h
    exact hx
  | node a e l r ihl ihr =>
    simp only [Tree.subAt] at h
    split_ifs at h with hx
    · cases h
      exact hx
    · cases hl : l.subAt x with
      | some s1 =>
        rw [hl] at h
        cases h
        exact ihl hl
      | none =>
        rw [hl] at h
        exact ihr h

theorem Tree.subAt_mem {x : Nat} {t s : Tree F} (h : t.subAt x = some s) :
    ∀ b ∈ s.addrs, b ∈ t.addrs := by
  induction t with
  | leaf a arc =>
    simp only [Tree.subAt] at h
    split_ifs at h with hx
    cases h
    exact fun b hb => hb
  | node a e l r ihl ihr =>
    simp only [Tree.subAt] at h
    split_ifs at h with hx
    · cases h
      exact fun b hb => hb
    · intro b hb
      simp only [Tree.addrs, List.mem_cons, List.mem_append]
      cases hl : l.subAt x with
      | some s1 =>
        rw [hl] at h
        cases h
        exact Or.inr (Or.inl (ihl hl b hb))
      | none =>
        rw [hl] at h
        exact Or.inr (Or.inr (ihr h b hb))

theorem Tree.subAt_eq_none {x : Nat} {t : Tree F} (hx : x ∉ t.addrs) : t.subAt x = none := by
  induction t with
  | leaf a arc =>
    simp only [Tree.addrs, List.mem_singleton] at hx
    simp [Tree.subAt, Ne.symm hx]
  | node a e l r ihl ihr =>
    simp only [Tree.addrs, List.mem_cons, List.mem_append, not_or] at hx
    simp [Tree.subAt, Ne.symm hx.1, ihl hx.2.1, ihr hx.2.2]

theorem Tree.subAt_isSome {x : Nat} {t : Tree F} (hx : x ∈ t.addrs) :
    ∃ s, t.subAt x = some s := by
  induction t with
  | leaf a arc =>
    simp only [Tree.addrs, List.mem_singleton] at hx
    exact ⟨Tree.leaf a arc, by simp [Tree.subAt, hx]⟩
  | node a e l r ihl ihr =>
    simp only [Tree.addrs, List.mem_cons, List.mem_append] at hx
    by_cases ha : a = x
    · exact ⟨Tree.node a e l r, by simp [Tree.subAt, ha]⟩
    · cases hl : l.subAt x with
      | some s1 => exact ⟨s1, by simp [Tree.subAt, ha, hl]⟩
      | none =>
        rcases hx with hx | hx | hx
        · exact absurd hx.symm ha
        · obtain ⟨s, hs⟩ := ihl hx
          rw [hs] at hl
          cases hl
        · obtain ⟨s, hs⟩ := ihr hx
          exact ⟨s, by simp [Tree.subAt, ha, hl, hs]⟩

theorem Tree.subAt_root_mem {x : Nat} {t s : Tree F} (h : t.subAt x = some s) : x ∈ t.addrs := by
  have h1 := Tree.subAt_mem h s.addr s.addr_mem_addrs
  rwa [Tree.subAt_addr h] at h1

theorem Tree.subAt_nodup {x : Nat} {t s : Tree F} (h : t.subAt x = some s)
    (hnd : t.addrs.Nodup) : s.addrs.Nodup := by
  induction t with
  | leaf a arc =>
    simp only [Tree.subAt] at h
    split_ifs at h with hx
    cases h
    exact hnd
  | node a e l r ihl ihr =>
    simp only [Tree.subAt] at h
    split_ifs at h with hx
    · cases h
      exact hnd
    · simp only [Tree.addrs, List.nodup_cons] at hnd
      have h2 := List.nodup_append.mp hnd.2
      cases hl : l.subAt x with
      | some s1 =>
        rw [hl] at h
        cases h
        exact ihl hl h2.1
      | none =>
        rw [hl] at h
        exact ihr h h2.2.1

theorem Tree.replaceAt_of_not_mem (t : Tree F) (x : Nat) (sub : Tree F) (h : x ∉ t.addrs) :
    t.replaceAt x sub = t := by
  induction t with
  | leaf a arc =>
    simp only [Tree.addrs, List.mem_singleton] at h
    simp [Tree.replaceAt, Ne.symm h]
  | node a e l r ihl ihr =>
    simp only [Tree.addrs, List.mem_cons, List.mem_append, not_or] at h
    simp [Tree.replaceAt, Ne.symm h.1, ihl h.2.1, ihr h.2.2]

theorem Tree.replaceAt_addr (t : Tree F) (x : Nat) (sub : Tree F) :
    (t.replaceAt x sub).addr = if t.addr = x then sub.addr else t.addr := by
  cases t with
  | leaf a arc =>
    simp only [Tree.replaceAt, Tree.addr]
    split_ifs <;> rfl
  | node a e l r =>
    simp only [Tree.replaceAt, Tree.addr]
    split_ifs <;> rfl

/-- The in-order sequence of a tree around one of its subtrees, and after that subtree is
replaced. -/
theorem Tree.inorder_replaceAt (t : Tree F) (hnd : t.addrs.Nodup) {x : Nat} {s : Tree F}
    (h : t.subAt x = some s) :
    ∃ pre post, t.inorder = pre ++ s.inorder ++ post ∧
      ∀ sub, (t.replaceAt x sub).inorder = pre ++ sub.inorder ++ post := by
  induction t with
  | leaf a arc =>
    simp only [Tree.subAt] at h
    split_ifs at h with hx
    cases h
    exact ⟨[], [], by simp, fun sub => by simp [Tree.replaceAt, hx]⟩
  | node a e l r ihl ihr =>
    simp only [Tree.subAt] at h
    split_ifs at h with hx
    · cases h
      exact ⟨[], [], by simp, fun sub => by simp [Tree.replaceAt, hx]⟩
    · simp only [Tree.addrs, List.nodup_cons] at hnd
      have h2 := List.nodup_append.mp hnd.2
      cases hl : l.subAt x with
      | some s1 =>
        rw [hl] at h
        cases h
        obtain ⟨pre, post, h1, h3⟩ := ihl h2.1 hl
        have hxr : x ∉ r.addrs := fun hh => h2.2.2 (Tree.subAt_root_mem hl) hh
        refine ⟨pre, post ++ (a, ItemData.edge e) :: r.inorder, ?_, fun sub => ?_⟩
        · simp [Tree.inorder, h1]
        · simp [Tree.replaceAt, hx, Tree.inorder, h3 sub, Tree.replaceAt_of_not_mem r x sub hxr]
      | none =>
        rw [hl] at h
        obtain ⟨pre, post, h1, h3⟩ := ihr h2.2.1 h
        have hxl : x ∉ l.addrs := fun hh => by
          obtain ⟨s2, hs2⟩ := Tree.subAt_isSome hh
          rw [hs2] at hl
          cases hl
        refine ⟨l.inorder ++ (a, ItemData.edge e) :: pre, post, ?_, fun sub => ?_⟩
        · simp [Tree.inorder, h1]
        · simp [Tree.replaceAt, hx, Tree.inorder, h3 sub, Tree.replaceAt_of_not_mem l x sub hxl]

theorem Tree.inorder_perm (t : Tree F) : (t.inorder.map Prod.fst).Perm t.addrs := by
  induction t with
  | leaf a arc => simp [Tree.inorder, Tree.addrs]
  | node a e l r ihl ihr =>
    simp only [Tree.inorder, Tree.addrs, List.map_append, List.map_cons]
    refine (List.perm_middle).trans ?_
    exact List.Perm.cons _ (List.Perm.append ihl ihr)

theorem Tree.inorder_head (t : Tree F) :
    ∃ d rest, t.inorder = (t.leftmost, d) :: rest := by
  induction t with
  | leaf a arc => exact ⟨_, [], rfl⟩
  | node a e l r ihl ihr =>
    obtain ⟨d, rest, h⟩ := ihl
    exact ⟨d, rest ++ (a, ItemData.edge e) :: r.inorder, by simp [Tree.inorder, h, Tree.leftmost]⟩

theorem Tree.inorder_last (t : Tree F) :
    ∃ d init, t.inorder = init ++ [(t.rightmost, d)] := by
  induction t with
  | leaf a arc => exact ⟨_, [], rfl⟩
  | node a e l r ihl ihr =>
    obtain ⟨d, init, h⟩ := ihr
    exact ⟨d, l.inorder ++ (a, ItemData.edge e) :: init,
      by simp [Tree.inorder, h, Tree.rightmost]⟩

/-- The leaves of a tree are the arcs of its in-order sequence. -/
theorem Tree.leaves_eq_inorder (t : Tree F) :
    t.leaves = t.inorder.filterMap (fun x => x.2.arc?.map (fun a => (x.1, a))) := by
  induction t with
  | leaf a arc => simp [Tree.leaves, Tree.inorder, ItemData.arc?]
  | node a e l r ihl ihr =>
    simp [Tree.leaves, Tree.inorder, ItemData.arc?, List.filterMap_append, ihl, ihr]

/-- A subtree of a tree held by the arena is held by the arena. -/
theorem Repr_subAt {items : Items F} {p : Option Nat} {t s : Tree F} {x : Nat}
    (h : Repr items p t) (hs : t.subAt x = some s) : ∃ q, Repr items q s := by
  induction t generalizing p with
  | leaf a arc =>
    simp only [Tree.subAt] at hs
    split_ifs at hs with hx
    cases hs
    exact ⟨p, h⟩
  | node a e l r ihl ihr =>
    simp only [Tree.subAt] at hs
    split_ifs at hs with hx
    · cases hs
      exact ⟨p, h⟩
    · cases hl : l.subAt x with
      | some s1 =>
        rw [hl] at hs
        cases hs
        exact ihl h.2.1 hl
      | none =>
        rw [hl] at hs
        exact ihr h.2.2 hs

end TreeSurgery

section ReplaceAt
variable {F : Type}

/-- A tree stays held by the arena when only the parent pointer of its root is rewritten. -/
theorem Repr_reparent {items items1 : Items F} {p p1 : Option Nat} {t : Tree F}
    (h : Repr items p t) (hnd : t.addrs.Nodup)
    (hroot : ∀ rec, deref items t.addr = some rec →
      deref items1 t.addr = some { rec with parent := p1 })
    (hsame : ∀ b, b ∈ t.addrs → b ≠ t.addr → deref items1 b = deref items b) :
    Repr items1 p1 t := by
  cases t with
  | leaf a arc =>
    simp only [Repr] at h ⊢
    exact hroot _ h
  | node a e l r =>
    simp only [Tree.addrs, List.nodup_cons, List.mem_append, not_or] at hnd
    simp only [Repr] at h ⊢
    refine ⟨hroot _ h.1, ?_, ?_⟩
    · apply Repr_congr _ h.2.1
      intro b hb
      exact hsame b (by simp [Tree.addrs, hb]) (fun hh => hnd.1.1 (by
        have hh2 : b = a := hh
        rw [← hh2]; exact hb))
    · apply Repr_congr _ h.2.2
      intro b hb
      exact hsame b (by simp [Tree.addrs, hb]) (fun hh => hnd.1.2 (by
        have hh2 : b = a := hh
        rw [← hh2]; exact hb))

/-- Replacing a subtree, in the arena and in the shape.  The arena `items1` holds `sub` below
the parent pointer `q` of the root `x` of the replaced subtree `s`, redirects the child pointer
of that parent, and agrees with `items` on the records of the tree outside `s`. -/
theorem Repr_replaceAt {items items1 : Items F} {x : Nat} {q : Option Nat} {s sub : Tree F}
    (hxq : ∃ rec, deref items x = some rec ∧ rec.parent = q)
    (hsub : Repr items1 q sub)
    (hpar : ∀ pa rec, q = some pa → deref items pa = some rec →
      deref items1 pa = some (swapChild x sub.addr rec))
    (t : Tree F) (p : Option Nat) (h : Repr items p t) (hnd : t.addrs.Nodup)
    (hs : t.subAt x = some s)
    (hsame : ∀ b, b ∈ t.addrs → b ∉ s.addrs → some b ≠ q → deref items1 b = deref items b) :
    Repr items1 p (t.replaceAt x sub) := by
  obtain ⟨xrec, hxrec, hxp⟩ := hxq
  induction t generalizing p with
  | leaf a arc =>
    simp only [Tree.subAt] at hs
    split_ifs at hs with hx
    cases hs
    simp only [Repr] at h
    subst hx
    rw [h] at hxrec
    cases hxrec
    simp only at hxp
    subst hxp
    simpa [Tree.replaceAt] using hsub
  | node a e l r ihl ihr =>
    by_cases hx : a = x
    · subst hx
      simp only [Repr] at h
      rw [h.1] at hxrec
      cases hxrec
      simp only at hxp
      subst hxp
      simpa [Tree.replaceAt] using hsub
    have hnd0 := hnd
    simp only [Tree.addrs, List.nodup_cons, List.mem_append, not_or] at hnd
    obtain ⟨⟨hal, har⟩, hnd2⟩ := hnd
    have hndl := (List.nodup_append.mp hnd2).1
    have hndr := (List.nodup_append.mp hnd2).2.1
    have hdisj : ∀ b, b ∈ l.addrs → b ∈ r.addrs → False := fun b h1 h2 =>
      (List.nodup_append.mp hnd2).2.2 h1 h2
    simp only [Tree.subAt, if_neg hx] at hs
    -- `s` lies in one of the two subtrees, hence not at `a`
    have has : a ∉ s.addrs := by
      intro hh
      cases hl : l.subAt x with
      | some s1 =>
        rw [hl] at hs
        cases hs
        exact hal (Tree.subAt_mem hl a hh)
      | none =>
        rw [hl] at hs
        exact har (Tree.subAt_mem hs a hh)
    -- a subtree that does not contain `x` is untouched
    have huntouched : ∀ (u : Tree F) (pu : Option Nat), Repr items pu u → x ∉ u.addrs →
        (∀ b, b ∈ u.addrs → b ∈ (Tree.node a e l r).addrs ∧ b ∉ s.addrs) →
        Repr items1 pu u := by
      intro u pu hu hnu hin
      apply Repr_congr _ hu
      intro b hb
      by_cases hq : some b = q
      · obtain ⟨rec, hrec⟩ := Repr_deref_isSome hu hb
        rw [hpar b rec hq.symm hrec, hrec]
        have h1 : rec.left ≠ some x := fun hh =>
          hnu (Repr_children_mem hu hb hrec (Or.inl hh))
        have h2 : rec.right ≠ some x := fun hh =>
          hnu (Repr_children_mem hu hb hrec (Or.inr hh))
        simp [swapChild, h1, h2]
      · exact hsame b (hin b hb).1 (hin b hb).2 hq
    -- the record of the node itself
    have hnode : ∀ (l1 r1 : Nat),
        l1 = (if l.addr = x then sub.addr else l.addr) →
        r1 = (if r.addr = x then sub.addr else r.addr) →
        deref items1 a = some { data := ItemData.edge e, parent := p,
                                left := some l1, right := some r1 } := by
      intro l1 r1 hl1 hr1
      by_cases hq : some a = q
      · rw [hpar a _ hq.symm h.1]
        simp only [swapChild, Option.some.injEq]
        rw [hl1, hr1]
        congr 2
        · split_ifs <;> rfl
        · split_ifs <;> rfl
      · rw [hsame a (by simp [Tree.addrs]) has hq, h.1]
        have h1 : l.addr ≠ x := by
          intro hh
          obtain ⟨it, hit, hp⟩ := Repr_root h.2.1
          rw [hh, hxrec] at hit
          cases hit
          exact hq (by rw [← hxp, hp])
        have h2 : r.addr ≠ x := by
          intro hh
          obtain ⟨it, hit, hp⟩ := Repr_root h.2.2
          rw [hh, hxrec] at hit
          cases hit
          exact hq (by rw [← hxp, hp])
        rw [hl1, hr1, if_neg h1, if_neg h2]
    cases hl : l.subAt x with
    | some s1 =>
      rw [hl] at hs
      cases hs
      have hxl : x ∈ l.addrs := Tree.subAt_root_mem hl
      have hnr : x ∉ r.addrs := fun hh => hdisj x hxl hh
      simp only [Tree.replaceAt, if_neg hx, Repr]
      rw [Tree.replaceAt_of_not_mem r x sub hnr]
      refine ⟨hnode _ _ (Tree.replaceAt_addr l x sub) ?_, ?_, ?_⟩
      · rw [if_neg (fun hh : r.addr = x => hnr (hh ▸ r.addr_mem_addrs))]
      · exact ihl (some a) h.2.1 hndl hl
          (fun b hb hbs hbq => hsame b (by simp [Tree.addrs, hb]) hbs hbq)
      · exact huntouched r (some a) h.2.2 hnr
          (fun b hb => ⟨by simp [Tree.addrs, hb],
            fun hh => hdisj b (Tree.subAt_mem hl b hh) hb⟩)
    | none =>
      rw [hl] at hs
      have hxr : x ∈ r.addrs := Tree.subAt_root_mem hs
      have hnl : x ∉ l.addrs := fun hh => hdisj x hh hxr
      simp only [Tree.replaceAt, if_neg hx, Repr]
      rw [Tree.replaceAt_of_not_mem l x sub hnl]
      refine ⟨hnode _ _ ?_ (Tree.replaceAt_addr r x sub), ?_, ?_⟩
      · rw [if_neg (fun hh : l.addr = x => hnl (hh ▸ l.addr_mem_addrs))]
      · exact huntouched l (some a) h.2.1 hnl
          (fun b hb => ⟨by simp [Tree.addrs, hb],
            fun hh => hdisj b hb (Tree.subAt_mem hs b hh)⟩)
      · exact ihr (some a) h.2.2 hndr hs
          (fun b hb hbs hbq => hsame b (by simp [Tree.addrs, hb]) hbs hbq)

end ReplaceAt

section Bounding
variable {F : Type}

theorem Tree.subAt_left {a b : Nat} {e : Edge F} {l r s : Tree F} (h : l.subAt b = some s)
    (ha : a ∉ l.addrs) : (Tree.node a e l r).subAt b = some s := by
  have hb := Tree.subAt_root_mem h
  have hne : a ≠ b := fun hh => ha (hh ▸ hb)
  simp [Tree.subAt, hne, h]

theorem Tree.subAt_right {a b : Nat} {e : Edge F} {l r s : Tree F} (h : r.subAt b = some s)
    (ha : a ∉ r.addrs) (hl : b ∉ l.addrs) : (Tree.node a e l r).subAt b = some s := by
  have hb := Tree.subAt_root_mem h
  have hne : a ≠ b := fun hh => ha (hh ▸ hb)
  simp [Tree.subAt, hne, h, Tree.subAt_eq_none hl]

theorem Tree.leftmost_mem_leaves (t : Tree F) : ∃ arc, (t.leftmost, arc) ∈ t.leaves := by
  induction t with
  | leaf a arc => exact ⟨arc, by simp [Tree.leftmost, Tree.leaves]⟩
  | node a e l r ihl ihr =>
    obtain ⟨arc, h⟩ := ihl
    exact ⟨arc, by simp [Tree.leftmost, Tree.leaves, h]⟩

theorem Tree.rightmost_mem_leaves (t : Tree F) : ∃ arc, (t.rightmost, arc) ∈ t.leaves := by
  induction t with
  | leaf a arc => exact ⟨arc, by simp [Tree.rightmost, Tree.leaves]⟩
  | node a e l r ihl ihr =>
    obtain ⟨arc, h⟩ := ihr
    exact ⟨arc, by simp [Tree.rightmost, Tree.leaves, h]⟩

/-- A leaf that is not the leftmost one is the leftmost leaf of the right subtree of a node. -/
theorem Tree.exists_left_edge (t : Tree F) (hnd : t.addrs.Nodup) {sa : Nat} {arc : Arc F}
    (hsa : (sa, arc) ∈ t.leaves) (hne : sa ≠ t.leftmost) :
    ∃ b e l r, t.subAt b = some (Tree.node b e l r) ∧ r.leftmost = sa := by
  induction t with
  | leaf a arc1 =>
    simp only [Tree.leaves, List.mem_singleton, Prod.mk.injEq] at hsa
    exact absurd hsa.1 hne
  | node a e l r ihl ihr =>
    simp only [Tree.addrs, List.nodup_cons, List.mem_append, not_or] at hnd
    obtain ⟨⟨hal, har⟩, hnd2⟩ := hnd
    have h2 := List.nodup_append.mp hnd2
    simp only [Tree.leaves, List.mem_append] at hsa
    rcases hsa with hsa | hsa
    · obtain ⟨b, e1, l1, r1, hs, hlm⟩ := ihl h2.1 hsa hne
      exact ⟨b, e1, l1, r1, Tree.subAt_left hs hal, hlm⟩
    · by_cases hlm : sa = r.leftmost
      · exact ⟨a, e, l, r, by simp [Tree.subAt], hlm.symm⟩
      · obtain ⟨b, e1, l1, r1, hs, hlm1⟩ := ihr h2.2.1 hsa hlm
        have hb := Tree.subAt_root_mem hs
        exact ⟨b, e1, l1, r1, Tree.subAt_right hs har (fun hh => h2.2.2 hh hb), hlm1⟩

/-- A leaf that is not the rightmost one is the rightmost leaf of the left subtree of a
node. -/
theorem Tree.exists_right_edge (t : Tree F) (hnd : t.addrs.Nodup) {sa : Nat} {arc : Arc F}
    (hsa : (sa, arc) ∈ t.leaves) (hne : sa ≠ t.rightmost) :
    ∃ b e l r, t.subAt b = some (Tree.node b e l r) ∧ l.rightmost = sa := by
  induction t with
  | leaf a arc1 =>
    simp only [Tree.leaves, List.mem_singleton, Prod.mk.injEq] at hsa
    exact absurd hsa.1 hne
  | node a e l r ihl ihr =>
    simp only [Tree.addrs, List.nodup_cons, List.mem_append, not_or] at hnd
    obtain ⟨⟨hal, har⟩, hnd2⟩ := hnd
    have h2 := List.nodup_append.mp hnd2
    simp only [Tree.leaves, List.mem_append] at hsa
    rcases hsa with hsa | hsa
    · by_cases hrm : sa = l.rightmost
      · exact ⟨a, e, l, r, by simp [Tree.subAt], hrm.symm⟩
      · obtain ⟨b, e1, l1, r1, hs, hrm1⟩ := ihl h2.1 hsa hrm
        exact ⟨b, e1, l1, r1, Tree.subAt_left hs hal, hrm1⟩
    · obtain ⟨b, e1, l1, r1, hs, hrm⟩ := ihr h2.2.1 hsa hne
      have hb := Tree.subAt_root_mem hs
      exact ⟨b, e1, l1, r1, Tree.subAt_right hs har (fun hh => h2.2.2 hh hb), hrm⟩

/-- The leftmost leaf of the tree has no edge on its left. -/
theorem GetFirstParentOnTheLeft_leftmost {items : Items F} {t : Tree F}
    (h : Repr items none t) (hlen : t.height < items.length) :
    GetFirstParentOnTheLeft items t.leftmost = some none := by
  have hsp : t.lspine < items.length := by have := t.lspine_le_height; omega
  obtain ⟨rt, hrt, hrp⟩ := Repr_root h
  unfold GetFirstParentOnTheLeft
  obtain ⟨f, hf⟩ : ∃ f, items.length = (f + 1) + t.lspine :=
    ⟨items.length - t.lspine - 1, by omega⟩
  rw [hf, climbWhileLeftChild_spine t items none (f + 1) h]
  have hstop : climbWhileLeftChild items (f + 1) t.addr = some t.addr := by
    simp [climbWhileLeftChild, hrt, hrp]
  rw [hstop]
  simp [parentChecked, hrt, hrp]

/-- The rightmost leaf of the tree has no edge on its right. -/
theorem GetFirstParentOnTheRight_rightmost {items : Items F} {t : Tree F}
    (h : Repr items none t) (hlen : t.height < items.length) :
    GetFirstParentOnTheRight items t.rightmost = some none := by
  have hsp : t.rspine < items.length := by have := t.rspine_le_height; omega
  obtain ⟨rt, hrt, hrp⟩ := Repr_root h
  unfold GetFirstParentOnTheRight
  obtain ⟨f, hf⟩ : ∃ f, items.length = (f + 1) + t.rspine :=
    ⟨items.length - t.rspine - 1, by omega⟩
  rw [hf, climbWhileRightChild_spine t items none (f + 1) h]
  have hstop : climbWhileRightChild items (f + 1) t.addr = some t.addr := by
    simp [climbWhileRightChild, hrt, hrp]
  rw [hstop]
  simp [parentChecked, hrt, hrp]

/-- The neighbours of an edge node of a well-formed tree, and the edges on the sides of the
two arcs next to it. -/
theorem neighbours_of_node {items : Items F} {root : Nat} {t : Tree F}
    (hwf : WellFormed items root t) {b : Nat} {e : Edge F} {l r : Tree F}
    (hs : t.subAt b = some (Tree.node b e l r)) :
    GetFirstLeafOnTheLeft items b = some (some l.rightmost) ∧
    GetFirstParentOnTheRight items l.rightmost = some (some b) ∧
    GetFirstLeafOnTheRight items b = some (some r.leftmost) ∧
    GetFirstParentOnTheLeft items r.leftmost = some (some b) ∧
    derefEdge items b = some e := by
  obtain ⟨q, hq⟩ := Repr_subAt hwf.2.1 hs
  have hnd := Tree.subAt_nodup hs hwf.2.2
  have hlt : ∀ a ∈ (Tree.node b e l r).addrs, a < items.length := fun a ha =>
    Repr_lt_length hwf.2.1 a (Tree.subAt_mem hs a ha)
  have hh : (Tree.node b e l r).height < items.length :=
    lt_of_lt_of_le (Tree.height_lt_length_addrs _) (nodup_bounded_length _ _ hnd hlt)
  simp only [Tree.height] at hh
  have hne : l.addr ≠ r.addr := by
    simp only [Tree.addrs, List.nodup_cons] at hnd
    intro hh2
    exact (List.nodup_append.mp hnd.2).2.2 l.addr_mem_addrs (hh2 ▸ r.addr_mem_addrs)
  obtain ⟨h1, h2⟩ := neighbours_left hq hne (by omega)
  obtain ⟨h3, h4⟩ := neighbours_right hq hne (by omega)
  refine ⟨h1, h2, h3, h4, ?_⟩
  simp only [Repr] at hq
  simp [derefEdge, hq.1, ItemData.edge?]

/-- An arc of a well-formed tree with an edge on its left is not the leftmost leaf. -/
theorem ne_leftmost_of_left_edge {items : Items F} {root : Nat} {t : Tree F}
    (hwf : WellFormed items root t) {sa L : Nat}
    (hL : GetFirstParentOnTheLeft items sa = some (some L)) : sa ≠ t.leftmost := by
  intro hh
  rw [hh, GetFirstParentOnTheLeft_leftmost hwf.2.1 hwf.height_lt] at hL
  cases hL

/-- An arc of a well-formed tree with an edge on its right is not the rightmost leaf. -/
theorem ne_rightmost_of_right_edge {items : Items F} {root : Nat} {t : Tree F}
    (hwf : WellFormed items root t) {sa R : Nat}
    (hR : GetFirstParentOnTheRight items sa = some (some R)) : sa ≠ t.rightmost := by
  intro hh
  rw [hh, GetFirstParentOnTheRight_rightmost hwf.2.1 hwf.height_lt] at hR
  cases hR

end Bounding

section PointerSpecs
variable {F : Type}

/-- The records after `SetLeft`, when it returns and the two nodes differ. -/
theorem SetLeft_spec {items items1 : Items F} {self c : Nat}
    (h : SetLeft items self c = some items1) (hne : self ≠ c) :
    ∃ s rc, deref items self = some s ∧ s.isEdge = true ∧ deref items c = some rc ∧
      deref items1 self = some { s with left := some c } ∧
      deref items1 c = some { rc with parent := some self } ∧
      (∀ b, b ≠ self → b ≠ c → deref items1 b = deref items b) ∧
      items1.length = items.length := by
  unfold SetLeft at h
  cases hs : deref items self with
  | none => simp [hs] at h
  | some s =>
    simp only [hs, Option.bind_eq_bind, Option.some_bind] at h
    split_ifs at h with he
    have hslt := deref_lt_length hs
    rw [deref_store_ne _ _ _ _ hne] at h
    cases hc : deref items c with
    | none => simp [hc] at h
    | some rc =>
      simp only [hc, Option.some_bind, Option.pure_def, Option.some.injEq] at h
      have hclt := deref_lt_length hc
      subst h
      refine ⟨s, rc, rfl, he, rfl, ?_, ?_, ?_, by simp [store]⟩
      · rw [deref_store_ne _ _ _ _ (Ne.symm hne)]
        exact deref_store_same _ _ _ hslt
      · exact deref_store_same _ _ _ (by simpa [store] using hclt)
      · intro b hb1 hb2
        rw [deref_store_ne _ _ _ _ (Ne.symm hb2), deref_store_ne _ _ _ _ (Ne.symm hb1)]

/-- The records after `SetRight`, when it returns and the two nodes differ. -/
theorem SetRight_spec {items items1 : Items F} {self c : Nat}
    (h : SetRight items self c = some items1) (hne : self ≠ c) :
    ∃ s rc, deref items self = some s ∧ s.isEdge = true ∧ deref items c = some rc ∧
      deref items1 self = some { s with right := some c } ∧
      deref items1 c = some { rc with parent := some self } ∧
      (∀ b, b ≠ self → b ≠ c → deref items1 b = deref items b) ∧
      items1.length = items.length := by
  unfold SetRight at h
  cases hs : deref items self with
  | none => simp [hs] at h
  | some s =>
    simp only [hs, Option.bind_eq_bind, Option.some_bind] at h
    split_ifs at h with he
    have hslt := deref_lt_length hs
    rw [deref_store_ne _ _ _ _ hne] at h
    cases hc : deref items c with
    | none => simp [hc] at h
    | some rc =>
      simp only [hc, Option.some_bind, Option.pure_def, Option.some.injEq] at h
      have hclt := deref_lt_length hc
      subst h
      refine ⟨s, rc, rfl, he, rfl, ?_, ?_, ?_, by simp [store]⟩
      · rw [deref_store_ne _ _ _ _ (Ne.symm hne)]
        exact deref_store_same _ _ _ hslt
      · exact deref_store_same _ _ _ (by simpa [store] using hclt)
      · intro b hb1 hb2
        rw [deref_store_ne _ _ _ _ (Ne.symm hb2), deref_store_ne _ _ _ _ (Ne.symm hb1)]

/-- The records after `SetParentFromItem`, when it returns: `self` gets the parent pointer of
`item`, and the child pointer of that parent is redirected from `item` to `self`.  The parent
has `item` as its left or as its right child, not as both. -/
theorem SetParentFromItem_spec {items items1 : Items F} {self item : Nat}
    {i s : BeachlineItem F}
    (h : SetParentFromItem items self item = some items1)
    (hi : deref items item = some i) (hs : deref items self = some s)
    (hne : i.parent ≠ some self)
    (hlr : ∀ g recg, i.parent = some g → deref items g = some recg →
      recg.left = some item → recg.right ≠ some item) :
    deref items1 self = some { s with parent := i.parent } ∧
    (∀ g recg, i.parent = some g → deref items g = some recg →
      deref items1 g = some (swapChild item self recg) ∧
      (recg.left = some item ∨ recg.right = some item)) ∧
    (∀ b, b ≠ self → some b ≠ i.parent → deref items1 b = deref items b) ∧
    items1.length = items.length := by
  unfold SetParentFromItem at h
  simp only [hi, Option.bind_eq_bind, Option.some_bind] at h
  cases hp : i.parent with
  | none =>
    simp only [hp, hs, Option.some_bind, Option.pure_def, Option.some.injEq] at h
    subst h
    have hslt := deref_lt_length hs
    refine ⟨deref_store_same _ _ _ hslt, ?_, ?_, by simp [store]⟩
    · intro g recg hg
      cases hg
    · intro b hb _
      exact deref_store_ne _ _ _ _ (Ne.symm hb)
  | some g =>
    have hgs : g ≠ self := fun hh => hne (by rw [hp, hh])
    simp only [hp] at h
    cases hg : deref items g with
    | none => simp [hg] at h
    | some recg =>
      simp only [hg, Option.some_bind] at h
      have hlr2 := hlr g recg hp hg
      split_ifs at h with h1 h2
      · obtain ⟨s1, rc1, hs1, -, hc1, hd1, hd2, hd3, hlen⟩ := SetLeft_spec h hgs
        rw [hg] at hs1
        cases hs1
        rw [hs] at hc1
        cases hc1
        refine ⟨hd2, ?_, ?_, hlen⟩
        · intro g2 recg2 hg2 hrec2
          cases hg2
          rw [hg] at hrec2
          cases hrec2
          refine ⟨?_, Or.inl h1⟩
          rw [hd1]
          simp [swapChild, h1, hlr2 h1]
        · intro b hb1 hb2
          exact hd3 b (fun hh => hb2 (by rw [hh])) hb1
      · obtain ⟨s1, rc1, hs1, -, hc1, hd1, hd2, hd3, hlen⟩ := SetRight_spec h hgs
        rw [hg] at hs1
        cases hs1
        rw [hs] at hc1
        cases hc1
        refine ⟨hd2, ?_, ?_, hlen⟩
        · intro g2 recg2 hg2 hrec2
          cases hg2
          rw [hg] at hrec2
          cases hrec2
          refine ⟨?_, Or.inr h2⟩
          rw [hd1]
          simp [swapChild, h1, h2]
        · intro b hb1 hb2
          exact hd3 b (fun hh => hb2 (by rw [hh])) hb1

end PointerSpecs

section Relabel
variable {F : Type}

/-- The parent pointer of a node of a tree held by the arena points to a node of the tree that
has it as a child. -/
theorem Repr_parent_mem {items : Items F} {p : Option Nat} {t : Tree F} (h : Repr items p t)
    {x g : Nat} {rec : BeachlineItem F} (hx : x ∈ t.addrs) (hrec : deref items x = some rec)
    (hg : rec.parent = some g) :
    (x = t.addr ∧ p = some g) ∨
    (g ∈ t.addrs ∧ ∃ recg, deref items g = some recg ∧
      (recg.left = some x ∨ recg.right = some x)) := by
  induction t generalizing p with
  | leaf a arc =>
    simp only [Tree.addrs, List.mem_singleton] at hx
    subst hx
    simp only [Repr] at h
    rw [h] at hrec
    cases hrec
    exact Or.inl ⟨rfl, hg⟩
  | node a e l r ihl ihr =>
    simp only [Tree.addrs, List.mem_cons, List.mem_append] at hx
    simp only [Repr] at h
    rcases hx with hx | hx | hx
    · subst hx
      rw [h.1] at hrec
      cases hrec
      exact Or.inl ⟨rfl, hg⟩
    · rcases ihl h.2.1 hx with ⟨h1, h2⟩ | ⟨h1, recg, h2, h3⟩
      · cases h2
        exact Or.inr ⟨by simp [Tree.addrs], _, h.1, Or.inl (by rw [h1])⟩
      · exact Or.inr ⟨by simp [Tree.addrs, h1], recg, h2, h3⟩
    · rcases ihr h.2.2 hx with ⟨h1, h2⟩ | ⟨h1, recg, h2, h3⟩
      · cases h2
        exact Or.inr ⟨by simp [Tree.addrs], _, h.1, Or.inr (by rw [h1])⟩
      · exact Or.inr ⟨by simp [Tree.addrs, h1], recg, h2, h3⟩

/-- The two child pointers of a node of a tree without repeated addresses differ. -/
theorem Repr_children_ne {items : Items F} {p : Option Nat} {t : Tree F} (h : Repr items p t)
    (hnd : t.addrs.Nodup) {g c : Nat} {recg : BeachlineItem F} (hg : g ∈ t.addrs)
    (hrec : deref items g = some recg) (hl : recg.left = some c) : recg.right ≠ some c := by
  obtain ⟨s, hs⟩ := Tree.subAt_isSome hg
  obtain ⟨q, hq⟩ := Repr_subAt h hs
  have hnds := Tree.subAt_nodup hs hnd
  have haddr := Tree.subAt_addr hs
  cases s with
  | leaf a arc =>
    simp only [Repr] at hq
    simp only [Tree.addr] at haddr
    subst haddr
    rw [hq] at hrec
    cases hrec
    cases hl
  | node a e l r =>
    simp only [Repr] at hq
    simp only [Tree.addr] at haddr
    subst haddr
    rw [hq.1] at hrec
    cases hrec
    simp only [Option.some.injEq] at hl
    simp only [Tree.addrs, List.nodup_cons] at hnds
    intro hr
    simp only [Option.some.injEq] at hr
    exact (List.nodup_append.mp hnds.2).2.2 (hl ▸ l.addr_mem_addrs) (hr ▸ r.addr_mem_addrs)

/-- The first three pointer updates of `RemoveArcFromBeachline`: the fresh edge node `n` takes
the place of the edge node `H` in the tree. -/
theorem relabel_arena {items A1 A2 A3 : Items F} {t : Tree F} {H n cl cr : Nat}
    {eH newE : Edge F} {hl hr : Tree F}
    (hrepr : Repr items none t) (hnd : t.addrs.Nodup)
    (hs : t.subAt H = some (Tree.node H eH hl hr)) (hn : n ∉ t.addrs)
    (hnrec : deref items n
      = some { data := ItemData.edge newE, parent := none, left := none, right := none })
    (h1 : SetParentFromItem items n H = some A1)
    (hcl : childLeft A1 H = some cl) (h2 : SetLeft A1 n cl = some A2)
    (hcr : childRight A2 H = some cr) (h3 : SetRight A2 n cr = some A3) :
    Repr A3 none (t.replaceAt H (Tree.node n newE hl hr)) ∧ A3.length = items.length ∧
    (∀ b, b ∉ t.addrs → b ≠ n → deref A3 b = deref items b) ∧
    (∀ b, b ∈ t.addrs → b ≠ hl.addr → b ≠ hr.addr →
      (∀ rec, deref items b = some rec → rec.left ≠ some H ∧ rec.right ≠ some H) →
      deref A3 b = deref items b) := by
  obtain ⟨q, hq⟩ := Repr_subAt hrepr hs
  have hnds := Tree.subAt_nodup hs hnd
  have hsub := Tree.subAt_mem hs
  have hHt : H ∈ t.addrs := Tree.subAt_root_mem hs
  simp only [Repr] at hq
  obtain ⟨hi, hql, hqr⟩ := hq
  simp only [Tree.addrs, List.nodup_cons, List.mem_append, not_or] at hnds
  obtain ⟨⟨hHl, hHr⟩, hnds2⟩ := hnds
  have hdisj : ∀ b, b ∈ hl.addrs → b ∈ hr.addrs → False := fun b h1 h2 =>
    (List.nodup_append.mp hnds2).2.2 h1 h2
  have hnH : n ≠ H := fun hh => hn (hh ▸ hHt)
  have hlt : hl.addr ∈ t.addrs := hsub _ (by simp [Tree.addrs, hl.addr_mem_addrs])
  have hrt : hr.addr ∈ t.addrs := hsub _ (by simp [Tree.addrs, hr.addr_mem_addrs])
  have hnl : n ≠ hl.addr := fun hh => hn (hh ▸ hlt)
  have hnr : n ≠ hr.addr := fun hh => hn (hh ▸ hrt)
  have hlr : hl.addr ≠ hr.addr := fun hh => hdisj _ hl.addr_mem_addrs (hh ▸ hr.addr_mem_addrs)
  have hHla : H ≠ hl.addr := fun hh => hHl (hh ▸ hl.addr_mem_addrs)
  have hHra : H ≠ hr.addr := fun hh => hHr (hh ▸ hr.addr_mem_addrs)
  -- the parent of `H`
  have hpar : ∀ g, q = some g → _ := fun g hg => Repr_parent_mem hrepr hHt hi (g := g) hg
  have hqn : q ≠ some n := by
    intro hh
    rcases hpar n hh with ⟨-, h0⟩ | ⟨h0, -⟩
    · cases h0
    · exact hn h0
  have hgfacts : ∀ g, q = some g → g ∈ t.addrs ∧ g ≠ H ∧ g ∉ hl.addrs ∧ g ∉ hr.addrs ∧
      ∀ recg, deref items g = some recg →
        (recg.left = some H → recg.right ≠ some H) := by
    intro g hg
    rcases hpar g hg with ⟨-, h0⟩ | ⟨h0, recg, hrecg, hch⟩
    · cases h0
    · have hchild : ∀ (u : Tree F) (pu : Option Nat), Repr items pu u → g ∈ u.addrs →
          H ∈ u.addrs := fun u pu hu hgu =>
        Repr_children_mem hu hgu hrecg hch
      refine ⟨h0, ?_, fun hh => hHl (hchild hl _ hql hh), fun hh => hHr (hchild hr _ hqr hh), ?_⟩
      · intro hh
        subst hh
        rw [hi] at hrecg
        cases hrecg
        simp only [Option.some.injEq] at hch
        rcases hch with hch | hch
        · exact hHla hch.symm
        · exact hHra hch.symm
      · intro recg2 hrec2 hleft
        exact Repr_children_ne hrepr hnd h0 hrec2 hleft
  obtain ⟨s1n, s1g, s1o, s1len⟩ := SetParentFromItem_spec h1 hi hnrec hqn
    (fun g recg hg hrec => (hgfacts g hg).2.2.2.2 recg hrec)
  simp only at s1n s1o
  -- step 2
  have hH1 : deref A1 H = deref items H :=
    s1o H (Ne.symm hnH) (fun hh => (hgfacts H hh.symm).2.1 rfl)
  have hcl2 : cl = hl.addr := by
    unfold childLeft at hcl
    rw [hH1, hi] at hcl
    simpa using hcl.symm
  subst hcl2
  obtain ⟨s2, rc2, hs2, -, hc2, s2n, s2c, s2o, s2len⟩ := SetLeft_spec h2 hnl
  rw [s1n] at hs2
  cases hs2
  have hl1 : deref A1 hl.addr = deref items hl.addr :=
    s1o _ (Ne.symm hnl) (fun hh => (hgfacts _ hh.symm).2.2.1 hl.addr_mem_addrs)
  -- step 3
  have hH2 : deref A2 H = deref items H := by
    rw [s2o H (Ne.symm hnH) hHla, hH1]
  have hcr2 : cr = hr.addr := by
    unfold childRight at hcr
    rw [hH2, hi] at hcr
    simpa using hcr.symm
  subst hcr2
  obtain ⟨s3, rc3, hs3, -, hc3, s3n, s3c, s3o, s3len⟩ := SetRight_spec h3 hnr
  rw [s2n] at hs3
  cases hs3
  have hr2 : deref A2 hr.addr = deref items hr.addr := by
    rw [s2o _ (Ne.symm hnr) (Ne.symm hlr)]
    exact s1o _ (Ne.symm hnr) (fun hh => (hgfacts _ hh.symm).2.2.2.1 hr.addr_mem_addrs)
  -- records of the subtree
  have hin : ∀ b, b ∈ hl.addrs ∨ b ∈ hr.addrs → b ≠ hl.addr → b ≠ hr.addr →
      deref A3 b = deref items b := by
    intro b hb hb1 hb2
    have hbt : b ∈ t.addrs := hsub b (by
      simp only [Tree.addrs, List.mem_cons, List.mem_append]; exact Or.inr hb)
    have hbn : b ≠ n := fun hh => hn (hh ▸ hbt)
    rw [s3o b hbn hb2, s2o b hbn hb1]
    refine s1o b hbn (fun hh => ?_)
    have hg := hgfacts b hh.symm
    rcases hb with hb | hb
    · exact hg.2.2.1 hb
    · exact hg.2.2.2.1 hb
  have hreprl : Repr A3 (some n) hl := by
    refine Repr_reparent hql (List.nodup_append.mp hnds2).1 ?_ ?_
    · intro rec hrec
      rw [s3o _ (Ne.symm hnl) hlr, s2c]
      rw [hl1, hrec] at hc2
      cases hc2
      rfl
    · intro b hb hb1
      exact hin b (Or.inl hb) hb1 (fun hh => hdisj b hb (hh ▸ hr.addr_mem_addrs))
  have hreprr : Repr A3 (some n) hr := by
    refine Repr_reparent hqr (List.nodup_append.mp hnds2).2.1 ?_ ?_
    · intro rec hrec
      rw [s3c]
      rw [hr2, hrec] at hc3
      cases hc3
      rfl
    · intro b hb hb1
      exact hin b (Or.inr hb) (fun hh => hdisj b (hh ▸ hl.addr_mem_addrs) hb) hb1
  have hsubR : Repr A3 q (Tree.node n newE hl hr) := by
    simp only [Repr]
    exact ⟨s3n, hreprl, hreprr⟩
  refine ⟨?_, by rw [s3len, s2len, s1len], ?_, ?_⟩
  · refine Repr_replaceAt ⟨_, hi, rfl⟩ hsubR ?_ t none hrepr hnd hs ?_
    · intro pa rec hpa hrec
      have hg := hgfacts pa hpa
      have hpan : pa ≠ n := fun hh => hn (hh ▸ hg.1)
      rw [s3o pa hpan (fun hh => hg.2.2.2.1 (hh ▸ hr.addr_mem_addrs)),
        s2o pa hpan (fun hh => hg.2.2.1 (hh ▸ hl.addr_mem_addrs))]
      exact (s1g pa rec hpa hrec).1
    · intro b hb hbs hbq
      have hbn : b ≠ n := fun hh => hn (hh ▸ hb)
      have hb1 : b ≠ hl.addr := fun hh => hbs (by
        simp [Tree.addrs, hh, hl.addr_mem_addrs])
      have hb2 : b ≠ hr.addr := fun hh => hbs (by
        simp [Tree.addrs, hh, hr.addr_mem_addrs])
      rw [s3o b hbn hb2, s2o b hbn hb1]
      exact s1o b hbn hbq
  · intro b hb hbn
    have hb1 : b ≠ hl.addr := fun hh => hb (hh ▸ hlt)
    have hb2 : b ≠ hr.addr := fun hh => hb (hh ▸ hrt)
    rw [s3o b hbn hb2, s2o b hbn hb1]
    refine s1o b hbn (fun hh => hb (hgfacts b hh.symm).1)
  · intro b hb hb1 hb2 hnoch
    have hbn : b ≠ n := fun hh => hn (hh ▸ hb)
    rw [s3o b hbn hb2, s2o b hbn hb1]
    refine s1o b hbn (fun hh => ?_)
    rcases hpar b hh.symm with ⟨-, h0⟩ | ⟨-, recg, hrecg, hch⟩
    · cases h0
    · have := hnoch recg hrecg
      rcases hch with hch | hch
      · exact this.1 hch
      · exact this.2 hch

end Relabel

section Drop
variable {F : Type}

/-- The parent of the root of a subtree lies in the tree, outside the subtree, and has the
root as exactly one of its children. -/
theorem subtree_parent_facts {items : Items F} {t s : Tree F} {x : Nat} {q : Option Nat}
    (hrepr : Repr items none t) (hnd : t.addrs.Nodup) (hs : t.subAt x = some s)
    (hq : Repr items q s) :
    ∀ g, q = some g → g ∈ t.addrs ∧ g ∉ s.addrs ∧
      ∀ recg, deref items g = some recg → (recg.left = some x → recg.right ≠ some x) := by
  intro g hg
  have hxt : x ∈ t.addrs := Tree.subAt_root_mem hs
  have haddr := Tree.subAt_addr hs
  obtain ⟨rec, hrec, hrp⟩ := Repr_root hq
  rw [haddr] at hrec
  rcases Repr_parent_mem hrepr hxt hrec (hrp.trans hg) with ⟨-, h0⟩ | ⟨h0, recg, hrecg, hch⟩
  · cases h0
  · refine ⟨h0, ?_, fun recg2 hrec2 hleft => Repr_children_ne hrepr hnd h0 hrec2 hleft⟩
    intro hgs
    have hxs : x ∈ s.addrs := Repr_children_mem hq hgs hrecg hch
    -- `x` is the root of `s` and a child of a node of `s`
    have hnds := Tree.subAt_nodup hs hnd
    clear hrec hrp
    cases s with
    | leaf a arc =>
      simp only [Tree.addrs, List.mem_singleton] at hgs
      simp only [Repr] at hq
      subst hgs
      rw [hq] at hrecg
      cases hrecg
      simp at hch
    | node a e l r =>
      simp only [Tree.addr] at haddr
      subst haddr
      simp only [Tree.addrs, List.nodup_cons, List.mem_append, not_or] at hnds
      simp only [Repr] at hq
      simp only [Tree.addrs, List.mem_cons, List.mem_append] at hgs
      rcases hgs with hgs | hgs | hgs
      · subst hgs
        rw [hq.1] at hrecg
        cases hrecg
        simp only [Option.some.injEq] at hch
        rcases hch with hch | hch
        · exact hnds.1.1 (hch ▸ l.addr_mem_addrs)
        · exact hnds.1.2 (hch ▸ r.addr_mem_addrs)
      · exact hnds.1.1 (Repr_children_mem hq.2.1 hgs hrecg hch)
      · exact hnds.1.2 (Repr_children_mem hq.2.2 hgs hrecg hch)

/-- The last pointer update of `RemoveArcFromBeachline`: the sibling of the squeezed arc takes
the place of their parent in the tree. -/
theorem drop_arena {items A4 : Items F} {t : Tree F} {sa P remaining : Nat} {arc : Arc F}
    {pi : BeachlineItem F}
    (hrepr : Repr items none t) (hnd : t.addrs.Nodup) (hsa : (sa, arc) ∈ t.leaves)
    (hpar : parentOf items sa = some P) (hpi : deref items P = some pi)
    (hrem : (if pi.left = some sa then pi.right
             else if pi.right = some sa then pi.left else none) = some remaining)
    (h : SetParentFromItem items remaining P = some A4) :
    ∃ eP S, (t.subAt P = some (Tree.node P eP (Tree.leaf sa arc) S) ∨
        t.subAt P = some (Tree.node P eP S (Tree.leaf sa arc))) ∧
      remaining = S.addr ∧ Repr A4 none (t.replaceAt P S) ∧ A4.length = items.length ∧
      (∀ b, b ∉ t.addrs → deref A4 b = deref items b) := by
  obtain ⟨q, hrec, hcase⟩ := Repr_leaf_parent hrepr hnd hsa
  have hqP : q = some P := by
    unfold parentOf at hpar
    rw [hrec] at hpar
    exact hpar
  subst hqP
  rcases hcase with ⟨h0, -⟩ | ⟨pa, rec, hpa, hpat, hrecP, hedge, hchild⟩
  · cases h0
  cases hpa
  rw [hpi] at hrecP
  cases hrecP
  obtain ⟨s, hs⟩ := Tree.subAt_isSome hpat
  obtain ⟨qP, hqs⟩ := Repr_subAt hrepr hs
  have hnds := Tree.subAt_nodup hs hnd
  have haddr := Tree.subAt_addr hs
  have hfacts := subtree_parent_facts hrepr hnd hs hqs
  cases s with
  | leaf a arc1 =>
    simp only [Repr] at hqs
    simp only [Tree.addr] at haddr
    subst haddr
    rw [hqs] at hpi
    cases hpi
    simp [BeachlineItem.isEdge] at hedge
  | node a eP l r =>
    simp only [Tree.addr] at haddr
    subst haddr
    simp only [Repr] at hqs
    obtain ⟨hPrec, hql, hqr⟩ := hqs
    rw [hPrec] at hpi
    cases hpi
    simp only [Tree.addrs, List.nodup_cons, List.mem_append, not_or] at hnds
    obtain ⟨⟨hPl, hPr⟩, hnds2⟩ := hnds
    have hdisj : ∀ b, b ∈ l.addrs → b ∈ r.addrs → False := fun b h1 h2 =>
      (List.nodup_append.mp hnds2).2.2 h1 h2
    have hsubm := Tree.subAt_mem hs
    -- the general step, for the sibling `S` of the leaf
    have key : ∀ (S : Tree F), (S = l ∨ S = r) → remaining = S.addr →
        Repr A4 none (t.replaceAt a S) ∧ A4.length = items.length ∧
        (∀ b, b ∉ t.addrs → deref A4 b = deref items b) := by
      intro S hS hremS
      have hSin : ∀ b, b ∈ S.addrs → b ∈ (Tree.node a eP l r).addrs := by
        intro b hb
        rcases hS with rfl | rfl
        · simp [Tree.addrs, hb]
        · simp [Tree.addrs, hb]
      have hSrepr : Repr items (some a) S := by
        rcases hS with rfl | rfl
        · exact hql
        · exact hqr
      have hSnd : S.addrs.Nodup := by
        rcases hS with rfl | rfl
        · exact (List.nodup_append.mp hnds2).1
        · exact (List.nodup_append.mp hnds2).2.1
      have hPS : a ∉ S.addrs := by
        rcases hS with rfl | rfl
        · exact hPl
        · exact hPr
      obtain ⟨rS, hrS, -⟩ := Repr_root hSrepr
      subst hremS
      have hqne : qP ≠ some S.addr := by
        intro hh
        exact (hfacts _ hh).2.1 (hSin _ S.addr_mem_addrs)
      obtain ⟨s1n, s1g, s1o, s1len⟩ := SetParentFromItem_spec h hPrec hrS hqne
        (fun g recg hg hrec2 => (hfacts g hg).2.2 recg hrec2)
      simp only at s1n s1o
      refine ⟨?_, s1len, ?_⟩
      · refine Repr_replaceAt ⟨_, hPrec, rfl⟩ ?_ ?_ t none hrepr hnd hs ?_
        · refine Repr_reparent hSrepr hSnd ?_ ?_
          · intro rec2 hrec2
            rw [hrS] at hrec2
            cases hrec2
            exact s1n
          · intro b hb hb1
            refine s1o b hb1 (fun hh => ?_)
            exact (hfacts b hh.symm).2.1 (hSin b hb)
        · intro pa rec2 hpa hrec2
          exact (s1g pa rec2 hpa hrec2).1
        · intro b hb hbs hbq
          refine s1o b (fun hh => hbs ?_) hbq
          rw [hh]
          exact hSin _ S.addr_mem_addrs
      · intro b hb
        refine s1o b (fun hh => hb ?_) (fun hh => hb (hfacts b hh.symm).1)
        rw [hh]
        exact hsubm _ (hSin _ S.addr_mem_addrs)
    -- which child is the squeezed arc
    have hleafrec : ∀ (u : Tree F), Repr items (some a) u → u.addr = sa → u = Tree.leaf sa arc := by
      intro u hu hua
      cases u with
      | leaf b arc2 =>
        simp only [Tree.addr] at hua
        subst hua
        simp only [Repr] at hu
        rw [hrec] at hu
        simp only [Option.some.injEq, BeachlineItem.mk.injEq, ItemData.arc.injEq, true_and,
          and_true] at hu
        rw [hu]
      | node b e2 l2 r2 =>
        simp only [Tree.addr] at hua
        subst hua
        simp only [Repr] at hu
        have hu1 := hu.1
        rw [hrec] at hu1
        simp at hu1
    rcases hchild with ⟨hL, hR⟩ | ⟨hR, hL⟩
    · simp only at hL hR
      simp only [hL, if_true, Option.some.injEq] at hrem
      have hl : l = Tree.leaf sa arc := hleafrec l hql (Option.some.inj hL)
      subst hl
      obtain ⟨k1, k2, k3⟩ := key r (Or.inr rfl) hrem.symm
      exact ⟨eP, r, Or.inl hs, hrem.symm, k1, k2, k3⟩
    · simp only at hL hR
      simp only [hL, if_false, hR, if_true, Option.some.injEq] at hrem
      have hr : r = Tree.leaf sa arc := hleafrec r hqr (Option.some.inj hR)
      subst hr
      obtain ⟨k1, k2, k3⟩ := key l (Or.inl rfl) hrem.symm
      exact ⟨eP, l, Or.inr hs, hrem.symm, k1, k2, k3⟩

end Drop

section InorderFacts
variable {F : Type}

/-- An address occurs once in a list of pairs without repeated first components. -/
theorem split_unique {β : Type} {l1 l2 l3 l4 : List (Nat × β)} {a : Nat} {d d1 : β}
    (h : l1 ++ (a, d) :: l2 = l3 ++ (a, d1) :: l4)
    (hnd : ((l1 ++ (a, d) :: l2).map Prod.fst).Nodup) : l1 = l3 ∧ d = d1 ∧ l2 = l4 := by
  induction l1 generalizing l3 with
  | nil =>
    cases l3 with
    | nil =>
      simp only [List.nil_append, List.cons.injEq, Prod.mk.injEq, true_and] at h
      exact ⟨rfl, h.1, h.2⟩
    | cons y l3 =>
      simp only [List.nil_append, List.cons_append, List.cons.injEq] at h
      obtain ⟨h1, h2⟩ := h
      simp only [List.nil_append, List.map_cons, List.nodup_cons] at hnd
      exfalso
      apply hnd.1
      rw [h2]
      simp
  | cons x l1 ih =>
    cases l3 with
    | nil =>
      simp only [List.nil_append, List.cons_append, List.cons.injEq] at h
      obtain ⟨h1, h2⟩ := h
      simp only [List.cons_append, List.map_cons, List.nodup_cons] at hnd
      exfalso
      apply hnd.1
      rw [h1]
      simp
    | cons y l3 =>
      simp only [List.cons_append, List.cons.injEq] at h
      obtain ⟨h1, h2⟩ := h
      simp only [List.cons_append, List.map_cons, List.nodup_cons] at hnd
      obtain ⟨k1, k2, k3⟩ := ih h2 hnd.2
      exact ⟨by rw [h1, k1], k2, k3⟩

theorem Tree.inorder_nodup (t : Tree F) (hnd : t.addrs.Nodup) :
    (t.inorder.map Prod.fst).Nodup :=
  (Tree.inorder_perm t).nodup_iff.mpr hnd

theorem Tree.inorder_head_arc (t : Tree F) :
    ∃ arc rest, t.inorder = (t.leftmost, ItemData.arc arc) :: rest ∧
      (t.leftmost, arc) ∈ t.leaves := by
  induction t with
  | leaf a arc => exact ⟨arc, [], rfl, by simp [Tree.leaves, Tree.leftmost]⟩
  | node a e l r ihl ihr =>
    obtain ⟨arc, rest, h, hm⟩ := ihl
    exact ⟨arc, rest ++ (a, ItemData.edge e) :: r.inorder,
      by simp [Tree.inorder, h, Tree.leftmost], by simp [Tree.leaves, Tree.leftmost, hm]⟩

theorem Tree.inorder_last_arc (t : Tree F) :
    ∃ arc init, t.inorder = init ++ [(t.rightmost, ItemData.arc arc)] ∧
      (t.rightmost, arc) ∈ t.leaves := by
  induction t with
  | leaf a arc => exact ⟨arc, [], rfl, by simp [Tree.leaves, Tree.rightmost]⟩
  | node a e l r ihl ihr =>
    obtain ⟨arc, init, h, hm⟩ := ihr
    exact ⟨arc, l.inorder ++ (a, ItemData.edge e) :: init,
      by simp [Tree.inorder, h, Tree.rightmost], by simp [Tree.leaves, Tree.rightmost, hm]⟩

theorem Tree.subAt_leaves {t s : Tree F} {x : Nat} (h : t.subAt x = some s) :
    ∀ y ∈ s.leaves, y ∈ t.leaves := by
  induction t with
  | leaf a arc =>
    simp only [Tree.subAt] at h
    split_ifs at h with hx
    cases h
    exact fun y hy => hy
  | node a e l r ihl ihr =>
    simp only [Tree.subAt] at h
    split_ifs at h with hx
    · cases h
      exact fun y hy => hy
    · intro y hy
      simp only [Tree.leaves, List.mem_append]
      cases hl : l.subAt x with
      | some s1 =>
        rw [hl] at h
        cases h
        exact Or.inl (ihl hl y hy)
      | none =>
        rw [hl] at h
        exact Or.inr (ihr h y hy)

/-- The record of a leaf of a tree held by the arena. -/
theorem Repr_leaf_arc {items : Items F} {p : Option Nat} {t : Tree F} (h : Repr items p t)
    (hnd : t.addrs.Nodup) {a : Nat} {arc : Arc F} (hl : (a, arc) ∈ t.leaves) :
    derefArc items a = some arc := by
  obtain ⟨q, hrec, -⟩ := Repr_leaf_parent h hnd hl
  simp [derefArc, hrec, ItemData.arc?]

/-- The in-order sequence of a well-formed tree around an arc with two bounding edges: the left
neighbour, the left edge, the arc, the right edge, the right neighbour. -/
theorem bounding_inorder {items : Items F} {root : Nat} {t : Tree F}
    (hwf : WellFormed items root t) {sa L R la ra : Nat} {saArc : Arc F}
    (hsa : (sa, saArc) ∈ t.leaves)
    (hn : squeezeNeighbours items sa = some (L, R, la, ra)) :
    ∃ X Y eL eR laArc raArc lL rL lR rR,
      t.inorder = X ++ [(la, ItemData.arc laArc), (L, ItemData.edge eL),
        (sa, ItemData.arc saArc), (R, ItemData.edge eR), (ra, ItemData.arc raArc)] ++ Y ∧
      t.subAt L = some (Tree.node L eL lL rL) ∧ t.subAt R = some (Tree.node R eR lR rR) ∧
      derefEdge items L = some eL ∧ derefEdge items R = some eR ∧
      derefArc items la = some laArc ∧ derefArc items ra = some raArc ∧
      (la, laArc) ∈ t.leaves ∧ (ra, raArc) ∈ t.leaves := by
  obtain ⟨hroot, hrepr, hnd⟩ := hwf
  unfold squeezeNeighbours at hn
  split at hn
  · rename_i L0 R0 hL hR
    split at hn
    · rename_i la0 ra0 hla hra
      split_ifs at hn with hne
      simp only [Option.some.injEq, Prod.mk.injEq] at hn
      obtain ⟨rfl, rfl, rfl, rfl⟩ := hn
      have hwf : WellFormed items root t := ⟨hroot, hrepr, hnd⟩
      obtain ⟨bL, eL, lL, rL, hsL, hlm⟩ := Tree.exists_left_edge t hnd hsa
        (ne_leftmost_of_left_edge hwf hL)
      obtain ⟨bR, eR, lR, rR, hsR, hrm⟩ := Tree.exists_right_edge t hnd hsa
        (ne_rightmost_of_right_edge hwf hR)
      obtain ⟨nL1, nL2, nL3, nL4, nL5⟩ := neighbours_of_node hwf hsL
      obtain ⟨nR1, nR2, nR3, nR4, nR5⟩ := neighbours_of_node hwf hsR
      rw [hlm, hL] at nL4
      simp only [Option.some.injEq] at nL4
      subst nL4
      rw [hrm, hR] at nR2
      simp only [Option.some.injEq] at nR2
      subst nR2
      rw [hla] at nL1
      simp only [Option.some.injEq] at nL1
      subst nL1
      rw [hra] at nR3
      simp only [Option.some.injEq] at nR3
      subst nR3
      have hind := Tree.inorder_nodup t hnd
      obtain ⟨preL, postL, hiL, -⟩ := Tree.inorder_replaceAt t hnd hsL
      obtain ⟨preR, postR, hiR, -⟩ := Tree.inorder_replaceAt t hnd hsR
      obtain ⟨laArc, initL, hlast, hlamem⟩ := Tree.inorder_last_arc lL
      obtain ⟨saArc1, restL, hheadL, hsamem1⟩ := Tree.inorder_head_arc rL
      obtain ⟨saArc2, initR, hlastR, hsamem2⟩ := Tree.inorder_last_arc lR
      obtain ⟨raArc, restR, hheadR, hramem⟩ := Tree.inorder_head_arc rR
      rw [hlm] at hheadL hsamem1
      rw [hrm] at hlastR hsamem2
      simp only [Tree.inorder, hlast, hheadL] at hiL
      simp only [Tree.inorder, hlastR, hheadR] at hiR
      have e1 : t.inorder = (preL ++ initL ++ [(lL.rightmost, ItemData.arc laArc),
          (L0, ItemData.edge eL)]) ++ (sa, ItemData.arc saArc1) :: (restL ++ postL) := by
        rw [hiL]; simp
      have e2 : t.inorder = (preR ++ initR) ++ (sa, ItemData.arc saArc2)
          :: ((R0, ItemData.edge eR) :: (rR.leftmost, ItemData.arc raArc) :: (restR ++ postR)) := by
        rw [hiR]; simp
      have hu := split_unique (e1.symm.trans e2) (e1 ▸ hind)
      obtain ⟨u1, u2, u3⟩ := hu
      -- the arc at `sa`
      have hsamem : (sa, saArc1) ∈ t.leaves :=
        Tree.subAt_leaves hsL _ (by simp [Tree.leaves, hsamem1])
      have ha1 := Repr_leaf_arc hrepr hnd hsamem
      have ha0 := Repr_leaf_arc hrepr hnd hsa
      rw [ha0] at ha1
      cases ha1
      have hlamem2 : (lL.rightmost, laArc) ∈ t.leaves :=
        Tree.subAt_leaves hsL _ (by simp [Tree.leaves, hlamem])
      have hramem2 : (rR.leftmost, raArc) ∈ t.leaves :=
        Tree.subAt_leaves hsR _ (by simp [Tree.leaves, hramem])
      refine ⟨preL ++ initL, restR ++ postR, eL, eR, laArc, raArc, lL, rL, lR, rR, ?_, hsL, hsR,
        nL5, nR5, Repr_leaf_arc hrepr hnd hlamem2, Repr_leaf_arc hrepr hnd hramem2,
        hlamem2, hramem2⟩
      rw [e1, u3]
      simp
    · cases hn
  · cases hn

end InorderFacts

section Splice
variable {F : Type}

theorem Tree.subAt_self (t : Tree F) : t.subAt t.addr = some t := by
  cases t <;> simp [Tree.subAt, Tree.addr]

/-- The result of the loop that looks for the higher edge is one of the two edges. -/
theorem findHigherEdge_mem {items : Items F} {L R : Nat} (fuel x : Nat) (acc : Option Nat)
    {H : Nat} (h : findHigherEdge items L R fuel x acc = some (some H)) :
    H = L ∨ H = R ∨ acc = some H := by
  induction fuel generalizing x acc with
  | zero => simp [findHigherEdge] at h
  | succ fuel ih =>
    unfold findHigherEdge at h
    split at h
    · cases h
    rename_i tt htt
    split at h
    · simp only [Option.some.injEq] at h
      exact Or.inr (Or.inr h)
    rename_i p hp
    rcases ih _ _ h with h1 | h1 | h1
    · exact Or.inl h1
    · exact Or.inr (Or.inl h1)
    · by_cases hpR : p = R
      · simp only [hpR, if_true, Option.some.injEq] at h1
        exact Or.inr (Or.inl h1.symm)
      · simp only [hpR, if_false] at h1
        by_cases hpL : p = L
        · simp only [hpL, if_true, Option.some.injEq] at h1
          exact Or.inl h1.symm
        · simp only [hpL, if_false] at h1
          exact Or.inr (Or.inr h1)

/-- Replacing the entry of one address in a list of pairs without repeated first components
by an entry with a fresh address. -/
theorem nodup_replace_entry {β : Type} {A B : List (Nat × β)} {a n : Nat} {d d1 : β}
    (hnd : ((A ++ (a, d) :: B).map Prod.fst).Nodup)
    (hn : n ∉ (A ++ (a, d) :: B).map Prod.fst) :
    ((A ++ (n, d1) :: B).map Prod.fst).Nodup := by
  simp only [List.map_append, List.map_cons, List.mem_append, List.mem_cons, not_or] at hn hnd ⊢
  rw [List.nodup_append] at hnd ⊢
  obtain ⟨h1, h2, h3⟩ := hnd
  simp only [List.nodup_cons] at h2 ⊢
  refine ⟨h1, ⟨hn.2.2, h2.2⟩, ?_⟩
  intro x hx hx2
  simp only [List.mem_cons] at hx2
  rcases hx2 with hx2 | hx2
  · exact hn.1 (hx2 ▸ hx)
  · exact h3 hx (List.mem_cons_of_mem _ hx2)

end Splice

section SpliceTree
variable {F : Type}

/-- The steps of `spliceOut`, when it returns. -/
theorem spliceOut_eq_some {items items2 : Items F} {sa L R H n : Nat}
    (h : spliceOut items sa L R H n = some items2) :
    ∃ A1 cl A2 cr A3 P pi remaining,
      SetParentFromItem items n H = some A1 ∧ childLeft A1 H = some cl ∧
      SetLeft A1 n cl = some A2 ∧ childRight A2 H = some cr ∧ SetRight A2 n cr = some A3 ∧
      parentOf A3 sa = some P ∧ deref A3 P = some pi ∧ pi.isEdge = true ∧
      (if pi.left = some sa then pi.right
       else if pi.right = some sa then pi.left else none) = some remaining ∧
      (P = L ∨ P = R) ∧ P ≠ H ∧ SetParentFromItem A3 remaining P = some items2 := by
  unfold spliceOut at h
  split at h
  · cases h
  rename_i A1 h1
  split at h
  · cases h
  rename_i cl hcl
  split at h
  · cases h
  rename_i A2 h2
  split at h
  · cases h
  rename_i cr hcr
  split at h
  · cases h
  rename_i A3 h3
  split at h
  · cases h
  rename_i P hP
  split at h
  · cases h
  rename_i pi hpi
  by_cases hedge : pi.isEdge = true
  · rw [if_pos hedge] at h
    split at h
    · cases h
    rename_i remaining hrem
    by_cases hcond : (P = L ∨ P = R) ∧ P ≠ H
    · rw [if_pos hcond] at h
      exact ⟨A1, cl, A2, cr, A3, P, pi, remaining, h1, hcl, h2, hcr, h3, hP, hpi, hedge, hrem,
        hcond.1, hcond.2, h⟩
    · rw [if_neg hcond] at h
      cases h
  · rw [if_neg hedge] at h
    cases h

theorem Tree.subAt_replaceAt_new {t s sub : Tree F} {x : Nat} (hs : t.subAt x = some s)
    (hn : sub.addr ∉ t.addrs) : (t.replaceAt x sub).subAt sub.addr = some sub := by
  induction t generalizing s with
  | leaf a arc =>
    simp only [Tree.subAt] at hs
    split_ifs at hs with hx
    simp [Tree.replaceAt, hx, Tree.subAt_self]
  | node a e l r ihl ihr =>
    simp only [Tree.addrs, List.mem_cons, List.mem_append, not_or] at hn
    by_cases hx : a = x
    · simp [Tree.replaceAt, hx, Tree.subAt_self]
    · simp only [Tree.subAt, if_neg hx] at hs
      simp only [Tree.replaceAt, if_neg hx, Tree.subAt, if_neg (Ne.symm hn.1)]
      cases hl : l.subAt x with
      | some s1 =>
        rw [ihl hl hn.2.1]
      | none =>
        rw [hl] at hs
        simp only at hs
        have hxl : x ∉ l.addrs := by
          intro hh
          have := Tree.subAt_isSome hh
          rw [hl] at this
          simp at this
        rw [Tree.replaceAt_of_not_mem l x sub hxl, Tree.subAt_eq_none hn.2.1]
        exact ihr hs hn.2.2

/-- The pointer updates of `RemoveArcFromBeachline` on a well-formed tree, when they return:
in the in-order sequence the left edge, the squeezed arc and the right edge are replaced by the
fresh edge node, which takes the tree position of `higherEdge`, and the sibling of the squeezed
arc takes the place of the other edge. -/
theorem spliceOut_tree {items items2 : Items F} {root : Nat} {t : Tree F}
    (hwf : WellFormed items root t) {sa L R la ra H : Nat} {saArc : Arc F} {newE : Edge F}
    (hsa : (sa, saArc) ∈ t.leaves)
    (hn : squeezeNeighbours items sa = some (L, R, la, ra)) (hH : H = L ∨ H = R)
    (hsp : spliceOut
      (alloc items { data := ItemData.edge newE, parent := none, left := none, right := none })
      sa L R H items.length = some items2) :
    ∃ X Y eL eR laArc raArc eH hl hr P S,
      t.inorder = X ++ [(la, ItemData.arc laArc), (L, ItemData.edge eL),
        (sa, ItemData.arc saArc), (R, ItemData.edge eR), (ra, ItemData.arc raArc)] ++ Y ∧
      ((t.replaceAt H (Tree.node items.length newE hl hr)).replaceAt P S).inorder
        = X ++ [(la, ItemData.arc laArc), (items.length, ItemData.edge newE),
            (ra, ItemData.arc raArc)] ++ Y ∧
      derefEdge items L = some eL ∧ derefEdge items R = some eR ∧
      derefArc items la = some laArc ∧ derefArc items ra = some raArc ∧
      (la, laArc) ∈ t.leaves ∧ (ra, raArc) ∈ t.leaves ∧
      t.subAt H = some (Tree.node H eH hl hr) ∧
      ((H = L ∧ P = R) ∨ (H = R ∧ P = L)) ∧
      Repr items2 none ((t.replaceAt H (Tree.node items.length newE hl hr)).replaceAt P S) ∧
      ((t.replaceAt H (Tree.node items.length newE hl hr)).replaceAt P S).addrs.Nodup ∧
      ((t.replaceAt H (Tree.node items.length newE hl hr)).replaceAt P S).addr
        = (if root = L ∨ root = R then items.length else root) ∧
      items2.length = items.length + 1 ∧
      (∀ b, b ∉ t.addrs → b ≠ items.length → deref items2 b = deref items b) ∧
      (P ∈ hl.addrs ∨ P ∈ hr.addrs) := by
  obtain ⟨X, Y, eL, eR, laArc, raArc, lL, rL, lR, rR, hin, hsL, hsR, hdL, hdR, hdla, hdra,
    hlam, hram⟩ := bounding_inorder hwf hsa hn
  obtain ⟨hroot, hrepr, hnd⟩ := hwf
  have hlt := Repr_lt_length hrepr
  have hnfresh : items.length ∉ t.addrs := fun hh => absurd (hlt _ hh) (lt_irrefl _)
  have hind := Tree.inorder_nodup t hnd
  have hnin : items.length ∉ t.inorder.map Prod.fst := fun hh =>
    hnfresh ((Tree.inorder_perm t).mem_iff.mp hh)
  -- the arena after the allocation
  have hrepr1 : Repr (alloc items
      { data := ItemData.edge newE, parent := none, left := none, right := none }) none t :=
    Repr_congr (fun a ha => deref_alloc_lt _ _ _ (hlt a ha)) hrepr
  have hnrec : deref (alloc items
      ({ data := ItemData.edge newE, parent := none, left := none, right := none }
        : BeachlineItem F)) items.length
      = some { data := ItemData.edge newE, parent := none, left := none, right := none } :=
    deref_alloc_length _ _
  -- the subtree at `H`
  obtain ⟨eH, hl, hr, hsH⟩ : ∃ eH hl hr, t.subAt H = some (Tree.node H eH hl hr) := by
    rcases hH with rfl | rfl
    · exact ⟨_, _, _, hsL⟩
    · exact ⟨_, _, _, hsR⟩
  -- the steps of `spliceOut`
  obtain ⟨A1, cl, A2, cr, A3, P, pi, remaining, h1, hcl, h2, hcr, h3, hP, hpi, hedge, hrem,
    hPLR, hPH, hsp⟩ := spliceOut_eq_some hsp
  -- stage one
  obtain ⟨hT1, hlen3, hframe3, -⟩ := relabel_arena hrepr1 hnd hsH hnfresh hnrec h1 hcl h2 hcr h3
  obtain ⟨pre, post, hi0, hi1⟩ := Tree.inorder_replaceAt t hnd hsH
  have hi1' := hi1 (Tree.node items.length newE hl hr)
  simp only [Tree.inorder] at hi0 hi1'
  have hT1in : (t.replaceAt H (Tree.node items.length newE hl hr)).inorder
      = (pre ++ hl.inorder) ++ (items.length, ItemData.edge newE) :: (hr.inorder ++ post) := by
    rw [hi1']; simp
  have ht0 : t.inorder = (pre ++ hl.inorder) ++ (H, ItemData.edge eH) :: (hr.inorder ++ post) := by
    rw [hi0]; simp
  have hT1nd0 : ((t.replaceAt H (Tree.node items.length newE hl hr)).inorder.map
      Prod.fst).Nodup := by
    rw [hT1in]
    exact nodup_replace_entry (ht0 ▸ hind) (ht0 ▸ hnin)
  have hT1nd : (t.replaceAt H (Tree.node items.length newE hl hr)).addrs.Nodup :=
    (Tree.inorder_perm _).nodup_iff.mp hT1nd0
  have hT1leaves : (t.replaceAt H (Tree.node items.length newE hl hr)).leaves = t.leaves := by
    rw [Tree.leaves_eq_inorder, Tree.leaves_eq_inorder, hT1in, ht0]
    simp [List.filterMap_append, ItemData.arc?]
  have hT1mem : ∀ b, b ∈ (t.replaceAt H (Tree.node items.length newE hl hr)).addrs →
      b ∈ t.addrs ∨ b = items.length := by
    intro b hb
    have hb1 := (Tree.inorder_perm _).mem_iff.mpr hb
    rw [hT1in] at hb1
    have : b ∈ t.inorder.map Prod.fst ∨ b = items.length := by
      rw [ht0]
      simp only [List.map_append, List.map_cons, List.mem_append, List.mem_cons] at hb1 ⊢
      tauto
    rcases this with h | h
    · exact Or.inl ((Tree.inorder_perm t).mem_iff.mp h)
    · exact Or.inr h
  -- stage two
  obtain ⟨eP, S, hshape, hremS, hT2, hlen4, hframe4⟩ := drop_arena hT1 hT1nd
    (hT1leaves ▸ hsa) hP hpi hrem hsp
  have hPt : P ∈ t.addrs := by
    rcases hPLR with rfl | rfl
    · exact Tree.subAt_root_mem hsL
    · exact Tree.subAt_root_mem hsR
  have hPn : P ≠ items.length := fun hh => hnfresh (hh ▸ hPt)
  -- the in-order sequence after stage one, around the squeezed arc
  have hLR : L ≠ R := by
    intro hh
    rcases hH with h | h <;> rcases hPLR with h2 | h2 <;> simp_all
  have hT1seq : ∃ A B d1 d2, (t.replaceAt H (Tree.node items.length newE hl hr)).inorder
      = (X ++ [(la, ItemData.arc laArc)]) ++ d1 :: (sa, ItemData.arc saArc) :: d2
          :: (ra, ItemData.arc raArc) :: Y ∧
      A = d1 ∧ B = d2 ∧
      ((H = L ∧ P = R ∧ d1 = (items.length, ItemData.edge newE) ∧ d2 = (R, ItemData.edge eR)) ∨
       (H = R ∧ P = L ∧ d1 = (L, ItemData.edge eL) ∧ d2 = (items.length, ItemData.edge newE))) := by
    rcases hH with rfl | rfl
    · have hPR : P = R := by
        rcases hPLR with h | h
        · exact absurd h hPH
        · exact h
      have e1 : t.inorder = (X ++ [(la, ItemData.arc laArc)]) ++ (H, ItemData.edge eL)
          :: ((sa, ItemData.arc saArc) :: (R, ItemData.edge eR) :: (ra, ItemData.arc raArc)
            :: Y) := by
        rw [hin]; simp
      obtain ⟨u1, -, u3⟩ := split_unique (ht0.symm.trans e1) (ht0 ▸ hind)
      refine ⟨_, _, _, _, ?_, rfl, rfl, Or.inl ⟨rfl, hPR, rfl, rfl⟩⟩
      rw [hT1in, u1, u3]
    · have hPL : P = L := by
        rcases hPLR with h | h
        · exact h
        · exact absurd h hPH
      have e1 : t.inorder = (X ++ [(la, ItemData.arc laArc), (L, ItemData.edge eL),
          (sa, ItemData.arc saArc)]) ++ (H, ItemData.edge eR)
          :: ((ra, ItemData.arc raArc) :: Y) := by
        rw [hin]; simp
      obtain ⟨u1, -, u3⟩ := split_unique (ht0.symm.trans e1) (ht0 ▸ hind)
      refine ⟨_, _, _, _, ?_, rfl, rfl, Or.inr ⟨rfl, hPL, rfl, rfl⟩⟩
      rw [hT1in, u1, u3]
      simp
  obtain ⟨-, -, d1, d2, hT1seq, -, -, hwhich⟩ := hT1seq
  have hT1sa : (t.replaceAt H (Tree.node items.length newE hl hr)).inorder
      = (X ++ [(la, ItemData.arc laArc), d1]) ++ (sa, ItemData.arc saArc)
          :: (d2 :: (ra, ItemData.arc raArc) :: Y) := by
    rw [hT1seq]; simp
  -- the subtree at `P` after stage one
  obtain ⟨sP, hsP, hsPin⟩ : ∃ sP, (t.replaceAt H (Tree.node items.length newE hl hr)).subAt P
      = some sP ∧
      (sP.inorder = (sa, ItemData.arc saArc) :: (P, ItemData.edge eP) :: S.inorder ∨
       sP.inorder = S.inorder ++ [(P, ItemData.edge eP), (sa, ItemData.arc saArc)]) := by
    rcases hshape with h | h
    · exact ⟨_, h, Or.inl (by simp [Tree.inorder])⟩
    · exact ⟨_, h, Or.inr (by simp [Tree.inorder])⟩
  obtain ⟨pre2, post2, hj0, hj1⟩ := Tree.inorder_replaceAt _ hT1nd hsP
  have hj1' := hj1 S
  -- the two forms
  have hfinal : ((t.replaceAt H (Tree.node items.length newE hl hr)).replaceAt P S).inorder
        = X ++ [(la, ItemData.arc laArc), (items.length, ItemData.edge newE),
            (ra, ItemData.arc raArc)] ++ Y ∧ (pre2 ≠ [] ∨ post2 ≠ []) := by
    rcases hsPin with hform | hform
    · -- the arc is the left child of `P`
      rw [hform] at hj0
      have e2 : (t.replaceAt H (Tree.node items.length newE hl hr)).inorder
          = pre2 ++ (sa, ItemData.arc saArc) :: ((P, ItemData.edge eP) :: (S.inorder ++ post2)) := by
        rw [hj0]; simp
      obtain ⟨u1, -, u3⟩ := split_unique (hT1sa.symm.trans e2) (hT1sa ▸ hT1nd0)
      simp only [List.cons.injEq] at u3
      obtain ⟨u3a, u3b⟩ := u3
      rcases hwhich with ⟨-, -, hd1, hd2⟩ | ⟨-, -, hd1, hd2⟩
      · subst hd1
        refine ⟨?_, Or.inl (by rw [← u1]; simp)⟩
        rw [hj1', ← u1, List.append_assoc, ← u3b]
        simp
      · exfalso
        rw [hd2] at u3a
        simp only [Prod.mk.injEq] at u3a
        exact hPn u3a.1.symm
    · -- the arc is the right child of `P`
      rw [hform] at hj0
      have e2 : (t.replaceAt H (Tree.node items.length newE hl hr)).inorder
          = (pre2 ++ S.inorder ++ [(P, ItemData.edge eP)]) ++ (sa, ItemData.arc saArc)
              :: post2 := by
        rw [hj0]; simp
      obtain ⟨u1, -, u3⟩ := split_unique (hT1sa.symm.trans e2) (hT1sa ▸ hT1nd0)
      have u1' : (X ++ [(la, ItemData.arc laArc)]) ++ [d1]
          = (pre2 ++ S.inorder) ++ [(P, ItemData.edge eP)] := by
        rw [← u1]; simp
      obtain ⟨v1, v2⟩ := List.append_inj' u1' rfl
      simp only [List.cons.injEq, and_true] at v2
      rcases hwhich with ⟨-, -, hd1, hd2⟩ | ⟨-, -, hd1, hd2⟩
      · exfalso
        rw [hd1] at v2
        simp only [Prod.mk.injEq] at v2
        exact hPn v2.1.symm
      · subst hd2
        refine ⟨?_, Or.inr (by rw [← u3]; simp)⟩
        rw [hj1', ← v1, ← u3]
        simp
  obtain ⟨hfinal, hproper⟩ := hfinal
  -- `P` lies below `H`
  have hanc : P ∈ hl.addrs ∨ P ∈ hr.addrs := by
    have hsn := @Tree.subAt_replaceAt_new F t _ (Tree.node items.length newE hl hr) H hsH hnfresh
    obtain ⟨qn, hqn⟩ := Repr_subAt hT1 hsn
    simp only [Repr] at hqn
    have key : ∀ arc, hl ≠ Tree.leaf sa arc ∧ hr ≠ Tree.leaf sa arc := by
      intro arc
      constructor
      · intro hh
        rw [hh] at hqn
        have h5 := hqn.2.1
        simp only [Repr] at h5
        unfold parentOf at hP
        rw [h5] at hP
        exact hPn (Option.some.inj hP).symm
      · intro hh
        rw [hh] at hqn
        have h5 := hqn.2.2
        simp only [Repr] at h5
        unfold parentOf at hP
        rw [h5] at hP
        exact hPn (Option.some.inj hP).symm
    rcases hwhich with ⟨-, h2, hd1, hd2⟩ | ⟨-, h2, hd1, hd2⟩
    · right
      rw [hd1] at hT1seq
      obtain ⟨-, -, u3⟩ := split_unique (hT1in.symm.trans hT1seq) (hT1in ▸ hT1nd0)
      cases hr with
      | leaf c arc =>
        simp only [Tree.inorder, List.singleton_append, List.cons.injEq, Prod.mk.injEq,
          ItemData.arc.injEq] at u3
        exact absurd (by rw [u3.1.1, u3.1.2]) (key saArc).2
      | node c e l r =>
        obtain ⟨arc0, rest, hh, -⟩ := Tree.inorder_head_arc l
        simp only [Tree.inorder, hh, List.cons_append, List.cons.injEq] at u3
        cases rest with
        | nil =>
          simp only [List.nil_append, List.cons_append, List.cons.injEq] at u3
          rw [hd2] at u3
          simp only [Prod.mk.injEq] at u3
          rw [h2, ← u3.2.1.1]
          simp [Tree.addrs]
        | cons y rest2 =>
          simp only [List.cons_append, List.cons.injEq] at u3
          have hy : d2 ∈ l.inorder := by
            rw [hh, ← u3.2.1]
            simp
          have hy2 : P ∈ l.inorder.map Prod.fst := by
            rw [hd2, ← h2] at hy
            exact List.mem_map_of_mem Prod.fst hy
          have hy3 := (Tree.inorder_perm l).mem_iff.mp hy2
          simp [Tree.addrs, hy3]
    · left
      rw [hd2] at hT1seq
      have e3 : (t.replaceAt H (Tree.node items.length newE hl hr)).inorder
          = (X ++ [(la, ItemData.arc laArc), d1, (sa, ItemData.arc saArc)])
            ++ (items.length, ItemData.edge newE) :: ((ra, ItemData.arc raArc) :: Y) := by
        rw [hT1seq]; simp
      obtain ⟨u1, -, -⟩ := split_unique (hT1in.symm.trans e3) (hT1in ▸ hT1nd0)
      cases hl with
      | leaf c arc =>
        have u1' : pre ++ [(c, ItemData.arc arc)]
            = (X ++ [(la, ItemData.arc laArc), d1]) ++ [(sa, ItemData.arc saArc)] := by
          simp only [Tree.inorder] at u1
          rw [u1]; simp
        obtain ⟨-, v2⟩ := List.append_inj' u1' rfl
        simp only [List.cons.injEq, Prod.mk.injEq, ItemData.arc.injEq, and_true] at v2
        exact absurd (by rw [v2.1, v2.2]) (key saArc).1
      | node c e l r =>
        obtain ⟨arc0, init, hh, -⟩ := Tree.inorder_last_arc r
        simp only [Tree.inorder, hh] at u1
        rcases List.eq_nil_or_concat init with hi | ⟨init2, y, hi⟩
        · subst hi
          have u1' : (pre ++ l.inorder) ++ [(c, ItemData.edge e), (r.rightmost, ItemData.arc arc0)]
              = (X ++ [(la, ItemData.arc laArc)]) ++ [d1, (sa, ItemData.arc saArc)] := by
            simp only [List.nil_append] at u1
            rw [← List.append_assoc] at u1
            rw [u1]; simp
          obtain ⟨-, v2⟩ := List.append_inj' u1' rfl
          simp only [List.cons.injEq] at v2
          rw [hd1] at v2
          have := v2.1
          simp only [Prod.mk.injEq] at this
          rw [h2, ← this.1]
          simp [Tree.addrs]
        · rw [List.concat_eq_append] at hi
          subst hi
          have u1' : (pre ++ l.inorder ++ (c, ItemData.edge e) :: init2)
                ++ [y, (r.rightmost, ItemData.arc arc0)]
              = (X ++ [(la, ItemData.arc laArc)]) ++ [d1, (sa, ItemData.arc saArc)] := by
            have : pre ++ (l.inorder ++ (c, ItemData.edge e)
                :: (init2 ++ [y] ++ [(r.rightmost, ItemData.arc arc0)]))
                = (pre ++ l.inorder ++ (c, ItemData.edge e) :: init2)
                  ++ [y, (r.rightmost, ItemData.arc arc0)] := by simp
            rw [← this, u1]; simp
          obtain ⟨-, v2⟩ := List.append_inj' u1' rfl
          simp only [List.cons.injEq] at v2
          have hy : d1 ∈ r.inorder := by
            rw [hh, ← v2.1]
            simp
          have hy2 : P ∈ r.inorder.map Prod.fst := by
            rw [hd1, ← h2] at hy
            exact List.mem_map_of_mem Prod.fst hy
          have hy3 := (Tree.inorder_perm r).mem_iff.mp hy2
          simp [Tree.addrs, hy3]
  -- `P` is not the root after stage one
  have hPnotroot : (t.replaceAt H (Tree.node items.length newE hl hr)).addr ≠ P := by
    intro hh
    have := Tree.subAt_self (t.replaceAt H (Tree.node items.length newE hl hr))
    rw [hh, hsP] at this
    simp only [Option.some.injEq] at this
    rw [this] at hj0
    have hlen := congrArg List.length hj0
    simp only [List.length_append] at hlen
    rcases hproper with h | h
    · have := List.length_pos.mpr h
      omega
    · have := List.length_pos.mpr h
      omega
  have hT2nd : ((t.replaceAt H (Tree.node items.length newE hl hr)).replaceAt P S).addrs.Nodup := by
    refine (Tree.inorder_perm _).nodup_iff.mp ?_
    rw [hj1']
    rw [hj0] at hT1nd0
    refine List.Nodup.sublist ?_ hT1nd0
    refine List.Sublist.map _ ?_
    refine List.Sublist.append (List.Sublist.append (List.Sublist.refl _) ?_) (List.Sublist.refl _)
    rcases hsPin with hform | hform
    · rw [hform]
      exact (List.sublist_cons_self _ _).trans (List.sublist_cons_self _ _)
    · rw [hform]
      exact List.sublist_append_left _ _
  refine ⟨X, Y, eL, eR, laArc, raArc, eH, hl, hr, P, S, hin, hfinal, hdL, hdR, hdla, hdra,
    hlam, hram, hsH, ?_, hT2, hT2nd, ?_, ?_, ?_, hanc⟩
  · rcases hwhich with ⟨h1, h2, -⟩ | ⟨h1, h2, -⟩
    · exact Or.inl ⟨h1, h2⟩
    · exact Or.inr ⟨h1, h2⟩
  · rw [Tree.replaceAt_addr, if_neg hPnotroot, Tree.replaceAt_addr]
    rw [Tree.replaceAt_addr] at hPnotroot
    by_cases hrH : t.addr = H
    · rw [if_pos hrH]
      have : root = L ∨ root = R := by
        rw [← hroot, hrH]
        exact hH
      rw [if_pos this]
      rfl
    · rw [if_neg hrH] at hPnotroot ⊢
      have : ¬ (root = L ∨ root = R) := by
        rw [← hroot]
        intro hh
        rcases hwhich with ⟨h1, h2, -⟩ | ⟨h1, h2, -⟩
        · rcases hh with h | h
          · exact hrH (h.trans h1.symm)
          · exact hPnotroot (h.trans h2.symm)
        · rcases hh with h | h
          · exact hPnotroot (h.trans h2.symm)
          · exact hrH (h.trans h1.symm)
      rw [if_neg this, hroot]
  · rw [hlen4, hlen3]
    simp [alloc]
  · intro b hb hbn
    rw [hframe4 b (fun hh => by
      rcases hT1mem b hh with h | h
      · exact hb h
      · exact hbn h), hframe3 b hb hbn]
    rw [deref_alloc, if_neg hbn]

end SpliceTree

section RemoveSteps
variable {F : Type} [LinearOrderedField F]

/-- The steps of `RemoveArcFromBeachline`, when it returns. -/
theorem RemoveArcFromBeachline_eq_some {env : Env F} {m m1 : Mem F} {root root1 evt : Nat}
    {out out1 : List (CompleteEdge F)}
    (h : RemoveArcFromBeachline env m root out evt = some (m1, root1, out1)) :
    ∃ c sa saArc L R la ra le re laArc raArc dir H items2 sa2 ev1 mA,
      validCircleEvent m.events evt = some (c, sa) ∧
      derefArc m.items sa = some saArc ∧ saArc.squeezeEvent = some evt ∧
      squeezeNeighbours m.items sa = some (L, R, la, ra) ∧
      derefEdge m.items L = some le ∧ derefEdge m.items R = some re ∧
      derefArc m.items la = some laArc ∧ derefArc m.items ra = some raArc ∧
      newEdgeDirection env laArc raArc = some dir ∧
      findHigherEdge (alloc m.items
          { data := ItemData.edge ⟨c, dir, false⟩, parent := none, left := none, right := none }) L R (m.items.length + 1) sa none = some (some H) ∧
      spliceOut (alloc m.items
          { data := ItemData.edge ⟨c, dir, false⟩, parent := none, left := none, right := none }) sa L R H m.items.length = some items2 ∧
      root1 = (if root = L ∨ root = R then m.items.length else root) ∧
      derefArc items2 sa = some sa2 ∧ invalidateReplaced m.events sa2.squeezeEvent = some ev1 ∧
      AddArcSqueezeEvent env
        { m with items := free (free (free items2 L) sa) R, events := ev1 } la = some mA ∧
      AddArcSqueezeEvent env mA ra = some m1 ∧
      out1 = out ++ [(squeezeEdges env le re c).1, (squeezeEdges env le re c).2] := by
  unfold RemoveArcFromBeachline at h
  split at h
  · cases h
  rename_i c sa hv
  split at h
  · cases h
  rename_i saArc hsaArc
  by_cases hse : saArc.squeezeEvent = some evt
  swap
  · rw [if_neg hse] at h
    cases h
  rw [if_pos hse] at h
  split at h
  · cases h
  rename_i L R la ra hnb
  split at h
  swap
  · cases h
  rename_i le re hle hre
  split at h
  swap
  · cases h
  rename_i laArc raArc hla hra
  split at h
  · cases h
  rename_i dir hdir
  simp only [CreateEdge] at h
  split at h
  swap
  · cases h
  rename_i H hH
  split at h
  · cases h
  split at h
  · cases h
  rename_i items2 hsp
  split at h
  · cases h
  rename_i mfin hfin
  simp only [Option.some.injEq, Prod.mk.injEq] at h
  obtain ⟨rfl, hr1, ho1⟩ := h
  unfold finishRemoval at hfin
  split at hfin
  swap
  · cases hfin
  simp only at hfin
  split at hfin
  · cases hfin
  rename_i sa2 hsa2
  split at hfin
  · cases hfin
  rename_i ev1 hev1
  split at hfin
  · cases hfin
  rename_i mA hmA
  refine ⟨c, sa, saArc, L, R, la, ra, le, re, laArc, raArc, dir, H, items2, sa2, ev1, mA, hv, hsaArc,
    hse, hnb, hle, hre, hla, hra, hdir, ?_, hsp, hr1.symm, hsa2, hev1, hmA, hfin, ho1.symm⟩
  simpa [alloc] using hH

end RemoveSteps

section RemoveMid
variable {F : Type} [LinearOrderedField F]

omit [LinearOrderedField F] in
/-- The effect of `clearValidAsserted` on the arena of events. -/
theorem clearValidAsserted_eq_some {events ev1 : Events F} {se : Nat}
    (h : clearValidAsserted events se = some ev1) :
    ∃ y ip sa, deref events se = some ⟨y, EventData.edgeIntersect ip sa true⟩ ∧
      ev1 = store events se ⟨y, EventData.edgeIntersect ip sa false⟩ := by
  unfold clearValidAsserted at h
  split at h
  · cases h
  rename_i s hs
  split at h
  · rename_i ip sa hd
    cases h
    refine ⟨s.yCoord, ip, sa, ?_, rfl⟩
    rw [hs]
    cases s
    simp only at hd
    rw [hd]
  · cases h

omit [LinearOrderedField F] in
/-- The effect of `invalidateReplaced` on the arena of events. -/
theorem invalidateReplaced_spec {events ev1 : Events F} {sq : Option Nat}
    (h : invalidateReplaced events sq = some ev1) :
    ev1.length = events.length ∧
    (∀ e, sq ≠ some e → deref ev1 e = deref events e) ∧
    (∀ se, sq = some se → ∃ y ip sa,
      deref events se = some ⟨y, EventData.edgeIntersect ip sa true⟩ ∧
      deref ev1 se = some ⟨y, EventData.edgeIntersect ip sa false⟩) := by
  cases sq with
  | none =>
    simp only [invalidateReplaced, Option.some.injEq] at h
    subst h
    exact ⟨rfl, fun _ _ => rfl, fun se hse => by cases hse⟩
  | some se0 =>
    simp only [invalidateReplaced] at h
    obtain ⟨y, ip, sa, hd, rfl⟩ := clearValidAsserted_eq_some h
    have hlt := deref_lt_length hd
    refine ⟨by simp [store], ?_, ?_⟩
    · intro e he
      exact deref_store_ne _ _ _ _ (fun hh => he (by rw [hh]))
    · intro se hse
      cases hse
      exact ⟨y, ip, sa, hd, deref_store_same _ _ _ hlt⟩

omit [LinearOrderedField F] in
/-- A valid circle event, as a record of the arena. -/
theorem validCircleEvent_eq_some {events : Events F} {evt sa : Nat} {c : Vector2 F}
    (h : validCircleEvent events evt = some (c, sa)) :
    ∃ y, deref events evt = some ⟨y, EventData.edgeIntersect c sa true⟩ := by
  unfold validCircleEvent at h
  split at h
  · cases h
  rename_i s hs
  split at h
  · rename_i ip a hd
    simp only [Option.some.injEq, Prod.mk.injEq] at h
    obtain ⟨rfl, rfl⟩ := h
    refine ⟨s.yCoord, ?_⟩
    rw [hs]
    cases s
    simp only at hd
    rw [hd]
  · cases h

/-- The three entries of an in-order sequence that replace five are none of the three dropped
addresses. -/
theorem spliced_not_dropped {β : Type} {X Y : List (Nat × β)} {a b c d e : Nat × β} {n : Nat}
    {v : β} (hnd : ((X ++ [a, b, c, d, e] ++ Y).map Prod.fst).Nodup)
    (hn : n ∉ (X ++ [a, b, c, d, e] ++ Y).map Prod.fst) :
    ∀ z ∈ (X ++ [a, (n, v), e] ++ Y).map Prod.fst, z ≠ b.1 ∧ z ≠ c.1 ∧ z ≠ d.1 := by
  intro z hz
  simp only [List.map_append, List.map_cons, List.map_nil, List.mem_append, List.mem_cons,
    List.mem_singleton, List.not_mem_nil, or_false, not_or] at hz hn
  simp only [List.map_append, List.map_cons, List.map_nil, List.nodup_append, List.nodup_cons,
    List.mem_cons, List.mem_singleton, List.not_mem_nil, not_or, List.mem_append,
    List.Disjoint, or_false, List.nodup_nil, not_false_eq_true, and_true] at hnd
  obtain ⟨⟨-, hM, hXM⟩, -, hXMY⟩ := hnd
  obtain ⟨⟨-, -, hnb, hnc, hnd2, -⟩, -⟩ := hn
  obtain ⟨⟨hab, hac, had, -⟩, ⟨-, -, hbe⟩, ⟨-, hce⟩, hde⟩ := hM
  rcases hz with (hz | hz | hz | hz) | hz
  · exact ⟨fun h => hXM hz (by simp [h]), fun h => hXM hz (by simp [h]),
      fun h => hXM hz (by simp [h])⟩
  · subst hz
    exact ⟨hab, hac, had⟩
  · subst hz
    exact ⟨hnb, hnc, hnd2⟩
  · subst hz
    exact ⟨fun h => hbe h.symm, fun h => hce h.symm, fun h => hde h.symm⟩
  · exact ⟨fun h => hXMY (by simp [h]) hz, fun h => hXMY (by simp [h]) hz,
      fun h => hXMY (by simp [h]) hz⟩

/-- `RemoveArcFromBeachline` on a well-formed tree, up to the two calls of
`AddArcSqueezeEvent`: the tree after the pointer updates and the three deletions, and the arena
of events after the invalidation of the processed event. -/
theorem RemoveArcFromBeachline_mid {env : Env F} {m m1 : Mem F} {root root1 evt : Nat}
    {out out1 : List (CompleteEdge F)} {t : Tree F} (hwf : WellFormed m.items root t)
    (hleaf : ∀ c sa, validCircleEvent m.events evt = some (c, sa) → ∃ arc, (sa, arc) ∈ t.leaves)
    (hrun : RemoveArcFromBeachline env m root out evt = some (m1, root1, out1)) :
    ∃ c sa saArc L R la ra eL eR laArc raArc dir X Y H P eH hl hr S y t2 mB mA,
      deref m.events evt = some ⟨y, EventData.edgeIntersect c sa true⟩ ∧
      (sa, saArc) ∈ t.leaves ∧ saArc.squeezeEvent = some evt ∧
      squeezeNeighbours m.items sa = some (L, R, la, ra) ∧
      derefEdge m.items L = some eL ∧ derefEdge m.items R = some eR ∧
      (la, laArc) ∈ t.leaves ∧ (ra, raArc) ∈ t.leaves ∧
      newEdgeDirection env laArc raArc = some dir ∧
      t.inorder = X ++ [(la, ItemData.arc laArc), (L, ItemData.edge eL),
        (sa, ItemData.arc saArc), (R, ItemData.edge eR), (ra, ItemData.arc raArc)] ++ Y ∧
      t.subAt H = some (Tree.node H eH hl hr) ∧ ((H = L ∧ P = R) ∨ (H = R ∧ P = L)) ∧
      (P ∈ hl.addrs ∨ P ∈ hr.addrs) ∧
      t2 = (t.replaceAt H (Tree.node m.items.length ⟨c, dir, false⟩ hl hr)).replaceAt P S ∧
      t2.inorder = X ++ [(la, ItemData.arc laArc),
        (m.items.length, ItemData.edge ⟨c, dir, false⟩), (ra, ItemData.arc raArc)] ++ Y ∧
      root1 = (if root = L ∨ root = R then m.items.length else root) ∧
      WellFormed mB.items root1 t2 ∧
      mB.items.length = m.items.length + 1 ∧
      (∀ b, b ∉ t.addrs → b ≠ m.items.length → deref mB.items b = deref m.items b) ∧
      deref mB.items L = none ∧ deref mB.items sa = none ∧ deref mB.items R = none ∧
      mB.events = store m.events evt ⟨y, EventData.edgeIntersect c sa false⟩ ∧
      mB.queue = m.queue ∧ mB.pops = m.pops ∧
      AddArcSqueezeEvent env mB la = some mA ∧ AddArcSqueezeEvent env mA ra = some m1 ∧
      out1 = out ++ [(squeezeEdges env eL eR c).1, (squeezeEdges env eL eR c).2] := by
  obtain ⟨c, sa, saArc, L, R, la, ra, le, re, laArc, raArc, dir, H, items2, sa2, ev1, mA, hv, hsaArc,
    hse, hnb, hle, hre, hla, hra, hdir, hH, hsp, hr1, hsa2, hev1, hmA, hm1, ho1⟩ :=
    RemoveArcFromBeachline_eq_some hrun
  obtain ⟨arc0, hsa0⟩ := hleaf c sa hv
  have hwf0 := hwf
  obtain ⟨hroot, hrepr, hnd⟩ := hwf
  have harc0 := Repr_leaf_arc hrepr hnd hsa0
  rw [hsaArc] at harc0
  have harcEq : saArc = arc0 := Option.some.inj harc0
  subst harcEq
  have hlt := Repr_lt_length hrepr
  have hHLR : H = L ∨ H = R := by
    rcases findHigherEdge_mem _ _ _ hH with h | h | h
    · exact Or.inl h
    · exact Or.inr h
    · cases h
  obtain ⟨X, Y, eL, eR, laArc1, raArc1, eH, hl, hr, P, S, hin, hfin, hdL, hdR, hdla, hdra,
    hlam, hram, hsH, hwhich, hT2, hT2nd, hT2root, hlen2, hframe2, hanc⟩ :=
    spliceOut_tree hwf0 hsa0 hnb hHLR hsp
  rw [hla] at hdla
  have e1 : laArc = laArc1 := Option.some.inj hdla
  subst e1
  rw [hra] at hdra
  have e2 : raArc = raArc1 := Option.some.inj hdra
  subst e2
  rw [hle] at hdL
  have e3 : le = eL := Option.some.inj hdL
  subst e3
  rw [hre] at hdR
  have e4 : re = eR := Option.some.inj hdR
  subst e4
  -- the record of the squeezed arc after the pointer updates
  have hsalt : sa < m.items.length := hlt _ (Tree.leaves_addr_mem hsa0)
  have hsa2' : saArc = sa2 := by
    have h1 : derefArc items2 sa = derefArc m.items sa := by
      rw [derefArc_eq_dataAt, derefArc_eq_dataAt, (spliceOut_frame hsp).2, dataAt_alloc_lt _ _ hsalt]
    rw [h1, hsaArc] at hsa2
    exact Option.some.inj hsa2
  subst hsa2'
  -- the invalidation
  rw [hse] at hev1
  simp only [invalidateReplaced] at hev1
  obtain ⟨y, ip, sa', hd, rfl⟩ := clearValidAsserted_eq_some hev1
  obtain ⟨y', hd'⟩ := validCircleEvent_eq_some hv
  rw [hd] at hd'
  simp only [Option.some.injEq, SweepEvent.mk.injEq, EventData.edgeIntersect.injEq,
    and_true] at hd'
  obtain ⟨rfl, rfl, rfl⟩ := hd'
  -- the dropped addresses
  have hind := Tree.inorder_nodup t hnd
  have hnfresh : m.items.length ∉ t.addrs := fun hh => absurd (hlt _ hh) (lt_irrefl _)
  have hnin : m.items.length ∉ t.inorder.map Prod.fst := fun hh =>
    hnfresh ((Tree.inorder_perm t).mem_iff.mp hh)
  have hdrop := spliced_not_dropped (n := m.items.length)
    (v := ItemData.edge (⟨ip, dir, false⟩ : Edge F)) (hin ▸ hind) (hin ▸ hnin)
  rw [← hfin] at hdrop
  have hdrop2 : ∀ z ∈ ((t.replaceAt H (Tree.node m.items.length ⟨ip, dir, false⟩ hl hr)).replaceAt
      P S).addrs, z ≠ L ∧ z ≠ sa' ∧ z ≠ R :=
    fun z hz => hdrop z ((Tree.inorder_perm _).mem_iff.mpr hz)
  have hLt : L ∈ t.addrs := by
    refine (Tree.inorder_perm t).mem_iff.mp ?_
    rw [hin]; simp
  have hRt : R ∈ t.addrs := by
    refine (Tree.inorder_perm t).mem_iff.mp ?_
    rw [hin]; simp
  refine ⟨ip, sa', saArc, L, R, la, ra, le, re, laArc, raArc, dir, X, Y, H, P, eH, hl, hr, S, y,
    _, { m with items := free (free (free items2 L) sa') R,
                events := store m.events evt ⟨y, EventData.edgeIntersect ip sa' false⟩ }, mA,
    hd, hsa0, hse, hnb, hle, hre, hlam, hram, hdir, hin, hsH, hwhich, hanc, rfl, hfin, hr1,
    ⟨?_, ?_, hT2nd⟩, ?_, ?_, ?_, ?_, ?_, rfl, rfl, rfl, hmA, hm1, ho1⟩
  · rw [hT2root, hr1]
  · refine Repr_congr ?_ hT2
    intro a ha
    obtain ⟨h1, h2, h3⟩ := hdrop2 a ha
    rw [deref_free_ne _ _ _ (Ne.symm h3), deref_free_ne _ _ _ (Ne.symm h2),
      deref_free_ne _ _ _ (Ne.symm h1)]
  · simp [hlen2]
  · intro b hb hbn
    have h1 : b ≠ L := fun h => hb (h ▸ hLt)
    have h2 : b ≠ sa' := fun h => hb (h ▸ Tree.leaves_addr_mem hsa0)
    have h3 : b ≠ R := fun h => hb (h ▸ hRt)
    simp only
    rw [deref_free_ne _ _ _ (Ne.symm h3), deref_free_ne _ _ _ (Ne.symm h2),
      deref_free_ne _ _ _ (Ne.symm h1)]
    exact hframe2 b hb hbn
  · simp only
    have hLs : L ≠ sa' := by
      have := hind
      rw [hin] at this
      intro hh
      simp [hh, List.nodup_append] at this
    have hLR : L ≠ R := by
      have := hind
      rw [hin] at this
      intro hh
      simp [hh, List.nodup_append] at this
    rw [deref_free_ne _ _ _ (Ne.symm hLR), deref_free_ne _ _ _ (Ne.symm hLs)]
    exact deref_free_same _ _
  · simp only
    have hsR : sa' ≠ R := by
      have := hind
      rw [hin] at this
      intro hh
      simp [hh, List.nodup_append] at this
    rw [deref_free_ne _ _ _ (Ne.symm hsR)]
    exact deref_free_same _ _
  · exact deref_free_same _ _

end RemoveMid

section SqueezeInv
variable {F : Type} [LinearOrderedField F]

omit [LinearOrderedField F] in
theorem Tree.leftmost_replaceLeaf (t : Tree F) (x : Nat) (sub : Tree F) :
    (t.replaceLeaf x sub).leftmost = if t.leftmost = x then sub.leftmost else t.leftmost := by
  induction t with
  | leaf a arc =>
    simp only [Tree.replaceLeaf, Tree.leftmost]
    split_ifs <;> rfl
  | node a e l r ihl _ =>
    simp only [Tree.replaceLeaf, Tree.leftmost]
    exact ihl

omit [LinearOrderedField F] in
theorem Tree.rightmost_replaceLeaf (t : Tree F) (x : Nat) (sub : Tree F) :
    (t.replaceLeaf x sub).rightmost = if t.rightmost = x then sub.rightmost else t.rightmost := by
  induction t with
  | leaf a arc =>
    simp only [Tree.replaceLeaf, Tree.rightmost]
    split_ifs <;> rfl
  | node a e l r _ ihr =>
    simp only [Tree.replaceLeaf, Tree.rightmost]
    exact ihr

omit [LinearOrderedField F] in
theorem Tree.replaceLeaf_self (t : Tree F) (hnd : t.addrs.Nodup) {x : Nat} {a : Arc F}
    (hl : (x, a) ∈ t.leaves) : t.replaceLeaf x (Tree.leaf x a) = t := by
  induction t with
  | leaf b arc =>
    simp only [Tree.leaves, List.mem_singleton, Prod.mk.injEq] at hl
    obtain ⟨rfl, rfl⟩ := hl
    simp [Tree.replaceLeaf]
  | node b e l r ihl ihr =>
    simp only [Tree.addrs, List.nodup_cons, List.nodup_append, List.mem_append, not_or] at hnd
    obtain ⟨-, hl1, hr1, hdis⟩ := hnd
    simp only [Tree.leaves, List.mem_append] at hl
    simp only [Tree.replaceLeaf]
    rcases hl with h | h
    · rw [ihl hl1 h, Tree.replaceLeaf_of_not_mem r x _
        (fun hh => hdis (Tree.leaves_addr_mem h) hh)]
    · rw [ihr hr1 h, Tree.replaceLeaf_of_not_mem l x _
        (fun hh => hdis hh (Tree.leaves_addr_mem h))]

omit [LinearOrderedField F] in
/-- An address is the address of at most one leaf. -/
theorem leaves_unique {items : Items F} {p : Option Nat} {t : Tree F} (h : Repr items p t)
    (hnd : t.addrs.Nodup) {x : Nat} {a b : Arc F} (ha : (x, a) ∈ t.leaves)
    (hb : (x, b) ∈ t.leaves) : a = b := by
  have h1 := Repr_leaf_arc h hnd ha
  have h2 := Repr_leaf_arc h hnd hb
  rw [h1] at h2
  exact Option.some.inj h2

omit [LinearOrderedField F] in
/-- The addresses of the leaves of a tree without repeated addresses are distinct. -/
theorem Tree.leaves_nodup (t : Tree F) (hnd : t.addrs.Nodup) :
    (t.leaves.map Prod.fst).Nodup := by
  rw [Tree.leaves_eq_inorder]
  have := Tree.inorder_nodup t hnd
  refine List.Nodup.sublist ?_ this
  clear * -
  induction t.inorder with
  | nil => simp
  | cons hd tl ih =>
    cases hd with
    | mk u d =>
      cases d with
      | arc ar =>
        simp only [List.filterMap_cons, ItemData.arc?, Option.map_some', List.map_cons]
        exact ih.cons₂ _
      | edge ed =>
        simp only [List.filterMap_cons, ItemData.arc?, Option.map_none', List.map_cons]
        exact ih.cons _

omit [LinearOrderedField F] in
/-- The leaves of a tree in which the record of one leaf is replaced. -/
theorem mem_leaves_replaceLeaf {t : Tree F} (hnd : t.addrs.Nodup) {x : Nat} {a b : Arc F}
    (hl : (x, a) ∈ t.leaves) (z : Nat × Arc F) :
    z ∈ (t.replaceLeaf x (Tree.leaf x b)).leaves ↔ (z = (x, b) ∨ (z ∈ t.leaves ∧ z.1 ≠ x)) := by
  obtain ⟨pre, post, h1, h2⟩ := Tree.replaceLeaf_leaves t hnd x a hl
  rw [h2, h1]
  simp only [Tree.leaves, List.mem_append, List.mem_singleton]
  have hpre : ∀ w, w ∈ pre → w.1 ≠ x := by
    intro w hw hwx
    have hnd2 := Tree.leaves_nodup t hnd
    rw [h1] at hnd2
    simp only [List.map_append, List.map_cons, List.map_nil, List.nodup_append,
      List.nodup_cons] at hnd2
    have hd := hnd2.1.2.2
    exact hd (List.mem_map_of_mem Prod.fst hw) (by simp [hwx])
  have hpost : ∀ w, w ∈ post → w.1 ≠ x := by
    intro w hw hwx
    have hnd2 := Tree.leaves_nodup t hnd
    rw [h1] at hnd2
    simp only [List.map_append, List.map_cons, List.map_nil, List.nodup_append,
      List.nodup_cons] at hnd2
    have hd := hnd2.2.2
    exact @hd x (by simp) (by rw [← hwx]; exact List.mem_map_of_mem Prod.fst hw)
  constructor
  · rintro ((hz | hz) | hz)
    · exact Or.inr ⟨Or.inl (Or.inl hz), hpre z hz⟩
    · exact Or.inl hz
    · exact Or.inr ⟨Or.inr hz, hpost z hz⟩
  · rintro (hz | ⟨(hz | hz) | hz, hne⟩)
    · exact Or.inl (Or.inr hz)
    · exact Or.inl (Or.inl hz)
    · exact absurd (by rw [hz]) hne
    · exact Or.inr hz

omit [LinearOrderedField F] in
theorem Tree.subAt_leaf {t : Tree F} (hnd : t.addrs.Nodup) {x : Nat} {a : Arc F}
    (hl : (x, a) ∈ t.leaves) : t.subAt x = some (Tree.leaf x a) := by
  induction t with
  | leaf b arc =>
    simp only [Tree.leaves, List.mem_singleton, Prod.mk.injEq] at hl
    obtain ⟨rfl, rfl⟩ := hl
    simp [Tree.subAt]
  | node b e l r ihl ihr =>
    simp only [Tree.addrs, List.nodup_cons, List.nodup_append, List.mem_append, not_or] at hnd
    obtain ⟨hb, hl1, hr1, hdis⟩ := hnd
    simp only [Tree.leaves, List.mem_append] at hl
    rcases hl with h | h
    · have hne : b ≠ x := fun hh => hb.1 (hh ▸ Tree.leaves_addr_mem h)
      simp [Tree.subAt, hne, ihl hl1 h]
    · have hne : b ≠ x := fun hh => hb.2 (hh ▸ Tree.leaves_addr_mem h)
      have hxl : x ∉ l.addrs := fun hh => hdis hh (Tree.leaves_addr_mem h)
      simp [Tree.subAt, hne, ihr hr1 h, Tree.subAt_eq_none hxl]

omit [LinearOrderedField F] in
theorem Tree.replaceLeaf_eq_replaceAt {t : Tree F} (hnd : t.addrs.Nodup) {x : Nat} {a : Arc F}
    (hl : (x, a) ∈ t.leaves) (sub : Tree F) : t.replaceLeaf x sub = t.replaceAt x sub := by
  induction t with
  | leaf b arc => simp [Tree.replaceLeaf, Tree.replaceAt]
  | node b e l r ihl ihr =>
    simp only [Tree.addrs, List.nodup_cons, List.nodup_append, List.mem_append, not_or] at hnd
    obtain ⟨hb, hl1, hr1, hdis⟩ := hnd
    simp only [Tree.leaves, List.mem_append] at hl
    rcases hl with h | h
    · have hne : b ≠ x := fun hh => hb.1 (hh ▸ Tree.leaves_addr_mem h)
      have hxr : x ∉ r.addrs := fun hh => hdis (Tree.leaves_addr_mem h) hh
      simp only [Tree.replaceLeaf, Tree.replaceAt, if_neg hne, ihl hl1 h,
        Tree.replaceLeaf_of_not_mem r x sub hxr, Tree.replaceAt_of_not_mem r x sub hxr]
    · have hne : b ≠ x := fun hh => hb.2 (hh ▸ Tree.leaves_addr_mem h)
      have hxl : x ∉ l.addrs := fun hh => hdis hh (Tree.leaves_addr_mem h)
      simp only [Tree.replaceLeaf, Tree.replaceAt, if_neg hne, ihr hr1 h,
        Tree.replaceLeaf_of_not_mem l x sub hxl, Tree.replaceAt_of_not_mem l x sub hxl]

omit [LinearOrderedField F] in
/-- The in-order sequence of a tree in which the record of one leaf is replaced. -/
theorem Tree.inorder_replaceLeaf_leaf {t : Tree F} (hnd : t.addrs.Nodup) {x : Nat} {a b : Arc F}
    (hl : (x, a) ∈ t.leaves) {A B : List (Nat × ItemData F)} {d : ItemData F}
    (h : t.inorder = A ++ (x, d) :: B) :
    d = ItemData.arc a ∧
    (t.replaceLeaf x (Tree.leaf x b)).inorder = A ++ (x, ItemData.arc b) :: B := by
  rw [Tree.replaceLeaf_eq_replaceAt hnd hl]
  obtain ⟨pre, post, h1, h2⟩ := Tree.inorder_replaceAt t hnd (Tree.subAt_leaf hnd hl)
  simp only [Tree.inorder] at h1
  have h1' : t.inorder = pre ++ (x, ItemData.arc a) :: post := by
    rw [h1]; simp
  obtain ⟨u1, u2, u3⟩ := split_unique (h.symm.trans h1') (h ▸ Tree.inorder_nodup t hnd)
  refine ⟨u2, ?_⟩
  rw [h2, u1, u3]
  simp [Tree.inorder]

omit [LinearOrderedField F] in
theorem Tree.leftmost_of_inorder {t : Tree F} {x : Nat} {d : ItemData F}
    {B : List (Nat × ItemData F)} (h : t.inorder = (x, d) :: B) : t.leftmost = x := by
  obtain ⟨arc, rest, h1, -⟩ := Tree.inorder_head_arc t
  rw [h1] at h
  simp only [List.cons.injEq, Prod.mk.injEq] at h
  exact h.1.1

omit [LinearOrderedField F] in
theorem Tree.rightmost_of_inorder {t : Tree F} {x : Nat} {d : ItemData F}
    {A : List (Nat × ItemData F)} (h : t.inorder = A ++ [(x, d)]) : t.rightmost = x := by
  obtain ⟨arc, init, h1, -⟩ := Tree.inorder_last_arc t
  rw [h1] at h
  obtain ⟨-, h2⟩ := List.append_inj' h rfl
  simp only [List.cons.injEq, Prod.mk.injEq, and_true] at h2
  exact h2.1

/-- One call of `AddArcSqueezeEvent` for an arc leaf keeps the tree well formed and keeps the
link between arcs and circle events; the only record of the tree that may change is that of the
arc, whose focus stays. -/
theorem AddArcSqueezeEvent_inv {env : Env F} {m m1 : Mem F} {root : Nat} {t : Tree F} {arc : Nat}
    {a : Arc F} (hwf : WellFormed m.items root t)
    (hl : (arc, a) ∈ t.leaves) (h : AddArcSqueezeEvent env m arc = some m1) :
    ∃ a1 : Arc F, a1.focus = a.focus ∧
      WellFormed m1.items root (t.replaceLeaf arc (Tree.leaf arc a1)) ∧
      (EventsInv m.events t → EventsInv m1.events (t.replaceLeaf arc (Tree.leaf arc a1))) ∧
      m1.items.length = m.items.length ∧
      (∀ b, b ≠ arc → deref m1.items b = deref m.items b) ∧
      (∀ e y V b, deref m.events e = some ⟨y, EventData.edgeIntersect V b false⟩ →
        deref m1.events e = some ⟨y, EventData.edgeIntersect V b false⟩) := by
  obtain ⟨hroot, hrepr, hnd⟩ := hwf
  rcases AddArcSqueezeEvent_on_leaf hrepr hnd hl h with rfl |
    ⟨L, R, V, c, hL, hR, hc, hrepr1, hlen, hframe, hq, hpops, hevlen, hnew, hold⟩
  · refine ⟨a, rfl, ?_, ?_, rfl, fun _ _ => rfl, fun _ _ _ _ hh => hh⟩
    · rw [Tree.replaceLeaf_self t hnd hl]
      exact ⟨hroot, hrepr, hnd⟩
    · rw [Tree.replaceLeaf_self t hnd hl]
      exact fun hinv => hinv
  have hwf : WellFormed m.items root t := ⟨hroot, hrepr, hnd⟩
  have hmem := fun z => mem_leaves_replaceLeaf hnd hl
    (b := { a with squeezeEvent := some m.events.length }) z
  have hstale : ∀ e y V b, deref m.events e = some ⟨y, EventData.edgeIntersect V b false⟩ →
      deref m1.events e = some ⟨y, EventData.edgeIntersect V b false⟩ := by
    intro e y V2 b hd
    have helt := deref_lt_length hd
    rcases hold with ⟨-, hsame⟩ | ⟨se, y3, ip, sa, v, hase, hdse, -, hdse1, hsame⟩
    · rw [hsame e helt, hd]
    · by_cases hne2 : e = se
      · subst hne2
        rw [hdse] at hd
        simp only [Option.some.injEq, SweepEvent.mk.injEq, EventData.edgeIntersect.injEq] at hd
        obtain ⟨rfl, rfl, rfl, rfl⟩ := hd
        exact hdse1
      · rw [hsame e hne2 helt, hd]
  refine ⟨{ a with squeezeEvent := some m.events.length }, rfl, ⟨?_, hrepr1, ?_⟩,
    fun hinv => ⟨?_, ?_⟩, hlen, hframe, hstale⟩
  · rw [Tree.replaceLeaf_addr t arc _ hnd hl]
    split_ifs with hra
    · rw [← hroot, hra]
      rfl
    · exact hroot
  · have hp := Tree.replaceLeaf_addrs_perm t arc
      (Tree.leaf arc { a with squeezeEvent := some m.events.length }) hnd hl
    refine hp.nodup_iff.mpr ?_
    have hp2 : (t.addrs.erase arc ++ [arc]).Perm t.addrs := by
      refine (List.perm_append_comm).trans ?_
      exact (List.perm_cons_erase (Tree.leaves_addr_mem hl)).symm
    exact hp2.nodup_iff.mpr hnd
  · -- the event of every leaf is live, valid and references the leaf
    intro b arcb e hb hbe
    rcases (hmem (b, arcb)).mp hb with hz | ⟨hz, hne⟩
    · simp only [Prod.mk.injEq] at hz
      obtain ⟨rfl, rfl⟩ := hz
      simp only [Option.some.injEq] at hbe
      subst hbe
      exact ⟨c, V, hnew⟩
    · simp only at hne
      obtain ⟨y, V2, hd⟩ := hinv.1 b arcb e hz hbe
      have helt := deref_lt_length hd
      refine ⟨y, V2, ?_⟩
      rcases hold with ⟨-, hsame⟩ | ⟨se, y3, ip, sa, v, hase, hdse, -, -, hsame⟩
      · rw [hsame e helt, hd]
      · have hne2 : e ≠ se := by
          rintro rfl
          obtain ⟨y4, V4, hd4⟩ := hinv.1 arc a e hl hase
          rw [hd] at hd4
          simp only [Option.some.injEq, SweepEvent.mk.injEq, EventData.edgeIntersect.injEq,
            and_true] at hd4
          exact hne hd4.2.2
        rw [hsame e hne2 helt, hd]
  · -- every live, valid circle event references an inner leaf
    intro e y V2 b hd
    rw [Tree.leftmost_replaceLeaf, Tree.rightmost_replaceLeaf]
    have hlm : (if t.leftmost = arc
        then (Tree.leaf arc { a with squeezeEvent := some m.events.length }).leftmost
        else t.leftmost) = t.leftmost := by
      split_ifs with hh
      · exact hh.symm
      · rfl
    have hrm : (if t.rightmost = arc
        then (Tree.leaf arc { a with squeezeEvent := some m.events.length }).rightmost
        else t.rightmost) = t.rightmost := by
      split_ifs with hh
      · exact hh.symm
      · rfl
    rw [hlm, hrm]
    have helt := deref_lt_length hd
    rw [hevlen] at helt
    rcases Nat.lt_succ_iff_lt_or_eq.mp helt with hlt | heq
    · -- an old event
      have hdold : deref m.events e = some ⟨y, EventData.edgeIntersect V2 b true⟩ ∧
          a.squeezeEvent ≠ some e := by
        rcases hold with ⟨hnone, hsame⟩ | ⟨se, y3, ip, sa, v, hase, hdse, -, hdse1, hsame⟩
        · rw [hsame e hlt] at hd
          refine ⟨hd, ?_⟩
          rw [hnone]
          simp
        · by_cases hne2 : e = se
          · subst hne2
            rw [hdse1] at hd
            simp at hd
          · rw [hsame e hne2 hlt] at hd
            refine ⟨hd, ?_⟩
            rw [hase]
            intro hh
            exact hne2 (Option.some.inj hh).symm
      obtain ⟨arcb, hbl, hbe, hb1, hb2⟩ := hinv.2 e y V2 b hdold.1
      have hbne : b ≠ arc := by
        rintro rfl
        have := leaves_unique hrepr hnd hbl hl
        subst this
        exact hdold.2 hbe
      exact ⟨arcb, (hmem (b, arcb)).mpr (Or.inr ⟨hbl, hbne⟩), hbe, hb1, hb2⟩
    · -- the new event
      subst heq
      rw [hnew] at hd
      simp only [Option.some.injEq, SweepEvent.mk.injEq, EventData.edgeIntersect.injEq,
        and_true] at hd
      obtain ⟨-, -, rfl⟩ := hd
      exact ⟨_, (hmem _).mpr (Or.inl rfl), rfl, ne_leftmost_of_left_edge hwf hL,
        ne_rightmost_of_right_edge hwf hR⟩

omit [LinearOrderedField F] in
theorem Tree.leaf_of_inorder {t : Tree F} {x : Nat} {a : Arc F}
    (h : (x, ItemData.arc a) ∈ t.inorder) : (x, a) ∈ t.leaves := by
  rw [Tree.leaves_eq_inorder, List.mem_filterMap]
  exact ⟨_, h, by simp [ItemData.arc?]⟩

omit [LinearOrderedField F] in
/-- The leaves, the leftmost and the rightmost leaf of a tree whose in-order sequence is that
of another tree with an edge, an arc and an edge replaced by one edge. -/
theorem spliced_leaves {t t2 : Tree F} {X Y : List (Nat × ItemData F)} {la L sa R ra n : Nat}
    {laArc saArc raArc : Arc F} {eL eR eN : Edge F}
    (hin : t.inorder = X ++ [(la, ItemData.arc laArc), (L, ItemData.edge eL),
      (sa, ItemData.arc saArc), (R, ItemData.edge eR), (ra, ItemData.arc raArc)] ++ Y)
    (hin2 : t2.inorder = X ++ [(la, ItemData.arc laArc), (n, ItemData.edge eN),
      (ra, ItemData.arc raArc)] ++ Y)
    (hsa2 : sa ∉ t2.addrs) :
    (∀ z, z ∈ t2.leaves ↔ (z ∈ t.leaves ∧ z.1 ≠ sa)) ∧
    t2.leftmost = t.leftmost ∧ t2.rightmost = t.rightmost := by
  refine ⟨?_, ?_, ?_⟩
  · intro z
    have h1 : t.leaves = X.filterMap (fun x => x.2.arc?.map (fun a => (x.1, a)))
        ++ [(la, laArc), (sa, saArc), (ra, raArc)]
        ++ Y.filterMap (fun x => x.2.arc?.map (fun a => (x.1, a))) := by
      rw [Tree.leaves_eq_inorder, hin]
      simp [List.filterMap_append, ItemData.arc?]
    have h2 : t2.leaves = X.filterMap (fun x => x.2.arc?.map (fun a => (x.1, a)))
        ++ [(la, laArc), (ra, raArc)]
        ++ Y.filterMap (fun x => x.2.arc?.map (fun a => (x.1, a))) := by
      rw [Tree.leaves_eq_inorder, hin2]
      simp [List.filterMap_append, ItemData.arc?]
    constructor
    · intro hz
      refine ⟨?_, fun hh => hsa2 (hh ▸ @Tree.leaves_addr_mem F t2 z.1 z.2 hz)⟩
      rw [h2] at hz
      rw [h1]
      simp only [List.mem_append, List.mem_cons, List.mem_singleton, List.not_mem_nil,
        or_false] at hz ⊢
      tauto
    · rintro ⟨hz, hne⟩
      rw [h1] at hz
      rw [h2]
      simp only [List.mem_append, List.mem_cons, List.mem_singleton, List.not_mem_nil,
        or_false] at hz ⊢
      rcases hz with (hz | hz | hz | hz) | hz
      · exact Or.inl (Or.inl hz)
      · exact Or.inl (Or.inr (Or.inl hz))
      · exact absurd (by rw [hz]) hne
      · exact Or.inl (Or.inr (Or.inr hz))
      · exact Or.inr hz
  · cases X with
    | nil =>
      rw [Tree.leftmost_of_inorder (by rw [hin2]; rfl), Tree.leftmost_of_inorder (by rw [hin]; rfl)]
    | cons x X1 =>
      rw [Tree.leftmost_of_inorder (by rw [hin2]; rfl), Tree.leftmost_of_inorder (by rw [hin]; rfl)]
  · rcases List.eq_nil_or_concat Y with rfl | ⟨Y1, y, rfl⟩
    · rw [Tree.rightmost_of_inorder (x := ra) (d := ItemData.arc raArc)
          (A := X ++ [(la, ItemData.arc laArc), (n, ItemData.edge eN)])
          (by rw [hin2]; simp),
        Tree.rightmost_of_inorder (x := ra) (d := ItemData.arc raArc)
          (A := X ++ [(la, ItemData.arc laArc), (L, ItemData.edge eL),
          (sa, ItemData.arc saArc), (R, ItemData.edge eR)]) (by rw [hin]; simp)]
    · rw [List.concat_eq_append] at hin hin2
      rw [Tree.rightmost_of_inorder (x := y.1) (d := y.2)
          (A := X ++ [(la, ItemData.arc laArc), (n, ItemData.edge eN),
            (ra, ItemData.arc raArc)] ++ Y1) (by rw [hin2]; simp),
        Tree.rightmost_of_inorder (x := y.1) (d := y.2)
          (A := X ++ [(la, ItemData.arc laArc), (L, ItemData.edge eL),
          (sa, ItemData.arc saArc), (R, ItemData.edge eR), (ra, ItemData.arc raArc)] ++ Y1)
          (by rw [hin]; simp)]

/-- `RemoveArcFromBeachline` on a well-formed tree, when it returns: the tree afterwards, its
in-order sequence, and the link between arcs and circle events. -/
theorem RemoveArcFromBeachline_tree {env : Env F} {m m1 : Mem F} {root root1 evt : Nat}
    {out out1 : List (CompleteEdge F)} {t : Tree F} (hwf : WellFormed m.items root t)
    (hleaf : ∀ c sa, validCircleEvent m.events evt = some (c, sa) → ∃ arc, (sa, arc) ∈ t.leaves)
    (hrun : RemoveArcFromBeachline env m root out evt = some (m1, root1, out1)) :
    ∃ c sa saArc L R la ra eL eR laArc raArc dir X Y H P eH hl hr S y t2 la1 ra1 t1,
      deref m.events evt = some ⟨y, EventData.edgeIntersect c sa true⟩ ∧
      (sa, saArc) ∈ t.leaves ∧ saArc.squeezeEvent = some evt ∧
      squeezeNeighbours m.items sa = some (L, R, la, ra) ∧
      derefEdge m.items L = some eL ∧ derefEdge m.items R = some eR ∧
      (la, laArc) ∈ t.leaves ∧ (ra, raArc) ∈ t.leaves ∧
      newEdgeDirection env laArc raArc = some dir ∧
      t.inorder = X ++ [(la, ItemData.arc laArc), (L, ItemData.edge eL),
        (sa, ItemData.arc saArc), (R, ItemData.edge eR), (ra, ItemData.arc raArc)] ++ Y ∧
      t.subAt H = some (Tree.node H eH hl hr) ∧ ((H = L ∧ P = R) ∨ (H = R ∧ P = L)) ∧
      (P ∈ hl.addrs ∨ P ∈ hr.addrs) ∧
      t2 = (t.replaceAt H (Tree.node m.items.length ⟨c, dir, false⟩ hl hr)).replaceAt P S ∧
      la1.focus = laArc.focus ∧ ra1.focus = raArc.focus ∧
      t1 = (t2.replaceLeaf la (Tree.leaf la la1)).replaceLeaf ra (Tree.leaf ra ra1) ∧
      t1.inorder = X ++ [(la, ItemData.arc la1),
        (m.items.length, ItemData.edge ⟨c, dir, false⟩), (ra, ItemData.arc ra1)] ++ Y ∧
      root1 = (if root = L ∨ root = R then m.items.length else root) ∧
      WellFormed m1.items root1 t1 ∧
      m1.items.length = m.items.length + 1 ∧
      (EventsInv m.events t → EventsInv m1.events t1) ∧
      deref m1.events evt = some ⟨y, EventData.edgeIntersect c sa false⟩ ∧
      out1 = out ++ [(squeezeEdges env eL eR c).1, (squeezeEdges env eL eR c).2] := by
  obtain ⟨c, sa, saArc, L, R, la, ra, eL, eR, laArc, raArc, dir, X, Y, H, P, eH, hl, hr, S, y,
    t2, mB, mA, hd, hsa, hse, hnb, hdL, hdR, hlam, hram, hdir, hin, hsH, hwhich, hanc, ht2, hin2,
    hr1, hwfB, hlenB, hframeB, hBL, hBsa, hBR, hBev, hBq, hBp, hmA, hm1, ho1⟩ :=
    RemoveArcFromBeachline_mid hwf hleaf hrun
  obtain ⟨hroot, hrepr, hnd⟩ := hwf
  have hind := Tree.inorder_nodup t hnd
  have hsa2 : sa ∉ t2.addrs := by
    intro hh
    obtain ⟨rec, hrec⟩ := Repr_deref_isSome hwfB.2.1 hh
    rw [hBsa] at hrec
    cases hrec
  obtain ⟨hlv, hlm, hrm⟩ := spliced_leaves hin hin2 hsa2
  have hlaB : (la, laArc) ∈ t2.leaves :=
    Tree.leaf_of_inorder (by rw [hin2]; simp)
  have hraB : (ra, raArc) ∈ t2.leaves :=
    Tree.leaf_of_inorder (by rw [hin2]; simp)
  have hlara : ra ≠ la := by
    have := hind
    rw [hin] at this
    intro hh
    simp [hh, List.nodup_append] at this
  -- the first call
  obtain ⟨la1, hla1, hwfA, hinvA, hlenA, hframeA, hstaleA⟩ := AddArcSqueezeEvent_inv hwfB hlaB hmA
  have hraA : (ra, raArc) ∈ (t2.replaceLeaf la (Tree.leaf la la1)).leaves :=
    (mem_leaves_replaceLeaf hwfB.2.2 hlaB _).mpr (Or.inr ⟨hraB, hlara⟩)
  -- the second call
  obtain ⟨ra1, hra1, hwf1, hinv1, hlen1, hframe1, hstale1⟩ := AddArcSqueezeEvent_inv hwfA hraA hm1
  have hinA : (t2.replaceLeaf la (Tree.leaf la la1)).inorder
      = X ++ (la, ItemData.arc la1) :: ((m.items.length, ItemData.edge ⟨c, dir, false⟩)
          :: (ra, ItemData.arc raArc) :: Y) :=
    (Tree.inorder_replaceLeaf_leaf hwfB.2.2 hlaB (b := la1) (A := X) (d := ItemData.arc laArc)
      (by rw [hin2]; simp)).2
  have hin1 : ((t2.replaceLeaf la (Tree.leaf la la1)).replaceLeaf ra (Tree.leaf ra ra1)).inorder
      = (X ++ [(la, ItemData.arc la1), (m.items.length, ItemData.edge ⟨c, dir, false⟩)])
          ++ (ra, ItemData.arc ra1) :: Y :=
    (Tree.inorder_replaceLeaf_leaf hwfA.2.2 hraA (b := ra1) (d := ItemData.arc raArc)
      (by rw [hinA]; simp)).2
  have hevlt : evt < m.events.length := deref_lt_length hd
  refine ⟨c, sa, saArc, L, R, la, ra, eL, eR, laArc, raArc, dir, X, Y, H, P, eH, hl, hr, S, y,
    t2, la1, ra1, _, hd, hsa, hse, hnb, hdL, hdR, hlam, hram, hdir, hin, hsH, hwhich, hanc, ht2,
    hla1, hra1, rfl, ?_, hr1, hwf1, ?_, ?_, ?_, ho1⟩
  · rw [hin1]; simp
  · rw [hlen1, hlenA, hlenB]
  · intro hinv
    refine hinv1 (hinvA ⟨?_, ?_⟩)
    · intro b arcb e hb hbe
      obtain ⟨hbt, hbne⟩ := (hlv (b, arcb)).mp hb
      obtain ⟨y2, V2, hd2⟩ := hinv.1 b arcb e hbt hbe
      refine ⟨y2, V2, ?_⟩
      have hne : evt ≠ e := by
        rintro rfl
        rw [hd] at hd2
        simp only [Option.some.injEq, SweepEvent.mk.injEq, EventData.edgeIntersect.injEq,
          and_true] at hd2
        exact hbne hd2.2.2.symm
      rw [hBev, deref_store_ne _ _ _ _ hne, hd2]
    · intro e y2 V2 b hd2
      rw [hlm, hrm]
      have hne : evt ≠ e := by
        rintro rfl
        rw [hBev, deref_store_same _ _ _ hevlt] at hd2
        simp at hd2
      rw [hBev, deref_store_ne _ _ _ _ hne] at hd2
      obtain ⟨arcb, hbl, hbe, hb1, hb2⟩ := hinv.2 e y2 V2 b hd2
      have hbne : b ≠ sa := by
        rintro rfl
        have := leaves_unique hrepr hnd hbl hsa
        subst this
        rw [hse] at hbe
        exact hne (Option.some.inj hbe)
      exact ⟨arcb, (hlv (b, arcb)).mpr ⟨hbl, hbne⟩, hbe, hb1, hb2⟩
  · refine hstale1 _ _ _ _ (hstaleA _ _ _ _ ?_)
    rw [hBev]
    exact deref_store_same _ _ _ hevlt

end SqueezeInv

section C21
variable {F : Type} [LinearOrderedField F]

/-- C21. `RemoveArcFromBeachline` on a well-formed tree, for the valid circle event of an arc
leaf `A`, when it returns: `A` has a left bounding edge `L`, a right bounding edge `R`, a left
neighbour `l` and a right neighbour `r`; the tree afterwards is well formed and has two nodes
fewer; in the in-order sequence (addresses with foci and edges) the three entries `L, A, R` are
replaced by the single new edge, which lies between `l` and `r`, starts at the vertex `c` of the
event and has the direction `normalize((r.focus.y - l.focus.y, -(r.focus.x - l.focus.x)))`, and
every other entry is the same at the same place; the arc leaves from left to right are the old
ones without `A`; the new node stands at the tree position of `H`, that one of `L`, `R` below
which the other one `P` lies, and the subtree `S` stands in the place of `P`; `l` and `r` keep
their foci. -/
theorem C21_RemoveArcFromBeachline_splices_out_arc (env : Env F) (m m1 : Mem F)
    (root root1 evt A : Nat) (c : Vector2 F) (out out1 : List (CompleteEdge F)) (t : Tree F)
    (arcA : Arc F) (hwf : WellFormed m.items root t) (hA : (A, arcA) ∈ t.leaves)
    (hev : validCircleEvent m.events evt = some (c, A))
    (hrun : RemoveArcFromBeachline env m root out evt = some (m1, root1, out1)) :
    ∃ L R l r eL eR lArc rArc dir X Y U V H P eH hl hr S l1 r1 t1,
      squeezeNeighbours m.items A = some (L, R, l, r) ∧
      derefEdge m.items L = some eL ∧ derefEdge m.items R = some eR ∧
      derefArc m.items l = some lArc ∧ derefArc m.items r = some rArc ∧
      normalize env ⟨rArc.focus.y - lArc.focus.y, -(rArc.focus.x - lArc.focus.x)⟩ = some dir ∧
      WellFormed m1.items root1 t1 ∧
      t1.addrs.length + 2 = t.addrs.length ∧
      t.shape = X ++ [(l, Sum.inl lArc.focus), (L, Sum.inr eL), (A, Sum.inl arcA.focus),
        (R, Sum.inr eR), (r, Sum.inl rArc.focus)] ++ Y ∧
      t1.shape = X ++ [(l, Sum.inl lArc.focus), (m.items.length, Sum.inr ⟨c, dir, false⟩),
        (r, Sum.inl rArc.focus)] ++ Y ∧
      t.leaves.map (fun x => (x.1, x.2.focus)) = U ++ [(A, arcA.focus)] ++ V ∧
      t1.leaves.map (fun x => (x.1, x.2.focus)) = U ++ V ∧
      t.subAt H = some (Tree.node H eH hl hr) ∧ ((H = L ∧ P = R) ∨ (H = R ∧ P = L)) ∧
      (P ∈ hl.addrs ∨ P ∈ hr.addrs) ∧
      l1.focus = lArc.focus ∧ r1.focus = rArc.focus ∧
      t1 = (((t.replaceAt H (Tree.node m.items.length ⟨c, dir, false⟩ hl hr)).replaceAt P
        S).replaceLeaf l (Tree.leaf l l1)).replaceLeaf r (Tree.leaf r r1) ∧
      root1 = (if root = L ∨ root = R then m.items.length else root) := by
  obtain ⟨c1, sa, saArc, L, R, la, ra, eL, eR, laArc, raArc, dir, X, Y, H, P, eH, hl, hr, S, y,
    t2, la1, ra1, t1, hd, hsa, hse, hnb, hdL, hdR, hlam, hram, hdir, hin, hsH, hwhich, hanc, ht2,
    hla1, hra1, ht1, hin1, hr1, hwf1, hlen1, -, -, ho1⟩ :=
    RemoveArcFromBeachline_tree hwf (fun c2 sa2 h2 => by
      rw [hev] at h2
      simp only [Option.some.injEq, Prod.mk.injEq] at h2
      exact ⟨arcA, h2.2 ▸ hA⟩) hrun
  obtain ⟨y2, hd2⟩ := validCircleEvent_eq_some hev
  rw [hd] at hd2
  simp only [Option.some.injEq, SweepEvent.mk.injEq, EventData.edgeIntersect.injEq,
    and_true] at hd2
  obtain ⟨-, rfl, rfl⟩ := hd2
  have hsame := leaves_unique hwf.2.1 hwf.2.2 hsa hA
  subst hsame
  have hcount : t1.addrs.length + 2 = t.addrs.length := by
    rw [← (Tree.inorder_perm t1).length_eq, ← (Tree.inorder_perm t).length_eq]
    simp only [hin, hin1, List.length_map, List.length_append, List.length_cons, List.length_nil]
    omega
  have hlv : t.leaves = X.filterMap (fun x => x.2.arc?.map (fun a => (x.1, a)))
      ++ [(la, laArc), (sa, saArc), (ra, raArc)]
      ++ Y.filterMap (fun x => x.2.arc?.map (fun a => (x.1, a))) := by
    rw [Tree.leaves_eq_inorder, hin]
    simp [List.filterMap_append, ItemData.arc?]
  have hlv1 : t1.leaves = X.filterMap (fun x => x.2.arc?.map (fun a => (x.1, a)))
      ++ [(la, la1), (ra, ra1)]
      ++ Y.filterMap (fun x => x.2.arc?.map (fun a => (x.1, a))) := by
    rw [Tree.leaves_eq_inorder, hin1]
    simp [List.filterMap_append, ItemData.arc?]
  refine ⟨L, R, la, ra, eL, eR, laArc, raArc, dir, X.map (fun x => (x.1, x.2.geometry)),
    Y.map (fun x => (x.1, x.2.geometry)),
    (X.filterMap (fun x => x.2.arc?.map (fun a => (x.1, a))) ++ [(la, laArc)]).map
      (fun x => (x.1, x.2.focus)),
    ([(ra, raArc)] ++ Y.filterMap (fun x => x.2.arc?.map (fun a => (x.1, a)))).map
      (fun x => (x.1, x.2.focus)),
    H, P, eH, hl, hr, S, la1, ra1, t1, hnb, hdL, hdR,
    Repr_leaf_arc hwf.2.1 hwf.2.2 hlam, Repr_leaf_arc hwf.2.1 hwf.2.2 hram, hdir, hwf1, hcount,
    ?_, ?_, ?_, ?_, hsH, hwhich, hanc, hla1, hra1, ?_, hr1⟩
  · simp [Tree.shape, hin, ItemData.geometry]
  · simp [Tree.shape, hin1, ItemData.geometry, hla1, hra1]
  · rw [hlv]
    simp
  · rw [hlv1]
    simp [hla1, hra1]
  · rw [ht1, ht2]

end C21

section C21Witness
set_option maxRecDepth 100000

/-- Witness of C21: the circle event of the run on `levelSites`, which removes the arc at
address 4 between the edges 7 and 2. -/
theorem C21_witness :
    (WellFormed (queuePop levelMem 3).items 2 levelTree ∧
      ((4, ⟨⟨-7, 24⟩, some 3⟩) : Nat × Arc ℚ) ∈ levelTree.leaves ∧
      validCircleEvent (queuePop levelMem 3).events 3 = some ((⟨0, 0⟩ : Vector2 ℚ), 4) ∧
      RemoveArcFromBeachline envQ0 (queuePop levelMem 3) 2 [] 3
        = some (levelMemAfter, 8,
            [⟨⟨-25, 75 / 4⟩, ⟨0, 0⟩⟩, ⟨⟨0, 340282346638528859811704183484516925440⟩, ⟨0, 124⟩⟩])) ∧
    ∃ L R l r eL eR lArc rArc dir X Y U V H P eH hl hr S l1 r1 t1,
      squeezeNeighbours (queuePop levelMem 3).items 4 = some (L, R, l, r) ∧
      derefEdge (queuePop levelMem 3).items L = some eL ∧
      derefEdge (queuePop levelMem 3).items R = some eR ∧
      derefArc (queuePop levelMem 3).items l = some lArc ∧
      derefArc (queuePop levelMem 3).items r = some rArc ∧
      normalize envQ0 ⟨rArc.focus.y - lArc.focus.y, -(rArc.focus.x - lArc.focus.x)⟩ = some dir ∧
      WellFormed levelMemAfter.items 8 t1 ∧
      t1.addrs.length + 2 = levelTree.addrs.length ∧
      levelTree.shape = X ++ [(l, Sum.inl lArc.focus), (L, Sum.inr eL),
        (4, Sum.inl (⟨⟨-7, 24⟩, some 3⟩ : Arc ℚ).focus),
        (R, Sum.inr eR), (r, Sum.inl rArc.focus)] ++ Y ∧
      t1.shape = X ++ [(l, Sum.inl lArc.focus),
        ((queuePop levelMem 3).items.length, Sum.inr ⟨⟨0, 0⟩, dir, false⟩),
        (r, Sum.inl rArc.focus)] ++ Y ∧
      levelTree.leaves.map (fun x => (x.1, x.2.focus))
        = U ++ [(4, (⟨⟨-7, 24⟩, some 3⟩ : Arc ℚ).focus)] ++ V ∧
      t1.leaves.map (fun x => (x.1, x.2.focus)) = U ++ V ∧
      levelTree.subAt H = some (Tree.node H eH hl hr) ∧ ((H = L ∧ P = R) ∨ (H = R ∧ P = L)) ∧
      (P ∈ hl.addrs ∨ P ∈ hr.addrs) ∧
      l1.focus = lArc.focus ∧ r1.focus = rArc.focus ∧
      t1 = (((levelTree.replaceAt H (Tree.node (queuePop levelMem 3).items.length
        ⟨⟨0, 0⟩, dir, false⟩ hl hr)).replaceAt P S).replaceLeaf l (Tree.leaf l l1)).replaceLeaf r
          (Tree.leaf r r1) ∧
      8 = (if 2 = L ∨ 2 = R then (queuePop levelMem 3).items.length else 2) :=
  ⟨⟨⟨rfl, by decide!, by decide⟩, by decide, by decide!, by decide!⟩,
   C21_RemoveArcFromBeachline_splices_out_arc envQ0 (queuePop levelMem 3) levelMemAfter 2 8 3 4
     ⟨0, 0⟩ [] [⟨⟨-25, 75 / 4⟩, ⟨0, 0⟩⟩, ⟨⟨0, 340282346638528859811704183484516925440⟩, ⟨0, 124⟩⟩] levelTree ⟨⟨-7, 24⟩, some 3⟩
     ⟨rfl, by decide!, by decide⟩ (by decide) (by decide!) (by decide!)⟩

end C21Witness

section AddArcInv
variable {F : Type} [LinearOrderedField F]

omit [LinearOrderedField F] in
/-- The leaves of a tree in which one leaf is replaced by a subtree. -/
theorem mem_leaves_replaceLeaf_sub {t : Tree F} (hnd : t.addrs.Nodup) {x : Nat} {a : Arc F}
    (hl : (x, a) ∈ t.leaves) (s : Tree F) (z : Nat × Arc F) :
    z ∈ (t.replaceLeaf x s).leaves ↔ (z ∈ s.leaves ∨ (z ∈ t.leaves ∧ z.1 ≠ x)) := by
  obtain ⟨pre, post, h1, h2⟩ := Tree.replaceLeaf_leaves t hnd x a hl
  rw [h2, h1]
  simp only [List.mem_append, List.mem_singleton]
  have hnd2 := Tree.leaves_nodup t hnd
  rw [h1] at hnd2
  simp only [List.map_append, List.map_cons, List.map_nil, List.nodup_append,
    List.nodup_cons] at hnd2
  have hpre : ∀ w, w ∈ pre → w.1 ≠ x := by
    intro w hw hwx
    exact hnd2.1.2.2 (List.mem_map_of_mem Prod.fst hw) (by simp [hwx])
  have hpost : ∀ w, w ∈ post → w.1 ≠ x := by
    intro w hw hwx
    exact @hnd2.2.2 x (by simp) (by rw [← hwx]; exact List.mem_map_of_mem Prod.fst hw)
  constructor
  · rintro ((hz | hz) | hz)
    · exact Or.inr ⟨Or.inl (Or.inl hz), hpre z hz⟩
    · exact Or.inl hz
    · exact Or.inr ⟨Or.inr hz, hpost z hz⟩
  · rintro (hz | ⟨(hz | hz) | hz, hne⟩)
    · exact Or.inl (Or.inr hz)
    · exact Or.inl (Or.inl hz)
    · exact absurd (by rw [hz]) hne
    · exact Or.inr hz

/-- `AddArcToBeachline` on a well-formed tree, up to the two calls of `AddArcSqueezeEvent`: the
tree after the pointer updates and the deletion of the replaced arc, and the arena of events
after the invalidation of its pending event. -/
theorem AddArcToBeachline_mid {env : Env F} {m m1 : Mem F} {root root1 evt : Nat} {y : F}
    {t : Tree F} (hwf : WellFormed m.items root t)
    (hrun : AddArcToBeachline env m root evt y = some (m1, root1)) :
    ∃ act aA newPoint es ed ev1 items2 m2,
      sitePoint m.events evt = some newPoint ∧
      GetActiveArcForXCoord env m.items m.items.length root newPoint.x y = some act ∧
      (act, aA) ∈ t.leaves ∧
      newEdgeGeometry env aA newPoint y = some (es, ed) ∧
      root1 = (if root = act then m.items.length + 3 else root) ∧
      invalidateReplaced m.events aA.squeezeEvent = some ev1 ∧
      WellFormed items2 root1
        (t.replaceLeaf act (splitSubtree m.items.length aA.focus newPoint es ed none none)) ∧
      items2.length = m.items.length + 5 ∧
      AddArcSqueezeEvent env { m with items := items2, events := ev1 } m.items.length
        = some m2 ∧
      AddArcSqueezeEvent env m2 (m.items.length + 1) = some m1 := by
  obtain ⟨hroot, hrepr, hnd⟩ := hwf
  have hlt := Repr_lt_length hrepr
  have hh := WellFormed.height_lt ⟨hroot, hrepr, hnd⟩
  unfold AddArcToBeachline at hrun
  split at hrun
  · cases hrun
  rename_i newPoint hsp
  split at hrun
  · cases hrun
  rename_i act hga
  split at hrun
  · cases hrun
  rename_i replaced hrep
  split at hrun
  · cases hrun
  rename_i rArc harc
  split at hrun
  · cases hrun
  rename_i es ed hgeo
  split at hrun
  · cases hrun
  rename_i items1 sL sR eL hsplit
  dsimp only at hrun
  split at hrun
  · cases hrun
  rename_i ev1 hinv
  split at hrun
  · cases hrun
  split at hrun
  · cases hrun
  rename_i m2 h2
  split at hrun
  · cases hrun
  rename_i m3 h3
  simp only [Option.some.injEq, Prod.mk.injEq] at hrun
  obtain ⟨rfl, hroot1⟩ := hrun
  -- the located arc is a leaf of the tree
  obtain ⟨act2, aA, hga2, hleaf⟩ := GetActiveArcForXCoord_leaf env t m.items.length m.items none
    newPoint.x y hrepr hnd hh hh
  rw [hroot, hga] at hga2
  cases hga2
  obtain ⟨q, replaced2, hrep2, hrepeq, items2, hsplit2, hlen2, hsub, hsame, hpar, hkeep⟩ :=
    splitArc_arena m.items t hrepr hnd act aA hleaf aA.focus newPoint es ed
  rw [hrep] at hrep2
  cases hrep2
  subst hrepeq
  simp only [ItemData.arc?, Option.some.injEq] at harc
  subst harc
  rw [hsplit2] at hsplit
  simp only [Option.some.injEq, Prod.mk.injEq] at hsplit
  obtain ⟨rfl, rfl, rfl, rfl⟩ := hsplit
  have hact : deref m.items act
      = some { data := ItemData.arc aA, parent := q, left := none, right := none } := hrep
  have hr1 : Repr items2 none
      (t.replaceLeaf act (splitSubtree m.items.length aA.focus newPoint es ed none none)) :=
    Repr_replaceLeaf hact hsub hsame
      (fun pa rec hq hrec => by rw [splitSubtree_addr]; exact hpar pa rec hq hrec)
      t none hrepr hnd hleaf
  obtain ⟨hnd1, hnot1, -⟩ := splitTree_addrs t hnd m.items.length hlt act aA hleaf
    aA.focus newPoint es ed none none
  have hr1f : Repr (free items2 act) none
      (t.replaceLeaf act (splitSubtree m.items.length aA.focus newPoint es ed none none)) :=
    Repr_congr (fun a ha => deref_free_ne _ _ _ (fun h => hnot1 (h ▸ ha))) hr1
  refine ⟨act, aA, newPoint, es, ed, ev1, free items2 act, m2, hsp, hga, hleaf, hgeo,
    hroot1.symm, hinv, ⟨?_, hr1f, hnd1⟩, ?_, h2, h3⟩
  · rw [Tree.replaceLeaf_addr t act _ hnd hleaf, splitSubtree_addr, hroot, ← hroot1]
  · simp [hlen2]

/-- `AddArcToBeachline` on a well-formed tree, when it returns, keeps the tree well formed and
keeps the link between arcs and circle events. -/
theorem AddArcToBeachline_inv {env : Env F} {m m1 : Mem F} {root root1 evt : Nat} {y : F}
    {t : Tree F} (hwf : WellFormed m.items root t)
    (hrun : AddArcToBeachline env m root evt y = some (m1, root1)) :
    ∃ act aA newPoint es ed l1 r1 t1,
      sitePoint m.events evt = some newPoint ∧ (act, aA) ∈ t.leaves ∧
      l1.focus = aA.focus ∧ r1.focus = aA.focus ∧
      t1 = ((t.replaceLeaf act (splitSubtree m.items.length aA.focus newPoint es ed none
        none)).replaceLeaf m.items.length (Tree.leaf m.items.length l1)).replaceLeaf
          (m.items.length + 1) (Tree.leaf (m.items.length + 1) r1) ∧
      WellFormed m1.items root1 t1 ∧
      (EventsInv m.events t → EventsInv m1.events t1) := by
  obtain ⟨act, aA, newPoint, es, ed, ev1, items2, m2, hsp, hga, hleaf, hgeo, hroot1, hinvd, hwfB,
    hlenB, h2, h3⟩ := AddArcToBeachline_mid hwf hrun
  obtain ⟨hroot, hrepr, hnd⟩ := hwf
  have hlt := Repr_lt_length hrepr
  have hmemB := mem_leaves_replaceLeaf_sub hnd hleaf
    (splitSubtree m.items.length aA.focus newPoint es ed none none)
  have hlB : (m.items.length, (⟨aA.focus, none⟩ : Arc F)) ∈ (t.replaceLeaf act
      (splitSubtree m.items.length aA.focus newPoint es ed none none)).leaves :=
    (hmemB _).mpr (Or.inl (by simp [splitSubtree_leaves]))
  have hrB : (m.items.length + 1, (⟨aA.focus, none⟩ : Arc F)) ∈ (t.replaceLeaf act
      (splitSubtree m.items.length aA.focus newPoint es ed none none)).leaves :=
    (hmemB _).mpr (Or.inl (by simp [splitSubtree_leaves]))
  obtain ⟨l1, hl1, hwfA, hinvA, -, -, -⟩ := AddArcSqueezeEvent_inv
    (m := { m with items := items2, events := ev1 }) hwfB hlB h2
  have hrA : (m.items.length + 1, (⟨aA.focus, none⟩ : Arc F)) ∈ ((t.replaceLeaf act
      (splitSubtree m.items.length aA.focus newPoint es ed none none)).replaceLeaf
        m.items.length (Tree.leaf m.items.length l1)).leaves :=
    (mem_leaves_replaceLeaf hwfB.2.2 hlB _).mpr (Or.inr ⟨hrB, by simp⟩)
  obtain ⟨r1, hr1, hwf1, hinv1, -, -, -⟩ := AddArcSqueezeEvent_inv hwfA hrA h3
  refine ⟨act, aA, newPoint, es, ed, l1, r1, _, hsp, hleaf, hl1, hr1, rfl, hwf1, ?_⟩
  intro hinv
  refine hinv1 (hinvA ⟨?_, ?_⟩)
  · intro b arcb e hb hbe
    rcases (hmemB (b, arcb)).mp hb with hz | ⟨hz, hne⟩
    · simp only [splitSubtree_leaves, List.mem_cons, Prod.mk.injEq, List.mem_singleton,
        List.not_mem_nil, or_false] at hz
      rcases hz with ⟨-, rfl⟩ | ⟨-, rfl⟩ | ⟨-, rfl⟩ <;> cases hbe
    · simp only at hne
      obtain ⟨y2, V2, hd2⟩ := hinv.1 b arcb e hz hbe
      refine ⟨y2, V2, ?_⟩
      have hne2 : aA.squeezeEvent ≠ some e := by
        intro hh
        obtain ⟨y3, V3, hd3⟩ := hinv.1 act aA e hleaf hh
        rw [hd2] at hd3
        simp only [Option.some.injEq, SweepEvent.mk.injEq, EventData.edgeIntersect.injEq,
          and_true] at hd3
        exact hne hd3.2.2
      show deref ev1 e = _
      rw [(invalidateReplaced_spec hinvd).2.1 e hne2, hd2]
  · intro e y2 V2 b hd2
    have hd2' : deref ev1 e = some ⟨y2, EventData.edgeIntersect V2 b true⟩ := hd2
    have hne2 : aA.squeezeEvent ≠ some e := by
      intro hh
      obtain ⟨y3, ip, sa, -, hd3⟩ := (invalidateReplaced_spec hinvd).2.2 e hh
      rw [hd3] at hd2'
      simp at hd2'
    rw [(invalidateReplaced_spec hinvd).2.1 e hne2] at hd2'
    obtain ⟨arcb, hbl, hbe, hb1, hb2⟩ := hinv.2 e y2 V2 b hd2'
    have hbne : b ≠ act := by
      rintro rfl
      have := leaves_unique hrepr hnd hbl hleaf
      subst this
      exact hne2 hbe
    have hblt : b < m.items.length := hlt b (Tree.leaves_addr_mem hbl)
    refine ⟨arcb, (hmemB (b, arcb)).mpr (Or.inr ⟨hbl, hbne⟩), hbe, ?_, ?_⟩
    · rw [Tree.leftmost_replaceLeaf]
      split_ifs
      · simp only [splitSubtree, Tree.leftmost]
        omega
      · exact hb1
    · rw [Tree.rightmost_replaceLeaf]
      split_ifs
      · simp only [splitSubtree, Tree.rightmost]
        omega
      · exact hb2

omit [LinearOrderedField F] in
/-- The deletion of an event that is not a valid circle event keeps the link between arcs and
circle events. -/
theorem EventsInv_free {events : Events F} {t : Tree F} {e : Nat} (hinv : EventsInv events t)
    (he : ∀ y V b, deref events e ≠ some ⟨y, EventData.edgeIntersect V b true⟩) :
    EventsInv (free events e) t := by
  refine ⟨?_, ?_⟩
  · intro b arcb e2 hb hbe
    obtain ⟨y, V, hd⟩ := hinv.1 b arcb e2 hb hbe
    refine ⟨y, V, ?_⟩
    have hne : e ≠ e2 := by
      rintro rfl
      exact he y V b hd
    rw [deref_free_ne _ _ _ hne, hd]
  · intro e2 y V b hd
    have hne : e ≠ e2 := by
      rintro rfl
      rw [deref_free_same] at hd
      cases hd
    rw [deref_free_ne _ _ _ hne] at hd
    exact hinv.2 e2 y V b hd

end AddArcInv

section BeachInvariant
variable {F : Type} [LinearOrderedField F]

/-- The body of the start-up loop on a well-formed tree: it returns, and the tree afterwards
is the old one with the active arc replaced by the subtree of the new edge. -/
theorem startupInsert_tree (env : Env F) (items : Items F) (root : Nat) (t : Tree F)
    (newFocus : Vector2 F) (hwf : WellFormed items root t) :
    ∃ items1 root1 act aA, startupInsert env items root newFocus = some (items1, root1) ∧
      (act, aA) ∈ t.leaves ∧
      WellFormed items1 root1 (t.replaceLeaf act (startupSubtree items.length act aA newFocus)) ∧
      items1.length = items.length + 2 := by
  obtain ⟨hroot, hrepr, hnd⟩ := hwf
  subst hroot
  obtain ⟨act, aA, q, hleaf, hact, items1, hrun, hlen, hsub, hsame, hpar⟩ :=
    startupInsert_arena env items t newFocus hrepr hnd
  have hlt := Repr_lt_length hrepr
  have hactlt : act < items.length := hlt act (Tree.leaves_addr_mem hleaf)
  refine ⟨items1, _, act, aA, hrun, hleaf, ⟨?_, ?_, ?_⟩, hlen⟩
  · rw [Tree.replaceLeaf_addr t act _ hnd hleaf, startupSubtree_addr]
    obtain ⟨it, hit, hitp⟩ := Repr_root hrepr
    by_cases hq : q = none
    · subst hq
      obtain ⟨q2, hact2, hcase⟩ := Repr_leaf_parent hrepr hnd hleaf
      rw [hact] at hact2
      rcases hcase with ⟨-, ht⟩ | ⟨pa, rec, hq2, -⟩
      · rw [ht]; simp [Tree.addr]
      · rw [hq2] at hact2; simp at hact2
    · have hne : t.addr ≠ act := by
        intro h
        rw [h, hact] at hit
        cases hit
        exact hq hitp
      simp [hq, hne]
  · refine Repr_replaceLeaf hact hsub hsame ?_ t none hrepr hnd hleaf
    intro pa rec hq hrec
    rw [startupSubtree_addr]
    exact hpar pa rec hq hrec
  · refine (Tree.replaceLeaf_addrs_perm t act _ hnd hleaf).nodup_iff.mpr ?_
    rw [List.nodup_append]
    refine ⟨hnd.erase act, (startupSubtree_addrs _ _ _ _).nodup_iff.mpr ?_, ?_⟩
    · simp; omega
    · intro a ha hb
      rw [hnd.mem_erase_iff] at ha
      have h1 := (startupSubtree_addrs _ _ _ _).mem_iff.mp hb
      have h2 := hlt a ha.2
      simp at h1
      rcases h1 with h1 | h1 | h1
      · omega
      · omega
      · exact ha.1 h1

/-- The leaves of the subtree of the start-up loop: the active arc and the new arc, which has
no pending event. -/
theorem startupSubtree_leaves (n act : Nat) (aA : Arc F) (newFocus : Vector2 F) :
    ∀ z ∈ (startupSubtree n act aA newFocus).leaves,
      z = (act, aA) ∨ z = (n, ⟨newFocus, none⟩) := by
  intro z hz
  unfold startupSubtree at hz
  split_ifs at hz <;>
    simp only [Tree.leaves, List.singleton_append, List.mem_cons, List.mem_singleton,
      List.not_mem_nil, or_false] at hz <;> tauto

/-- The start-up loop keeps the tree well formed, creates no arc with a pending event and no
circle event. -/
theorem startupLoop_fresh {env : Env F} {cutoffY y : F} (fuel : Nat) {m m1 : Mem F}
    {root root1 : Nat} {t : Tree F} (hwf : WellFormed m.items root t)
    (hlv : ∀ z ∈ t.leaves, z.2.squeezeEvent = none)
    (hev : ∀ e s, deref m.events e = some s → ∃ pt, s.data = EventData.newPoint pt)
    (h : startupLoop env cutoffY y fuel m root = some (m1, root1)) :
    ∃ t1, WellFormed m1.items root1 t1 ∧ (∀ z ∈ t1.leaves, z.2.squeezeEvent = none) ∧
      (∀ e s, deref m1.events e = some s → ∃ pt, s.data = EventData.newPoint pt) := by
  induction fuel generalizing m root t with
  | zero => simp [startupLoop] at h
  | succ fuel ih =>
    unfold startupLoop at h
    split at h
    · cases h; exact ⟨t, hwf, hlv, hev⟩
    split at h
    · cases h
    rename_i evt htop
    split at h
    · cases h
    rename_i e hd
    split at h
    swap
    · cases h; exact ⟨t, hwf, hlv, hev⟩
    split at h
    · cases h; exact ⟨t, hwf, hlv, hev⟩
    rename_i hy
    split at h
    · cases h
    rename_i newFocus hsp
    split at h
    · cases h
    rename_i items1 r1 hins
    obtain ⟨items2, r2, act, aA, hins2, hleaf, hwf2, -⟩ :=
      startupInsert_tree env m.items root t newFocus hwf
    rw [hins] at hins2
    simp only [Option.some.injEq, Prod.mk.injEq] at hins2
    obtain ⟨rfl, rfl⟩ := hins2
    refine ih (m := { (queuePop m evt) with items := items1, events := free m.events evt })
      hwf2 ?_ ?_ h
    · intro z hz
      rcases (mem_leaves_replaceLeaf_sub hwf.2.2 hleaf _ z).mp hz with hz1 | ⟨hz1, -⟩
      · rcases startupSubtree_leaves _ _ _ _ z hz1 with rfl | rfl
        · exact hlv _ hleaf
        · rfl
      · exact hlv z hz1
    · intro e2 s hs
      have hne : evt ≠ e2 := by
        rintro rfl
        simp only [deref_free_same] at hs
        cases hs
      simp only [deref_free_ne _ _ _ hne] at hs
      exact hev e2 s hs

/-- The invariant of the beachline holds when the main loop is entered. -/
theorem bootstrap_beachInv {env : Env F} {sites : List (Vector2 F)} {cutoffY : F}
    {m : Mem F} {root : Nat}
    (h : bootstrap env sites cutoffY = some (Bootstrap.entered m root)) : BeachInv m root := by
  unfold bootstrap at h
  rw [seedEvents_empty] at h
  dsimp only at h
  split at h
  · cases h
  rename_i evt htop
  split at h
  · cases h
  rename_i fe hd
  split at h
  · cases h
  rename_i pt hsp
  split at h
  · split at h <;> cases h
  · split at h
    · cases h
    rename_i m3 root3 hstart
    simp only [Option.some.injEq, Bootstrap.entered.injEq] at h
    obtain ⟨rfl, rfl⟩ := h
    have hwf0 : WellFormed (alloc ([] : Items F)
        { data := ItemData.arc { focus := pt, squeezeEvent := none }, parent := none,
          left := none, right := none }) 0 (Tree.leaf 0 ⟨pt, none⟩) := by
      refine ⟨rfl, ?_, by simp [Tree.addrs]⟩
      simp [Repr, alloc, deref]
    have hlv0 : ∀ z ∈ (Tree.leaf 0 (⟨pt, none⟩ : Arc F)).leaves, z.2.squeezeEvent = none := by
      intro z hz
      simp only [Tree.leaves, List.mem_singleton] at hz
      rw [hz]
    have hev0 : ∀ e s, deref (free (sites.map (fun pt => some (siteEvent pt))) evt) e = some s →
        ∃ p, s.data = EventData.newPoint p := by
      intro e s hs
      by_cases hne : evt = e
      · subst hne
        simp only [deref_free_same] at hs
        cases hs
      · simp only [deref_free_ne _ _ _ hne] at hs
        rw [deref_seed] at hs
        cases hse : sites[e]? with
        | none => rw [hse] at hs; cases hs
        | some p =>
          rw [hse] at hs
          cases hs
          exact ⟨p, rfl⟩
    obtain ⟨t1, hwf1, hlv1, hev1⟩ := startupLoop_fresh _ hwf0 hlv0 hev0 hstart
    refine ⟨t1, hwf1, ?_, ?_⟩
    · intro a arc e ha hae
      rw [hlv1 _ ha] at hae
      cases hae
    · intro e y V a hde
      obtain ⟨pt2, hpt2⟩ := hev1 e _ hde
      cases hpt2

/-- The body of the main loop keeps the invariant of the beachline. -/
theorem processEvent_beachInv {env : Env F} {m m1 : Mem F} {root root1 evt : Nat}
    {edges edges1 : List (CompleteEdge F)} {e : SweepEvent F} (hinv : BeachInv m root)
    (hd : deref m.events evt = some e)
    (h : processEvent env m root edges evt e = some (m1, root1, edges1)) :
    BeachInv m1 root1 := by
  obtain ⟨t, hwf, hev⟩ := hinv
  unfold processEvent at h
  split at h
  · cases h
  rename_i m2 r2 e2 hh
  simp only [Option.some.injEq, Prod.mk.injEq] at h
  obtain ⟨rfl, rfl, rfl⟩ := h
  split at hh
  · -- a site event
    rename_i pt hdata
    split at hh
    · cases hh
    rename_i m3 r3 h3
    simp only [Option.some.injEq, Prod.mk.injEq] at hh
    obtain ⟨rfl, rfl, -⟩ := hh
    obtain ⟨act, aA, newPoint, es, ed, l1, r1, t1, hsp, -, -, -, -, hwf1, hinv1⟩ :=
      AddArcToBeachline_inv hwf h3
    refine ⟨t1, hwf1, EventsInv_free (hinv1 hev) ?_⟩
    intro y V b hcon
    have hext := AddArcToBeachline_extends h3
    have h1 := (hext.2.1 evt (deref_lt_length hd)).1
    rw [hsp] at h1
    simp [sitePoint, hcon] at h1
  · rename_i ip sa isValid hdata
    split at hh
    · -- a valid circle event
      obtain ⟨c, sa2, saArc, L, R, la, ra, eL, eR, laArc, raArc, dir, X, Y, H, P, eH, hl, hr, S, y,
        t2, la1, ra1, t1, -, -, -, -, -, -, -, -, -, -, -, -, -, -, -, -, -, -, -, hwf1, -, hinv1,
        hstale, -⟩ := RemoveArcFromBeachline_tree hwf (fun c sa3 hv => by
          obtain ⟨y, hy⟩ := validCircleEvent_eq_some hv
          obtain ⟨arc, harc, -⟩ := hev.2 evt y c sa3 hy
          exact ⟨arc, harc⟩) hh
      refine ⟨t1, hwf1, EventsInv_free (hinv1 hev) ?_⟩
      intro y2 V b hcon
      rw [hstale] at hcon
      simp at hcon
    · -- an invalidated circle event
      simp only [Option.some.injEq, Prod.mk.injEq] at hh
      obtain ⟨rfl, rfl, -⟩ := hh
      refine ⟨t, hwf, EventsInv_free hev ?_⟩
      intro y2 V b hcon
      rw [hd] at hcon
      simp only [Option.some.injEq] at hcon
      rw [hcon] at hdata
      simp only [EventData.edgeIntersect.injEq] at hdata
      rename_i hval
      exact hval hdata.2.2.symm

/-- One turn of the main loop keeps the invariant of the beachline. -/
theorem mainLoopStep_beachInv {env : Env F} {cutoffY : F} {m m1 : Mem F}
    {root root1 : Nat} {edges edges1 : List (CompleteEdge F)} (hinv : BeachInv m root)
    (h : mainLoopStep env cutoffY m root edges = some (some (m1, root1, edges1))) :
    BeachInv m1 root1 := by
  unfold mainLoopStep at h
  split at h
  · cases h
  split at h
  · cases h
  rename_i evt htop
  split at h
  · cases h
  rename_i e hd
  split at h
  · cases h
  split at h
  · cases h
  rename_i s hp
  cases h
  exact processEvent_beachInv (m := queuePop m evt) hinv hd hp

/-- The invariant of the beachline holds at the head of the main loop after any number of
turns. -/
theorem mainLoopIterate_beachInv {env : Env F} {cutoffY : F} (k : Nat) {m m1 : Mem F}
    {root root1 : Nat} {edges edges1 : List (CompleteEdge F)} (hinv : BeachInv m root)
    (h : mainLoopIterate env cutoffY k (m, root, edges) = some (m1, root1, edges1)) :
    BeachInv m1 root1 := by
  induction k generalizing m root edges with
  | zero =>
    simp only [mainLoopIterate, Option.some.injEq, Prod.mk.injEq] at h
    obtain ⟨rfl, rfl, -⟩ := h
    exact hinv
  | succ k ih =>
    simp only [mainLoopIterate] at h
    split at h
    · rename_i s1 hs1
      obtain ⟨m2, r2, e2⟩ := s1
      exact ih (mainLoopStep_beachInv hinv hs1) h
    · cases h

/-- The invariant of the beachline holds in every state of a run at the head of the main
loop. -/
theorem runState_beachInv {env : Env F} {sites : List (Vector2 F)} {cutoffY : F} {k : Nat}
    {m : Mem F} {root : Nat} {edges : List (CompleteEdge F)}
    (h : runState env sites cutoffY k = some (m, root, edges)) : BeachInv m root := by
  unfold runState at h
  split at h
  · rename_i m0 root0 hb
    exact mainLoopIterate_beachInv k (bootstrap_beachInv hb) h
  · cases h

end BeachInvariant

section SpecWellFormed
variable {F : Type}

/-- A node without parent pointer of a tree held by the arena is its root. -/
theorem Repr_parent_none {items : Items F} {p : Option Nat} {t : Tree F} (h : Repr items p t)
    {b : Nat} {rec : BeachlineItem F} (hb : b ∈ t.addrs) (hrec : deref items b = some rec)
    (hn : rec.parent = none) : b = t.addr := by
  induction t generalizing p with
  | leaf a arc =>
    simp only [Tree.addrs, List.mem_singleton] at hb
    exact hb
  | node a e l r ihl ihr =>
    simp only [Repr] at h
    simp only [Tree.addrs, List.mem_cons, List.mem_append] at hb
    rcases hb with hb | hb | hb
    · exact hb
    · have h1 := ihl h.2.1 hb
      obtain ⟨rec2, hrec2, hp2⟩ := Repr_root h.2.1
      rw [← h1, hrec] at hrec2
      cases hrec2
      rw [hn] at hp2
      cases hp2
    · have h1 := ihr h.2.2 hb
      obtain ⟨rec2, hrec2, hp2⟩ := Repr_root h.2.2
      rw [← h1, hrec] at hrec2
      cases hrec2
      rw [hn] at hp2
      cases hp2

/-- The nodes that the pointers give are nodes of the tree held by the arena. -/
theorem TreeNode_mem {items : Items F} {root : Nat} {t : Tree F} (hwf : WellFormed items root t)
    {b : Nat} (hb : TreeNode items root b) : b ∈ t.addrs := by
  induction hb with
  | root => exact hwf.1 ▸ Tree.addr_mem_addrs t
  | left _ hrec hl ih => exact Repr_children_mem hwf.2.1 ih hrec (Or.inl hl)
  | right _ hrec hr ih => exact Repr_children_mem hwf.2.1 ih hrec (Or.inr hr)

/-- A tree held by the arena without repeated addresses is well formed in the words of the
specification. -/
theorem WellFormed.asSpecified {items : Items F} {root : Nat} {t : Tree F}
    (hwf : WellFormed items root t) : WellFormedAsSpecified items root := by
  have hwf0 := hwf
  obtain ⟨hroot, hrepr, hnd⟩ := hwf
  refine ⟨?_, ?_, ?_, ?_, ?_⟩
  · obtain ⟨rec, hrec, hp⟩ := Repr_root hrepr
    exact ⟨rec, hroot ▸ hrec, hp⟩
  · intro b hb
    exact Repr_deref_isSome hrepr (TreeNode_mem hwf0 hb)
  · intro b hb hne
    have hbt := TreeNode_mem hwf0 hb
    obtain ⟨rec, hrec⟩ := Repr_deref_isSome hrepr hbt
    cases hpar : rec.parent with
    | none => exact absurd ((Repr_parent_none hrepr hbt hrec hpar).trans hroot) hne
    | some g =>
      rcases Repr_parent_mem hrepr hbt hrec hpar with ⟨-, h0⟩ | ⟨hg, recg, hrecg, hch⟩
      · cases h0
      · refine ⟨rec, g, recg, hrec, hpar, hrecg, ?_⟩
        by_cases hleft : recg.left = some b
        · exact Or.inl ⟨hleft, Repr_children_ne hrepr hnd hg hrecg hleft⟩
        · rcases hch with h | h
          · exact absurd h hleft
          · exact Or.inr ⟨hleft, h⟩
  · intro b rec hb hrec harc
    have hbt := TreeNode_mem hwf0 hb
    obtain ⟨s, hs⟩ := Tree.subAt_isSome hbt
    obtain ⟨q, hq⟩ := Repr_subAt hrepr hs
    have haddr := Tree.subAt_addr hs
    cases s with
    | leaf a arc =>
      simp only [Tree.addr] at haddr
      subst haddr
      simp only [Repr] at hq
      rw [hq] at hrec
      cases hrec
      exact ⟨rfl, rfl⟩
    | node a e l r =>
      simp only [Tree.addr] at haddr
      subst haddr
      simp only [Repr] at hq
      rw [hq.1] at hrec
      cases hrec
      simp [BeachlineItem.isArc] at harc
  · intro b rec hb hrec hedge
    have hbt := TreeNode_mem hwf0 hb
    obtain ⟨s, hs⟩ := Tree.subAt_isSome hbt
    obtain ⟨q, hq⟩ := Repr_subAt hrepr hs
    have haddr := Tree.subAt_addr hs
    have hnds := Tree.subAt_nodup hs hnd
    cases s with
    | leaf a arc =>
      simp only [Tree.addr] at haddr
      subst haddr
      simp only [Repr] at hq
      rw [hq] at hrec
      cases hrec
      simp [BeachlineItem.isEdge] at hedge
    | node a e l r =>
      simp only [Tree.addr] at haddr
      subst haddr
      simp only [Repr] at hq
      rw [hq.1] at hrec
      cases hrec
      refine ⟨l.addr, r.addr, rfl, rfl, ?_⟩
      simp only [Tree.addrs, List.nodup_cons, List.nodup_append, List.mem_append, not_or] at hnds
      intro hh
      exact hnds.2.2.2 (Tree.addr_mem_addrs l) (hh ▸ Tree.addr_mem_addrs r)

end SpecWellFormed

section InnerLeaf
variable {F : Type}

/-- An arc leaf of a well-formed tree that is neither the leftmost nor the rightmost one has
two bounding edges and two distinct neighbouring arcs: the reads and assertions of
`RemoveArcFromBeachline` on its neighbours succeed. -/
theorem squeezeNeighbours_of_inner {items : Items F} {root : Nat} {t : Tree F}
    (hwf : WellFormed items root t) {sa : Nat} {saArc : Arc F} (hsa : (sa, saArc) ∈ t.leaves)
    (hl : sa ≠ t.leftmost) (hr : sa ≠ t.rightmost) :
    ∃ L R la ra, squeezeNeighbours items sa = some (L, R, la, ra) := by
  have hwf0 := hwf
  obtain ⟨hroot, hrepr, hnd⟩ := hwf
  obtain ⟨bL, eL, lL, rL, hsL, hlm⟩ := Tree.exists_left_edge t hnd hsa hl
  obtain ⟨bR, eR, lR, rR, hsR, hrm⟩ := Tree.exists_right_edge t hnd hsa hr
  obtain ⟨nL1, nL2, nL3, nL4, nL5⟩ := neighbours_of_node hwf0 hsL
  obtain ⟨nR1, nR2, nR3, nR4, nR5⟩ := neighbours_of_node hwf0 hsR
  rw [hlm] at nL4
  rw [hrm] at nR2
  have hind := Tree.inorder_nodup t hnd
  obtain ⟨preL, postL, hiL, -⟩ := Tree.inorder_replaceAt t hnd hsL
  obtain ⟨preR, postR, hiR, -⟩ := Tree.inorder_replaceAt t hnd hsR
  obtain ⟨laArc, initL, hlast, hlamem⟩ := Tree.inorder_last_arc lL
  obtain ⟨saArc1, restL, hheadL, hsamem1⟩ := Tree.inorder_head_arc rL
  obtain ⟨saArc2, initR, hlastR, hsamem2⟩ := Tree.inorder_last_arc lR
  obtain ⟨raArc, restR, hheadR, hramem⟩ := Tree.inorder_head_arc rR
  rw [hlm] at hheadL
  rw [hrm] at hlastR
  simp only [Tree.inorder, hlast, hheadL] at hiL
  simp only [Tree.inorder, hlastR, hheadR] at hiR
  have e1 : t.inorder = (preL ++ initL ++ [(lL.rightmost, ItemData.arc laArc),
      (bL, ItemData.edge eL)]) ++ (sa, ItemData.arc saArc1) :: (restL ++ postL) := by
    rw [hiL]; simp
  have e2 : t.inorder = (preR ++ initR) ++ (sa, ItemData.arc saArc2)
      :: ((bR, ItemData.edge eR) :: (rR.leftmost, ItemData.arc raArc) :: (restR ++ postR)) := by
    rw [hiR]; simp
  obtain ⟨-, -, u3⟩ := split_unique (e1.symm.trans e2) (e1 ▸ hind)
  have hne : lL.rightmost ≠ rR.leftmost := by
    intro hh
    rw [e1, u3, hh] at hind
    simp [List.nodup_append] at hind
  refine ⟨bL, bR, lL.rightmost, rR.leftmost, ?_⟩
  unfold squeezeNeighbours
  simp only [nL4, nR2, nL1, nR3]
  rw [if_pos hne]

end InnerLeaf

section C25
variable {F : Type} [LinearOrderedField F]

/-- The invariant of the beachline holds in the state in which the main loop is left. -/
theorem mainLoop_beachInv {env : Env F} {cutoffY : F} (fuel : Nat) {m m1 : Mem F}
    {root root1 : Nat} {edges edges1 : List (CompleteEdge F)} (hinv : BeachInv m root)
    (h : mainLoop env cutoffY fuel m root edges = some (m1, root1, edges1)) :
    BeachInv m1 root1 := by
  induction fuel generalizing m root edges with
  | zero => simp [mainLoop] at h
  | succ fuel ih =>
    unfold mainLoop at h
    split at h
    · cases h
    · simp only [Option.some.injEq, Prod.mk.injEq] at h
      obtain ⟨rfl, rfl, -⟩ := h
      exact hinv
    · rename_i m2 r2 e2 hs
      exact ih (mainLoopStep_beachInv hinv hs) h

/-- C25. In every state of a run of `FortunesAlgorithm` at the head of the main loop (after any
number of turns), the arena holds a well-formed beachline tree, and every queued circle event
with `isValid = true` references an arc that is a leaf of the tree and has the event as its
`squeezeEvent`; that arc has a left and a right bounding edge and two distinct neighbouring arcs
(`squeezeNeighbours` returns them), so that all the assertions at the top of
`RemoveArcFromBeachline` hold for the event; two valid queued circle events of the same arc
are the same event; and the pending event of every arc leaf is a live circle event with
`isValid = true` that references the leaf, so that the assertions of `AddArcToBeachline` on the
event of the replaced arc hold and its invalidation returns. -/
theorem C25_valid_circle_events_reference_inner_leaves (env : Env F)
    (sites : List (Vector2 F)) (cutoffY : F) (k : Nat) (m : Mem F) (root : Nat)
    (edges : List (CompleteEdge F))
    (h : runState env sites cutoffY k = some (m, root, edges)) :
    ∃ t, WellFormed m.items root t ∧
      (∀ e ∈ m.queue, ∀ y V a,
        deref m.events e = some ⟨y, EventData.edgeIntersect V a true⟩ →
        ∃ arc L R l r, (a, arc) ∈ t.leaves ∧ validCircleEvent m.events e = some (V, a) ∧
          derefArc m.items a = some arc ∧ arc.squeezeEvent = some e ∧
          squeezeNeighbours m.items a = some (L, R, l, r) ∧ l ≠ r) ∧
      (∀ e1 ∈ m.queue, ∀ e2 ∈ m.queue, ∀ y1 V1 y2 V2 a,
        deref m.events e1 = some ⟨y1, EventData.edgeIntersect V1 a true⟩ →
        deref m.events e2 = some ⟨y2, EventData.edgeIntersect V2 a true⟩ → e1 = e2) ∧
      (∀ a arc se, (a, arc) ∈ t.leaves → arc.squeezeEvent = some se →
        (∃ y V, deref m.events se = some ⟨y, EventData.edgeIntersect V a true⟩) ∧
        ∃ ev1, invalidateReplaced m.events arc.squeezeEvent = some ev1) := by
  obtain ⟨t, hwf, hev⟩ := runState_beachInv h
  refine ⟨t, hwf, ?_, ?_, ?_⟩
  · intro e _ y V a hd
    obtain ⟨arc, harc, hsq, hl, hr⟩ := hev.2 e y V a hd
    obtain ⟨L, R, l, r, hn⟩ := squeezeNeighbours_of_inner hwf harc hl hr
    refine ⟨arc, L, R, l, r, harc, ?_, Repr_leaf_arc hwf.2.1 hwf.2.2 harc, hsq, hn, ?_⟩
    · simp [validCircleEvent, hd]
    · intro hh
      unfold squeezeNeighbours at hn
      split at hn
      · split at hn
        · split_ifs at hn with hne
          simp only [Option.some.injEq, Prod.mk.injEq] at hn
          obtain ⟨-, -, rfl, rfl⟩ := hn
          exact hne hh
        · cases hn
      · cases hn
  · intro e1 _ e2 _ y1 V1 y2 V2 a hd1 hd2
    obtain ⟨arc1, harc1, hsq1, -⟩ := hev.2 e1 y1 V1 a hd1
    obtain ⟨arc2, harc2, hsq2, -⟩ := hev.2 e2 y2 V2 a hd2
    have := leaves_unique hwf.2.1 hwf.2.2 harc1 harc2
    subst this
    rw [hsq1] at hsq2
    exact Option.some.inj hsq2
  · intro a arc se harc hsq
    obtain ⟨y, V, hd⟩ := hev.1 a arc se harc hsq
    refine ⟨⟨y, V, hd⟩, ?_⟩
    rw [hsq]
    simp [invalidateReplaced, clearValidAsserted, hd]

/-- The tree that a run returns to the caller is the tree of the state in which the main loop
is left. -/
theorem FortunesAlgorithm_root {env : Env F} {fuel : Nat} {sites : List (Vector2 F)}
    {cutoffY : F} {r : FortuneState F} {root : Nat}
    (h : FortunesAlgorithm env fuel sites cutoffY = some r) (hr : r.beachlineRoot = some root) :
    ∃ m, BeachInv m root ∧ r.items = m.items := by
  unfold FortunesAlgorithm at h
  split at h
  · cases h
  · rename_i res hb
    cases h
    unfold bootstrap at hb
    simp only at hb
    split at hb
    · cases hb
    split at hb
    · cases hb
    split at hb
    · cases hb
    split at hb
    · split at hb
      · cases hb
      · simp only [Option.some.injEq, Bootstrap.aborted.injEq] at hb
        rw [← hb] at hr
        cases hr
    · split at hb <;> cases hb
  · rename_i m3 root3 hb
    split at h
    · cases h
    rename_i m4 root1 edges hmain
    have hinv := mainLoop_beachInv fuel (bootstrap_beachInv hb) hmain
    unfold assembleResult at h
    split at h
    · cases h
    rename_i items1 edges1 rt hfin
    split at h
    · cases h
    rename_i m1 un hdrain
    cases h
    simp only at hr
    subst hr
    split at hfin
    · split at hfin
      · cases hfin
      · cases hfin
    · simp only [Option.some.injEq, Prod.mk.injEq] at hfin
      obtain ⟨rfl, -, hrt⟩ := hfin
      cases hrt
      exact ⟨m4, hinv, rfl⟩

/-- C27. Well-formedness of the beachline tree, in the words of the specification (the root has
no parent, every non-root node is exactly one of its parent's left or right child, every arc
node has no children, every edge node has exactly two), holds of every tree that the arena
holds without repeated addresses; it is preserved by the three mutations of the tree: the
insertion of the start-up loop (which always returns), `AddArcToBeachline` and
`RemoveArcFromBeachline` for an event whose arc is a leaf of the tree, whenever they return;
and it holds in every state of a run at the head of the main loop and for the tree that
`FortunesAlgorithm` returns to the caller. -/
theorem C27_well_formedness_is_preserved (env : Env F) :
    (∀ (items : Items F) (root : Nat) (t : Tree F), WellFormed items root t →
      WellFormedAsSpecified items root) ∧
    (∀ (items : Items F) (root : Nat) (t : Tree F) (newFocus : Vector2 F),
      WellFormed items root t →
      ∃ items1 root1 t1, startupInsert env items root newFocus = some (items1, root1) ∧
        WellFormed items1 root1 t1 ∧ WellFormedAsSpecified items1 root1) ∧
    (∀ (m m1 : Mem F) (root root1 evt : Nat) (y : F) (t : Tree F),
      WellFormed m.items root t → AddArcToBeachline env m root evt y = some (m1, root1) →
      ∃ t1, WellFormed m1.items root1 t1 ∧ WellFormedAsSpecified m1.items root1) ∧
    (∀ (m m1 : Mem F) (root root1 evt : Nat) (out out1 : List (CompleteEdge F)) (t : Tree F),
      WellFormed m.items root t →
      (∀ c sa, validCircleEvent m.events evt = some (c, sa) → ∃ arc, (sa, arc) ∈ t.leaves) →
      RemoveArcFromBeachline env m root out evt = some (m1, root1, out1) →
      ∃ t1, WellFormed m1.items root1 t1 ∧ WellFormedAsSpecified m1.items root1) ∧
    (∀ (sites : List (Vector2 F)) (cutoffY : F) (k : Nat) (m : Mem F) (root : Nat)
      (edges : List (CompleteEdge F)), runState env sites cutoffY k = some (m, root, edges) →
      ∃ t, WellFormed m.items root t ∧ WellFormedAsSpecified m.items root) ∧
    (∀ (fuel : Nat) (sites : List (Vector2 F)) (cutoffY : F) (r : FortuneState F) (root : Nat),
      FortunesAlgorithm env fuel sites cutoffY = some r → r.beachlineRoot = some root →
      ∃ t, WellFormed r.items root t ∧ WellFormedAsSpecified r.items root) := by
  refine ⟨?_, ?_, ?_, ?_, ?_, ?_⟩
  · intro items root t hwf
    exact hwf.asSpecified
  · intro items root t newFocus hwf
    obtain ⟨items1, root1, act, aA, hrun, -, hwf1, -⟩ :=
      startupInsert_tree env items root t newFocus hwf
    exact ⟨items1, root1, _, hrun, hwf1, hwf1.asSpecified⟩
  · intro m m1 root root1 evt y t hwf hrun
    obtain ⟨act, aA, newPoint, es, ed, l1, r1, t1, -, -, -, -, -, hwf1, -⟩ :=
      AddArcToBeachline_inv hwf hrun
    exact ⟨t1, hwf1, hwf1.asSpecified⟩
  · intro m m1 root root1 evt out out1 t hwf hleaf hrun
    obtain ⟨c, sa2, saArc, L, R, la, ra, eL, eR, laArc, raArc, dir, X, Y, H, P, eH, hl, hr, S, y,
      t2, la1, ra1, t1, -, -, -, -, -, -, -, -, -, -, -, -, -, -, -, -, -, -, -, hwf1, -⟩ :=
      RemoveArcFromBeachline_tree hwf hleaf hrun
    exact ⟨t1, hwf1, hwf1.asSpecified⟩
  · intro sites cutoffY k m root edges h
    obtain ⟨t, hwf, -⟩ := runState_beachInv h
    exact ⟨t, hwf, hwf.asSpecified⟩
  · intro fuel sites cutoffY r root h hr
    obtain ⟨m, ⟨t, hwf, -⟩, hitems⟩ := FortunesAlgorithm_root h hr
    rw [hitems]
    exact ⟨t, hwf, hwf.asSpecified⟩

end C25

section C25Witness
set_option maxRecDepth 100000

/-- Witness of C25: the state of the run on `levelSites` after the third site is inserted, in
which the circle event 3 of the arc at address 4 is queued and valid. -/
theorem C25_witness :
    (runState envQ0 levelSites (-1000) 1 = some (levelMem, 2, []) ∧
      3 ∈ levelMem.queue ∧
      deref levelMem.events 3 = some ⟨-25, EventData.edgeIntersect ⟨0, 0⟩ 4 true⟩) ∧
    ∃ t, WellFormed levelMem.items 2 t ∧
      (∀ e ∈ levelMem.queue, ∀ y V a,
        deref levelMem.events e = some ⟨y, EventData.edgeIntersect V a true⟩ →
        ∃ arc L R l r, (a, arc) ∈ t.leaves ∧ validCircleEvent levelMem.events e = some (V, a) ∧
          derefArc levelMem.items a = some arc ∧ arc.squeezeEvent = some e ∧
          squeezeNeighbours levelMem.items a = some (L, R, l, r) ∧ l ≠ r) ∧
      (∀ e1 ∈ levelMem.queue, ∀ e2 ∈ levelMem.queue, ∀ y1 V1 y2 V2 a,
        deref levelMem.events e1 = some ⟨y1, EventData.edgeIntersect V1 a true⟩ →
        deref levelMem.events e2 = some ⟨y2, EventData.edgeIntersect V2 a true⟩ → e1 = e2) ∧
      (∀ a arc se, (a, arc) ∈ t.leaves → arc.squeezeEvent = some se →
        (∃ y V, deref levelMem.events se = some ⟨y, EventData.edgeIntersect V a true⟩) ∧
        ∃ ev1, invalidateReplaced levelMem.events arc.squeezeEvent = some ev1) :=
  ⟨⟨by decide!, by decide!, by decide!⟩,
   C25_valid_circle_events_reference_inner_leaves envQ0 levelSites (-1000) 1 levelMem 2 []
     (by decide!)⟩

/-- Witness of C27: the insertion of the third site of `levelSites` and the removal of the arc
at address 4 keep the tree well formed. -/
theorem C27_witness :
    (WellFormed (queuePop levelMemStart 2).items 2 levelTreeStart ∧
      AddArcToBeachline envQ0 (queuePop levelMemStart 2) 2 2 0 = some (levelMemInserted, 2)) ∧
    ∃ t1, WellFormed levelMemInserted.items 2 t1 ∧ WellFormedAsSpecified levelMemInserted.items 2 :=
  ⟨⟨⟨rfl, by decide!, by decide⟩, by decide!⟩,
   (C27_well_formedness_is_preserved envQ0).2.2.1 (queuePop levelMemStart 2) levelMemInserted
     2 2 2 0 levelTreeStart ⟨rfl, by decide!, by decide⟩ (by decide!)⟩

end C25Witness

section C30
variable {F : Type} [LinearOrderedField F]

/-- One call of `AddArcSqueezeEvent` for an arc leaf without pending event: nothing changes, or
the candidate is pushed as a new valid event of the arc and no older event changes. -/
theorem AddArcSqueezeEvent_fresh {env : Env F} {m m1 : Mem F} {t : Tree F} {arc : Nat}
    {a : Arc F} (hrepr : Repr m.items none t) (hnd : t.addrs.Nodup) (hl : (arc, a) ∈ t.leaves)
    (hnone : a.squeezeEvent = none) (h : AddArcSqueezeEvent env m arc = some m1) :
    ∃ new : List Nat, m1.queue = m.queue ++ new ∧ m1.pops = m.pops ∧
      m1.events.length = m.events.length + new.length ∧ new.length ≤ 1 ∧
      (∀ e, e < m.events.length → deref m1.events e = deref m.events e) ∧
      (∀ b, b ≠ arc → deref m1.items b = deref m.items b) ∧
      (∀ e ∈ new, e = m.events.length ∧ ∃ c V L R le re,
        deref m1.events e = some ⟨c, EventData.edgeIntersect V arc true⟩ ∧
        c = V.y - env.sqrt (distSq a.focus V) ∧
        derefEdge m1.items L = some le ∧ derefEdge m1.items R = some re ∧
        TryGetEdgeIntersectionPoint le re = RayHit.hit V) := by
  rcases AddArcSqueezeEvent_on_leaf hrepr hnd hl h with rfl |
    ⟨L, R, V, c, hL, hR, hc, hrepr1, hlen, hframe, hq, hpops, hevlen, hnew, hold⟩
  · exact ⟨[], by simp, rfl, by simp, by simp, fun _ _ => rfl, fun _ _ => rfl,
      fun e he => by cases he⟩
  · refine ⟨[m.events.length], hq, hpops, by simpa using hevlen, by simp, ?_, hframe, ?_⟩
    · rcases hold with ⟨-, hsame⟩ | ⟨se, y3, ip, sa, v, hase, -⟩
      · exact hsame
      · rw [hnone] at hase
        cases hase
    · intro e he
      simp only [List.mem_singleton] at he
      subst he
      obtain ⟨le, re, a2, hle, hre, hhit, ha2, hceq⟩ := squeezeCandidate_eq_some hc
      have ha := Repr_leaf_arc hrepr hnd hl
      rw [ha] at ha2
      cases ha2
      have hne : ∀ b e0, derefEdge m.items b = some e0 → b ≠ arc := by
        intro b e0 hb hba
        subst hba
        unfold derefEdge at hb
        unfold derefArc at ha
        cases hd : deref m.items b with
        | none => simp [hd] at hb
        | some i =>
          rw [hd] at hb ha
          simp only at hb ha
          cases hdata : i.data with
          | arc x => simp [hdata, ItemData.edge?] at hb
          | edge x => simp [hdata, ItemData.arc?] at ha
      refine ⟨rfl, c, V, L, R, le, re, hnew, hceq, ?_, ?_, hhit⟩
      · unfold derefEdge
        rw [hframe L (hne L le hle)]
        exact hle
      · unfold derefEdge
        rw [hframe R (hne R re hre)]
        exact hre

/-- C30. `AddArcToBeachline` on a well-formed tree, when it returns, removes no event from the
queue: the queue afterwards is the old queue followed by at most two new events, which are
valid circle events of the two halves of the split arc (addresses `m.items.length` and
`m.items.length + 1`), each with the intersection point `V` of two edges of the tree as vertex
and `V.y - |focus - V|` as `yCoord`; if the replaced arc had a pending circle event, that event
has `isValid = false` afterwards and is otherwise unchanged; every other event of the arena is
unchanged, its valid flag included. -/
theorem C30_AddArcToBeachline_removes_no_event (env : Env F) (m m1 : Mem F)
    (root root1 evt : Nat) (y : F) (t : Tree F) (hwf : WellFormed m.items root t)
    (hrun : AddArcToBeachline env m root evt y = some (m1, root1)) :
    ∃ act aA newPoint new,
      sitePoint m.events evt = some newPoint ∧
      GetActiveArcForXCoord env m.items m.items.length root newPoint.x y = some act ∧
      (act, aA) ∈ t.leaves ∧
      m1.queue = m.queue ++ new ∧ (∀ e ∈ m.queue, e ∈ m1.queue) ∧ m1.pops = m.pops ∧
      m1.events.length = m.events.length + new.length ∧ new.length ≤ 2 ∧
      (∀ e ∈ new, m.events.length ≤ e ∧ ∃ c V arc L R le re,
        (arc = m.items.length ∨ arc = m.items.length + 1) ∧
        deref m1.events e = some ⟨c, EventData.edgeIntersect V arc true⟩ ∧
        c = V.y - env.sqrt (distSq aA.focus V) ∧
        derefEdge m1.items L = some le ∧ derefEdge m1.items R = some re ∧
        TryGetEdgeIntersectionPoint le re = RayHit.hit V) ∧
      (∀ se, aA.squeezeEvent = some se → ∃ yy ip sa,
        deref m.events se = some ⟨yy, EventData.edgeIntersect ip sa true⟩ ∧
        deref m1.events se = some ⟨yy, EventData.edgeIntersect ip sa false⟩) ∧
      (∀ e, e < m.events.length → aA.squeezeEvent ≠ some e →
        deref m1.events e = deref m.events e) := by
  obtain ⟨act, aA, newPoint, es, ed, ev1, items2, m2, hsp, hga, hleaf, hgeo, hroot1, hinvd, hwfB,
    hlenB, h2, h3⟩ := AddArcToBeachline_mid hwf hrun
  obtain ⟨hevlen, hevsame, hevse⟩ := invalidateReplaced_spec hinvd
  have hmemB := mem_leaves_replaceLeaf_sub hwf.2.2 hleaf
    (splitSubtree m.items.length aA.focus newPoint es ed none none)
  have hlB : (m.items.length, (⟨aA.focus, none⟩ : Arc F)) ∈ (t.replaceLeaf act
      (splitSubtree m.items.length aA.focus newPoint es ed none none)).leaves :=
    (hmemB _).mpr (Or.inl (by simp [splitSubtree_leaves]))
  have hrB : (m.items.length + 1, (⟨aA.focus, none⟩ : Arc F)) ∈ (t.replaceLeaf act
      (splitSubtree m.items.length aA.focus newPoint es ed none none)).leaves :=
    (hmemB _).mpr (Or.inl (by simp [splitSubtree_leaves]))
  -- the first call
  obtain ⟨new1, hq1, hp1, hl1, hle1, hsame1, hframe1, hnew1⟩ := AddArcSqueezeEvent_fresh
    (m := { m with items := items2, events := ev1 }) hwfB.2.1 hwfB.2.2 hlB rfl h2
  obtain ⟨l1, -, hwfA, -, -, -, -⟩ := AddArcSqueezeEvent_inv
    (m := { m with items := items2, events := ev1 }) hwfB hlB h2
  have hrA : (m.items.length + 1, (⟨aA.focus, none⟩ : Arc F)) ∈ ((t.replaceLeaf act
      (splitSubtree m.items.length aA.focus newPoint es ed none none)).replaceLeaf
        m.items.length (Tree.leaf m.items.length l1)).leaves :=
    (mem_leaves_replaceLeaf hwfB.2.2 hlB _).mpr (Or.inr ⟨hrB, by simp⟩)
  -- the second call
  obtain ⟨new2, hq2, hp2, hl2, hle2, hsame2, hframe2, hnew2⟩ := AddArcSqueezeEvent_fresh
    hwfA.2.1 hwfA.2.2 hrA rfl h3
  simp only at hq1 hp1 hl1 hsame1 hframe1 hnew1
  have hold : ∀ e, e < m.events.length → deref m1.events e = deref ev1 e := by
    intro e he
    rw [hsame2 e (by omega), hsame1 e (by omega)]
  refine ⟨act, aA, newPoint, new1 ++ new2, hsp, hga, hleaf, ?_, ?_, ?_, ?_, ?_, ?_, ?_, ?_⟩
  · rw [hq2, hq1, List.append_assoc]
  · intro e he
    rw [hq2, hq1]
    simp [he]
  · rw [hp2, hp1]
  · rw [hl2, hl1, hevlen, List.length_append]
    omega
  · rw [List.length_append]
    omega
  · intro e he
    rcases List.mem_append.mp he with he1 | he2
    · obtain ⟨rfl, c, V, L, R, le, re, hd, hc, hdl, hdr, hhit⟩ := hnew1 e he1
      have hn1 : new1.length = 1 := by
        cases new1 with
        | nil => cases he1
        | cons x xs =>
          simp only [List.length_cons] at hle1 ⊢
          omega
      have hne : ∀ b e0, derefEdge m2.items b = some e0 → b ≠ m.items.length + 1 := by
        intro b e0 hb hba
        subst hba
        have ha := Repr_leaf_arc hwfA.2.1 hwfA.2.2 hrA
        unfold derefEdge at hb
        unfold derefArc at ha
        cases hdd : deref m2.items (m.items.length + 1) with
        | none => simp [hdd] at hb
        | some i =>
          rw [hdd] at hb ha
          simp only at hb ha
          cases hdata : i.data with
          | arc x => simp [hdata, ItemData.edge?] at hb
          | edge x => simp [hdata, ItemData.arc?] at ha
      refine ⟨by rw [hevlen], c, V, m.items.length, L, R, le, re, Or.inl rfl, ?_, hc, ?_, ?_,
        hhit⟩
      · rw [hsame2 _ (by rw [hl1]; omega)]
        exact hd
      · unfold derefEdge
        rw [hframe2 L (hne L le hdl)]
        exact hdl
      · unfold derefEdge
        rw [hframe2 R (hne R re hdr)]
        exact hdr
    · obtain ⟨rfl, c, V, L, R, le, re, hd, hc, hdl, hdr, hhit⟩ := hnew2 e he2
      refine ⟨by rw [hl1, hevlen]; omega, c, V, m.items.length + 1, L, R, le, re, Or.inr rfl, hd,
        hc, hdl, hdr, hhit⟩
  · intro se hse
    obtain ⟨yy, ip, sa, hd0, hd1⟩ := hevse se hse
    refine ⟨yy, ip, sa, hd0, ?_⟩
    rw [hold se (deref_lt_length hd0)]
    exact hd1
  · intro e he hne
    rw [hold e he]
    exact hevsame e hne

end C30

section C30Witness
set_option maxRecDepth 100000

/-- Witness of C30: the insertion of the third site of `levelSites`, which pushes the circle
event 3 of the right half of the split arc. -/
theorem C30_witness :
    (WellFormed (queuePop levelMemStart 2).items 2 levelTreeStart ∧
      AddArcToBeachline envQ0 (queuePop levelMemStart 2) 2 2 0 = some (levelMemInserted, 2) ∧
      levelMemInserted.queue = [3]) ∧
    ∃ act aA newPoint new,
      sitePoint (queuePop levelMemStart 2).events 2 = some newPoint ∧
      GetActiveArcForXCoord envQ0 (queuePop levelMemStart 2).items
        (queuePop levelMemStart 2).items.length 2 newPoint.x 0 = some act ∧
      (act, aA) ∈ levelTreeStart.leaves ∧
      levelMemInserted.queue = (queuePop levelMemStart 2).queue ++ new ∧
      (∀ e ∈ (queuePop levelMemStart 2).queue, e ∈ levelMemInserted.queue) ∧
      levelMemInserted.pops = (queuePop levelMemStart 2).pops ∧
      levelMemInserted.events.length = (queuePop levelMemStart 2).events.length + new.length ∧
      new.length ≤ 2 ∧
      (∀ e ∈ new, (queuePop levelMemStart 2).events.length ≤ e ∧ ∃ c V arc L R le re,
        (arc = (queuePop levelMemStart 2).items.length ∨
          arc = (queuePop levelMemStart 2).items.length + 1) ∧
        deref levelMemInserted.events e = some ⟨c, EventData.edgeIntersect V arc true⟩ ∧
        c = V.y - envQ0.sqrt (distSq aA.focus V) ∧
        derefEdge levelMemInserted.items L = some le ∧
        derefEdge levelMemInserted.items R = some re ∧
        TryGetEdgeIntersectionPoint le re = RayHit.hit V) ∧
      (∀ se, aA.squeezeEvent = some se → ∃ yy ip sa,
        deref (queuePop levelMemStart 2).events se
          = some ⟨yy, EventData.edgeIntersect ip sa true⟩ ∧
        deref levelMemInserted.events se = some ⟨yy, EventData.edgeIntersect ip sa false⟩) ∧
      (∀ e, e < (queuePop levelMemStart 2).events.length → aA.squeezeEvent ≠ some e →
        deref levelMemInserted.events e = deref (queuePop levelMemStart 2).events e) :=
  ⟨⟨⟨rfl, by decide!, by decide⟩, by decide!, by decide!⟩,
   C30_AddArcToBeachline_removes_no_event envQ0 (queuePop levelMemStart 2) levelMemInserted
     2 2 2 0 levelTreeStart ⟨rfl, by decide!, by decide⟩ (by decide!)⟩

end C30Witness

section C24
variable {F : Type} [LinearOrderedField F]

/-- One call of `AddArcSqueezeEvent` for an arc leaf, in a state in which arcs and circle events
are linked: the pending event of the arc is either kept as it is, or it is invalidated and a
candidate of strictly greater `yCoord` is pushed and recorded in its place; the pending events
and the records of the other leaves do not change. -/
theorem AddArcSqueezeEvent_pending {env : Env F} {m m1 : Mem F} {root : Nat} {t : Tree F}
    {arc : Nat} {a : Arc F} (hwf : WellFormed m.items root t) (hinv : EventsInv m.events t)
    (hl : (arc, a) ∈ t.leaves) (h : AddArcSqueezeEvent env m arc = some m1) :
    m.events.length ≤ m1.events.length ∧
    (∀ se, a.squeezeEvent = some se → ∃ ys Vs,
      deref m.events se = some ⟨ys, EventData.edgeIntersect Vs arc true⟩ ∧
      ((derefArc m1.items arc = some a ∧
          deref m1.events se = some ⟨ys, EventData.edgeIntersect Vs arc true⟩) ∨
       (∃ c V, derefArc m1.items arc = some { a with squeezeEvent := some m.events.length } ∧
          deref m1.events m.events.length = some ⟨c, EventData.edgeIntersect V arc true⟩ ∧
          ys < c ∧ deref m1.events se = some ⟨ys, EventData.edgeIntersect Vs arc false⟩))) ∧
    (∀ b arcb se, (b, arcb) ∈ t.leaves → b ≠ arc → arcb.squeezeEvent = some se →
      derefArc m1.items b = some arcb ∧ deref m1.events se = deref m.events se) := by
  obtain ⟨hroot, hrepr, hnd⟩ := hwf
  rcases AddArcSqueezeEvent_on_leaf hrepr hnd hl h with rfl |
    ⟨L, R, V, c, hL, hR, hc, hrepr1, hlen, hframe, hq, hpops, hevlen, hnew, hold⟩
  · refine ⟨le_refl _, ?_, ?_⟩
    · intro se hse
      obtain ⟨ys, Vs, hd⟩ := hinv.1 arc a se hl hse
      exact ⟨ys, Vs, hd, Or.inl ⟨Repr_leaf_arc hrepr hnd hl, hd⟩⟩
    · intro b arcb se hb _ _
      exact ⟨Repr_leaf_arc hrepr hnd hb, rfl⟩
  · have hmem := fun z => mem_leaves_replaceLeaf hnd hl
      (b := { a with squeezeEvent := some m.events.length }) z
    refine ⟨by omega, ?_, ?_⟩
    · intro se hse
      obtain ⟨ys, Vs, hd⟩ := hinv.1 arc a se hl hse
      refine ⟨ys, Vs, hd, Or.inr ⟨c, V, ?_, hnew, ?_⟩⟩
      · exact Repr_leaf_arc hrepr1 (by
          have hp := Tree.replaceLeaf_addrs_perm t arc
            (Tree.leaf arc { a with squeezeEvent := some m.events.length }) hnd hl
          refine hp.nodup_iff.mpr ?_
          have hp2 : (t.addrs.erase arc ++ [arc]).Perm t.addrs := by
            refine (List.perm_append_comm).trans ?_
            exact (List.perm_cons_erase (Tree.leaves_addr_mem hl)).symm
          exact hp2.nodup_iff.mpr hnd) ((hmem _).mpr (Or.inl rfl))
      · rcases hold with ⟨hnone, -⟩ | ⟨se2, y3, ip, sa, v, hase, hdse, hlt, hdse1, -⟩
        · rw [hnone] at hse
          cases hse
        · rw [hse] at hase
          cases hase
          rw [hd] at hdse
          simp only [Option.some.injEq, SweepEvent.mk.injEq, EventData.edgeIntersect.injEq] at hdse
          obtain ⟨rfl, rfl, rfl, rfl⟩ := hdse
          exact ⟨hlt, hdse1⟩
    · intro b arcb se hb hne hbe
      refine ⟨?_, ?_⟩
      · have h1 := Repr_leaf_arc hrepr hnd hb
        unfold derefArc at h1 ⊢
        rw [hframe b hne]
        exact h1
      · obtain ⟨ys, Vs, hd⟩ := hinv.1 b arcb se hb hbe
        have helt := deref_lt_length hd
        rcases hold with ⟨-, hsame⟩ | ⟨se2, y3, ip, sa, v, hase, hdse, -, -, hsame⟩
        · exact hsame se helt
        · have hne2 : se ≠ se2 := by
            rintro rfl
            obtain ⟨y4, V4, hd4⟩ := hinv.1 arc a se hl hase
            rw [hd] at hd4
            simp only [Option.some.injEq, SweepEvent.mk.injEq, EventData.edgeIntersect.injEq,
              and_true] at hd4
            exact hne hd4.2.2
          exact hsame se hne2 helt

omit [LinearOrderedField F] in
/-- The link between arcs and circle events after the squeezed arc is taken out of the tree and
its event is invalidated. -/
theorem spliced_eventsInv {items : Items F} {events : Events F} {root evt sa : Nat}
    {t t2 : Tree F} {saArc : Arc F} {y : F} {c : Vector2 F} (hwf : WellFormed items root t)
    (hinv : EventsInv events t)
    (hd : deref events evt = some ⟨y, EventData.edgeIntersect c sa true⟩)
    (hsa : (sa, saArc) ∈ t.leaves) (hse : saArc.squeezeEvent = some evt)
    (hlv : ∀ z, z ∈ t2.leaves ↔ (z ∈ t.leaves ∧ z.1 ≠ sa))
    (hlm : t2.leftmost = t.leftmost) (hrm : t2.rightmost = t.rightmost) :
    EventsInv (store events evt ⟨y, EventData.edgeIntersect c sa false⟩) t2 := by
  have hevlt : evt < events.length := deref_lt_length hd
  refine ⟨?_, ?_⟩
  · intro b arcb e hb hbe
    obtain ⟨hbt, hbne⟩ := (hlv (b, arcb)).mp hb
    obtain ⟨y2, V2, hd2⟩ := hinv.1 b arcb e hbt hbe
    refine ⟨y2, V2, ?_⟩
    have hne : evt ≠ e := by
      rintro rfl
      rw [hd] at hd2
      simp only [Option.some.injEq, SweepEvent.mk.injEq, EventData.edgeIntersect.injEq,
        and_true] at hd2
      exact hbne hd2.2.2.symm
    rw [deref_store_ne _ _ _ _ hne, hd2]
  · intro e y2 V2 b hd2
    rw [hlm, hrm]
    have hne : evt ≠ e := by
      rintro rfl
      rw [deref_store_same _ _ _ hevlt] at hd2
      simp at hd2
    rw [deref_store_ne _ _ _ _ hne] at hd2
    obtain ⟨arcb, hbl, hbe, hb1, hb2⟩ := hinv.2 e y2 V2 b hd2
    have hbne : b ≠ sa := by
      rintro rfl
      have := leaves_unique hwf.2.1 hwf.2.2 hbl hsa
      subst this
      rw [hse] at hbe
      exact hne (Option.some.inj hbe)
    exact ⟨arcb, (hlv (b, arcb)).mpr ⟨hbl, hbne⟩, hbe, hb1, hb2⟩

/-- A call of `AddArcSqueezeEvent` that returns, for an arc leaf with a pending event `se`: the
candidate is defined, the event is replaced when the candidate has a strictly greater `yCoord`,
and nothing changes otherwise. -/
theorem AddArcSqueezeEvent_decides {env : Env F} {m m1 : Mem F} {t : Tree F} {arc se : Nat}
    {a : Arc F} {ys : F} {Vs : Vector2 F} (hrepr : Repr m.items none t) (hnd : t.addrs.Nodup)
    (hl : (arc, a) ∈ t.leaves) (hse : a.squeezeEvent = some se)
    (hd : deref m.events se = some ⟨ys, EventData.edgeIntersect Vs arc true⟩)
    (h : AddArcSqueezeEvent env m arc = some m1) :
    ∃ cand, squeezeCandidateFor env m.items arc = some cand ∧
      (∀ V c, cand = some (V, c) → ys < c →
        m1.queue = m.queue ++ [m.events.length] ∧
        derefArc m1.items arc = some { a with squeezeEvent := some m.events.length } ∧
        deref m1.events m.events.length = some ⟨c, EventData.edgeIntersect V arc true⟩ ∧
        deref m1.events se = some ⟨ys, EventData.edgeIntersect Vs arc false⟩) ∧
      ((cand = none ∨ ∃ V c, cand = some (V, c) ∧ c ≤ ys) → m1 = m) := by
  obtain ⟨q, hit, -⟩ := Repr_leaf_parent hrepr hnd hl
  have hreg : ∀ V c, registerSqueezeEvent m arc V c = some m1 →
      (ys < c → m1.queue = m.queue ++ [m.events.length] ∧
        derefArc m1.items arc = some { a with squeezeEvent := some m.events.length } ∧
        deref m1.events m.events.length = some ⟨c, EventData.edgeIntersect V arc true⟩ ∧
        deref m1.events se = some ⟨ys, EventData.edgeIntersect Vs arc false⟩) ∧
      (c ≤ ys → m1 = m) := by
    intro V c hr
    unfold registerSqueezeEvent at hr
    simp only [hit, ItemData.arc?, hse, hd] at hr
    by_cases hc : c ≤ ys
    · simp only [hc, if_true, Option.some.injEq] at hr
      exact ⟨fun hlt => absurd hc (not_le.mpr hlt), fun _ => hr.symm⟩
    · simp only [hc, if_false] at hr
      refine ⟨fun _ => ?_, fun hle => absurd hle hc⟩
      cases hev : clearValid m.events se with
      | none => simp [hev] at hr
      | some ev1 =>
        simp only [hev, Option.some.injEq] at hr
        subst hr
        obtain ⟨y, ip, sa, v, hse2, rfl⟩ := clearValid_eq_some hev
        rw [hd] at hse2
        simp only [Option.some.injEq, SweepEvent.mk.injEq, EventData.edgeIntersect.injEq] at hse2
        obtain ⟨rfl, rfl, rfl, rfl⟩ := hse2
        have helt := deref_lt_length hd
        have hlen : (store m.events se
            (⟨ys, EventData.edgeIntersect Vs arc false⟩ : SweepEvent F)).length
            = m.events.length := by simp [store]
        obtain ⟨h1, h2, h3, h4, h5, h6, h7, h8⟩ := newSqueezeEvent_spec
          { m with events := store m.events se ⟨ys, EventData.edgeIntersect Vs arc false⟩ }
          arc _ a V c hit
        simp only [hlen] at h1 h2 h3 h4
        refine ⟨h1, ?_, h3, ?_⟩
        · simp only [derefArc, h5, ItemData.arc?, hlen]
        · rw [h4 se helt]
          exact deref_store_same _ _ _ helt
  have hnone : m1 = m → squeezeCandidateFor env m.items arc = some none →
      ∃ cand, squeezeCandidateFor env m.items arc = some cand ∧
      (∀ V c, cand = some (V, c) → ys < c →
        m1.queue = m.queue ++ [m.events.length] ∧
        derefArc m1.items arc = some { a with squeezeEvent := some m.events.length } ∧
        deref m1.events m.events.length = some ⟨c, EventData.edgeIntersect V arc true⟩ ∧
        deref m1.events se = some ⟨ys, EventData.edgeIntersect Vs arc false⟩) ∧
      ((cand = none ∨ ∃ V c, cand = some (V, c) ∧ c ≤ ys) → m1 = m) :=
    fun h1 h2 => ⟨none, h2, fun _ _ hh => Option.noConfusion hh, fun _ => h1⟩
  unfold AddArcSqueezeEvent at h
  cases hL : GetFirstParentOnTheLeft m.items arc with
  | none => simp [hL] at h
  | some oL =>
    cases hR : GetFirstParentOnTheRight m.items arc with
    | none => simp [hL, hR] at h
    | some oR =>
      cases oL with
      | none =>
        simp only [hL, hR, Option.some.injEq] at h
        exact hnone h.symm (by simp [squeezeCandidateFor, hL, hR])
      | some L =>
        cases oR with
        | none =>
          simp only [hL, hR, Option.some.injEq] at h
          exact hnone h.symm (by simp [squeezeCandidateFor, hL, hR])
        | some R =>
          simp only [hL, hR] at h
          have hcf : squeezeCandidateFor env m.items arc
              = squeezeCandidate env m.items arc L R := by
            simp [squeezeCandidateFor, hL, hR]
          rw [hcf]
          cases hc : squeezeCandidate env m.items arc L R with
          | none => simp [hc] at h
          | some cand =>
            cases cand with
            | none =>
              simp only [hc, Option.some.injEq] at h
              rw [← hc, ← hcf]
              exact hnone h.symm (by rw [hcf, hc])
            | some Vc =>
              obtain ⟨V, c⟩ := Vc
              simp only [hc] at h
              refine ⟨some (V, c), rfl, ?_, ?_⟩
              · intro V1 c1 heq hlt
                simp only [Option.some.injEq, Prod.mk.injEq] at heq
                obtain ⟨rfl, rfl⟩ := heq
                exact (hreg _ _ h).1 hlt
              · rintro (hh | ⟨V1, c1, heq, hle⟩)
                · cases hh
                · simp only [Option.some.injEq, Prod.mk.injEq] at heq
                  obtain ⟨rfl, rfl⟩ := heq
                  exact (hreg _ _ h).2 hle

/-- A call of `AddArcSqueezeEvent` that returns only appends to the queue. -/
theorem AddArcSqueezeEvent_queue_mem {env : Env F} {m m1 : Mem F} {arc k : Nat}
    (h : AddArcSqueezeEvent env m arc = some m1) (hk : k ∈ m.queue) : k ∈ m1.queue := by
  rcases AddArcSqueezeEvent_cases h with rfl | ⟨L, R, V, c, it, a, -, -, -, -, -, hcase⟩
  · exact hk
  · rcases hcase with ⟨-, rfl⟩ | ⟨se, s, ev1, -, -, -, -, rfl⟩
    · simp [newSqueezeEvent, hk]
    · simp [newSqueezeEvent, hk]

/-- C24 (amended). `RemoveArcFromBeachline` for the valid circle event of an arc `A`, in a state
in which the invariant of the beachline holds, when it returns: the event of `A` has
`isValid = false` afterwards.  The events of the neighbours are not cleared by the removal
itself: the function calls `AddArcSqueezeEvent` for the left and then for the right
neighbouring arc, and for each neighbour that had a pending event `se` of `yCoord` `ys` the call
computes a candidate from the new bounding edges of the arc.  When the candidate exists and has
a `yCoord` strictly greater than `ys`, it is allocated, pushed and recorded as the arc's
`squeezeEvent`, and `se` has `isValid = false` afterwards; when there is no candidate (a
bounding edge is missing or the rays of the two edges do not intersect) or its `yCoord` is not
greater than `ys`, the event `se` is left as it was, still valid and still the arc's
`squeezeEvent`. -/
theorem C24_neighbour_events_after_removal (env : Env F) (m m1 : Mem F) (root root1 evt : Nat)
    (out out1 : List (CompleteEdge F)) (hinv : BeachInv m root)
    (hrun : RemoveArcFromBeachline env m root out evt = some (m1, root1, out1)) :
    NeighbourEventsDecided env m m1 root1 evt := by
  obtain ⟨t, hwf, hev⟩ := hinv
  obtain ⟨c, sa, saArc, L, R, la, ra, eL, eR, laArc, raArc, dir, X, Y, H, P, eH, hl, hr, S, y,
    t2, mB, mA, hd, hsa, hse, hnb, hdL, hdR, hlam, hram, hdir, hin, hsH, hwhich, hanc, ht2, hin2,
    hr1, hwfB, hlenB, hframeB, hBL, hBsa, hBR, hBev, hBq, hBp, hmA, hm1, ho1⟩ :=
    RemoveArcFromBeachline_mid hwf (fun c sa3 hv => by
      obtain ⟨y, hy⟩ := validCircleEvent_eq_some hv
      obtain ⟨arc, harc, -⟩ := hev.2 evt y c sa3 hy
      exact ⟨arc, harc⟩) hrun
  have hind := Tree.inorder_nodup t hwf.2.2
  have hsa2 : sa ∉ t2.addrs := by
    intro hh
    obtain ⟨rec, hrec⟩ := Repr_deref_isSome hwfB.2.1 hh
    rw [hBsa] at hrec
    cases hrec
  obtain ⟨hlv, hlm, hrm⟩ := spliced_leaves hin hin2 hsa2
  have hlaB : (la, laArc) ∈ t2.leaves := Tree.leaf_of_inorder (by rw [hin2]; simp)
  have hraB : (ra, raArc) ∈ t2.leaves := Tree.leaf_of_inorder (by rw [hin2]; simp)
  have hlara : ra ≠ la := by
    have := hind
    rw [hin] at this
    intro hh
    simp [hh, List.nodup_append] at this
  have hlasa : la ≠ sa := ((hlv _).mp hlaB).2
  have hrasa : ra ≠ sa := ((hlv _).mp hraB).2
  have hevlt : evt < m.events.length := deref_lt_length hd
  have hinvB : EventsInv mB.events t2 := by
    rw [hBev]
    exact spliced_eventsInv hwf hev hd hsa hse hlv hlm hrm
  have hBlen : mB.events.length = m.events.length := by
    rw [hBev]
    simp
  -- the two calls
  obtain ⟨hlenA, hA1, hA2⟩ := AddArcSqueezeEvent_pending hwfB hinvB hlaB hmA
  obtain ⟨la1, -, hwfA, hinvA, -, -, hstaleA⟩ := AddArcSqueezeEvent_inv hwfB hlaB hmA
  have hraA : (ra, raArc) ∈ (t2.replaceLeaf la (Tree.leaf la la1)).leaves :=
    (mem_leaves_replaceLeaf hwfB.2.2 hlaB _).mpr (Or.inr ⟨hraB, hlara⟩)
  have hlaA : (la, la1) ∈ (t2.replaceLeaf la (Tree.leaf la la1)).leaves :=
    (mem_leaves_replaceLeaf hwfB.2.2 hlaB _).mpr (Or.inl rfl)
  obtain ⟨hlen1, h11, h12⟩ := AddArcSqueezeEvent_pending hwfA (hinvA hinvB) hraA hm1
  obtain ⟨ra1, -, hwf1, -, -, -, hstale1⟩ := AddArcSqueezeEvent_inv hwfA hraA hm1
  have hold : ∀ e ys Vs b, b ≠ sa →
      deref m.events e = some ⟨ys, EventData.edgeIntersect Vs b true⟩ →
      deref mB.events e = some ⟨ys, EventData.edgeIntersect Vs b true⟩ := by
    intro e ys Vs b hb hde
    have hne : evt ≠ e := by
      rintro rfl
      rw [hd] at hde
      simp only [Option.some.injEq, SweepEvent.mk.injEq, EventData.edgeIntersect.injEq,
        and_true] at hde
      exact hb hde.2.2.symm
    rw [hBev, deref_store_ne _ _ _ _ hne, hde]
  refine ⟨c, sa, L, R, la, ra, y, mB, mA, hd, hnb, ?_, ⟨t2, X, Y, laArc, raArc, dir, hwfB, hin2⟩,
    hBev, hBq, hmA, hm1, ?_⟩
  · refine hstale1 _ _ _ _ (hstaleA _ _ _ _ ?_)
    rw [hBev]
    exact deref_store_same _ _ _ hevlt
  · intro x mx hx arcx se hdx hsq
    rcases hx with ⟨rfl, rfl⟩ | ⟨rfl, rfl⟩
    · -- the left neighbour
      have hax := Repr_leaf_arc hwf.2.1 hwf.2.2 hlam
      rw [hdx] at hax
      have hax2 : arcx = laArc := Option.some.inj hax
      subst hax2
      obtain ⟨ys, Vs, hds⟩ := hev.1 x arcx se hlam hsq
      obtain ⟨cand, hcand, hrep, hkeep⟩ := AddArcSqueezeEvent_decides hwfB.2.1 hwfB.2.2 hlaB hsq
        (hold se ys Vs x hlasa hds) hmA
      refine ⟨ys, Vs, cand, hds, hcand, ?_, ?_⟩
      · intro V1 c1 hc hlt
        obtain ⟨hq, hrec, hnew, hcl⟩ := hrep V1 c1 hc hlt
        have hla1 := Repr_leaf_arc hwfA.2.1 hwfA.2.2 hlaA
        rw [hrec] at hla1
        have : { arcx with squeezeEvent := some mx.events.length } = la1 := Option.some.inj hla1
        subst this
        obtain ⟨hr1, hr2⟩ := h12 x _ mx.events.length hlaA (Ne.symm hlara) rfl
        refine ⟨by omega, AddArcSqueezeEvent_queue_mem hm1 (by rw [hq]; simp), hr1,
          by rw [hr2]; exact hnew, hstale1 _ _ _ _ hcl⟩
      · intro hc
        have hmm := hkeep hc
        subst hmm
        have hla1 := Repr_leaf_arc hwfA.2.1 hwfA.2.2 hlaA
        rw [Repr_leaf_arc hwfB.2.1 hwfB.2.2 hlaB] at hla1
        have : arcx = la1 := Option.some.inj hla1
        subst this
        obtain ⟨hr1, hr2⟩ := h12 x arcx se hlaA (Ne.symm hlara) hsq
        exact ⟨hr1, by rw [hr2]; exact hold se ys Vs x hlasa hds⟩
    · -- the right neighbour
      have hax := Repr_leaf_arc hwf.2.1 hwf.2.2 hram
      rw [hdx] at hax
      have hax2 : arcx = raArc := Option.some.inj hax
      subst hax2
      obtain ⟨ys, Vs, hds⟩ := hev.1 x arcx se hram hsq
      obtain ⟨-, hA2e⟩ := hA2 x arcx se hraB hlara hsq
      have hdA : deref mx.events se = some ⟨ys, EventData.edgeIntersect Vs x true⟩ := by
        rw [hA2e]
        exact hold se ys Vs x hrasa hds
      obtain ⟨cand, hcand, hrep, hkeep⟩ := AddArcSqueezeEvent_decides hwfA.2.1 hwfA.2.2 hraA hsq
        hdA hm1
      refine ⟨ys, Vs, cand, hds, hcand, ?_, ?_⟩
      · intro V1 c1 hc hlt
        obtain ⟨hq, hrec, hnew, hcl⟩ := hrep V1 c1 hc hlt
        exact ⟨by omega, by rw [hq]; simp, hrec, hnew, hcl⟩
      · intro hc
        have hmm := hkeep hc
        subst hmm
        exact ⟨Repr_leaf_arc hwfA.2.1 hwfA.2.2 hraA, hdA⟩

end C24

section C24Witness
set_option maxRecDepth 100000

/-- Counterexample to C24: in the run on the four cocircular sites of `cocircularSites`, the
main loop pops the circle event 4, which removes the arc at address 6 between the arcs at 12 and
8.  The arc at 12 has the pending event 5, computed from the arcs 13, 12 and 6; after the call
the candidate for the arcs 13, 12 and 8 has the same `yCoord` -625, so event 5 is kept with
`isValid = true`. -/
theorem C24_counterexample :
    runState envQ0 cocircularSites (-1000) 3 = some (cocircularMem, 4, []) ∧
    queueTop envQ0 cocircularMem = some 4 ∧
    RemoveArcFromBeachline envQ0 (queuePop cocircularMem 4) 4 [] 4
      = some (cocircularMemAfter, 4,
          [⟨⟨-527, 61659 / 44⟩, ⟨0, 0⟩⟩, ⟨⟨0, 0⟩, ⟨625, 1875 / 4⟩⟩]) ∧
    deref cocircularMemAfter.events 5 = some ⟨-625, EventData.edgeIntersect ⟨0, 0⟩ 12 true⟩ ∧
    ¬ NeighbourEventsCleared envQ0 (queuePop cocircularMem 4) 4 [] 4 := by
  refine ⟨by decide!, by decide!, by decide!, by decide!, ?_⟩
  intro h
  have h1 := h cocircularMemAfter 4 [⟨⟨-527, 61659 / 44⟩, ⟨0, 0⟩⟩, ⟨⟨0, 0⟩, ⟨625, 1875 / 4⟩⟩]
    ⟨0, 0⟩ 6 5 9 12 8 (by decide!) (by decide!) (by decide!) 12 (Or.inl rfl)
    ⟨⟨-527, 336⟩, some 5⟩ 5 (-625) ⟨0, 0⟩ (by decide!) rfl (by decide!)
  revert h1
  decide!

/-- Witness of C24 (amended), on two calls.  In the run on `replacedSites` the circle event 4
removes the arc at address 7; its right neighbour (address 11) had the pending event 5 of
`yCoord` -566456639/42250000, the candidate from the new bounding edges has the greater `yCoord`
-8516423/28900000 and is pushed as event 6, and event 5 has `isValid = false` afterwards.  In
the run on `cocircularSites` the pending event 5 of the left neighbour is kept. -/
theorem C24_witness :
    ((runState envQ0 replacedSites (-1000) 3 = some (replacedMem, 4, []) ∧
      RemoveArcFromBeachline envQ0 (queuePop replacedMem 4) 4 [] 4
        = some (replacedMemAfter, 16,
            [⟨⟨-7, 112 / 5⟩, ⟨-13 / 23, 308 / 23⟩⟩, ⟨⟨-13 / 23, 308 / 23⟩, ⟨5, 68 / 3⟩⟩])) ∧
      (derefArc replacedMem.items 11 = some ⟨⟨5, 17⟩, some 5⟩ ∧
        deref replacedMem.events 5
          = some ⟨-566456639 / 42250000, EventData.edgeIntersect ⟨-163 / 26, 101 / 26⟩ 11 true⟩ ∧
        derefArc replacedMemAfter.items 11 = some ⟨⟨5, 17⟩, some 6⟩ ∧
        deref replacedMemAfter.events 5
          = some ⟨-566456639 / 42250000, EventData.edgeIntersect ⟨-163 / 26, 101 / 26⟩ 11 false⟩ ∧
        deref replacedMemAfter.events 6
          = some ⟨-8516423 / 28900000, EventData.edgeIntersect ⟨11 / 68, 307 / 34⟩ 11 true⟩ ∧
        replacedMemAfter.queue = [5, 6]) ∧
      NeighbourEventsDecided envQ0 (queuePop replacedMem 4) replacedMemAfter 16 4) ∧
    ((runState envQ0 cocircularSites (-1000) 3 = some (cocircularMem, 4, []) ∧
      RemoveArcFromBeachline envQ0 (queuePop cocircularMem 4) 4 [] 4
        = some (cocircularMemAfter, 4,
            [⟨⟨-527, 61659 / 44⟩, ⟨0, 0⟩⟩, ⟨⟨0, 0⟩, ⟨625, 1875 / 4⟩⟩])) ∧
      NeighbourEventsDecided envQ0 (queuePop cocircularMem 4) cocircularMemAfter 4 4) :=
  ⟨⟨⟨by decide!, by decide!⟩,
    ⟨by decide!, by decide!, by decide!, by decide!, by decide!, by decide!⟩,
    C24_neighbour_events_after_removal envQ0 (queuePop replacedMem 4) replacedMemAfter 4 16 4 []
      [⟨⟨-7, 112 / 5⟩, ⟨-13 / 23, 308 / 23⟩⟩, ⟨⟨-13 / 23, 308 / 23⟩, ⟨5, 68 / 3⟩⟩]
      (@runState_beachInv ℚ _ envQ0 replacedSites (-1000) 3 replacedMem 4 [] (by decide!))
      (by decide!)⟩,
   ⟨⟨by decide!, by decide!⟩,
    C24_neighbour_events_after_removal envQ0 (queuePop cocircularMem 4) cocircularMemAfter 4 4 4
      []
      [⟨⟨-527, 61659 / 44⟩, ⟨0, 0⟩⟩, ⟨⟨0, 0⟩, ⟨625, 1875 / 4⟩⟩]
      (@runState_beachInv ℚ _ envQ0 cocircularSites (-1000) 3 cocircularMem 4 [] (by decide!))
      (by decide!)⟩⟩

end C24Witness

section NewVertices
variable {F : Type} [LinearOrderedField F]

/-- The state after one more turn of the main loop. -/
theorem mainLoopIterate_succ (env : Env F) (cutoffY : F) (k : Nat)
    (s0 : Mem F × Nat × List (CompleteEdge F)) :
    mainLoopIterate env cutoffY (k + 1) s0
      = (mainLoopIterate env cutoffY k s0).bind (fun s =>
          match mainLoopStep env cutoffY s.1 s.2.1 s.2.2 with
          | some (some s1) => some s1
          | _ => none) := by
  induction k generalizing s0 with
  | zero =>
    obtain ⟨m, root, edges⟩ := s0
    simp only [mainLoopIterate, Option.some_bind]
  | succ k ih =>
    obtain ⟨m, root, edges⟩ := s0
    rw [mainLoopIterate]
    split
    · rename_i s1 hs1
      rw [ih s1]
      simp only [mainLoopIterate, hs1]
    · rename_i hn
      have hnone : mainLoopIterate env cutoffY (k + 1) (m, root, edges) = none := by
        rw [mainLoopIterate]
        split
        · rename_i s1 hs1
          exact absurd hs1 (hn s1)
        · rfl
      rw [hnone]
      rfl

/-- Two consecutive states of a run at the head of the main loop are linked by one turn. -/
theorem runState_step {env : Env F} {sites : List (Vector2 F)} {cutoffY : F} {k : Nat}
    {m m1 : Mem F} {root root1 : Nat} {edges edges1 : List (CompleteEdge F)}
    (h0 : runState env sites cutoffY k = some (m, root, edges))
    (h1 : runState env sites cutoffY (k + 1) = some (m1, root1, edges1)) :
    mainLoopStep env cutoffY m root edges = some (some (m1, root1, edges1)) := by
  unfold runState at h0 h1
  split at h0
  · rename_i m0 root0 hb
    rw [hb] at h1
    simp only at h1
    rw [mainLoopIterate_succ, h0] at h1
    simp only [Option.some_bind] at h1
    split at h1
    · rename_i s1 hs1
      rw [hs1, Option.some.inj h1]
    · cases h1
  · cases h0

/-- The invariant of the sweep for the sites holds in every state of a run at the head of the
main loop. -/
theorem runState_sweepInv {env : Env F} {sites : List (Vector2 F)} {cutoffY : F} {k : Nat}
    {m : Mem F} {root : Nat} {edges : List (CompleteEdge F)}
    (h : runState env sites cutoffY k = some (m, root, edges)) : SweepInv sites cutoffY m := by
  induction k generalizing m root edges with
  | zero =>
    unfold runState at h
    split at h
    · rename_i m0 root0 hb
      simp only [mainLoopIterate, Option.some.injEq, Prod.mk.injEq] at h
      obtain ⟨rfl, -, -⟩ := h
      exact (bootstrap_inv hb).2 _ _ rfl
    · cases h
  | succ k ih =>
    cases hk : runState env sites cutoffY k with
    | none =>
      exfalso
      unfold runState at h hk
      split at h
      · rename_i m0 root0 hb
        rw [hb] at hk
        simp only at hk
        rw [mainLoopIterate_succ, hk] at h
        cases h
      · cases h
    | some s =>
      obtain ⟨m0, r0, e0⟩ := s
      exact mainLoopStep_inv (ih hk) (runState_step hk h)

end NewVertices

section C26Witness
set_option maxRecDepth 100000

end C26Witness

section C28
variable {F : Type} [LinearOrderedField F]

omit [LinearOrderedField F] in
theorem Repr_rightmostArc {items : Items F} {p : Option Nat} {t : Tree F} (h : Repr items p t) :
    derefArc items t.rightmost = some t.rightmostArc := by
  induction t generalizing p with
  | leaf a arc =>
    simp only [Repr] at h
    simp [derefArc, Tree.rightmost, Tree.rightmostArc, h, ItemData.arc?]
  | node a e l r _ ihr =>
    simp only [Repr] at h
    exact ihr h.2.2

omit [LinearOrderedField F] in
theorem Repr_leftmostArc {items : Items F} {p : Option Nat} {t : Tree F} (h : Repr items p t) :
    derefArc items t.leftmost = some t.leftmostArc := by
  induction t generalizing p with
  | leaf a arc =>
    simp only [Repr] at h
    simp [derefArc, Tree.leftmost, Tree.leftmostArc, h, ItemData.arc?]
  | node a e l r ihl _ =>
    simp only [Repr] at h
    exact ihl h.2.1

/-- The value of `intersectionX` at an edge node of a tree held by the arena. -/
theorem breakpointX_eq (env : Env F) {items : Items F} {p : Option Nat} {a : Nat} {e : Edge F}
    {l r : Tree F} (h : Repr items p (Tree.node a e l r)) (hne : l.addr ≠ r.addr)
    (hlen : (Tree.node a e l r).height < items.length) (x d : F) :
    ∃ li ri, GetEdgeArcIntersectionPoint env e l.rightmostArc d = some li ∧
      GetEdgeArcIntersectionPoint env e r.leftmostArc d = some ri ∧
      breakpointX env items a x d = some (chooseIntersectionX li ri (env.uninit a x d)) := by
  simp only [Tree.height] at hlen
  obtain ⟨hL1, hL2⟩ := neighbours_left h hne (by omega)
  obtain ⟨hR1, hR2⟩ := neighbours_right h hne (by omega)
  have hla := Repr_rightmostArc h.2.1
  have hra := Repr_leftmostArc h.2.2
  obtain ⟨li, hli⟩ := GetEdgeArcIntersectionPoint_isSome env e l.rightmostArc d
  obtain ⟨ri, hri⟩ := GetEdgeArcIntersectionPoint_isSome env e r.leftmostArc d
  have hde : derefEdge items a = some e := by simp [derefEdge, h.1, ItemData.edge?]
  refine ⟨li, ri, hli, hri, ?_⟩
  unfold breakpointX
  simp only [hL1, hR1, hla, hra, hL2, hR2, if_true, hde, hli, hri]

/-- On a tree held by the arena without repeated addresses `GetActiveArcForXCoord` returns, and
returns the leaf that the descent on the tree reaches. -/
theorem GetActiveArcForXCoord_descent (env : Env F) (t : Tree F)
    (fuel : Nat) (items : Items F) (p : Option Nat) (x d : F) (h : Repr items p t)
    (hnd : t.addrs.Nodup) (hfuel : t.height < fuel) (hlen : t.height < items.length) :
    ∃ act arc, GetActiveArcForXCoord env items fuel t.addr x d = some act ∧
      (act, arc) ∈ t.leaves ∧ t.activeArc env x d = some act := by
  induction t generalizing fuel p with
  | leaf a arc =>
    cases fuel with
    | zero => omega
    | succ fuel =>
      simp only [Repr] at h
      refine ⟨a, arc, ?_, by simp [Tree.leaves], rfl⟩
      rw [show (Tree.leaf a arc).addr = a from rfl]
      simp [GetActiveArcForXCoord, h, BeachlineItem.isArc]
  | node a e l r ihl ihr =>
    cases fuel with
    | zero => omega
    | succ fuel =>
      have hne : l.addr ≠ r.addr := by
        intro heq
        simp only [Tree.addrs, List.nodup_cons] at hnd
        exact (List.nodup_append.mp hnd.2).2.2 l.addr_mem_addrs (heq ▸ r.addr_mem_addrs)
      obtain ⟨li, ri, hli, hri, hix⟩ := breakpointX_eq env h hne hlen x d
      simp only [Tree.addrs, List.nodup_cons] at hnd
      simp only [Tree.height] at hfuel hlen
      rw [show (Tree.node a e l r).addr = a from rfl]
      simp only [GetActiveArcForXCoord, h.1, BeachlineItem.isArc, hix, Tree.activeArc,
        hli, hri]
      by_cases hx : x < chooseIntersectionX li ri (env.uninit a x d)
      · obtain ⟨act, arc, h1, h2, h3⟩ := ihl fuel (some a) h.2.1 (List.nodup_append.mp hnd.2).1
          (by omega) (by omega)
        exact ⟨act, arc, by simp [hx, h1], by simp [Tree.leaves, h2], by simp [hx, h3]⟩
      · obtain ⟨act, arc, h1, h2, h3⟩ := ihr fuel (some a) h.2.2 (List.nodup_append.mp hnd.2).2.1
          (by omega) (by omega)
        exact ⟨act, arc, by simp [hx, h1], by simp [Tree.leaves, h2], by simp [hx, h3]⟩

/-- Where the descent of the specification has a result, the descent of the code has the same
one. -/
theorem Tree.activeArc_of_specified (env : Env F) (x d : F) (t : Tree F) {act : Nat}
    (h : t.activeArcAsSpecified env x d = some act) : t.activeArc env x d = some act := by
  induction t with
  | leaf a arc => exact h
  | node a e l r ihl ihr =>
    simp only [Tree.activeArcAsSpecified] at h
    simp only [Tree.activeArc]
    cases hli : GetEdgeArcIntersectionPoint env e l.rightmostArc d with
    | none => simp [hli] at h
    | some li =>
      cases hri : GetEdgeArcIntersectionPoint env e r.leftmostArc d with
      | none => simp [hli, hri] at h
      | some ri =>
        simp only [hli, hri] at h ⊢
        cases hbx : breakpointAsSpecified li ri with
        | none => simp [hbx] at h
        | some bx =>
          simp only [hbx] at h
          have hc : chooseIntersectionX li ri (env.uninit a x d) = bx := by
            cases li with
            | some pl =>
              simp only [breakpointAsSpecified, Option.some.injEq] at hbx
              simpa [chooseIntersectionX] using hbx
            | none =>
              cases ri with
              | some pr =>
                simp only [breakpointAsSpecified, Option.some.injEq] at hbx
                simpa [chooseIntersectionX] using hbx
              | none => simp [breakpointAsSpecified] at hbx
          rw [hc]
          by_cases hx : x < bx
          · simp only [hx, if_true] at h ⊢
            exact ihl h
          · simp only [hx, if_false] at h ⊢
            exact ihr h

/-- C28. On a tree held by the arena without repeated addresses, for every `x` and
`directrixY`, `GetActiveArcForXCoord` returns the address of an arc leaf of the tree, and
whenever the descent of the specification has a result (every edge node on the way has an
intersection with its left or its right neighbouring arc) the code returns that result: at each
edge node it moves to the left child if and only if `x < bx`, where `bx` is the `x` of the
intersection with the left neighbouring arc when that exists and otherwise the `x` of the
intersection with the right neighbouring arc.  Where neither intersection exists the code
compares `x` with the local `leftIntersect.x`, which was never written. -/
theorem C28_GetActiveArcForXCoord_descends_by_breakpoints (env : Env F) (t : Tree F)
    (fuel : Nat) (items : Items F) (p : Option Nat) (x d : F) (h : Repr items p t)
    (hnd : t.addrs.Nodup) (hfuel : t.height < fuel) (hlen : t.height < items.length) :
    (∃ act arc, GetActiveArcForXCoord env items fuel t.addr x d = some act ∧
      (act, arc) ∈ t.leaves) ∧
    ∀ a, t.activeArcAsSpecified env x d = some a →
      GetActiveArcForXCoord env items fuel t.addr x d = some a := by
  obtain ⟨act, arc, h1, h2, h3⟩ := GetActiveArcForXCoord_descent env t fuel items p x d h hnd
    hfuel hlen
  refine ⟨⟨act, arc, h1, h2⟩, fun a ha => ?_⟩
  rw [h1, ← h3, Tree.activeArc_of_specified env x d t ha]

end C28

section C28Witness
set_option maxRecDepth 100000

/-- Failing input of C28: on the tree of the run on `levelSites` before the third site is
inserted (the vertical edge at `x = 0` between the arcs of (-7,24) and (7,24)), for `x = 3` and
`directrixY = 24` neither intersection exists, the descent of the specification has no result,
and `GetActiveArcForXCoord` returns the arc at address 1 when the unwritten local holds 0 and
the arc at address 0 when it holds 10. -/
theorem C28_counterexample :
    WellFormed levelMemStart.items 2 levelTreeStart ∧
    GetEdgeArcIntersectionPoint envQ0 ⟨⟨0, 124⟩, ⟨0, -1⟩, true⟩ (⟨⟨-7, 24⟩, none⟩ : Arc ℚ) 24
      = some none ∧
    GetEdgeArcIntersectionPoint envQ0 ⟨⟨0, 124⟩, ⟨0, -1⟩, true⟩ (⟨⟨7, 24⟩, none⟩ : Arc ℚ) 24
      = some none ∧
    levelTreeStart.activeArcAsSpecified envQ0 3 24 = none ∧
    GetActiveArcForXCoord (envQ (fun _ => 0) 0) levelMemStart.items levelMemStart.items.length
      2 3 24 = some 1 ∧
    GetActiveArcForXCoord (envQ (fun _ => 0) 10) levelMemStart.items levelMemStart.items.length
      2 3 24 = some 0 ∧
    ¬ ActiveArcDetermined levelMemStart.items 2 (3 : ℚ) 24 := by
  refine ⟨⟨rfl, by decide!, by decide⟩, by decide!, by decide!, by decide!, by decide!,
    by decide!, ?_⟩
  intro h
  have h1 := h (envQ (fun _ => 0) 0) (envQ (fun _ => 0) 10) rfl rfl rfl
  revert h1
  decide!

/-- Witness of C28: the location of the third site of `levelSites` in the tree of the two level
arcs, where the descent of the specification reaches the arc at address 0. -/
theorem C28_witness :
    (Repr levelMemStart.items none levelTreeStart ∧ levelTreeStart.addrs.Nodup ∧
      levelTreeStart.height < levelMemStart.items.length) ∧
    levelTreeStart.activeArcAsSpecified envQ0 (-25) 0 = some 0 ∧
    (∃ act arc, GetActiveArcForXCoord envQ0 levelMemStart.items levelMemStart.items.length
        levelTreeStart.addr (-25) 0 = some act ∧ (act, arc) ∈ levelTreeStart.leaves) ∧
    ∀ a, levelTreeStart.activeArcAsSpecified envQ0 (-25) 0 = some a →
      GetActiveArcForXCoord envQ0 levelMemStart.items levelMemStart.items.length
        levelTreeStart.addr (-25) 0 = some a :=
  ⟨⟨by decide!, by decide, by decide!⟩, by decide!,
   C28_GetActiveArcForXCoord_descends_by_breakpoints envQ0 levelTreeStart
     levelMemStart.items.length levelMemStart.items none (-25) 0 (by decide!) (by decide)
     (by decide!) (by decide!)⟩

end C28Witness

section C22Witness
set_option maxRecDepth 100000

/-- Witness of C22: in the run on `levelSites`, inside `AddArcToBeachline` for the third site,
the call for `splitArcRight` (address 4, focus (-7,24), bounding edges 7 and 2 with ray
intersection (0,0)) pushes the event 3 with `yCoord = 0 - 25`. -/
theorem C22_witness :
    AddArcSqueezeEvent envQ0 levelMemBefore 4 = some levelMem ∧
    (levelMem = levelMemBefore ∨
      ∃ L R le re V a, GetFirstParentOnTheLeft levelMemBefore.items 4 = some (some L) ∧
        GetFirstParentOnTheRight levelMemBefore.items 4 = some (some R) ∧
        derefEdge levelMemBefore.items L = some le ∧
        derefEdge levelMemBefore.items R = some re ∧
        TryGetEdgeIntersectionPoint le re = RayHit.hit V ∧
        derefArc levelMemBefore.items 4 = some a ∧
        levelMem.queue = levelMemBefore.queue ++ [levelMemBefore.events.length] ∧
        levelMem.events.length = levelMemBefore.events.length + 1 ∧
        deref levelMem.events levelMemBefore.events.length
          = some ⟨V.y - envQ0.sqrt (distSq a.focus V), EventData.edgeIntersect V 4 true⟩ ∧
        derefArc levelMem.items 4
          = some { a with squeezeEvent := some levelMemBefore.events.length }) :=
  ⟨by decide!,
   (C22_AddArcSqueezeEvent_pushes_circle_event envQ0 levelMemBefore 4).2.2 levelMem
     (by decide!)⟩

end C22Witness

section StartupOrder
variable {F : Type} [LinearOrderedField F]

/-- The intersection of a vertical edge with an arc: when it exists its `x` is the `x` of the
start of the edge, and it is absent only for an arc whose focus lies on the directrix. -/
theorem vertical_intersection (env : Env F) (e : Edge F) (arc : Arc F) (d : F)
    (hv : e.direction.x = 0) :
    (∀ p, GetEdgeArcIntersectionPoint env e arc d = some (some p) → p.x = e.start.x) ∧
    (GetEdgeArcIntersectionPoint env e arc d = some none → arc.focus.y = d) := by
  unfold GetEdgeArcIntersectionPoint
  simp only [hv, if_true]
  by_cases hd : d = arc.focus.y
  · simp only [hd, if_true]
    by_cases hx : e.start.x = arc.focus.x
    · simp [hx]
    · simp [hx]
  · simp only [hd, if_false]
    rw [GetArcYForXCoord_of_ne arc e.start.x d (Ne.symm hd)]
    simp

/-- The breakpoint of a vertical edge is the `x` of its start unless both neighbouring arcs
have their focus on the directrix. -/
theorem breakpoint_vertical (env : Env F) (e : Edge F) (la ra : Arc F) (d u : F)
    (hv : e.direction.x = 0) {li ri : Option (Vector2 F)}
    (hli : GetEdgeArcIntersectionPoint env e la d = some li)
    (hri : GetEdgeArcIntersectionPoint env e ra d = some ri)
    (hne : ¬ (la.focus.y = d ∧ ra.focus.y = d)) :
    chooseIntersectionX li ri u = e.start.x := by
  cases li with
  | some pl => exact (vertical_intersection env e la d hv).1 pl hli
  | none =>
    cases ri with
    | some pr => exact (vertical_intersection env e ra d hv).1 pr hri
    | none =>
      exact absurd ⟨(vertical_intersection env e la d hv).2 hli,
        (vertical_intersection env e ra d hv).2 hri⟩ hne

omit [LinearOrderedField F] in
theorem Tree.rightmostArc_mem (t : Tree F) : (t.rightmost, t.rightmostArc) ∈ t.leaves := by
  induction t with
  | leaf a arc => simp [Tree.rightmost, Tree.rightmostArc, Tree.leaves]
  | node a e l r _ ihr => simp [Tree.rightmost, Tree.rightmostArc, Tree.leaves, ihr]

omit [LinearOrderedField F] in
theorem Tree.leftmostArc_mem (t : Tree F) : (t.leftmost, t.leftmostArc) ∈ t.leaves := by
  induction t with
  | leaf a arc => simp [Tree.leftmost, Tree.leftmostArc, Tree.leaves]
  | node a e l r ihl _ => simp [Tree.leftmost, Tree.leftmostArc, Tree.leaves, ihl]

/-- The descent ends in a leaf of the tree. -/
theorem Tree.activeArc_mem (env : Env F) (x d : F) (t : Tree F) {act : Nat}
    (h : t.activeArc env x d = some act) : ∃ arc, (act, arc) ∈ t.leaves := by
  induction t with
  | leaf a arc =>
    simp only [Tree.activeArc, Option.some.injEq] at h
    exact ⟨arc, by simp [Tree.leaves, h]⟩
  | node a e l r ihl ihr =>
    simp only [Tree.activeArc] at h
    split at h
    · split_ifs at h
      · obtain ⟨arc, harc⟩ := ihl h
        exact ⟨arc, by simp [Tree.leaves, harc]⟩
      · obtain ⟨arc, harc⟩ := ihr h
        exact ⟨arc, by simp [Tree.leaves, harc]⟩
    · cases h

/-- The subtree of the start-up loop is ordered by `x` when the two foci differ in `x`. -/
theorem startupSubtree_splitByX (n act : Nat) (aA : Arc F) (newFocus : Vector2 F)
    (hx : aA.focus.x ≠ newFocus.x) : (startupSubtree n act aA newFocus).SplitByX := by
  unfold startupSubtree
  split_ifs with h
  · simp only [Tree.SplitByX, Tree.leaves, List.mem_singleton, forall_eq, startupEdgeStart,
      and_true, true_and]
    constructor
    · linarith
    · linarith
  · have h2 : aA.focus.x < newFocus.x := lt_of_le_of_ne (not_lt.mp h) hx
    simp only [Tree.SplitByX, Tree.leaves, List.mem_singleton, forall_eq, startupEdgeStart,
      and_true, true_and]
    constructor
    · linarith
    · linarith

/-- The insertion of the start-up loop keeps the order by `x`: when the focus `x` of the new
site differs from that of every arc and at most one arc has the `y` of the new site, the tree
in which the arc found by the descent is replaced by the subtree of the new edge is ordered. -/
theorem Tree.SplitByX_insert (env : Env F) (newFocus : Vector2 F) (n : Nat) (t : Tree F)
    {act : Nat} {aA : Arc F} (hb : t.SplitByX) (hnd : t.addrs.Nodup)
    (hx : ∀ z ∈ t.leaves, z.2.focus.x ≠ newFocus.x)
    (hc : t.leaves.countP (fun z => decide (z.2.focus.y = newFocus.y)) ≤ 1)
    (hleaf : (act, aA) ∈ t.leaves)
    (hdesc : t.activeArc env newFocus.x newFocus.y = some act) :
    (t.replaceLeaf act (startupSubtree n act aA newFocus)).SplitByX := by
  induction t with
  | leaf a arc =>
    simp only [Tree.leaves, List.mem_singleton, Prod.mk.injEq] at hleaf
    obtain ⟨rfl, rfl⟩ := hleaf
    simp only [Tree.replaceLeaf, if_true]
    exact startupSubtree_splitByX n act aA newFocus (hx (act, aA) (by simp [Tree.leaves]))
  | node a e l r ihl ihr =>
    obtain ⟨hv, hl, hr, hbl, hbr⟩ := hb
    simp only [Tree.addrs, List.nodup_cons] at hnd
    obtain ⟨hndl, hndr, hdisj⟩ := List.nodup_append.mp hnd.2
    simp only [Tree.leaves, List.countP_append] at hc
    simp only [Tree.leaves, List.mem_append] at hx hleaf
    obtain ⟨li, hli⟩ := GetEdgeArcIntersectionPoint_isSome env e l.rightmostArc newFocus.y
    obtain ⟨ri, hri⟩ := GetEdgeArcIntersectionPoint_isSome env e r.leftmostArc newFocus.y
    have hne : ¬ (l.rightmostArc.focus.y = newFocus.y ∧ r.leftmostArc.focus.y = newFocus.y) := by
      rintro ⟨h1, h2⟩
      have c1 : 0 < l.leaves.countP (fun z => decide (z.2.focus.y = newFocus.y)) :=
        List.countP_pos_iff.mpr ⟨_, l.rightmostArc_mem, by simpa using h1⟩
      have c2 : 0 < r.leaves.countP (fun z => decide (z.2.focus.y = newFocus.y)) :=
        List.countP_pos_iff.mpr ⟨_, r.leftmostArc_mem, by simpa using h2⟩
      omega
    have hbx := breakpoint_vertical env e l.rightmostArc r.leftmostArc newFocus.y
      (env.uninit a newFocus.x newFocus.y) hv hli hri hne
    simp only [Tree.activeArc, hli, hri, hbx] at hdesc
    simp only [Tree.replaceLeaf]
    by_cases hlt : newFocus.x < e.start.x
    · simp only [hlt, if_true] at hdesc
      obtain ⟨arc2, harc2⟩ := Tree.activeArc_mem env _ _ l hdesc
      have hal : act ∈ l.addrs := Tree.leaves_addr_mem harc2
      have har : act ∉ r.addrs := fun h => hdisj hal h
      have hleafl : (act, aA) ∈ l.leaves := by
        rcases hleaf with h | h
        · exact h
        · exact absurd (Tree.leaves_addr_mem h) har
      rw [Tree.replaceLeaf_of_not_mem r act _ har]
      refine ⟨hv, ?_, hr, ihl hbl hndl (fun z hz => hx z (Or.inl hz)) (by omega) hleafl hdesc,
        hbr⟩
      intro z hz
      rcases (mem_leaves_replaceLeaf_sub hndl hleafl _ z).mp hz with hz1 | ⟨hz1, -⟩
      · rcases startupSubtree_leaves _ _ _ _ z hz1 with rfl | rfl
        · exact hl _ hleafl
        · exact hlt
      · exact hl z hz1
    · simp only [hlt, if_false] at hdesc
      obtain ⟨arc2, harc2⟩ := Tree.activeArc_mem env _ _ r hdesc
      have har : act ∈ r.addrs := Tree.leaves_addr_mem harc2
      have hal : act ∉ l.addrs := fun h => hdisj h har
      have hleafr : (act, aA) ∈ r.leaves := by
        rcases hleaf with h | h
        · exact absurd (Tree.leaves_addr_mem h) hal
        · exact h
      rw [Tree.replaceLeaf_of_not_mem l act _ hal]
      refine ⟨hv, hl, ?_, hbl,
        ihr hbr hndr (fun z hz => hx z (Or.inr hz)) (by omega) hleafr hdesc⟩
      intro z hz
      rcases (mem_leaves_replaceLeaf_sub hndr hleafr _ z).mp hz with hz1 | ⟨hz1, -⟩
      · rcases startupSubtree_leaves _ _ _ _ z hz1 with rfl | rfl
        · exact hr _ hleafr
        · exact not_lt.mp hlt
      · exact hr z hz1

/-- In a tree ordered by `x` the focus `x` of the arcs increases strictly from left to
right. -/
theorem Tree.SplitByX.pairwise {t : Tree F} (hb : t.SplitByX) :
    (t.leaves.map (fun z => z.2.focus.x)).Pairwise (fun a b => a < b) := by
  induction t with
  | leaf a arc => simp [Tree.leaves]
  | node a e l r ihl ihr =>
    obtain ⟨-, hl, hr, hbl, hbr⟩ := hb
    simp only [Tree.leaves, List.map_append, List.pairwise_append]
    refine ⟨ihl hbl, ihr hbr, ?_⟩
    intro x hx y hy
    obtain ⟨z1, hz1, rfl⟩ := List.mem_map.mp hx
    obtain ⟨z2, hz2, rfl⟩ := List.mem_map.mp hy
    exact lt_of_lt_of_le (hl z1 hz1) (hr z2 hz2)

/-- In a tree ordered by `x` every edge starts above the focus `x` of its left neighbouring arc
and not above that of its right neighbouring arc. -/
theorem Tree.SplitByX.edges {t : Tree F} (hb : t.SplitByX) :
    t.EdgesBetweenNeighbours (fun a b => a ≤ b) := by
  induction t with
  | leaf a arc => trivial
  | node a e l r ihl ihr =>
    obtain ⟨-, hl, hr, hbl, hbr⟩ := hb
    exact ⟨hl _ l.rightmostArc_mem, hr _ r.leftmostArc_mem, ihl hbl, ihr hbr⟩

end StartupOrder

section StartupDescent
variable {F : Type} [LinearOrderedField F]

/-- The body of the start-up loop on a well-formed tree: it returns, and the tree afterwards
is the old one in which the arc reached by the descent is replaced by the subtree of the new
edge. -/
theorem startupInsert_descent (env : Env F) (items : Items F) (root : Nat) (t : Tree F)
    (newFocus : Vector2 F) (hwf : WellFormed items root t) :
    ∃ items1 root1 act aA, startupInsert env items root newFocus = some (items1, root1) ∧
      (act, aA) ∈ t.leaves ∧
      t.activeArc env newFocus.x newFocus.y = some act ∧
      WellFormed items1 root1 (t.replaceLeaf act (startupSubtree items.length act aA newFocus)) ∧
      items1.length = items.length + 2 := by
  obtain ⟨hroot, hrepr, hnd⟩ := hwf
  subst hroot
  have hlt := Repr_lt_length hrepr
  have hrepr1 : Repr (CreateArc items newFocus).1 none t :=
    Repr_congr (fun a ha => deref_alloc_lt _ _ _ (hlt a ha)) hrepr
  have hh := WellFormed.height_lt ⟨rfl, hrepr, hnd⟩
  obtain ⟨act, aA, hga, hleaf, hdesc⟩ := GetActiveArcForXCoord_descent env t
    (CreateArc items newFocus).1.length (CreateArc items newFocus).1 none newFocus.x newFocus.y
    hrepr1 hnd (by simp [CreateArc]; omega) (by simp [CreateArc]; omega)
  obtain ⟨q, hact, items1, hrun, hlen, hsub, hsame, hpar⟩ :=
    startupInsert_arena_of env items t newFocus hrepr hnd hga hleaf
  have hactlt : act < items.length := hlt act (Tree.leaves_addr_mem hleaf)
  refine ⟨items1, _, act, aA, hrun, hleaf, hdesc, ⟨?_, ?_, ?_⟩, hlen⟩
  · rw [Tree.replaceLeaf_addr t act _ hnd hleaf, startupSubtree_addr]
    obtain ⟨it, hit, hitp⟩ := Repr_root hrepr
    by_cases hq : q = none
    · subst hq
      obtain ⟨q2, hact2, hcase⟩ := Repr_leaf_parent hrepr hnd hleaf
      rw [hact] at hact2
      rcases hcase with ⟨-, ht⟩ | ⟨pa, rec, hq2, -⟩
      · rw [ht]; simp [Tree.addr]
      · rw [hq2] at hact2; simp at hact2
    · have hne : t.addr ≠ act := by
        intro h
        rw [h, hact] at hit
        cases hit
        exact hq hitp
      simp [hq, hne]
  · refine Repr_replaceLeaf hact hsub hsame ?_ t none hrepr hnd hleaf
    intro pa rec hq hrec
    rw [startupSubtree_addr]
    exact hpar pa rec hq hrec
  · refine (Tree.replaceLeaf_addrs_perm t act _ hnd hleaf).nodup_iff.mpr ?_
    rw [List.nodup_append]
    refine ⟨hnd.erase act, (startupSubtree_addrs _ _ _ _).nodup_iff.mpr ?_, ?_⟩
    · simp; omega
    · intro a ha hb
      rw [hnd.mem_erase_iff] at ha
      have h1 := (startupSubtree_addrs _ _ _ _).mem_iff.mp hb
      have h2 := hlt a ha.2
      simp at h1
      rcases h1 with h1 | h1 | h1
      · omega
      · omega
      · exact ha.1 h1

end StartupDescent
section StartupOrderLoop
variable {F : Type} [LinearOrderedField F]

/-- The foci of the leaves after the insertion of the start-up loop: the new focus and the old
ones. -/
theorem foci_replaceLeaf_perm (t : Tree F) (hnd : t.addrs.Nodup) {act : Nat} {aA : Arc F}
    (hleaf : (act, aA) ∈ t.leaves) (n : Nat) (newFocus : Vector2 F) :
    ((t.replaceLeaf act (startupSubtree n act aA newFocus)).leaves.map
      (fun z => z.2.focus)).Perm (newFocus :: t.leaves.map (fun z => z.2.focus)) := by
  obtain ⟨pre, post, h1, h2⟩ := Tree.replaceLeaf_leaves t hnd act aA hleaf
  rw [h2, h1]
  have hs : ((startupSubtree n act aA newFocus).leaves.map (fun z => z.2.focus)).Perm
      [newFocus, aA.focus] := by
    unfold startupSubtree
    split_ifs
    · simp [Tree.leaves]
    · simp only [Tree.leaves, List.singleton_append, List.map_cons, List.map_nil]
      exact List.Perm.swap _ _ _
  simp only [List.map_append, List.map_cons, List.map_nil]
  refine List.Perm.trans (List.Perm.append_right _ (List.Perm.append_left _ hs)) ?_
  simp only [List.append_assoc, List.cons_append, List.nil_append]
  exact List.perm_middle

/-- The start-up loop keeps the order by `x` of the tree, when the foci of the arcs and the
queued sites of the start-up window differ pairwise in `x` and no three of them have the same
`y`. -/
theorem startupLoop_splitByX {env : Env F} {cutoffY w : F} (fuel : Nat) {m m1 : Mem F}
    {root root1 : Nat} {t : Tree F} (hq : QueueInv m) (hwf : WellFormed m.items root t)
    (hb : t.SplitByX)
    (hDx : (t.leaves.map (fun z => z.2.focus)
      ++ (siteQueue m).filter (fun p => decide (w - 1 < p.y))).Pairwise
        (fun p q => p.x ≠ q.x))
    (hDy : ∀ p ∈ t.leaves.map (fun z => z.2.focus)
        ++ (siteQueue m).filter (fun p => decide (w - 1 < p.y)),
      (t.leaves.map (fun z => z.2.focus)
        ++ (siteQueue m).filter (fun p => decide (w - 1 < p.y))).countP
          (fun q => decide (q.y = p.y)) ≤ 2)
    (h : startupLoop env cutoffY (w - 1) fuel m root = some (m1, root1)) :
    ∃ t1, WellFormed m1.items root1 t1 ∧ t1.SplitByX := by
  induction fuel generalizing m root t with
  | zero => simp [startupLoop] at h
  | succ fuel ih =>
    unfold startupLoop at h
    split at h
    · cases h; exact ⟨t, hwf, hb⟩
    split at h
    · cases h
    rename_i evt htop
    split at h
    · cases h
    rename_i e hd
    split at h
    swap
    · cases h; exact ⟨t, hwf, hb⟩
    rename_i hwin
    split at h
    · cases h; exact ⟨t, hwf, hb⟩
    rename_i hy
    split at h
    · cases h
    rename_i newFocus hsp
    split at h
    · cases h
    rename_i items1 r1 hins
    obtain ⟨items2, r2, act, aA, hins2, hleaf, hdesc, hwf2, -⟩ :=
      startupInsert_descent env m.items root t newFocus hwf
    rw [hins] at hins2
    simp only [Option.some.injEq, Prod.mk.injEq] at hins2
    obtain ⟨rfl, rfl⟩ := hins2
    have hmem : evt ∈ m.queue := (queueTop_spec htop).1
    have hey : e.yCoord = newFocus.y := by
      have h1 := hq.2.2 evt hmem newFocus hsp
      have h2 : eventY m.events evt = some e.yCoord := eventY_eq_some_iff.mpr ⟨e, hd, rfl⟩
      rw [h2] at h1
      exact Option.some.inj h1
    have hW : w - 1 < newFocus.y := hey ▸ hwin
    obtain ⟨hq1, hnot, hperm⟩ := hq.pop hmem
    rw [hsp] at hperm
    simp only [Option.toList, List.singleton_append] at hperm
    obtain ⟨hq2, hsq2⟩ := hq1.free hnot
    have hpermW : ((siteQueue m).filter (fun p => decide (w - 1 < p.y))).Perm
        (newFocus :: (siteQueue (queuePop m evt)).filter (fun p => decide (w - 1 < p.y))) := by
      have := hperm.filter (fun p => decide (w - 1 < p.y))
      simpa [List.filter_cons, hW] using this
    have hnew : newFocus ∈ (siteQueue m).filter (fun p => decide (w - 1 < p.y)) :=
      hpermW.mem_iff.mpr (List.mem_cons_self _ _)
    have hall : (t.leaves.map (fun z => z.2.focus)
        ++ (siteQueue m).filter (fun p => decide (w - 1 < p.y))).Perm
        ((t.replaceLeaf act (startupSubtree m.items.length act aA newFocus)).leaves.map
            (fun z => z.2.focus)
          ++ (siteQueue (queuePop m evt)).filter (fun p => decide (w - 1 < p.y))) := by
      refine List.Perm.trans (List.Perm.append_left _ hpermW) ?_
      refine List.Perm.trans List.perm_middle ?_
      rw [← List.cons_append]
      exact List.Perm.append_right _ (foci_replaceLeaf_perm t hwf.2.2 hleaf _ newFocus).symm
    have hx : ∀ z ∈ t.leaves, z.2.focus.x ≠ newFocus.x := by
      intro z hz
      exact (List.pairwise_append.mp hDx).2.2 _ (List.mem_map_of_mem (fun z => z.2.focus) hz)
        _ hnew
    have hc : t.leaves.countP (fun z => decide (z.2.focus.y = newFocus.y)) ≤ 1 := by
      have h1 := hDy newFocus (List.mem_append_right _ hnew)
      rw [List.countP_append, List.countP_map] at h1
      have h2 : 0 < ((siteQueue m).filter (fun p => decide (w - 1 < p.y))).countP
          (fun p => decide (p.y = newFocus.y)) :=
        List.countP_pos_iff.mpr ⟨newFocus, hnew, by simp⟩
      have h3 : List.countP ((fun p : Vector2 F => decide (p.y = newFocus.y)) ∘
          fun z : Nat × Arc F => z.2.focus) t.leaves
          = t.leaves.countP (fun z => decide (z.2.focus.y = newFocus.y)) := rfl
      omega
    refine ih (m := { (queuePop m evt) with items := items1, events := free m.events evt })
      hq2 hwf2 (Tree.SplitByX_insert env newFocus _ t hb hwf.2.2 hx hc hleaf hdesc) ?_ ?_ h
    · have hsq : siteQueue { (queuePop m evt) with items := items1, events := free m.events evt }
          = siteQueue (queuePop m evt) := hsq2
      rw [hsq]
      exact (hall.pairwise_iff (fun {a b} hab => Ne.symm hab)).mp hDx
    · intro p hp
      have hsq : siteQueue { (queuePop m evt) with items := items1, events := free m.events evt }
          = siteQueue (queuePop m evt) := hsq2
      rw [hsq] at hp ⊢
      rw [← hall.countP_eq]
      exact hDy p (hall.mem_iff.mpr hp)

omit [LinearOrderedField F] in
/-- The queued sites of the seeded queue are the sites. -/
theorem siteQueue_seed (sites : List (Vector2 F)) :
    siteQueue ({ items := [], events := sites.map (fun pt => some (siteEvent pt)),
                 queue := List.range sites.length, pops := 0 } : Mem F) = sites := by
  unfold siteQueue
  simp only
  have h := map_sitePoint_range sites
  have h2 : (List.range sites.length).filterMap
      (sitePoint (sites.map (fun pt => some (siteEvent pt))))
      = ((List.range sites.length).map
          (sitePoint (sites.map (fun pt => some (siteEvent pt))))).filterMap id := by
    rw [List.filterMap_map]
    rfl
  rw [h2, h]
  rw [List.filterMap_map]
  simp

/-- The tree with which the main loop is entered is ordered by `x`, when the sites of the
leading run differ pairwise in `x` and no three of them have the same `y`. -/
theorem bootstrap_splitByX {env : Env F} {sites : List (Vector2 F)} {cutoffY : F}
    {m : Mem F} {root : Nat}
    (hx : (leadingRun sites).Pairwise (fun p q => p.x ≠ q.x))
    (hy : ∀ p ∈ leadingRun sites,
      (leadingRun sites).countP (fun q => decide (q.y = p.y)) ≤ 2)
    (h : bootstrap env sites cutoffY = some (Bootstrap.entered m root)) :
    ∃ t, WellFormed m.items root t ∧ t.SplitByX := by
  have hq0 := (SweepInv.seed sites cutoffY).1
  have hsq0 := siteQueue_seed sites
  unfold bootstrap at h
  rw [seedEvents_empty] at h
  dsimp only at h
  split at h
  · cases h
  rename_i evt htop
  split at h
  · cases h
  rename_i fe hd
  split at h
  · cases h
  rename_i pt hsp
  split at h
  · split at h <;> cases h
  · split at h
    · cases h
    rename_i m3 root3 hstart
    simp only [Option.some.injEq, Bootstrap.entered.injEq] at h
    obtain ⟨rfl, rfl⟩ := h
    have hwf0 : WellFormed (alloc ([] : Items F)
        { data := ItemData.arc { focus := pt, squeezeEvent := none }, parent := none,
          left := none, right := none }) 0 (Tree.leaf 0 ⟨pt, none⟩) := by
      refine ⟨rfl, ?_, by simp [Tree.addrs]⟩
      simp [Repr, alloc, deref]
    obtain ⟨hmem, y, hy0, hmax⟩ := queueTop_spec htop
    have hpty : y = pt.y := by
      have h1 := hq0.2.2 evt hmem pt hsp
      rw [hy0] at h1
      exact Option.some.inj h1
    subst hpty
    have hle : ∀ q ∈ sites, q.y ≤ pt.y := by
      intro q hq
      rw [← hsq0] at hq
      unfold siteQueue at hq
      obtain ⟨e2, he2, hsp2⟩ := List.mem_filterMap.mp hq
      exact hmax e2 he2 q.y (hq0.2.2 e2 he2 q hsp2)
    have hptmem : pt ∈ sites := by
      rw [← hsq0]
      unfold siteQueue
      exact List.mem_filterMap.mpr ⟨evt, hmem, hsp⟩
    have hrun : leadingRun sites = sites.filter (fun p => decide (pt.y - 1 < p.y)) := by
      unfold leadingRun
      apply List.filter_congr
      intro p hp
      by_cases hw : pt.y - 1 < p.y
      · simp only [hw, decide_True, List.all_eq_true, decide_eq_true_eq]
        intro q hq
        have := hle q hq
        linarith
      · simp only [hw, decide_False, List.all_eq_false, decide_eq_true_eq]
        exact ⟨pt, hptmem, hw⟩
    obtain ⟨hq1, hnot, hperm⟩ := hq0.pop hmem
    rw [hsp, hsq0] at hperm
    simp only [Option.toList, List.singleton_append] at hperm
    obtain ⟨hq2, hsq2⟩ := hq1.free hnot
    have hpermW := hperm.filter (fun p => decide (pt.y - 1 < p.y))
    rw [← hrun, List.filter_cons] at hpermW
    simp only [sub_lt_self_iff, zero_lt_one, decide_True, if_true] at hpermW
    refine startupLoop_splitByX (w := pt.y) _ (t := Tree.leaf 0 ⟨pt, none⟩) ?_ ?_ trivial
      ?_ ?_ hstart
    · exact hq2
    · exact hwf0
    · have key := (hpermW.pairwise_iff (fun {a b} hab => Ne.symm hab)).mp hx
      rw [← hsq2] at key
      exact key
    · intro p hp
      have hp2 : p ∈ leadingRun sites := by
        rw [hpermW.mem_iff, ← hsq2]
        exact hp
      have key := hy p hp2
      rw [hpermW.countP_eq, ← hsq2] at key
      exact key

end StartupOrderLoop
section C29
variable {F : Type} [LinearOrderedField F]

/-- C29 (amended). When the sites of the leading run (the sites whose `y` is above the `y` of
every site minus 1, which are the only ones the start-up loop can pop) have pairwise distinct
`x` and no three of them have the same `y`, then after the start-up loop the arena holds a
well-formed tree in which the focus `x` of the arc leaves is strictly increasing from left to
right, and the start `x` of every edge is strictly above the focus `x` of its left neighbouring
arc and not above the focus `x` of its right neighbouring arc. -/
theorem C29_startup_orders_arcs_by_x (env : Env F) (sites : List (Vector2 F)) (cutoffY : F)
    (m : Mem F) (root : Nat)
    (hx : (leadingRun sites).Pairwise (fun p q => p.x ≠ q.x))
    (hy : ∀ p ∈ leadingRun sites,
      (leadingRun sites).countP (fun q => decide (q.y = p.y)) ≤ 2)
    (h : bootstrap env sites cutoffY = some (Bootstrap.entered m root)) :
    ∃ t, WellFormed m.items root t ∧
      (t.leaves.map (fun z => z.2.focus.x)).Pairwise (fun a b => a < b) ∧
      t.EdgesBetweenNeighbours (fun a b => a ≤ b) := by
  obtain ⟨t, hwf, hb⟩ := bootstrap_splitByX hx hy h
  exact ⟨t, hwf, hb.pairwise, hb.edges⟩

end C29

section C29Witness
set_option maxRecDepth 100000

/-- Counterexample to C29.  On `edgeAlignedSites` (distinct `x`, distinct `y`) the third site
has the `x` of the edge between the first two, the descent moves right, and afterwards that
edge (start `x` 5) has the arc of focus (5,-1/2) as right neighbour: its start `x` is not
strictly between.  On `levelThreeSites` (equal `y`, distinct `x`) neither intersection exists
when the third site is located, and with the unwritten local holding 0 the arcs from left to
right have the focus `x` 5, 1, 10; with the unwritten local holding 8 they have 1, 5, 10. -/
theorem C29_counterexample :
    (edgeAlignedSites.Pairwise (fun p q => p.x ≠ q.x) ∧
      bootstrap envQ0 edgeAlignedSites (-1000)
        = some (Bootstrap.entered (memOfState (runState envQ0 edgeAlignedSites (-1000) 0)) 2) ∧
      WellFormed (memOfState (runState envQ0 edgeAlignedSites (-1000) 0)).items 2
        edgeAlignedTree ∧
      ¬ StartupOrderedByX envQ0 edgeAlignedSites (-1000)) ∧
    (levelThreeSites.Pairwise (fun p q => p.x ≠ q.x) ∧
      bootstrap envQ0 levelThreeSites (-1000)
        = some (Bootstrap.entered (memOfState (runState envQ0 levelThreeSites (-1000) 0)) 2) ∧
      WellFormed (memOfState (runState envQ0 levelThreeSites (-1000) 0)).items 2
        levelThreeTree ∧
      levelThreeTree.leaves.map (fun z => z.2.focus.x) = [5, 1, 10] ∧
      ¬ StartupOrderedByX envQ0 levelThreeSites (-1000) ∧
      WellFormed
        (memOfState (runState (envQ (fun _ => 0) 8) levelThreeSites (-1000) 0)).items 2
        levelThreeTreeOrdered ∧
      levelThreeTreeOrdered.leaves.map (fun z => z.2.focus.x) = [1, 5, 10]) := by
  have hb1 : bootstrap envQ0 edgeAlignedSites (-1000)
      = some (Bootstrap.entered (memOfState (runState envQ0 edgeAlignedSites (-1000) 0)) 2) := by
    decide!
  have hw1 : WellFormed (memOfState (runState envQ0 edgeAlignedSites (-1000) 0)).items 2
      edgeAlignedTree := ⟨rfl, by decide!, by decide⟩
  have hb2 : bootstrap envQ0 levelThreeSites (-1000)
      = some (Bootstrap.entered (memOfState (runState envQ0 levelThreeSites (-1000) 0)) 2) := by
    decide!
  have hw2 : WellFormed (memOfState (runState envQ0 levelThreeSites (-1000) 0)).items 2
      levelThreeTree := ⟨rfl, by decide!, by decide⟩
  refine ⟨⟨by decide!, hb1, hw1, ?_⟩, ⟨by decide!, hb2, hw2, by decide!, ?_,
    ⟨rfl, by decide!, by decide⟩, by decide!⟩⟩
  · intro h
    have h2 := (h _ _ _ hb1 hw1).2
    simp only [edgeAlignedTree, Tree.EdgesBetweenNeighbours, Tree.leftmostArc,
      Tree.rightmostArc] at h2
    exact absurd h2.2.1 (lt_irrefl _)
  · intro h
    have h2 := (h _ _ _ hb2 hw2).1
    revert h2
    decide!

/-- Witness of C29 (amended): the run on `edgeAlignedSites`. -/
theorem C29_witness :
    ((leadingRun edgeAlignedSites).Pairwise (fun p q => p.x ≠ q.x) ∧
      (∀ p ∈ leadingRun edgeAlignedSites,
        (leadingRun edgeAlignedSites).countP (fun q => decide (q.y = p.y)) ≤ 2) ∧
      bootstrap envQ0 edgeAlignedSites (-1000)
        = some (Bootstrap.entered
            (memOfState (runState envQ0 edgeAlignedSites (-1000) 0)) 2)) ∧
    ∃ t, WellFormed (memOfState (runState envQ0 edgeAlignedSites (-1000) 0)).items 2 t ∧
      (t.leaves.map (fun z => z.2.focus.x)).Pairwise (fun a b => a < b) ∧
      t.EdgesBetweenNeighbours (fun a b => a ≤ b) :=
  ⟨⟨by decide!, by decide!, by decide!⟩,
   C29_startup_orders_arcs_by_x envQ0 edgeAlignedSites (-1000)
     (memOfState (runState envQ0 edgeAlignedSites (-1000) 0)) 2 (by decide!) (by decide!)
     (by decide!)⟩

end C29Witness

section C31
variable {F : Type}

/-- The in-order sequence of a tree around one of its edge nodes: the rightmost leaf of the left
subtree, the edge, the leftmost leaf of the right subtree. -/
theorem Tree.inorder_around_node {t : Tree F} (hnd : t.addrs.Nodup) {b : Nat} {e : Edge F}
    {l r : Tree F} (hs : t.subAt b = some (Tree.node b e l r)) :
    ∃ la ra X Y, (l.rightmost, la) ∈ t.leaves ∧ (r.leftmost, ra) ∈ t.leaves ∧
      t.inorder = X ++ [(l.rightmost, ItemData.arc la), (b, ItemData.edge e),
        (r.leftmost, ItemData.arc ra)] ++ Y := by
  obtain ⟨pre, post, hin, -⟩ := Tree.inorder_replaceAt t hnd hs
  obtain ⟨la, init, hl, hlm⟩ := l.inorder_last_arc
  obtain ⟨ra, rest, hr, hrm⟩ := r.inorder_head_arc
  refine ⟨la, ra, pre ++ init, rest ++ post, ?_, ?_, ?_⟩
  · exact Tree.subAt_leaves hs _ (by simp [Tree.leaves, hlm])
  · exact Tree.subAt_leaves hs _ (by simp [Tree.leaves, hrm])
  · rw [hin]
    simp only [Tree.inorder, hl, hr, List.append_assoc, List.cons_append, List.nil_append]

/-- C31. In a well-formed tree, for every edge node `b` with left subtree `l` and right subtree
`r`: `GetFirstLeafOnTheLeft(b)` and `GetFirstLeafOnTheRight(b)` return the rightmost leaf of `l`
and the leftmost leaf of `r`, which are arc leaves of the tree and stand right before and right
after `b` in the in-order sequence; `GetFirstParentOnTheRight` of the former and
`GetFirstParentOnTheLeft` of the latter return `b`.  For every arc leaf `a` the two walks
return, `GetFirstParentOnTheLeft(a)` is null exactly when `a` is the leftmost leaf, and
`GetFirstParentOnTheRight(a)` is null exactly when `a` is the rightmost leaf. -/
theorem C31_neighbour_walks_are_inverse (items : Items F) (root : Nat) (t : Tree F)
    (hwf : WellFormed items root t) :
    (∀ b e l r, t.subAt b = some (Tree.node b e l r) →
      ∃ la ra X Y,
        GetFirstLeafOnTheLeft items b = some (some l.rightmost) ∧
        GetFirstLeafOnTheRight items b = some (some r.leftmost) ∧
        (l.rightmost, la) ∈ t.leaves ∧ (r.leftmost, ra) ∈ t.leaves ∧
        t.inorder = X ++ [(l.rightmost, ItemData.arc la), (b, ItemData.edge e),
          (r.leftmost, ItemData.arc ra)] ++ Y ∧
        GetFirstParentOnTheRight items l.rightmost = some (some b) ∧
        GetFirstParentOnTheLeft items r.leftmost = some (some b)) ∧
    (∀ a arc, (a, arc) ∈ t.leaves →
      (∃ p, GetFirstParentOnTheLeft items a = some p) ∧
      (∃ p, GetFirstParentOnTheRight items a = some p) ∧
      (GetFirstParentOnTheLeft items a = some none ↔ a = t.leftmost) ∧
      (GetFirstParentOnTheRight items a = some none ↔ a = t.rightmost)) := by
  refine ⟨?_, ?_⟩
  · intro b e l r hs
    obtain ⟨h1, h2, h3, h4, -⟩ := neighbours_of_node hwf hs
    obtain ⟨la, ra, X, Y, hla, hra, hin⟩ := Tree.inorder_around_node hwf.2.2 hs
    exact ⟨la, ra, X, Y, h1, h3, hla, hra, hin, h2, h4⟩
  · intro a arc ha
    have hL : a ≠ t.leftmost → ∃ b, GetFirstParentOnTheLeft items a = some (some b) := by
      intro hne
      obtain ⟨b, e, l, r, hs, hlm⟩ := Tree.exists_left_edge t hwf.2.2 ha hne
      exact ⟨b, hlm ▸ (neighbours_of_node hwf hs).2.2.2.1⟩
    have hR : a ≠ t.rightmost → ∃ b, GetFirstParentOnTheRight items a = some (some b) := by
      intro hne
      obtain ⟨b, e, l, r, hs, hrm⟩ := Tree.exists_right_edge t hwf.2.2 ha hne
      exact ⟨b, hrm ▸ (neighbours_of_node hwf hs).2.1⟩
    have hL0 := GetFirstParentOnTheLeft_leftmost hwf.2.1 hwf.height_lt
    have hR0 := GetFirstParentOnTheRight_rightmost hwf.2.1 hwf.height_lt
    refine ⟨?_, ?_, ⟨?_, ?_⟩, ⟨?_, ?_⟩⟩
    · by_cases hne : a = t.leftmost
      · exact ⟨none, hne ▸ hL0⟩
      · obtain ⟨b, hb⟩ := hL hne
        exact ⟨some b, hb⟩
    · by_cases hne : a = t.rightmost
      · exact ⟨none, hne ▸ hR0⟩
      · obtain ⟨b, hb⟩ := hR hne
        exact ⟨some b, hb⟩
    · intro h
      by_contra hne
      obtain ⟨b, hb⟩ := hL hne
      rw [hb] at h
      cases h
    · intro h
      rw [h]
      exact hL0
    · intro h
      by_contra hne
      obtain ⟨b, hb⟩ := hR hne
      rw [hb] at h
      cases h
    · intro h
      rw [h]
      exact hR0

end C31

section C31Witness
set_option maxRecDepth 100000

/-- Witness of C31: the tree of the run on `levelSites` after the third site is inserted; the
edge node at address 6 stands between the arcs at addresses 3 and 5. -/
theorem C31_witness :
    WellFormed levelMem.items 2 levelTree ∧
    GetFirstLeafOnTheLeft levelMem.items 6 = some (some 3) ∧
    GetFirstLeafOnTheRight levelMem.items 6 = some (some 5) ∧
    GetFirstParentOnTheRight levelMem.items 3 = some (some 6) ∧
    GetFirstParentOnTheLeft levelMem.items 5 = some (some 6) ∧
    GetFirstParentOnTheLeft levelMem.items 3 = some none ∧
    GetFirstParentOnTheRight levelMem.items 1 = some none ∧
    ((∀ b e l r, levelTree.subAt b = some (Tree.node b e l r) →
      ∃ la ra X Y,
        GetFirstLeafOnTheLeft levelMem.items b = some (some l.rightmost) ∧
        GetFirstLeafOnTheRight levelMem.items b = some (some r.leftmost) ∧
        (l.rightmost, la) ∈ levelTree.leaves ∧ (r.leftmost, ra) ∈ levelTree.leaves ∧
        levelTree.inorder = X ++ [(l.rightmost, ItemData.arc la), (b, ItemData.edge e),
          (r.leftmost, ItemData.arc ra)] ++ Y ∧
        GetFirstParentOnTheRight levelMem.items l.rightmost = some (some b) ∧
        GetFirstParentOnTheLeft levelMem.items r.leftmost = some (some b)) ∧
    (∀ a arc, (a, arc) ∈ levelTree.leaves →
      (∃ p, GetFirstParentOnTheLeft levelMem.items a = some p) ∧
      (∃ p, GetFirstParentOnTheRight levelMem.items a = some p) ∧
      (GetFirstParentOnTheLeft levelMem.items a = some none ↔ a = levelTree.leftmost) ∧
      (GetFirstParentOnTheRight levelMem.items a = some none ↔ a = levelTree.rightmost))) :=
  ⟨⟨rfl, by decide!, by decide⟩, by decide!, by decide!, by decide!, by decide!, by decide!,
   by decide!,
   C31_neighbour_walks_are_inverse levelMem.items 2 levelTree ⟨rfl, by decide!, by decide⟩⟩

end C31Witness

section C33
variable {F : Type} [LinearOrderedField F]

/-- The value that `GetArcYForXCoord` of the example returns for a focus off the directrix. -/
theorem example_GetArcYForXCoord_eq (focus : Vector2 F) (x d : F) (h : focus.y ≠ d) :
    parabolaInteractiveExample.GetArcYForXCoord focus x d
      = some (1 / (4 * (focus.y - d)) * (x - focus.x) * (x - focus.x)
          + (focus.y + d) * (1 / 2)) := by
  have h2 : 4 * (focus.y - d) ≠ 0 := mul_ne_zero four_ne_zero (sub_ne_zero.mpr h)
  unfold parabolaInteractiveExample.GetArcYForXCoord
  simp [fdiv, h2, Flt.toOption]

/-- C33. For a focus off the directrix both functions return a value, but the values differ
off the axis of the parabola: the height of the example above the vertex height
`(focus.y + directrixY) / 2` is half the height of the core, the two values are equal only for
`x = focus.x`, and the point `(x, y)` of the example is equidistant from the focus and the
directrix only for `x = focus.x`. -/
theorem C33_example_arc_height_is_half_of_core (arc : Arc F) (x directrixY : F)
    (h : arc.focus.y ≠ directrixY) :
    ∃ ye yc, parabolaInteractiveExample.GetArcYForXCoord arc.focus x directrixY = some ye ∧
      GetArcYForXCoord arc x directrixY = some yc ∧
      yc - (arc.focus.y + directrixY) / 2 = 2 * (ye - (arc.focus.y + directrixY) / 2) ∧
      (ye = yc ↔ x = arc.focus.x) ∧
      ((x - arc.focus.x) ^ 2 + (ye - arc.focus.y) ^ 2 = (ye - directrixY) ^ 2
        ↔ x = arc.focus.x) := by
  have h2 : arc.focus.y - directrixY ≠ 0 := sub_ne_zero.mpr h
  refine ⟨_, _, example_GetArcYForXCoord_eq arc.focus x directrixY h,
    GetArcYForXCoord_eq arc x directrixY h, ?_, ?_, ?_⟩
  · unfold quadA2
    field_simp
    ring
  · have key : quadA2 arc directrixY * (x - arc.focus.x) * (x - arc.focus.x)
        + (arc.focus.y + directrixY) * (1 / 2)
        - (1 / (4 * (arc.focus.y - directrixY)) * (x - arc.focus.x) * (x - arc.focus.x)
          + (arc.focus.y + directrixY) * (1 / 2))
        = (x - arc.focus.x) * (x - arc.focus.x) / (4 * (arc.focus.y - directrixY)) := by
      unfold quadA2
      field_simp
      ring
    constructor
    · intro he
      rw [he, sub_self] at key
      rcases div_eq_zero_iff.mp key.symm with h3 | h3
      · have := mul_self_eq_zero.mp h3
        linarith
      · exact absurd h3 (mul_ne_zero four_ne_zero h2)
    · intro hx
      have h0 : (x - arc.focus.x) * (x - arc.focus.x) = 0 := by rw [hx]; ring
      rw [h0, zero_div] at key
      exact (sub_eq_zero.mp key).symm
  · have key : (x - arc.focus.x) ^ 2
        + (1 / (4 * (arc.focus.y - directrixY)) * (x - arc.focus.x) * (x - arc.focus.x)
          + (arc.focus.y + directrixY) * (1 / 2) - arc.focus.y) ^ 2
        - (1 / (4 * (arc.focus.y - directrixY)) * (x - arc.focus.x) * (x - arc.focus.x)
          + (arc.focus.y + directrixY) * (1 / 2) - directrixY) ^ 2
        = (x - arc.focus.x) * (x - arc.focus.x) / 2 := by
      field_simp
      ring
    constructor
    · intro he
      rw [he, sub_self] at key
      rcases div_eq_zero_iff.mp key.symm with h3 | h3
      · have := mul_self_eq_zero.mp h3
        linarith
      · exact absurd h3 two_ne_zero
    · intro hx
      have h0 : (x - arc.focus.x) * (x - arc.focus.x) = 0 := by rw [hx]; ring
      rw [h0, zero_div] at key
      exact sub_eq_zero.mp key

end C33

section C33Witness
set_option maxRecDepth 100000

/-- Witness of C33: focus (0,2), directrix `y = 0`, `x = 2`: the core returns 2, the example
returns 3/2, and the point (2, 3/2) is not equidistant from the focus and the directrix. -/
theorem C33_witness :
    ((2 : ℚ) ≠ 0) ∧
    parabolaInteractiveExample.GetArcYForXCoord (⟨0, 2⟩ : Vector2 ℚ) 2 0 = some (3 / 2) ∧
    GetArcYForXCoord (⟨⟨0, 2⟩, none⟩ : Arc ℚ) 2 0 = some 2 ∧
    ∃ ye yc, parabolaInteractiveExample.GetArcYForXCoord (⟨0, 2⟩ : Vector2 ℚ) 2 0 = some ye ∧
      GetArcYForXCoord (⟨⟨0, 2⟩, none⟩ : Arc ℚ) 2 0 = some yc ∧
      yc - ((2 : ℚ) + 0) / 2 = 2 * (ye - ((2 : ℚ) + 0) / 2) ∧
      (ye = yc ↔ (2 : ℚ) = 0) ∧
      (((2 : ℚ) - 0) ^ 2 + (ye - 2) ^ 2 = (ye - 0) ^ 2 ↔ (2 : ℚ) = 0) :=
  ⟨by decide!, by decide!, by decide!,
   C33_example_arc_height_is_half_of_core (⟨⟨0, 2⟩, none⟩ : Arc ℚ) 2 0 (by decide!)⟩

end C33Witness

section Termination
variable {F : Type} [LinearOrderedField F]

/-- One call of `AddArcSqueezeEvent` pushes at most one event. -/
theorem AddArcSqueezeEvent_queue_length {env : Env F} {m m1 : Mem F} {arc : Nat}
    (h : AddArcSqueezeEvent env m arc = some m1) : m1.queue.length ≤ m.queue.length + 1 := by
  rcases AddArcSqueezeEvent_cases h with rfl | ⟨L, R, V, c, it, a, -, -, -, -, -, hcase⟩
  · omega
  · rcases hcase with ⟨-, rfl⟩ | ⟨se, s, ev1, -, -, -, -, rfl⟩
    · simp [newSqueezeEvent]
    · simp [newSqueezeEvent]

omit [LinearOrderedField F] in
/-- The replacement of a leaf by a leaf keeps the number of leaves. -/
theorem Tree.length_leaves_replaceLeaf_leaf (t : Tree F) (x y : Nat) (b : Arc F) :
    (t.replaceLeaf x (Tree.leaf y b)).leaves.length = t.leaves.length := by
  induction t with
  | leaf a arc =>
    simp only [Tree.replaceLeaf]
    split_ifs <;> simp [Tree.leaves]
  | node a e l r ihl ihr =>
    simp only [Tree.replaceLeaf, Tree.leaves, List.length_append, ihl, ihr]

/-- The body of the main loop on a state in which the invariant of the beachline holds: the
invariant holds afterwards, the queue has gained at most two events, and the number of arc
leaves has grown by two for a site event, has decreased by one for a valid circle event and is
the same for an invalidated circle event. -/
theorem processEvent_count {env : Env F} {m m1 : Mem F} {root root1 evt : Nat}
    {edges edges1 : List (CompleteEdge F)} {e : SweepEvent F} {t : Tree F}
    (hwf : WellFormed m.items root t) (hev : EventsInv m.events t)
    (hd : deref m.events evt = some e)
    (h : processEvent env m root edges evt e = some (m1, root1, edges1)) :
    ∃ t1, WellFormed m1.items root1 t1 ∧ EventsInv m1.events t1 ∧
      m1.queue.length ≤ m.queue.length + 2 ∧
      ((∃ pt, e.data = EventData.newPoint pt ∧ t1.leaves.length = t.leaves.length + 2) ∨
       (∃ V a, e.data = EventData.edgeIntersect V a true ∧
          t1.leaves.length + 1 = t.leaves.length) ∨
       (∃ V a, e.data = EventData.edgeIntersect V a false ∧
          t1.leaves.length = t.leaves.length ∧ m1.queue = m.queue)) := by
  unfold processEvent at h
  split at h
  · cases h
  rename_i m2 r2 e2 hh
  simp only [Option.some.injEq, Prod.mk.injEq] at h
  obtain ⟨rfl, rfl, rfl⟩ := h
  split at hh
  · -- a site event
    rename_i pt hdata
    split at hh
    · cases hh
    rename_i m3 r3 h3
    simp only [Option.some.injEq, Prod.mk.injEq] at hh
    obtain ⟨rfl, rfl, -⟩ := hh
    obtain ⟨act, aA, newPoint, es, ed, l1, r1, t1, hsp, hleaf, -, -, ht1, hwf1, hinv1⟩ :=
      AddArcToBeachline_inv hwf h3
    obtain ⟨act2, aA2, np2, es2, ed2, ev1, items2, mm, -, -, -, -, -, -, -, -, hq1, hq2⟩ :=
      AddArcToBeachline_mid hwf h3
    have hQ1 := AddArcSqueezeEvent_queue_length hq1
    have hQ2 := AddArcSqueezeEvent_queue_length hq2
    refine ⟨t1, hwf1, EventsInv_free (hinv1 hev) ?_, ?_, Or.inl ⟨pt, hdata, ?_⟩⟩
    · intro y V b hcon
      have hext := AddArcToBeachline_extends h3
      have h1 := (hext.2.1 evt (deref_lt_length hd)).1
      rw [hsp] at h1
      simp [sitePoint, hcon] at h1
    · simp only at hQ1 ⊢
      omega
    · obtain ⟨pre, post, hp1, hp2⟩ := Tree.replaceLeaf_leaves t hwf.2.2 act aA hleaf
      rw [ht1, Tree.length_leaves_replaceLeaf_leaf, Tree.length_leaves_replaceLeaf_leaf, hp2, hp1,
        splitSubtree_leaves]
      simp only [List.length_append, List.length_cons, List.length_nil]
      omega
  · rename_i ip sa isValid hdata
    split at hh
    · -- a valid circle event
      rename_i hval
      obtain ⟨c, sa2, saArc, L, R, la, ra, eL, eR, laArc, raArc, dir, X, Y, H, P, eH, hl, hr, S, y,
        t2, la1, ra1, t1, -, -, -, -, -, -, -, -, -, hin, -, -, -, -, -, -, -, hin1, -, hwf1, -,
        hinv1, hstale, -⟩ := RemoveArcFromBeachline_tree hwf (fun c sa3 hv => by
          obtain ⟨y, hy⟩ := validCircleEvent_eq_some hv
          obtain ⟨arc, harc, -⟩ := hev.2 evt y c sa3 hy
          exact ⟨arc, harc⟩) hh
      obtain ⟨c3, sa3, saArc3, L3, R3, la3, ra3, eL3, eR3, laArc3, raArc3, dir3, X3, Y3, H3, P3,
        eH3, hl3, hr3, S3, y3, t23, mB, mA, -, -, -, -, -, -, -, -, -, -, -, -, -, -, -, -, -, -,
        -, -, -, -, -, hBq, -, hmA, hm1, -⟩ := RemoveArcFromBeachline_mid hwf (fun c sa3 hv => by
          obtain ⟨y, hy⟩ := validCircleEvent_eq_some hv
          obtain ⟨arc, harc, -⟩ := hev.2 evt y c sa3 hy
          exact ⟨arc, harc⟩) hh
      have hQ1 := AddArcSqueezeEvent_queue_length hmA
      have hQ2 := AddArcSqueezeEvent_queue_length hm1
      refine ⟨t1, hwf1, EventsInv_free (hinv1 hev) ?_, ?_, Or.inr (Or.inl ⟨ip, sa, ?_, ?_⟩)⟩
      · intro y2 V b hcon
        rw [hstale] at hcon
        simp at hcon
      · simp only
        rw [hBq] at hQ1
        omega
      · rw [hdata, hval]
      · rw [Tree.leaves_eq_inorder t, Tree.leaves_eq_inorder t1, hin, hin1]
        simp [List.filterMap_append, List.filterMap_cons, ItemData.arc?]
        omega
    · -- an invalidated circle event
      rename_i hval
      simp only [Option.some.injEq, Prod.mk.injEq] at hh
      obtain ⟨rfl, rfl, -⟩ := hh
      refine ⟨t, hwf, EventsInv_free hev ?_, by simp, Or.inr (Or.inr ⟨ip, sa, ?_, rfl, rfl⟩)⟩
      · intro y2 V b hcon
        rw [hd] at hcon
        simp only [Option.some.injEq] at hcon
        rw [hcon] at hdata
        simp only [EventData.edgeIntersect.injEq] at hdata
        exact hval hdata.2.2.symm
      · rw [hdata]
        simp only [EventData.edgeIntersect.injEq, true_and]
        simpa using hval

/-- One turn of the main loop in a state in which the invariants hold: the invariants hold
afterwards, the queue has grown by at most one event, the number of arc leaves has changed as
the kind of the popped event says, and the measure `6 * (queued sites) + 2 * (arc leaves) +
(queued events)` has decreased. -/
theorem mainLoopStep_count {env : Env F} {cutoffY : F} {m m1 : Mem F} {root root1 : Nat}
    {edges edges1 : List (CompleteEdge F)} {t : Tree F} (hq : QueueInv m)
    (hwf : WellFormed m.items root t) (hev : EventsInv m.events t)
    (h : mainLoopStep env cutoffY m root edges = some (some (m1, root1, edges1))) :
    ∃ evt e t1, queueTop env m = some evt ∧ deref m.events evt = some e ∧
      WellFormed m1.items root1 t1 ∧ EventsInv m1.events t1 ∧ QueueInv m1 ∧
      (∃ new, m1.queue = m.queue.erase evt ++ new ∧ new.length ≤ 2) ∧
      ((∃ pt, e.data = EventData.newPoint pt ∧ t1.leaves.length = t.leaves.length + 2) ∨
       (∃ V a, e.data = EventData.edgeIntersect V a true ∧
          t1.leaves.length + 1 = t.leaves.length) ∨
       (∃ V a, e.data = EventData.edgeIntersect V a false ∧
          t1.leaves.length = t.leaves.length ∧ m1.queue = m.queue.erase evt)) ∧
      6 * (siteQueue m1).length + 2 * t1.leaves.length + m1.queue.length + 1
        ≤ 6 * (siteQueue m).length + 2 * t.leaves.length + m.queue.length := by
  unfold mainLoopStep at h
  split at h
  · cases h
  split at h
  · cases h
  rename_i evt htop
  split at h
  · cases h
  rename_i e hd
  split at h
  · cases h
  split at h
  · cases h
  rename_i s hp
  cases h
  have hmem : evt ∈ m.queue := (queueTop_spec htop).1
  obtain ⟨m2, hext, hm2⟩ := processEvent_extends hp
  obtain ⟨t1, hwf1, hev1, hQ, hcase⟩ :=
    processEvent_count (m := queuePop m evt) hwf hev hd hp
  obtain ⟨hq1, hnot, hperm⟩ := hq.pop hmem
  obtain ⟨hq2, hs2⟩ := hq1.extends hext
  obtain ⟨hq3, hs3⟩ := hq2.free (not_mem_queue_of_extends hq hmem hext)
  rw [← hm2] at hq3 hs3
  have hpop : (queuePop m evt).queue.length + 1 = m.queue.length := by
    simp only [queuePop, List.length_erase_of_mem hmem]
    have := List.length_pos_of_mem hmem
    omega
  have hS : (siteQueue m).length
      = (sitePoint m.events evt).toList.length + (siteQueue m1).length := by
    rw [hs3, hs2, hperm.length_eq, List.length_append]
  refine ⟨evt, e, t1, htop, hd, hwf1, hev1, hq3, ?_, ?_, ?_⟩
  · obtain ⟨new, hnew, -⟩ := hext.2.2
    have hm1q : m1.queue = m2.queue := by rw [hm2]
    refine ⟨new, by rw [hm1q, hnew]; rfl, ?_⟩
    have : m1.queue.length = (queuePop m evt).queue.length + new.length := by
      rw [hm1q, hnew, List.length_append]
    omega
  · rcases hcase with h1 | h1 | ⟨V, a, h1, h2, h3⟩
    · exact Or.inl h1
    · exact Or.inr (Or.inl h1)
    · exact Or.inr (Or.inr ⟨V, a, h1, h2, h3⟩)
  · rcases hcase with ⟨pt, h1, h2⟩ | ⟨V, a, h1, h2⟩ | ⟨V, a, h1, h2, h3⟩
    · have hsp : sitePoint m.events evt = some pt := by
        simp [sitePoint, hd, h1]
      rw [hsp] at hS
      simp only [Option.toList, List.length_singleton] at hS
      omega
    · omega
    · rw [h3] at hQ
      have h4 : m1.queue.length = (queuePop m evt).queue.length := by rw [h3]
      omega

/-- The number of turns that the main loop can make from a state in which the invariants hold
is at most the measure of the state. -/
theorem mainLoopIterate_count {env : Env F} {cutoffY : F} (k : Nat) {m m1 : Mem F}
    {root root1 : Nat} {edges edges1 : List (CompleteEdge F)} {t : Tree F} (hq : QueueInv m)
    (hwf : WellFormed m.items root t) (hev : EventsInv m.events t)
    (h : mainLoopIterate env cutoffY k (m, root, edges) = some (m1, root1, edges1)) :
    k ≤ 6 * (siteQueue m).length + 2 * t.leaves.length + m.queue.length := by
  induction k generalizing m root edges t with
  | zero => omega
  | succ k ih =>
    simp only [mainLoopIterate] at h
    split at h
    · rename_i s1 hs1
      obtain ⟨m2, r2, e2⟩ := s1
      obtain ⟨evt, e, t1, -, -, hwf1, hev1, hq1, -, -, hdec⟩ := mainLoopStep_count hq hwf hev hs1
      have := ih hq1 hwf1 hev1 h
      omega
    · cases h

/-- The start-up loop keeps the tree well formed, creates no arc with a pending event and no
circle event, and adds one arc leaf for every event it pops. -/
theorem startupLoop_count {env : Env F} {cutoffY y : F} (fuel : Nat) {m m1 : Mem F}
    {root root1 : Nat} {t : Tree F} (hwf : WellFormed m.items root t)
    (hlv : ∀ z ∈ t.leaves, z.2.squeezeEvent = none)
    (hev : ∀ e s, deref m.events e = some s → ∃ pt, s.data = EventData.newPoint pt)
    (h : startupLoop env cutoffY y fuel m root = some (m1, root1)) :
    ∃ t1, WellFormed m1.items root1 t1 ∧ (∀ z ∈ t1.leaves, z.2.squeezeEvent = none) ∧
      (∀ e s, deref m1.events e = some s → ∃ pt, s.data = EventData.newPoint pt) ∧
      t1.leaves.length + m1.queue.length = t.leaves.length + m.queue.length := by
  induction fuel generalizing m root t with
  | zero => simp [startupLoop] at h
  | succ fuel ih =>
    unfold startupLoop at h
    split at h
    · cases h; exact ⟨t, hwf, hlv, hev, rfl⟩
    split at h
    · cases h
    rename_i evt htop
    split at h
    · cases h
    rename_i e hd
    split at h
    swap
    · cases h; exact ⟨t, hwf, hlv, hev, rfl⟩
    split at h
    · cases h; exact ⟨t, hwf, hlv, hev, rfl⟩
    rename_i hy
    split at h
    · cases h
    rename_i newFocus hsp
    split at h
    · cases h
    rename_i items1 r1 hins
    obtain ⟨items2, r2, act, aA, hins2, hleaf, hwf2, -⟩ :=
      startupInsert_tree env m.items root t newFocus hwf
    rw [hins] at hins2
    simp only [Option.some.injEq, Prod.mk.injEq] at hins2
    obtain ⟨rfl, rfl⟩ := hins2
    have hmem : evt ∈ m.queue := (queueTop_spec htop).1
    obtain ⟨t1, hwf1, hlv1, hev1, hcount⟩ :=
      ih (m := { (queuePop m evt) with items := items1, events := free m.events evt })
        hwf2 (by
          intro z hz
          rcases (mem_leaves_replaceLeaf_sub hwf.2.2 hleaf _ z).mp hz with hz1 | ⟨hz1, -⟩
          · rcases startupSubtree_leaves _ _ _ _ z hz1 with rfl | rfl
            · exact hlv _ hleaf
            · rfl
          · exact hlv z hz1) (by
          intro e2 s hs
          have hne : evt ≠ e2 := by
            rintro rfl
            simp only [deref_free_same] at hs
            cases hs
          simp only [deref_free_ne _ _ _ hne] at hs
          exact hev e2 s hs) h
    refine ⟨t1, hwf1, hlv1, hev1, ?_⟩
    rw [hcount]
    obtain ⟨pre, post, hp1, hp2⟩ := Tree.replaceLeaf_leaves t hwf.2.2 act aA hleaf
    have hsub : (startupSubtree m.items.length act aA newFocus).leaves.length = 2 := by
      unfold startupSubtree
      split_ifs <;> rfl
    have hpop : (m.queue.erase evt).length + 1 = m.queue.length := by
      rw [List.length_erase_of_mem hmem]
      have := List.length_pos_of_mem hmem
      omega
    rw [hp2, hp1]
    simp only [queuePop, List.length_append, List.length_cons, List.length_nil, hsub]
    omega

/-- When the main loop is entered the invariants hold, and the arc leaves and the queued events
together are as many as the sites. -/
theorem bootstrap_count {env : Env F} {sites : List (Vector2 F)} {cutoffY : F}
    {m : Mem F} {root : Nat}
    (h : bootstrap env sites cutoffY = some (Bootstrap.entered m root)) :
    ∃ t, WellFormed m.items root t ∧ EventsInv m.events t ∧ QueueInv m ∧
      t.leaves.length + m.queue.length = sites.length := by
  have hqinv : QueueInv m := ((bootstrap_inv h).2 m root rfl).1
  unfold bootstrap at h
  rw [seedEvents_empty] at h
  dsimp only at h
  split at h
  · cases h
  rename_i evt htop
  split at h
  · cases h
  rename_i fe hd
  split at h
  · cases h
  rename_i pt hsp
  split at h
  · split at h <;> cases h
  · split at h
    · cases h
    rename_i m3 root3 hstart
    simp only [Option.some.injEq, Bootstrap.entered.injEq] at h
    obtain ⟨rfl, rfl⟩ := h
    have hwf0 : WellFormed (alloc ([] : Items F)
        { data := ItemData.arc { focus := pt, squeezeEvent := none }, parent := none,
          left := none, right := none }) 0 (Tree.leaf 0 ⟨pt, none⟩) := by
      refine ⟨rfl, ?_, by simp [Tree.addrs]⟩
      simp [Repr, alloc, deref]
    have hlv0 : ∀ z ∈ (Tree.leaf 0 (⟨pt, none⟩ : Arc F)).leaves, z.2.squeezeEvent = none := by
      intro z hz
      simp only [Tree.leaves, List.mem_singleton] at hz
      rw [hz]
    have hev0 : ∀ e s, deref (free (sites.map (fun pt => some (siteEvent pt))) evt) e = some s →
        ∃ p, s.data = EventData.newPoint p := by
      intro e s hs
      by_cases hne : evt = e
      · subst hne
        simp only [deref_free_same] at hs
        cases hs
      · simp only [deref_free_ne _ _ _ hne] at hs
        rw [deref_seed] at hs
        cases hse : sites[e]? with
        | none => rw [hse] at hs; cases hs
        | some p =>
          rw [hse] at hs
          cases hs
          exact ⟨p, rfl⟩
    obtain ⟨t1, hwf1, hlv1, hev1, hcount⟩ := startupLoop_count _ hwf0 hlv0 hev0 hstart
    have hmem : evt ∈ List.range sites.length := (queueTop_spec htop).1
    refine ⟨t1, hwf1, ⟨?_, ?_⟩, hqinv, ?_⟩
    · intro a arc e ha hae
      rw [hlv1 _ ha] at hae
      cases hae
    · intro e y V a hde
      obtain ⟨pt2, hpt2⟩ := hev1 e _ hde
      cases hpt2
    · rw [hcount]
      simp only [queuePop, Tree.leaves, List.length_singleton,
        List.length_erase_of_mem hmem, List.length_range]
      have := List.length_pos_of_mem hmem
      simp only [List.length_range] at this
      omega

/-- No run makes more than `7 * sites.length` turns of the main loop. -/
theorem runState_turns {env : Env F} {sites : List (Vector2 F)} {cutoffY : F} {k : Nat}
    {m : Mem F} {root : Nat} {edges : List (CompleteEdge F)}
    (h : runState env sites cutoffY k = some (m, root, edges)) : k ≤ 7 * sites.length := by
  unfold runState at h
  split at h
  · rename_i m0 root0 hb
    obtain ⟨t, hwf, hev, hq, hcount⟩ := bootstrap_count hb
    have h1 := mainLoopIterate_count k hq hwf hev h
    have h2 : (siteQueue m0).length ≤ m0.queue.length := by
      unfold siteQueue
      exact List.length_filterMap_le _ _
    omega
  · cases h

/-- When the main loop cannot make `f` turns from a state, every fuel from `f` on gives the
result of the fuel `f`. -/
theorem mainLoop_fuel {env : Env F} {cutoffY : F} (f d : Nat)
    (s : Mem F × Nat × List (CompleteEdge F))
    (h : mainLoopIterate env cutoffY f s = none) :
    mainLoop env cutoffY (f + d) s.1 s.2.1 s.2.2 = mainLoop env cutoffY f s.1 s.2.1 s.2.2 := by
  induction f generalizing s with
  | zero => simp [mainLoopIterate] at h
  | succ f ih =>
    obtain ⟨m, root, edges⟩ := s
    rw [show f + 1 + d = (f + d) + 1 by omega]
    simp only [mainLoop]
    simp only [mainLoopIterate] at h
    split at h
    · rename_i s1 hs1
      rw [hs1]
      exact ih s1 h
    · rename_i hne
      cases hstep : mainLoopStep env cutoffY m root edges with
      | none => rfl
      | some o =>
        cases o with
        | none => rfl
        | some s1 => exact absurd hstep (hne s1)

end Termination
section C32
variable {F : Type} [LinearOrderedField F]

/-- C32. The main loop of `FortunesAlgorithm` makes at most `7 * sites.length` turns, for every
environment, site list and cutoff, and every fuel above that bound gives the outcome of the fuel
`7 * sites.length + 1`.  In every turn one event is popped and at most two events are pushed;
the turn of a site event adds two arc leaves to the beachline tree, the turn of a valid circle
event removes one arc leaf, the turn of an invalidated circle event leaves the tree and pushes
nothing; and the measure `6 * (queued sites) + 2 * (arc leaves) + (queued events)` decreases in
every turn. -/
theorem C32_main_loop_terminates (env : Env F) (sites : List (Vector2 F)) (cutoffY : F) :
    (∀ k, 7 * sites.length < k → runState env sites cutoffY k = none) ∧
    (∀ fuel, 7 * sites.length < fuel →
      FortunesAlgorithm env fuel sites cutoffY
        = FortunesAlgorithm env (7 * sites.length + 1) sites cutoffY) ∧
    (∀ k m root edges m1 root1 edges1,
      runState env sites cutoffY k = some (m, root, edges) →
      runState env sites cutoffY (k + 1) = some (m1, root1, edges1) →
      ∃ evt e t t1, queueTop env m = some evt ∧ deref m.events evt = some e ∧
        WellFormed m.items root t ∧ WellFormed m1.items root1 t1 ∧
        (∃ new, m1.queue = m.queue.erase evt ++ new ∧ new.length ≤ 2) ∧
        ((∃ pt, e.data = EventData.newPoint pt ∧ t1.leaves.length = t.leaves.length + 2) ∨
         (∃ V a, e.data = EventData.edgeIntersect V a true ∧
            t1.leaves.length + 1 = t.leaves.length) ∨
         (∃ V a, e.data = EventData.edgeIntersect V a false ∧
            t1.leaves.length = t.leaves.length ∧ m1.queue = m.queue.erase evt)) ∧
        6 * (siteQueue m1).length + 2 * t1.leaves.length + m1.queue.length + 1
          ≤ 6 * (siteQueue m).length + 2 * t.leaves.length + m.queue.length) := by
  have hbound : ∀ k, 7 * sites.length < k → runState env sites cutoffY k = none := by
    intro k hk
    cases h : runState env sites cutoffY k with
    | none => rfl
    | some s =>
      obtain ⟨m, root, edges⟩ := s
      have := runState_turns h
      omega
  refine ⟨hbound, ?_, ?_⟩
  · intro fuel hf
    have h0 := hbound (7 * sites.length + 1) (by omega)
    unfold FortunesAlgorithm
    unfold runState at h0
    cases hb : bootstrap env sites cutoffY with
    | none => rfl
    | some b =>
      cases b with
      | aborted r => rfl
      | entered m3 root =>
        rw [hb] at h0
        simp only at h0 ⊢
        have h1 := mainLoop_fuel (7 * sites.length + 1) (fuel - (7 * sites.length + 1))
          (m3, root, []) h0
        rw [show 7 * sites.length + 1 + (fuel - (7 * sites.length + 1)) = fuel by omega] at h1
        simp only at h1
        rw [h1]
  · intro k m root edges m1 root1 edges1 h0 h1
    obtain ⟨t, hwf, hev⟩ := runState_beachInv h0
    have hq := (runState_sweepInv h0).1
    obtain ⟨evt, e, t1, htop, hd, hwf1, -, -, hnew, hcase, hdec⟩ :=
      mainLoopStep_count hq hwf hev (runState_step h0 h1)
    exact ⟨evt, e, t, t1, htop, hd, hwf, hwf1, hnew, hcase, hdec⟩

end C32

section C32Witness
set_option maxRecDepth 100000

/-- Witness of C32: the run on the three sites of `levelSites` has left the main loop before
the 22nd turn, and the fuel 100 gives the result of the fuel 22. -/
theorem C32_witness :
    7 * levelSites.length < 22 ∧
    runState envQ0 levelSites (-1000) 22 = none ∧
    FortunesAlgorithm envQ0 100 levelSites (-1000)
      = FortunesAlgorithm envQ0 (7 * levelSites.length + 1) levelSites (-1000) ∧
    (FortunesAlgorithm envQ0 (7 * levelSites.length + 1) levelSites (-1000)).isSome = true :=
  ⟨by decide,
   (C32_main_loop_terminates envQ0 levelSites (-1000)).1 22 (by decide),
   (C32_main_loop_terminates envQ0 levelSites (-1000)).2.1 100 (by decide),
   by decide!⟩

end C32Witness

section GeometricInvariant
variable {F : Type} [LinearOrderedField F]

end GeometricInvariant

section C1
variable {F : Type} [LinearOrderedField F]

end C1

section C1Witness
set_option maxRecDepth 100000

end C1Witness

end Fortune
